import Mathlib

/-!
# Verification of `xbit_vector` (hewillk/xbit_vector)

A shallow embedding of `include/xbit_vector/xbit_vector.hpp`.

* The template parameters are explicit arguments: `N` is the field width in bits and
  `W` is the width in bits of the `Block` type (`sizeof(Block) * CHAR_BIT`).
* A block is a natural number below `2 ^ W`; a buffer of blocks is a `List Nat`.
  A block pointer is an integer index relative to the start of the buffer it points
  into.  Reading outside the buffer yields `0` and writing outside it is dropped, so a
  statement about the elements read back after an operation also says that the
  operation stayed inside its buffer.
* `std::size_t` and `std::ptrdiff_t` are 64 bit wide; conversions between them are
  written out with `toSize` and `toSigned`.
* Exceptions are values of `Error`; throwing functions return `Except Error _`.
-/

namespace biomodern

/-! ## Machine integers -/

/-- The largest `std::size_t`, `std::numeric_limits<size_type>::max()`. -/
def SIZE_MAX : Nat := 2 ^ 64 - 1

/-- Conversion of a mathematical integer to `std::size_t` (reduction modulo `2 ^ 64`). -/
def toSize (z : Int) : Nat := (z % 2 ^ 64).toNat

/-- Conversion of a `std::size_t` to `std::ptrdiff_t` (two's complement). -/
def toSigned (n : Nat) : Int :=
  if n % 2 ^ 64 < 2 ^ 63 then ((n % 2 ^ 64 : Nat) : Int) else ((n % 2 ^ 64 : Nat) : Int) - 2 ^ 64

/-- The exceptions the container throws or lets through. -/
inductive Error where
  | length_error
  | out_of_range
  | bad_alloc
deriving DecidableEq, Repr

/-! ## Buffers of blocks -/

/-- Load the block a pointer designates (`*p`). -/
def load (m : List Nat) (p : Int) : Nat :=
  if 0 ≤ p then m.getD p.toNat 0 else 0

/-- Store a block through a pointer (`*p = b`). -/
def store (m : List Nat) (p : Int) (b : Nat) : List Nat :=
  if 0 ≤ p then m.set p.toNat b else m

/-! ## `XbitReference` -/

/-- The member `xbits_per_block = sizeof(Block) * CHAR_BIT / N`. -/
def xbits_per_block (N W : Nat) : Nat := W / N

/-- The proxy reference: a block pointer and the bit position of the field. -/
structure XbitReference where
  seg_ : Int
  shift_ : Nat
deriving DecidableEq, Repr

namespace XbitReference

/-- The member `mask = numeric_limits<Block>::max() >> (sizeof(Block) * CHAR_BIT - N)`. -/
def mask (N W : Nat) : Nat := (2 ^ W - 1) >>> (W - N)

/-- The constructor `XbitReference(Block* seg, std::size_t offset)`: `shift_(offset * N)`. -/
def ofOffset (N : Nat) (seg : Int) (offset : Nat) : XbitReference :=
  ⟨seg, offset * N⟩

/-- The value `*seg_ >> shift_ & mask`, converted to `std::uint8_t`, for the block
value `blk` of `*seg_`. -/
def extract (N W : Nat) (blk shift : Nat) : Nat :=
  ((blk >>> shift) &&& mask N W) % 256

/-- The value of `*seg_` after `*seg_ &= ~(mask << shift_); *seg_ |= (x & mask) << shift_;`
when it was `blk` before. -/
def deposit (N W : Nat) (blk shift x : Nat) : Nat :=
  let cleared := blk &&& ((2 ^ W - 1) ^^^ ((mask N W <<< shift) % 2 ^ W))
  (cleared ||| ((x &&& mask N W) <<< shift)) % 2 ^ W

/-- The conversion `operator std::uint8_t() const`. -/
def toUInt8 (N W : Nat) (m : List Nat) (r : XbitReference) : Nat :=
  extract N W (load m r.seg_) r.shift_

/-- The assignment `operator=(std::uint8_t x)`. -/
def assign (N W : Nat) (m : List Nat) (r : XbitReference) (x : Nat) : List Nat :=
  store m r.seg_ (deposit N W (load m r.seg_) r.shift_ x)

end XbitReference

/-- The instantiations the library provides: `DibitVector` (`N = 2`) and
`QuadbitVector` (`N = 4`) over an unsigned block type of 8, 16, 32 or 64 bits. -/
def ValidWidths (N W : Nat) : Prop :=
  (N = 2 ∨ N = 4) ∧ (W = 8 ∨ W = 16 ∨ W = 32 ∨ W = 64)

instance (N W : Nat) : Decidable (ValidWidths N W) := by
  unfold ValidWidths; infer_instance

/-! ## `XbitIteratorBase`, `XbitIterator`, `XbitConstIterator`

The iterator and the constant iterator have the same state and the same position
arithmetic, so one structure models both; `deref` is `XbitIterator::operator*` (a proxy)
and `get` is `XbitConstIterator::operator*` (a value). -/

/-- The state of `XbitIteratorBase`: a block pointer and the field offset in the block. -/
structure XbitIterator where
  seg_ : Int
  offset_ : Nat
deriving DecidableEq, Repr

namespace XbitIterator

/-- The friend `operator-(x, y)`:
`(x.seg_ - y.seg_) * xbits_per_block + x.offset_ - y.offset_`, computed in `std::size_t`
and returned as `difference_type`. -/
def diff (N W : Nat) (x y : XbitIterator) : Int :=
  toSigned (toSize ((x.seg_ - y.seg_) * (xbits_per_block N W : Int)
    + (x.offset_ : Int) - (y.offset_ : Int)))

/-- The member `bump_up` (`operator++`). -/
def bump_up (N W : Nat) (it : XbitIterator) : XbitIterator :=
  if it.offset_ ≠ xbits_per_block N W - 1 then ⟨it.seg_, it.offset_ + 1⟩
  else ⟨it.seg_ + 1, 0⟩

/-- The member `bump_down` (`operator--`). -/
def bump_down (N W : Nat) (it : XbitIterator) : XbitIterator :=
  if it.offset_ ≠ 0 then ⟨it.seg_, it.offset_ - 1⟩
  else ⟨it.seg_ - 1, xbits_per_block N W - 1⟩

/-- The member `incr(n)` (`operator+=`).  For `n >= 0` the quotient is an unsigned
division; for `n < 0` both operands are cast to `difference_type`, so the division
truncates toward zero. -/
def incr (N W : Nat) (it : XbitIterator) (n : Int) : XbitIterator :=
  let e := xbits_per_block N W
  let seg :=
    if n ≥ 0 then it.seg_ + ((toSize (n + (it.offset_ : Int)) / e : Nat) : Int)
    else it.seg_ + Int.tdiv (toSigned (toSize (n - (e : Int) + (it.offset_ : Int) + 1)))
      (toSigned e)
  let n1 := toSigned (toSize n &&& (e - 1))
  ⟨seg, toSize (n1 + (it.offset_ : Int)) &&& (e - 1)⟩

/-- The operator `it + n`. -/
def add (N W : Nat) (it : XbitIterator) (n : Int) : XbitIterator :=
  incr N W it n

/-- The operator `it - n`, which is `it += -n`. -/
def sub (N W : Nat) (it : XbitIterator) (n : Int) : XbitIterator :=
  incr N W it (-n)

/-- The operator `*it` of `XbitIterator`: `reference(seg_, offset_)`. -/
def deref (N : Nat) (it : XbitIterator) : XbitReference :=
  XbitReference.ofOffset N it.seg_ it.offset_

/-- The operator `*it` of `XbitConstIterator`: the value of the field. -/
def get (N W : Nat) (m : List Nat) (it : XbitIterator) : Nat :=
  (deref N it).toUInt8 N W m

/-- The statement `*it = x`. -/
def put (N W : Nat) (m : List Nat) (it : XbitIterator) (x : Nat) : List Nat :=
  (deref N it).assign N W m x

end XbitIterator

/-! ## Standard algorithms

`std::copy`, `std::copy_backward` and `std::fill_n` are library code; for random access
iterators they run `last - first` times, stepping with `++`/`--` and assigning through
`*`.  A `Source` says where the input iterators point. -/

/-- The buffer the input range of an algorithm lives in. -/
inductive Source where
  | same
  | other (src : List Nat)

/-- Read `*it` from the source while the output buffer is `m`. -/
def Source.get (N W : Nat) (s : Source) (m : List Nat) (it : XbitIterator) : Nat :=
  match s with
  | Source.same => XbitIterator.get N W m it
  | Source.other src => XbitIterator.get N W src it

/-- The call `std::copy(first, first + k, result)` between packed iterators: `k` times
`*result = *first; ++first; ++result`.  Returns the buffer and the final `result`. -/
def std_copy (N W : Nat) (s : Source) :
    Nat → XbitIterator → List Nat → XbitIterator → List Nat × XbitIterator
  | 0, _, m, result => (m, result)
  | k + 1, first, m, result =>
    std_copy N W s k (XbitIterator.bump_up N W first)
      (XbitIterator.put N W m result (s.get N W m first)) (XbitIterator.bump_up N W result)

/-- The call `std::copy_backward(last - k, last, d_last)` between packed iterators:
`k` times `*(--d_last) = *(--last)`. -/
def std_copy_backward (N W : Nat) (s : Source) :
    Nat → XbitIterator → List Nat → XbitIterator → List Nat
  | 0, _, m, _ => m
  | k + 1, last, m, d_last =>
    std_copy_backward N W s k (XbitIterator.bump_down N W last)
      (XbitIterator.put N W m (XbitIterator.bump_down N W d_last)
        (s.get N W m (XbitIterator.bump_down N W last)))
      (XbitIterator.bump_down N W d_last)

/-- The call `std::copy(first, last, result)` from a range of plain `value_type` values
(an initializer list, or any forward range that is not part of a packed buffer). -/
def std_copy_values (N W : Nat) :
    List Nat → List Nat → XbitIterator → List Nat × XbitIterator
  | [], m, result => (m, result)
  | x :: xs, m, result =>
    std_copy_values N W xs (XbitIterator.put N W m result x) (XbitIterator.bump_up N W result)

/-- The call `std::fill_n(first, n, x)`: `n` times `*first = x; ++first`. -/
def std_fill_n (N W : Nat) : Nat → List Nat → XbitIterator → Nat → List Nat
  | 0, m, _, _ => m
  | k + 1, m, first, x =>
    std_fill_n N W k (XbitIterator.put N W m first x) (XbitIterator.bump_up N W first) x

/-! ## The allocator

The allocator is outside the repository.  `allocate` either fails or returns a buffer of
the requested number of blocks with arbitrary contents. -/

/-- The allocator collaborator. -/
structure Allocator where
  /-- The value of `allocator_traits::max_size`. -/
  max_size : Nat
  /-- Whether `allocate(n)` succeeds. -/
  avail : Nat → Bool
  /-- The contents of block `i` of a fresh buffer of `n` blocks: `junk n i`. -/
  junk : Nat → Nat → Nat
  /-- The trait `propagate_on_container_swap`. -/
  propagate_on_container_swap : Bool
  /-- The trait `propagate_on_container_copy_assignment`. -/
  propagate_on_container_copy_assignment : Bool
  /-- The trait `propagate_on_container_move_assignment`. -/
  propagate_on_container_move_assignment : Bool
  /-- The identity that `operator==` of the allocator compares. -/
  ident : Nat

/-- The call `allocator_traits::allocate(alloc_, n)`. -/
def Allocator.allocate (W : Nat) (a : Allocator) (n : Nat) : Option (List Nat) :=
  if a.avail n then some ((List.range n).map (fun i => a.junk n i % 2 ^ W)) else none

/-! ## `XbitVector` -/

/-- The data members of `XbitVector`.  `begin_` is `none` for the null pointer and
otherwise holds the buffer it points to. -/
structure XbitVector where
  begin_ : Option (List Nat)
  size_ : Nat
  cap_ : Nat
  alloc_ : Allocator

namespace XbitVector

/-- The blocks reachable through `begin_`. -/
def mem (v : XbitVector) : List Nat := v.begin_.getD []

/-- The constructor `XbitVector(const allocator_type& a)`. -/
def empty (a : Allocator) : XbitVector := ⟨none, 0, 0, a⟩

/-- The static member `internal_cap_to_external`. -/
def internal_cap_to_external (N W : Nat) (n : Nat) : Nat :=
  (n * xbits_per_block N W) % 2 ^ 64

/-- The static member `external_cap_to_internal`: `(n - 1) / xbits_per_block + 1` in
`size_type`. -/
def external_cap_to_internal (N W : Nat) (n : Nat) : Nat :=
  (toSize ((n : Int) - 1) / xbits_per_block N W + 1) % 2 ^ 64

/-- The static member `align_it`. -/
def align_it (N W : Nat) (new_size : Nat) : Nat :=
  ((new_size + (xbits_per_block N W - 1)) % 2 ^ 64 / xbits_per_block N W
    * xbits_per_block N W) % 2 ^ 64

/-- The member `size()`. -/
def size (v : XbitVector) : Nat := v.size_

/-- The member `capacity()`. -/
def capacity (N W : Nat) (v : XbitVector) : Nat := internal_cap_to_external N W v.cap_

/-- The member `max_size()`. -/
def max_size (N W : Nat) (v : XbitVector) : Nat :=
  let amax := v.alloc_.max_size
  let nmax := SIZE_MAX / 2
  if nmax / xbits_per_block N W ≤ amax then nmax else internal_cap_to_external N W amax

/-- The member `recommend(new_size)`. -/
def recommend (N W : Nat) (v : XbitVector) (new_size : Nat) : Except Error Nat :=
  let ms := max_size N W v
  if new_size > ms then Except.error Error.length_error
  else
    let cap := capacity N W v
    if cap ≥ ms / 2 then Except.ok ms
    else Except.ok (max ((2 * cap) % 2 ^ 64) (align_it N W new_size))

/-- The member `make_iter(pos)`:
`iterator(begin_ + pos / xbits_per_block, pos & (xbits_per_block - 1))`. -/
def make_iter (N W : Nat) (pos : Nat) : XbitIterator :=
  ⟨((pos / xbits_per_block N W : Nat) : Int), pos &&& (xbits_per_block N W - 1)⟩

/-- The members `begin()` and `cbegin()`. -/
def begin (N W : Nat) (_v : XbitVector) : XbitIterator := make_iter N W 0

/-- The members `end()` and `cend()`. -/
def «end» (N W : Nat) (v : XbitVector) : XbitIterator := make_iter N W v.size_

/-- The member `const_iterator_cast(p)`: `begin() + (p - cbegin())`. -/
def const_iterator_cast (N W : Nat) (v : XbitVector) (p : XbitIterator) : XbitIterator :=
  XbitIterator.add N W (begin N W v) (XbitIterator.diff N W p (begin N W v))

/-- The member `operator[](n) const`: `*make_iter(n)`. -/
def get (N W : Nat) (v : XbitVector) (n : Nat) : Nat :=
  XbitIterator.get N W v.mem (make_iter N W n)

/-- Assignment through an iterator into the buffer of the container. -/
def put (N W : Nat) (v : XbitVector) (it : XbitIterator) (x : Nat) : XbitVector :=
  { v with begin_ := v.begin_.map (fun m => XbitIterator.put N W m it x) }

/-- Replace the contents of the buffer `begin_` points to (the pointer itself is kept,
a null pointer stays null). -/
def setMem (v : XbitVector) (m : List Nat) : XbitVector :=
  { v with begin_ := v.begin_.map (fun _ => m) }

/-- The values that the range `[first, first + k)` of constant iterators yields. -/
def values (N W : Nat) (m : List Nat) : Nat → XbitIterator → List Nat
  | 0, _ => []
  | k + 1, first =>
    XbitIterator.get N W m first :: values N W m k (XbitIterator.bump_up N W first)

/-- The member `invariants()`. -/
def invariants (N W : Nat) (v : XbitVector) : Bool :=
  if v.begin_.isNone then
    if v.size_ ≠ 0 ∨ v.cap_ ≠ 0 then false else true
  else
    if v.cap_ = 0 then false
    else if v.size_ > capacity N W v then false
    else true

/-- The member `vallocate(n)`. -/
def vallocate (N W : Nat) (v : XbitVector) (n : Nat) : Except Error XbitVector :=
  if n > max_size N W v then Except.error Error.length_error
  else
    let n1 := external_cap_to_internal N W n
    match v.alloc_.allocate W n1 with
    | none => Except.error Error.bad_alloc
    | some buf => Except.ok { v with begin_ := some buf, size_ := 0, cap_ := n1 }

/-- The member `vdeallocate()`. -/
def vdeallocate (v : XbitVector) : XbitVector :=
  if v.begin_.isSome then { v with begin_ := none, size_ := 0, cap_ := 0 } else v

/-- The member `construct_at_end(n, x)`. -/
def construct_at_end_fill (N W : Nat) (v : XbitVector) (n x : Nat) : XbitVector :=
  let old_size := v.size_
  let v1 := { v with size_ := (v.size_ + n) % 2 ^ 64 }
  v1.setMem (std_fill_n N W n v1.mem (make_iter N W old_size) x)

/-- The member `construct_at_end(first, last)` for a forward range that yields the
values `src`: `size_ += std::distance(first, last)`, then `std::copy`. -/
def construct_at_end (N W : Nat) (v : XbitVector) (src : List Nat) : XbitVector :=
  let old_size := v.size_
  let v1 := { v with size_ := (v.size_ + src.length) % 2 ^ 64 }
  v1.setMem (std_copy_values N W src v1.mem (make_iter N W old_size)).1

/-- The range `[v.begin(), v.end())` as a forward range: `std::distance` many values. -/
def range (N W : Nat) (v : XbitVector) : List Nat :=
  values N W v.mem (XbitIterator.diff N W («end» N W v) (begin N W v)).toNat (begin N W v)

/-- The member `swap(x)`, as the pair of the new `*this` and the new `x`. -/
def swap (v x : XbitVector) : XbitVector × XbitVector :=
  if v.alloc_.propagate_on_container_swap then
    (⟨x.begin_, x.size_, x.cap_, x.alloc_⟩, ⟨v.begin_, v.size_, v.cap_, v.alloc_⟩)
  else
    (⟨x.begin_, x.size_, x.cap_, v.alloc_⟩, ⟨v.begin_, v.size_, v.cap_, x.alloc_⟩)

/-- The constructor `XbitVector(std::initializer_list<value_type> il, const allocator_type& a)`;
the constructor without allocator is the same with a default-constructed allocator. -/
def ofList (N W : Nat) (a : Allocator) (il : List Nat) : Except Error XbitVector :=
  let n := il.length
  if n > 0 then
    match vallocate N W (empty a) n with
    | Except.error e => Except.error e
    | Except.ok v => Except.ok (construct_at_end N W v il)
  else Except.ok (empty a)

/-- The constructor `XbitVector(std::forward_iterator auto first, last, const allocator_type& a)`
for a range that yields the values `src`. -/
def ofRange (N W : Nat) (a : Allocator) (src : List Nat) : Except Error XbitVector :=
  let n := src.length
  if n > 0 then
    match vallocate N W (empty a) n with
    | Except.error e => Except.error e
    | Except.ok v => Except.ok (construct_at_end N W v src)
  else Except.ok (empty a)

/-- The constructor `XbitVector(const XbitVector& v, const allocator_type& a)`. -/
def copy (N W : Nat) (v : XbitVector) (a : Allocator) : Except Error XbitVector :=
  if v.size > 0 then
    match vallocate N W (empty a) v.size with
    | Except.error e => Except.error e
    | Except.ok w => Except.ok (construct_at_end N W w (range N W v))
  else Except.ok (empty a)

/-- The member `reserve(n)`. -/
def reserve (N W : Nat) (v : XbitVector) (n : Nat) : Except Error XbitVector :=
  if n > capacity N W v then
    match vallocate N W (empty v.alloc_) n with
    | Except.error e => Except.error e
    | Except.ok w => Except.ok (swap v (construct_at_end N W w (range N W v))).1
  else Except.ok v

/-- The member `shrink_to_fit()`; a failure of the copy is swallowed. -/
def shrink_to_fit (N W : Nat) (v : XbitVector) : XbitVector :=
  if external_cap_to_internal N W v.size > v.cap_ then
    match copy N W v v.alloc_ with
    | Except.error _ => v
    | Except.ok w => (swap w v).2
  else v

/-- The member `at(n)`, as the result together with the state of the container after
the call. -/
def «at» (N W : Nat) (v : XbitVector) (n : Nat) : Except Error Nat × XbitVector :=
  if n ≥ v.size then (Except.error Error.out_of_range, v)
  else (Except.ok (get N W v n), v)

/-- The member `push_back(x)`. -/
def push_back (N W : Nat) (v : XbitVector) (x : Nat) : Except Error XbitVector :=
  let grown :=
    if v.size_ = capacity N W v then
      match recommend N W v ((v.size_ + 1) % 2 ^ 64) with
      | Except.error e => Except.error e
      | Except.ok c => reserve N W v c
    else Except.ok v
  match grown with
  | Except.error e => Except.error e
  | Except.ok v1 =>
    let v2 := { v1 with size_ := (v1.size_ + 1) % 2 ^ 64 }
    Except.ok (put N W v2 (XbitIterator.sub N W («end» N W v2) 1) x)

/-- The member `insert(position, x)`, returning the container and the iterator `r`. -/
def insert (N W : Nat) (v : XbitVector) (position : XbitIterator) (x : Nat) :
    Except Error (XbitVector × XbitIterator) :=
  if v.size < capacity N W v then
    let old_end := «end» N W v
    let v1 := { v with size_ := (v.size_ + 1) % 2 ^ 64 }
    let v2 := v1.setMem (std_copy_backward N W Source.same
      (XbitIterator.diff N W old_end position).toNat old_end v1.mem («end» N W v1))
    let r := const_iterator_cast N W v2 position
    Except.ok (put N W v2 r x, r)
  else
    match recommend N W v ((v.size_ + 1) % 2 ^ 64) with
    | Except.error e => Except.error e
    | Except.ok c =>
      match reserve N W (empty v.alloc_) c with
      | Except.error e => Except.error e
      | Except.ok w =>
        let w1 := { w with size_ := (v.size_ + 1) % 2 ^ 64 }
        let p := std_copy N W (Source.other v.mem)
          (XbitIterator.diff N W position (begin N W v)).toNat (begin N W v) w1.mem
          (begin N W w1)
        let w2 := w1.setMem p.1
        let r := p.2
        let w3 := w2.setMem (std_copy_backward N W (Source.other v.mem)
          (XbitIterator.diff N W («end» N W v) position).toNat («end» N W v) w2.mem
          («end» N W w2))
        let this := (swap v w3).1
        Except.ok (put N W this r x, r)

/-- The member `erase(first, last)`, returning the container and the iterator `r`. -/
def erase (N W : Nat) (v : XbitVector) (first last : XbitIterator) :
    XbitVector × XbitIterator :=
  let r := const_iterator_cast N W v first
  let d := XbitIterator.diff N W last first
  let v1 := v.setMem (std_copy N W Source.same
    (XbitIterator.diff N W («end» N W v) last).toNat last v.mem r).1
  ({ v1 with size_ := toSize ((v1.size_ : Int) - d) }, r)

/-- The member `resize(sz, x)`. -/
def resize (N W : Nat) (v : XbitVector) (sz x : Nat) : Except Error XbitVector :=
  let cs := v.size
  if cs < sz then
    let c := capacity N W v
    let n := sz - cs
    if n ≤ c ∧ cs ≤ c - n then
      let r := «end» N W v
      let v1 := { v with size_ := (v.size_ + n) % 2 ^ 64 }
      Except.ok (v1.setMem (std_fill_n N W n v1.mem r x))
    else
      match recommend N W v ((v.size_ + n) % 2 ^ 64) with
      | Except.error e => Except.error e
      | Except.ok c1 =>
        match reserve N W (empty v.alloc_) c1 with
        | Except.error e => Except.error e
        | Except.ok w =>
          let w1 := { w with size_ := (v.size_ + n) % 2 ^ 64 }
          let p := std_copy N W (Source.other v.mem)
            (XbitIterator.diff N W («end» N W v) (begin N W v)).toNat (begin N W v) w1.mem
            (begin N W w1)
          let w2 := w1.setMem p.1
          let this := (swap v w2).1
          Except.ok (this.setMem (std_fill_n N W n this.mem p.2 x))
  else Except.ok { v with size_ := sz }

end XbitVector

/-- The field at linear position `i` of a buffer: `*make_iter(i)` read as a value. -/
def elemAt (N W : Nat) (m : List Nat) (i : Nat) : Nat :=
  XbitIterator.get N W m (XbitVector.make_iter N W i)

/-- The value an algorithm reads at linear position `i` of its source. -/
def srcAt (N W : Nat) (s : Source) (m : List Nat) (i : Nat) : Nat :=
  s.get N W m (XbitVector.make_iter N W i)

/-- A container state the class can be in: the class invariant checked by
`invariants()` holds, `begin_` points to `cap_` blocks, and the capacity fits
`difference_type`, so that iterator differences are representable. -/
structure XbitVector.Valid (N W : Nat) (v : XbitVector) : Prop where
  inv : XbitVector.invariants N W v = true
  len : v.mem.length = v.cap_
  cap_lt : v.cap_ * xbits_per_block N W < 2 ^ 63

/-- What the proofs use of a pair of widths: fields fit a `std::uint8_t`, a block holds a
power of two of fields, and the fields tile the block. -/
structure GoodWidths (N W : Nat) : Prop where
  N_pos : 0 < N
  N_le : N ≤ 8
  tile : xbits_per_block N W * N = W
  pow : ∃ k, k ≤ 5 ∧ xbits_per_block N W = 2 ^ k

/-- An allocator that behaves like `std::allocator<Block>`: every request is served and
fresh storage holds leftover bit patterns. -/
def stdAllocator : Allocator :=
  { max_size := 2 ^ 64 - 1
    avail := fun _ => true
    junk := fun n i => 165 + 7 * i + n
    propagate_on_container_swap := false
    propagate_on_container_copy_assignment := false
    propagate_on_container_move_assignment := true
    ident := 0 }

/-- The `DibitVector<>` with elements `{1, 1, 1}` in one 8-bit block whose unused field
holds leftover bits. -/
def dibit111 : XbitVector := ⟨some [213], 3, 1, stdAllocator⟩

/-- The `DibitVector<>` with elements `{1, 2, 3, 0}` filling its single 8-bit block. -/
def dibit1230 : XbitVector := ⟨some [57], 4, 1, stdAllocator⟩

/-! ## Further members of `XbitVector` -/

/-- The value `~b` stored back into a block of `W` bits. -/
def complement (W b : Nat) : Nat := 2 ^ W - 1 - b % 2 ^ W

/-- The call `std::equal(first1, first1 + k, first2)` on constant packed iterators. -/
def std_equal (N W : Nat) :
    Nat → List Nat → XbitIterator → List Nat → XbitIterator → Bool
  | 0, _, _, _, _ => true
  | k + 1, m1, first1, m2, first2 =>
    if XbitIterator.get N W m1 first1 = XbitIterator.get N W m2 first2 then
      std_equal N W k m1 (XbitIterator.bump_up N W first1) m2 (XbitIterator.bump_up N W first2)
    else false

/-- The call `std::lexicographical_compare_three_way(first1, first1 + k1, first2,
first2 + k2)` on constant packed iterators, with the default `std::compare_three_way`
on the `std::uint8_t` values. -/
def std_lexicographical_compare_three_way (N W : Nat) :
    Nat → List Nat → XbitIterator → Nat → List Nat → XbitIterator → Ordering
  | 0, _, _, k2, _, _ => if k2 = 0 then Ordering.eq else Ordering.lt
  | _ + 1, _, _, 0, _, _ => Ordering.gt
  | k1 + 1, m1, first1, k2 + 1, m2, first2 =>
    match compare (XbitIterator.get N W m1 first1) (XbitIterator.get N W m2 first2) with
    | Ordering.eq =>
      std_lexicographical_compare_three_way N W k1 m1 (XbitIterator.bump_up N W first1)
        k2 m2 (XbitIterator.bump_up N W first2)
    | c => c

/-- The call `std::copy(src, src + k, dst)` on block pointers: block `i + j` of the
destination becomes block `i + j` of the source, for `j < k`. -/
def std_copy_blocks (src : List Nat) : Nat → Int → List Nat → List Nat
  | 0, _, dst => dst
  | k + 1, i, dst => std_copy_blocks src k (i + 1) (store dst i (load src i))

/-- The call `std::rotate(first, middle, last)`, by its postcondition: the values of
`[middle, last)` followed by those of `[first, middle)` are stored from `first` on.
Returns the buffer and the iterator `first + (last - middle)`. -/
def std_rotate (N W : Nat) (m : List Nat) (first middle last : XbitIterator) :
    List Nat × XbitIterator :=
  let left := XbitVector.values N W m (XbitIterator.diff N W middle first).toNat first
  let right := XbitVector.values N W m (XbitIterator.diff N W last middle).toNat middle
  let p := std_copy_values N W right m first
  ((std_copy_values N W left p.1 p.2).1, p.2)

/-- Lexicographic comparison of two lists of field values under their unsigned order,
as the specification words it: the first differing field decides, and a proper prefix
is less. -/
def lexCompare : List Nat → List Nat → Ordering
  | [], [] => Ordering.eq
  | [], _ :: _ => Ordering.lt
  | _ :: _, [] => Ordering.gt
  | x :: xs, y :: ys =>
    if x < y then Ordering.lt else if y < x then Ordering.gt else lexCompare xs ys

namespace XbitVector

/-- The elements of a container, `v[0], ..., v[size() - 1]`. -/
def toList (N W : Nat) (v : XbitVector) : List Nat :=
  (List.range v.size_).map (fun i => get N W v i)

/-- The member `operator==`. -/
def equal (N W : Nat) (a b : XbitVector) : Bool :=
  a.size == b.size &&
    std_equal N W (XbitIterator.diff N W («end» N W a) (begin N W a)).toNat a.mem (begin N W a)
      b.mem (begin N W b)

/-- The member `operator<=>`. -/
def three_way (N W : Nat) (a b : XbitVector) : Ordering :=
  std_lexicographical_compare_three_way N W
    (XbitIterator.diff N W («end» N W a) (begin N W a)).toNat a.mem (begin N W a)
    (XbitIterator.diff N W («end» N W b) (begin N W b)).toNat b.mem (begin N W b)

/-- The loop of `flip()`: `for (p = begin_; n < size_; ++p, n += xbits_per_block) *p = ~*p`,
cut off after `fuel` iterations (`none` when the loop has not ended by then). -/
def flip_loop (N W : Nat) (size : Nat) : Nat → List Nat → Int → Nat → Option (List Nat)
  | 0, m, _, n => if n < size then none else some m
  | fuel + 1, m, p, n =>
    if n < size then
      flip_loop N W size fuel (store m p (complement W (load m p))) (p + 1)
        ((n + xbits_per_block N W) % 2 ^ 64)
    else some m

/-- The member `flip()`, run for at most `fuel` iterations of its loop. -/
def flip (N W : Nat) (fuel : Nat) (v : XbitVector) : Option XbitVector :=
  (flip_loop N W v.size_ fuel v.mem 0 0).map v.setMem

/-- The member `clear()`. -/
def clear (v : XbitVector) : XbitVector := { v with size_ := 0 }

/-- The member `pop_back()`: `--size_`. -/
def pop_back (v : XbitVector) : XbitVector := { v with size_ := toSize ((v.size_ : Int) - 1) }

/-- The constructors `XbitVector(size_type n, const value_type& x, const allocator_type& a)`
and, with `x = 0`, `XbitVector(size_type n, const allocator_type& a)`; the constructors
without allocator are the same with a default-constructed allocator. -/
def ofFill (N W : Nat) (a : Allocator) (n x : Nat) : Except Error XbitVector :=
  if n > 0 then
    match vallocate N W (empty a) n with
    | Except.error e => Except.error e
    | Except.ok v => Except.ok (construct_at_end_fill N W v n x)
  else Except.ok (empty a)

/-- The loop `for (; first != last; ++first) push_back(*first)` over a single-pass range
that yields the values `src`. -/
def push_back_all (N W : Nat) : List Nat → XbitVector → Except Error XbitVector
  | [], v => Except.ok v
  | x :: xs, v =>
    match push_back N W v x with
    | Except.error e => Except.error e
    | Except.ok v1 => push_back_all N W xs v1

/-- The constructor `XbitVector(std::input_iterator auto first, last, const allocator_type& a)`
for a single-pass range that yields the values `src`; on an exception the storage is
released and the exception propagates, so no object exists. -/
def ofInput (N W : Nat) (a : Allocator) (src : List Nat) : Except Error XbitVector :=
  push_back_all N W src (empty a)

/-- The move constructor `XbitVector(XbitVector&& v)`, as the pair of the new container
and the state `v` is left in. -/
def move (v : XbitVector) : XbitVector × XbitVector :=
  (⟨v.begin_, v.size_, v.cap_, v.alloc_⟩, { v with begin_ := none, size_ := 0, cap_ := 0 })

/-- The constructor `XbitVector(XbitVector&& v, const allocator_type& a)`, as the pair of
the new container and the state `v` is left in. -/
def move_alloc (N W : Nat) (v : XbitVector) (a : Allocator) :
    Except Error (XbitVector × XbitVector) :=
  if a.ident = v.alloc_.ident then
    Except.ok (⟨v.begin_, v.size_, v.cap_, a⟩, { v with begin_ := none, size_ := 0, cap_ := 0 })
  else if v.size > 0 then
    match vallocate N W (empty a) v.size with
    | Except.error e => Except.error e
    | Except.ok w => Except.ok (construct_at_end N W w (range N W v), v)
  else Except.ok (empty a, v)

/-- The member `assign(std::forward_iterator auto first, last)` for a range that yields
the values `src` (also `assign(std::initializer_list)` and `operator=(std::initializer_list)`). -/
def assign_range (N W : Nat) (v : XbitVector) (src : List Nat) : Except Error XbitVector :=
  let v0 := clear v
  let n := src.length
  if n ≠ 0 then
    let v1 :=
      if n > capacity N W v0 then vallocate N W (vdeallocate v0) n else Except.ok v0
    match v1 with
    | Except.error e => Except.error e
    | Except.ok v2 => Except.ok (construct_at_end N W v2 src)
  else Except.ok v0

/-- The member `assign(std::input_iterator auto first, last)` for a single-pass range
that yields the values `src`. -/
def assign_input (N W : Nat) (v : XbitVector) (src : List Nat) : Except Error XbitVector :=
  push_back_all N W src (clear v)

/-- The member `assign(size_type n, const value_type& x)`, as the outcome together with
the state of the container after the call (after the exception, when one is thrown). -/
def assign_fill (N W : Nat) (v : XbitVector) (n x : Nat) : Except Error Unit × XbitVector :=
  let v0 := { v with size_ := 0 }
  if n > 0 then
    let c := capacity N W v0
    if n ≤ c then
      let v1 := { v0 with size_ := n }
      (Except.ok (), v1.setMem (std_fill_n N W n v1.mem (begin N W v1) x))
    else
      match recommend N W v0 n with
      | Except.error e => (Except.error e, v0)
      | Except.ok c1 =>
        match reserve N W (empty v0.alloc_) c1 with
        | Except.error e => (Except.error e, v0)
        | Except.ok w =>
          let w1 := { w with size_ := n }
          let this := (swap v0 w1).1
          (Except.ok (), this.setMem (std_fill_n N W n this.mem (begin N W this) x))
  else (Except.ok (), v0)

/-- The member `copy_assign_alloc(v)`. -/
def copy_assign_alloc (this v : XbitVector) : XbitVector :=
  if this.alloc_.propagate_on_container_copy_assignment then
    let t := if this.alloc_.ident ≠ v.alloc_.ident then vdeallocate this else this
    { t with alloc_ := v.alloc_ }
  else this

/-- The copy assignment `operator=(const XbitVector& v)` for `this != &v` (for
`this == &v` nothing is done). -/
def copy_assign (N W : Nat) (this v : XbitVector) : Except Error XbitVector :=
  let t := copy_assign_alloc this v
  if v.size_ ≠ 0 then
    let t1 :=
      if v.size_ > capacity N W t then vallocate N W (vdeallocate t) v.size_ else Except.ok t
    match t1 with
    | Except.error e => Except.error e
    | Except.ok t2 =>
      Except.ok { t2.setMem (std_copy_blocks v.mem (external_cap_to_internal N W v.size_) 0
        t2.mem) with size_ := v.size_ }
  else Except.ok { t with size_ := v.size_ }

/-- The member `move_assign(c)`, as the pair of the new `*this` and the new `c`. -/
def move_assign (this c : XbitVector) : XbitVector × XbitVector :=
  let t := vdeallocate this
  let t1 :=
    if t.alloc_.propagate_on_container_move_assignment then { t with alloc_ := c.alloc_ } else t
  ({ t1 with begin_ := c.begin_, size_ := c.size_, cap_ := c.cap_ },
    { c with begin_ := none, cap_ := 0, size_ := 0 })

/-- The move assignment `operator=(XbitVector&& v)`, as the pair of the new `*this` and
the new `v`. -/
def move_assign_op (N W : Nat) (this v : XbitVector) : Except Error (XbitVector × XbitVector) :=
  if this.alloc_.propagate_on_container_move_assignment then Except.ok (move_assign this v)
  else if this.alloc_.ident ≠ v.alloc_.ident then
    match assign_range N W this (range N W v) with
    | Except.error e => Except.error e
    | Except.ok t => Except.ok (t, v)
  else Except.ok (move_assign this v)

/-- The member `erase(position)`, returning the container and the iterator `r`. -/
def erase_at (N W : Nat) (v : XbitVector) (position : XbitIterator) :
    XbitVector × XbitIterator :=
  let r := const_iterator_cast N W v position
  let first := XbitIterator.add N W position 1
  let v1 := v.setMem (std_copy N W Source.same
    (XbitIterator.diff N W («end» N W v) first).toNat first v.mem r).1
  ({ v1 with size_ := toSize ((v1.size_ : Int) - 1) }, r)

/-- The member `insert(position, n, x)`, as the outcome together with the state of the
container after the call (after the exception, when one is thrown). -/
def insert_n (N W : Nat) (v : XbitVector) (position : XbitIterator) (n x : Nat) :
    Except Error XbitIterator × XbitVector :=
  let c := capacity N W v
  if n ≤ c ∧ v.size ≤ c - n then
    let old_end := «end» N W v
    let v1 := { v with size_ := (v.size_ + n) % 2 ^ 64 }
    let v2 := v1.setMem (std_copy_backward N W Source.same
      (XbitIterator.diff N W old_end position).toNat old_end v1.mem («end» N W v1))
    let r := const_iterator_cast N W v2 position
    (Except.ok r, v2.setMem (std_fill_n N W n v2.mem r x))
  else
    match recommend N W v ((v.size_ + n) % 2 ^ 64) with
    | Except.error e => (Except.error e, v)
    | Except.ok c1 =>
      match reserve N W (empty v.alloc_) c1 with
      | Except.error e => (Except.error e, v)
      | Except.ok w =>
        let w1 := { w with size_ := (v.size_ + n) % 2 ^ 64 }
        let p := std_copy N W (Source.other v.mem)
          (XbitIterator.diff N W position (begin N W v)).toNat (begin N W v) w1.mem
          (begin N W w1)
        let w2 := w1.setMem p.1
        let r := p.2
        let w3 := w2.setMem (std_copy_backward N W (Source.other v.mem)
          (XbitIterator.diff N W («end» N W v) position).toNat («end» N W v) w2.mem
          («end» N W w2))
        let this := (swap v w3).1
        (Except.ok r, this.setMem (std_fill_n N W n this.mem r x))

/-- The member `insert(position, std::forward_iterator auto first, last)` for a range
that yields the values `src` (also `insert(position, std::initializer_list)`), as the
outcome together with the state of the container after the call. -/
def insert_range (N W : Nat) (v : XbitVector) (position : XbitIterator) (src : List Nat) :
    Except Error XbitIterator × XbitVector :=
  let n := src.length
  let c := capacity N W v
  if n ≤ c ∧ v.size ≤ c - n then
    let old_end := «end» N W v
    let v1 := { v with size_ := (v.size_ + n) % 2 ^ 64 }
    let v2 := v1.setMem (std_copy_backward N W Source.same
      (XbitIterator.diff N W old_end position).toNat old_end v1.mem («end» N W v1))
    let r := const_iterator_cast N W v2 position
    (Except.ok r, v2.setMem (std_copy_values N W src v2.mem r).1)
  else
    match recommend N W v ((v.size_ + n) % 2 ^ 64) with
    | Except.error e => (Except.error e, v)
    | Except.ok c1 =>
      match reserve N W (empty v.alloc_) c1 with
      | Except.error e => (Except.error e, v)
      | Except.ok w =>
        let w1 := { w with size_ := (v.size_ + n) % 2 ^ 64 }
        let p := std_copy N W (Source.other v.mem)
          (XbitIterator.diff N W position (begin N W v)).toNat (begin N W v) w1.mem
          (begin N W w1)
        let w2 := w1.setMem p.1
        let r := p.2
        let w3 := w2.setMem (std_copy_backward N W (Source.other v.mem)
          (XbitIterator.diff N W («end» N W v) position).toNat («end» N W v) w2.mem
          («end» N W w2))
        let this := (swap v w3).1
        (Except.ok r, this.setMem (std_copy_values N W src this.mem r).1)

/-- The first loop of the single-pass `insert`:
`for (; size() != capacity() && first != last; ++first) { ++size_; back() = *first; }`.
Returns the container and the values not yet consumed. -/
def append_while (N W : Nat) : List Nat → XbitVector → XbitVector × List Nat
  | [], v => (v, [])
  | x :: xs, v =>
    if v.size ≠ capacity N W v then
      let v1 := { v with size_ := (v.size_ + 1) % 2 ^ 64 }
      append_while N W xs (put N W v1 (XbitIterator.sub N W («end» N W v1) 1) x)
    else (v, x :: xs)

/-- The tail of the single-pass `insert`: `p = std::rotate(p, old_end, end());
insert(p, v.begin(), v.end()); return begin() + off;`. -/
def insert_input_finish (N W : Nat) (v tmp : XbitVector) (p old_end : XbitIterator)
    (off : Int) : Except Error XbitIterator × XbitVector :=
  let rot := std_rotate N W v.mem p old_end («end» N W v)
  let v1 := v.setMem rot.1
  let res := insert_range N W v1 rot.2 (range N W tmp)
  match res.1 with
  | Except.error e => (Except.error e, res.2)
  | Except.ok _ => (Except.ok (XbitIterator.add N W (begin N W res.2) off), res.2)

/-- The member `insert(position, std::input_iterator auto first, last)` for a
single-pass range that yields the values `src`, as the outcome together with the state
of the container after the call (after the exception, when one is thrown). -/
def insert_input (N W : Nat) (v : XbitVector) (position : XbitIterator) (src : List Nat) :
    Except Error XbitIterator × XbitVector :=
  let off := XbitIterator.diff N W position (begin N W v)
  let p := const_iterator_cast N W v position
  let old_end := «end» N W v
  let filled := append_while N W src v
  let v1 := filled.1
  let tmp0 := empty v1.alloc_
  match filled.2 with
  | [] => insert_input_finish N W v1 tmp0 p old_end off
  | x :: xs =>
    match assign_input N W tmp0 (x :: xs) with
    | Except.error e => (Except.error e, (erase N W v1 old_end («end» N W v1)).1)
    | Except.ok tmp =>
      let old_size := XbitIterator.diff N W old_end (begin N W v1)
      let old_p := XbitIterator.diff N W p (begin N W v1)
      match recommend N W v1 ((v1.size + tmp.size) % 2 ^ 64) with
      | Except.error e => (Except.error e, (erase N W v1 old_end («end» N W v1)).1)
      | Except.ok c =>
        match reserve N W v1 c with
        | Except.error e => (Except.error e, (erase N W v1 old_end («end» N W v1)).1)
        | Except.ok v2 =>
          insert_input_finish N W v2 tmp (XbitIterator.add N W (begin N W v2) old_p)
            (XbitIterator.add N W (begin N W v2) old_size) off

end XbitVector

/-- The inductive invariant behind the class invariant: `invariants()` holds and the
capacity in elements fits `difference_type` (so `capacity()` does not wrap). -/
structure XbitVector.Shape (N W : Nat) (v : XbitVector) : Prop where
  inv : XbitVector.invariants N W v = true
  cap_le : v.cap_ * xbits_per_block N W ≤ 2 ^ 63

/-- The `DibitVector<>` with elements `{0, 1, 2, 3}`. -/
def dibit0123 : XbitVector := ⟨some [228], 4, 1, stdAllocator⟩

/-- The `DibitVector<>` with elements `{1, 1, 2}`. -/
def dibit112 : XbitVector := ⟨some [37], 3, 1, stdAllocator⟩

/-- The `DibitVector<>` with elements `{1, 2, 1}`. -/
def dibit121 : XbitVector := ⟨some [25], 3, 1, stdAllocator⟩

/-- The `DibitVector<>` with elements `{1, 1}`. -/
def dibit11 : XbitVector := ⟨some [5], 2, 1, stdAllocator⟩

/-- The `DibitVector<>` with elements `{1, 1, 0}`. -/
def dibit110 : XbitVector := ⟨some [5], 3, 1, stdAllocator⟩

/-- The `DibitVector<>` with elements `{3, 2, 1, 0, 1, 2}` in two blocks. -/
def dibit321012 : XbitVector := ⟨some [27, 169], 6, 2, stdAllocator⟩

/-! ## Increment and decrement through `XbitReference`, `num_blocks` -/

/-- The pre-increment `operator++()`: `operator=(*this + 1)`.  The sum is an `int`
and is converted to the `std::uint8_t` parameter of `operator=`.  The call returns the
reference itself; this is the buffer after the call. -/
def XbitReference.pre_incr (N W : Nat) (m : List Nat) (r : XbitReference) : List Nat :=
  r.assign N W m ((r.toUInt8 N W m + 1) % 256)

/-- The post-increment `operator++(int)`: the value read before `++*this`, and the
buffer after the call. -/
def XbitReference.post_incr (N W : Nat) (m : List Nat) (r : XbitReference) : Nat × List Nat :=
  let tmp := r.toUInt8 N W m
  (tmp, r.pre_incr N W m)

/-- The pre-decrement `operator--()`: `operator=(*this - 1)`.  The difference is an
`int` (it is `-1` for the value 0) and is converted to the `std::uint8_t` parameter of
`operator=`. -/
def XbitReference.pre_decr (N W : Nat) (m : List Nat) (r : XbitReference) : List Nat :=
  r.assign N W m ((((r.toUInt8 N W m : Nat) : Int) - 1) % 256).toNat

/-- The post-decrement `operator--(int)`: the value read before `--*this`, and the
buffer after the call. -/
def XbitReference.post_decr (N W : Nat) (m : List Nat) (r : XbitReference) : Nat × List Nat :=
  let tmp := r.toUInt8 N W m
  (tmp, r.pre_decr N W m)

/-- The member `num_blocks()`: `empty() ? 0 : external_cap_to_internal(size())`. -/
def XbitVector.num_blocks (N W : Nat) (v : XbitVector) : Nat :=
  if v.size_ = 0 then 0 else XbitVector.external_cap_to_internal N W v.size

/-- The `DibitVector<>` with elements `{1, 0, 3}`. -/
def dibit103 : XbitVector := ⟨some [49], 3, 1, stdAllocator⟩

/-- What the proofs about growth use of a container state: `invariants()` holds, the
buffer has `cap_` blocks, the capacity in elements is at most `2^63` (so `capacity()`
does not wrap) and the size fits `difference_type`. -/
structure XbitVector.Wide (N W : Nat) (v : XbitVector) : Prop where
  inv : XbitVector.invariants N W v = true
  len : v.mem.length = v.cap_
  cap_le : v.cap_ * xbits_per_block N W ≤ 2 ^ 63
  size_lt : v.size_ < 2 ^ 63

/-! ## `swap` of two field accessors, allocators that refuse requests -/

/-- The function `swap(XbitReference x, XbitReference y)`:
`std::uint8_t t = x; x = y; y = t;`, on the memory `m` that both accessors point into. -/
def XbitReference.swap (N W : Nat) (m : List Nat) (x y : XbitReference) : List Nat :=
  let t := x.toUInt8 N W m
  let m1 := x.assign N W m (y.toUInt8 N W m)
  y.assign N W m1 t

/-- An allocator whose storage is used up: every request fails. -/
def exhaustedAllocator : Allocator := { stdAllocator with avail := fun _ => false }

/-- An allocator that hands out at most one block per request (`max_size() == 1`). -/
def oneBlockAllocator : Allocator := { stdAllocator with max_size := 1 }

/-! ## Bit-level lemmas -/

theorem mask_eq (N W : Nat) (h : N ≤ W) : XbitReference.mask N W = 2 ^ N - 1 := by
  unfold XbitReference.mask
  apply Nat.eq_of_testBit_eq
  intro i
  rw [Nat.testBit_shiftRight, Nat.testBit_two_pow_sub_one, Nat.testBit_two_pow_sub_one]
  congr 1
  apply propext
  omega

theorem extract_testBit (N W blk shift i : Nat) (hN : N ≤ W) (h8 : N ≤ 8) :
    (XbitReference.extract N W blk shift).testBit i
      = (decide (i < N) && blk.testBit (shift + i)) := by
  unfold XbitReference.extract
  rw [mask_eq N W hN, show (256 : Nat) = 2 ^ 8 from rfl, Nat.testBit_mod_two_pow,
    Nat.testBit_and, Nat.testBit_shiftRight, Nat.testBit_two_pow_sub_one]
  by_cases h : i < N
  · have : i < 8 := by omega
    simp [h, this]
  · simp [h]

theorem deposit_testBit (N W blk shift x i : Nat) (hN : N ≤ W) :
    (XbitReference.deposit N W blk shift x).testBit i
      = (decide (i < W) &&
          (if shift ≤ i ∧ i < shift + N then x.testBit (i - shift) else blk.testBit i)) := by
  unfold XbitReference.deposit
  simp only [mask_eq N W hN]
  rw [Nat.testBit_mod_two_pow, Nat.testBit_or, Nat.testBit_and, Nat.testBit_xor,
    Nat.testBit_two_pow_sub_one, Nat.testBit_mod_two_pow, Nat.testBit_shiftLeft,
    Nat.testBit_shiftLeft, Nat.testBit_and, Nat.testBit_two_pow_sub_one]
  by_cases hW : i < W
  · by_cases h1 : shift ≤ i
    · by_cases h2 : i < shift + N
      · have h3 : i - shift < N := by omega
        simp [hW, h1, h2, h3]
      · have h3 : ¬ (i - shift < N) := by omega
        simp [hW, h1, h2, h3]
    · have h1' : ¬ (i ≥ shift) := h1
      simp [hW, h1, h1']
  · simp [hW]

theorem deposit_lt (N W blk shift x : Nat) : XbitReference.deposit N W blk shift x < 2 ^ W := by
  unfold XbitReference.deposit
  exact Nat.mod_lt _ (Nat.two_pow_pos W)

/-- Reading the field that was just written yields the low `N` bits of the value. -/
theorem extract_deposit_same (N W blk shift x : Nat) (hN : N ≤ W) (h8 : N ≤ 8)
    (hs : shift + N ≤ W) :
    XbitReference.extract N W (XbitReference.deposit N W blk shift x) shift = x % 2 ^ N := by
  apply Nat.eq_of_testBit_eq
  intro i
  rw [extract_testBit N W _ _ _ hN h8, deposit_testBit N W _ _ _ _ hN, Nat.testBit_mod_two_pow]
  by_cases h : i < N
  · have h1 : shift + i < W := by omega
    have h2 : shift + i < shift + N := by omega
    simp [h, h1, h2]
  · simp [h]

/-- Writing one field leaves every disjoint field of the block as it was. -/
theorem extract_deposit_other (N W blk s t x : Nat) (hN : N ≤ W) (h8 : N ≤ 8)
    (ht : t + N ≤ W) (hd : s + N ≤ t ∨ t + N ≤ s) :
    XbitReference.extract N W (XbitReference.deposit N W blk s x) t
      = XbitReference.extract N W blk t := by
  apply Nat.eq_of_testBit_eq
  intro i
  rw [extract_testBit N W _ _ _ hN h8, extract_testBit N W _ _ _ hN h8,
    deposit_testBit N W _ _ _ _ hN]
  by_cases h : i < N
  · have h1 : t + i < W := by omega
    have h2 : ¬ (s ≤ t + i ∧ t + i < s + N) := by omega
    simp [h, h1, h2]
  · simp [h]

/-! ## Widths -/

theorem ValidWidths.good {N W : Nat} (h : ValidWidths N W) : GoodWidths N W := by
  obtain ⟨hN, hW⟩ := h
  rcases hN with rfl | rfl <;> rcases hW with rfl | rfl | rfl | rfl
  · exact ⟨by decide, by decide, by decide, 2, by decide, by decide⟩
  · exact ⟨by decide, by decide, by decide, 3, by decide, by decide⟩
  · exact ⟨by decide, by decide, by decide, 4, by decide, by decide⟩
  · exact ⟨by decide, by decide, by decide, 5, by decide, by decide⟩
  · exact ⟨by decide, by decide, by decide, 1, by decide, by decide⟩
  · exact ⟨by decide, by decide, by decide, 2, by decide, by decide⟩
  · exact ⟨by decide, by decide, by decide, 3, by decide, by decide⟩
  · exact ⟨by decide, by decide, by decide, 4, by decide, by decide⟩

theorem GoodWidths.e_pos {N W : Nat} (g : GoodWidths N W) : 0 < xbits_per_block N W := by
  obtain ⟨k, _, hk⟩ := g.pow
  rw [hk]; exact Nat.two_pow_pos k

theorem GoodWidths.e_le {N W : Nat} (g : GoodWidths N W) : xbits_per_block N W ≤ 32 := by
  obtain ⟨k, hk5, hk⟩ := g.pow
  rw [hk]
  calc 2 ^ k ≤ 2 ^ 5 := Nat.pow_le_pow_right (by decide) hk5
    _ = 32 := by decide

theorem GoodWidths.N_le_W {N W : Nat} (g : GoodWidths N W) : N ≤ W := by
  have h1 := g.tile
  have h2 := g.e_pos
  calc N = 1 * N := (Nat.one_mul N).symm
    _ ≤ xbits_per_block N W * N := Nat.mul_le_mul_right N h2
    _ = W := h1

theorem GoodWidths.and_eq_mod {N W : Nat} (g : GoodWidths N W) (x : Nat) :
    x &&& (xbits_per_block N W - 1) = x % xbits_per_block N W := by
  obtain ⟨k, _, hk⟩ := g.pow
  rw [hk]; exact Nat.and_pow_two_sub_one_eq_mod x k

theorem GoodWidths.e_dvd {N W : Nat} (g : GoodWidths N W) (j : Nat) (hj : 5 ≤ j) :
    xbits_per_block N W ∣ 2 ^ j := by
  obtain ⟨k, hk5, hk⟩ := g.pow
  rw [hk]; exact Nat.pow_dvd_pow 2 (by omega)

theorem GoodWidths.shift_le {N W : Nat} (g : GoodWidths N W) (o : Nat)
    (ho : o < xbits_per_block N W) : o * N + N ≤ W := by
  have h := g.tile
  calc o * N + N = (o + 1) * N := by ring
    _ ≤ xbits_per_block N W * N := Nat.mul_le_mul_right N ho
    _ = W := h

/-! ## Machine integer lemmas -/

theorem toSize_of_nonneg (z : Int) (h0 : 0 ≤ z) (h1 : z < 2 ^ 64) : toSize z = z.toNat := by
  unfold toSize
  rw [Int.emod_eq_of_lt h0 h1]

theorem toSize_natCast (n : Nat) (h : n < 2 ^ 64) : toSize (n : Int) = n := by
  rw [toSize_of_nonneg _ (Int.natCast_nonneg n) (by exact_mod_cast h)]
  exact Int.toNat_natCast n

theorem toSize_of_neg (z : Int) (h0 : z < 0) (h1 : -2 ^ 64 ≤ z) :
    toSize z = (z + 2 ^ 64).toNat := by
  unfold toSize
  have : z % 2 ^ 64 = z + 2 ^ 64 := by
    rw [← Int.add_mul_emod_self_left z (2 ^ 64) 1, Int.mul_one]
    exact Int.emod_eq_of_lt (by omega) (by omega)
  rw [this]

theorem toSigned_of_lt (n : Nat) (h : n < 2 ^ 63) : toSigned n = n := by
  unfold toSigned
  have h1 : n % 2 ^ 64 = n := Nat.mod_eq_of_lt (by omega)
  rw [h1, if_pos h]

theorem toSigned_of_ge (n : Nat) (h : 2 ^ 63 ≤ n) (h1 : n < 2 ^ 64) :
    toSigned n = (n : Int) - 2 ^ 64 := by
  unfold toSigned
  have h2 : n % 2 ^ 64 = n := Nat.mod_eq_of_lt h1
  rw [h2, if_neg (by omega)]

theorem toSigned_toSize (z : Int) (h0 : -2 ^ 63 ≤ z) (h1 : z < 2 ^ 63) :
    toSigned (toSize z) = z := by
  by_cases hz : 0 ≤ z
  · rw [toSize_of_nonneg z hz (by omega), toSigned_of_lt _ (by omega)]
    exact Int.toNat_of_nonneg hz
  · rw [toSize_of_neg z (by omega) (by omega), toSigned_of_ge _ (by omega) (by omega)]
    rw [Int.toNat_of_nonneg (by omega)]
    omega

/-! ## Buffer lemmas -/

theorem store_length (m : List Nat) (p : Int) (b : Nat) : (store m p b).length = m.length := by
  unfold store
  split
  · exact List.length_set _ _ _
  · rfl

theorem load_store_same (m : List Nat) (p : Int) (b : Nat) (h0 : 0 ≤ p)
    (h1 : p.toNat < m.length) : load (store m p b) p = b := by
  unfold load store
  rw [if_pos h0, if_pos h0, List.getD_eq_getElem?_getD, List.getElem?_set]
  simp [h1]

theorem load_store_other (m : List Nat) (p q : Int) (b : Nat) (h : p ≠ q) :
    load (store m p b) q = load m q := by
  unfold load store
  by_cases hq : 0 ≤ q
  · by_cases hp : 0 ≤ p
    · have hne : p.toNat ≠ q.toNat := by omega
      simp only [if_pos hq, if_pos hp, List.getD_eq_getElem?_getD, List.getElem?_set, if_neg hne]
    · simp only [if_neg hp]
  · simp only [if_neg hq]

theorem load_store_oob (m : List Nat) (p : Int) (b : Nat) (h : ¬ (0 ≤ p ∧ p.toNat < m.length)) :
    store m p b = m := by
  unfold store
  by_cases hp : 0 ≤ p
  · rw [if_pos hp]
    apply List.set_eq_of_length_le
    have : ¬ p.toNat < m.length := fun hlt => h ⟨hp, hlt⟩
    omega
  · rw [if_neg hp]

/-! ## Fields of a buffer by linear index -/

theorem make_iter_eq {N W : Nat} (g : GoodWidths N W) (i : Nat) :
    XbitVector.make_iter N W i
      = ⟨((i / xbits_per_block N W : Nat) : Int), i % xbits_per_block N W⟩ := by
  unfold XbitVector.make_iter
  rw [g.and_eq_mod]

theorem put_length (N W : Nat) (m : List Nat) (it : XbitIterator) (x : Nat) :
    (XbitIterator.put N W m it x).length = m.length := by
  unfold XbitIterator.put XbitReference.assign
  exact store_length _ _ _

theorem get_put_same {N W : Nat} (g : GoodWidths N W) (m : List Nat) (i x : Nat)
    (hi : i < m.length * xbits_per_block N W) :
    XbitIterator.get N W (XbitIterator.put N W m (XbitVector.make_iter N W i) x)
      (XbitVector.make_iter N W i) = x % 2 ^ N := by
  rw [make_iter_eq g]
  unfold XbitIterator.get XbitIterator.put XbitReference.toUInt8 XbitReference.assign
    XbitIterator.deref XbitReference.ofOffset
  simp only
  have hlt : i / xbits_per_block N W < m.length := (Nat.div_lt_iff_lt_mul g.e_pos).mpr hi
  rw [load_store_same _ _ _ (Int.natCast_nonneg _) (by simpa using hlt)]
  exact extract_deposit_same N W _ _ _ g.N_le_W g.N_le
    (g.shift_le _ (Nat.mod_lt _ g.e_pos))

theorem get_put_other {N W : Nat} (g : GoodWidths N W) (m : List Nat) (i j x : Nat)
    (hij : i ≠ j) :
    XbitIterator.get N W (XbitIterator.put N W m (XbitVector.make_iter N W i) x)
      (XbitVector.make_iter N W j) = XbitIterator.get N W m (XbitVector.make_iter N W j) := by
  rw [make_iter_eq g, make_iter_eq g]
  unfold XbitIterator.get XbitIterator.put XbitReference.toUInt8 XbitReference.assign
    XbitIterator.deref XbitReference.ofOffset
  simp only
  by_cases hseg : i / xbits_per_block N W = j / xbits_per_block N W
  · by_cases hin : i / xbits_per_block N W < m.length
    · rw [hseg, load_store_same _ _ _ (Int.natCast_nonneg _) (by simpa [hseg] using hin)]
      have hoff : i % xbits_per_block N W ≠ j % xbits_per_block N W := by
        intro hmod
        apply hij
        rw [← Nat.div_add_mod i (xbits_per_block N W), ← Nat.div_add_mod j (xbits_per_block N W),
          hseg, hmod]
      have hi := g.shift_le _ (Nat.mod_lt i g.e_pos)
      have hj := g.shift_le _ (Nat.mod_lt j g.e_pos)
      apply extract_deposit_other N W _ _ _ _ g.N_le_W g.N_le hj
      rcases Nat.lt_or_gt_of_ne hoff with hlt | hgt
      · left
        calc i % xbits_per_block N W * N + N = (i % xbits_per_block N W + 1) * N := by ring
          _ ≤ j % xbits_per_block N W * N := Nat.mul_le_mul_right N hlt
      · right
        calc j % xbits_per_block N W * N + N = (j % xbits_per_block N W + 1) * N := by ring
          _ ≤ i % xbits_per_block N W * N := Nat.mul_le_mul_right N hgt
    · rw [load_store_oob]
      intro h
      apply hin
      simpa using h.2
  · rw [load_store_other]
    intro h
    apply hseg
    exact_mod_cast h

/-! ## Iterator arithmetic on linear positions -/

theorem bump_up_make_iter {N W : Nat} (g : GoodWidths N W) (i : Nat) :
    XbitIterator.bump_up N W (XbitVector.make_iter N W i) = XbitVector.make_iter N W (i + 1) := by
  rw [make_iter_eq g, make_iter_eq g]
  unfold XbitIterator.bump_up
  have he := g.e_pos
  have hm := Nat.mod_lt i he
  have hd := Nat.div_add_mod i (xbits_per_block N W)
  simp only
  by_cases h : i % xbits_per_block N W = xbits_per_block N W - 1
  · rw [if_neg (by simpa using h)]
    have h1 : i + 1 = xbits_per_block N W * (i / xbits_per_block N W + 1) := by
      rw [Nat.mul_add, Nat.mul_one]; omega
    have h2 : (i + 1) / xbits_per_block N W = i / xbits_per_block N W + 1 := by
      rw [h1, Nat.mul_div_cancel_left _ he]
    have h3 : (i + 1) % xbits_per_block N W = 0 := by
      rw [h1, Nat.mul_mod_right]
    rw [h2, h3]
    simp
  · rw [if_pos (by simpa using h)]
    have h2 : (i + 1) / xbits_per_block N W = i / xbits_per_block N W := by
      apply Nat.div_eq_of_lt_le
      · rw [Nat.mul_comm]; omega
      · rw [Nat.add_mul, Nat.one_mul, Nat.mul_comm]; omega
    have h3 : (i + 1) % xbits_per_block N W = i % xbits_per_block N W + 1 := by
      have hd1 := Nat.div_add_mod (i + 1) (xbits_per_block N W)
      rw [h2] at hd1
      omega
    rw [h2, h3]

theorem bump_down_make_iter {N W : Nat} (g : GoodWidths N W) (i : Nat) :
    XbitIterator.bump_down N W (XbitVector.make_iter N W (i + 1)) = XbitVector.make_iter N W i := by
  rw [make_iter_eq g, make_iter_eq g]
  unfold XbitIterator.bump_down
  have he := g.e_pos
  have hm := Nat.mod_lt i he
  have hd := Nat.div_add_mod i (xbits_per_block N W)
  simp only
  by_cases h : i % xbits_per_block N W = xbits_per_block N W - 1
  · have h1 : i + 1 = xbits_per_block N W * (i / xbits_per_block N W + 1) := by
      rw [Nat.mul_add, Nat.mul_one]; omega
    have h2 : (i + 1) / xbits_per_block N W = i / xbits_per_block N W + 1 := by
      rw [h1, Nat.mul_div_cancel_left _ he]
    have h3 : (i + 1) % xbits_per_block N W = 0 := by
      rw [h1, Nat.mul_mod_right]
    rw [h2, h3, if_neg (by simp), h]
    simp
  · have h2 : (i + 1) / xbits_per_block N W = i / xbits_per_block N W := by
      apply Nat.div_eq_of_lt_le
      · rw [Nat.mul_comm]; omega
      · rw [Nat.add_mul, Nat.one_mul, Nat.mul_comm]; omega
    have h3 : (i + 1) % xbits_per_block N W = i % xbits_per_block N W + 1 := by
      have hd1 := Nat.div_add_mod (i + 1) (xbits_per_block N W)
      rw [h2] at hd1
      omega
    rw [h2, h3, if_pos (by simp)]
    simp

theorem diff_make_iter {N W : Nat} (g : GoodWidths N W) (a b : Nat) (ha : a < 2 ^ 63)
    (hb : b < 2 ^ 63) :
    XbitIterator.diff N W (XbitVector.make_iter N W a) (XbitVector.make_iter N W b)
      = (a : Int) - (b : Int) := by
  rw [make_iter_eq g, make_iter_eq g]
  unfold XbitIterator.diff
  simp only
  have hda := Nat.div_add_mod a (xbits_per_block N W)
  have hdb := Nat.div_add_mod b (xbits_per_block N W)
  have key : (((a / xbits_per_block N W : Nat) : Int) - ((b / xbits_per_block N W : Nat) : Int))
      * (xbits_per_block N W : Int) + ((a % xbits_per_block N W : Nat) : Int)
      - ((b % xbits_per_block N W : Nat) : Int) = (a : Int) - (b : Int) := by
    have ha' : (a : Int) = (xbits_per_block N W : Int) * ((a / xbits_per_block N W : Nat) : Int)
        + ((a % xbits_per_block N W : Nat) : Int) := by exact_mod_cast hda.symm
    have hb' : (b : Int) = (xbits_per_block N W : Int) * ((b / xbits_per_block N W : Nat) : Int)
        + ((b % xbits_per_block N W : Nat) : Int) := by exact_mod_cast hdb.symm
    rw [ha', hb']
    ring
  rw [key]
  apply toSigned_toSize <;> omega

theorem incr_make_iter_nonneg {N W : Nat} (g : GoodWidths N W) (a k : Nat)
    (hk : k < 2 ^ 63) :
    XbitIterator.incr N W (XbitVector.make_iter N W a) (k : Int)
      = XbitVector.make_iter N W (a + k) := by
  rw [make_iter_eq g, make_iter_eq g]
  unfold XbitIterator.incr
  have he := g.e_pos
  have he32 := g.e_le
  have hm := Nat.mod_lt a he
  have hmk := Nat.mod_lt k he
  simp only [g.and_eq_mod]
  rw [if_pos (Int.natCast_nonneg k)]
  have h1 : toSize ((k : Int) + ((a % xbits_per_block N W : Nat) : Int))
      = k + a % xbits_per_block N W := by
    rw [← Int.natCast_add]; exact toSize_natCast _ (by omega)
  have h2 : toSize (k : Int) = k := toSize_natCast _ (by omega)
  have h3 : toSigned (k % xbits_per_block N W) = ((k % xbits_per_block N W : Nat) : Int) :=
    toSigned_of_lt _ (by omega)
  have h4 : toSize (((k % xbits_per_block N W : Nat) : Int)
      + ((a % xbits_per_block N W : Nat) : Int))
      = k % xbits_per_block N W + a % xbits_per_block N W := by
    rw [← Int.natCast_add]; exact toSize_natCast _ (by omega)
  rw [h1, h2, h3, h4]
  have f1 : (a + k) / xbits_per_block N W
      = (k + a % xbits_per_block N W) / xbits_per_block N W + a / xbits_per_block N W := by
    have hd := Nat.div_add_mod a (xbits_per_block N W)
    have : a + k = (k + a % xbits_per_block N W)
        + xbits_per_block N W * (a / xbits_per_block N W) := by omega
    rw [this, Nat.add_mul_div_left _ _ he]
  have f2 : (a + k) % xbits_per_block N W
      = (k % xbits_per_block N W + a % xbits_per_block N W) % xbits_per_block N W := by
    rw [Nat.add_comm a k, Nat.add_mod]
  rw [f1, f2]
  congr 1
  push_cast
  ring

theorem incr_make_iter_neg {N W : Nat} (g : GoodWidths N W) (a k : Nat) (ha : a < 2 ^ 63)
    (hk0 : 0 < k) (hk : k ≤ a) :
    XbitIterator.incr N W (XbitVector.make_iter N W a) (-(k : Int))
      = XbitVector.make_iter N W (a - k) := by
  rw [make_iter_eq g, make_iter_eq g]
  unfold XbitIterator.incr
  have he := g.e_pos
  have he32 := g.e_le
  have hm := Nat.mod_lt a he
  have hd := Nat.div_add_mod a (xbits_per_block N W)
  have hdb := Nat.div_add_mod (a - k) (xbits_per_block N W)
  have hmb := Nat.mod_lt (a - k) he
  simp only [g.and_eq_mod]
  rw [if_neg (by omega)]
  -- the quotient
  have hc : -(k : Int) - (xbits_per_block N W : Int) + ((a % xbits_per_block N W : Nat) : Int) + 1
      = -((k + xbits_per_block N W - 1 - a % xbits_per_block N W : Nat) : Int) := by
    omega
  have h1 : toSigned (toSize (-(k : Int) - (xbits_per_block N W : Int)
      + ((a % xbits_per_block N W : Nat) : Int) + 1))
      = -((k + xbits_per_block N W - 1 - a % xbits_per_block N W : Nat) : Int) := by
    rw [hc]
    have hb : k + xbits_per_block N W - 1 - a % xbits_per_block N W < 2 ^ 63 := by
      obtain ⟨c, hc⟩ := g.e_dvd 63 (by decide)
      have hlt : a / xbits_per_block N W < c := Nat.div_lt_of_lt_mul (by rw [← hc]; exact ha)
      have hmul : xbits_per_block N W * (a / xbits_per_block N W + 1) ≤ xbits_per_block N W * c :=
        Nat.mul_le_mul_left _ hlt
      rw [Nat.mul_add, Nat.mul_one] at hmul
      omega
    generalize k + xbits_per_block N W - 1 - a % xbits_per_block N W = c at hb
    apply toSigned_toSize <;> omega
  have h2 : toSigned (xbits_per_block N W) = (xbits_per_block N W : Int) :=
    toSigned_of_lt _ (by omega)
  rw [h1, h2, Int.neg_tdiv, ← Int.ofNat_tdiv]
  have hq : (a - k) / xbits_per_block N W ≤ a / xbits_per_block N W :=
    Nat.div_le_div_right (Nat.sub_le a k)
  have f3 : (k + xbits_per_block N W - 1 - a % xbits_per_block N W) / xbits_per_block N W
      = a / xbits_per_block N W - (a - k) / xbits_per_block N W := by
    have hmul : xbits_per_block N W * (a / xbits_per_block N W - (a - k) / xbits_per_block N W)
        = xbits_per_block N W * (a / xbits_per_block N W)
          - xbits_per_block N W * ((a - k) / xbits_per_block N W) := Nat.mul_sub _ _ _
    have hle : xbits_per_block N W * ((a - k) / xbits_per_block N W)
        ≤ xbits_per_block N W * (a / xbits_per_block N W) := Nat.mul_le_mul_left _ hq
    have : k + xbits_per_block N W - 1 - a % xbits_per_block N W
        = (xbits_per_block N W - 1 - (a - k) % xbits_per_block N W)
          + xbits_per_block N W * (a / xbits_per_block N W - (a - k) / xbits_per_block N W) := by
      omega
    rw [this, Nat.add_mul_div_left _ _ he, Nat.div_eq_of_lt (by omega), Nat.zero_add]
  -- the offset
  have h3 : toSize (-(k : Int)) = 2 ^ 64 - k := by
    rw [toSize_of_neg _ (by omega) (by omega)]
    omega
  have hmk := Nat.mod_lt (2 ^ 64 - k) he
  have h4 : toSigned ((2 ^ 64 - k) % xbits_per_block N W)
      = (((2 ^ 64 - k) % xbits_per_block N W : Nat) : Int) := toSigned_of_lt _ (by omega)
  have h5 : toSize ((((2 ^ 64 - k) % xbits_per_block N W : Nat) : Int)
      + ((a % xbits_per_block N W : Nat) : Int))
      = (2 ^ 64 - k) % xbits_per_block N W + a % xbits_per_block N W := by
    rw [← Int.natCast_add]; exact toSize_natCast _ (by omega)
  have f4 : ((2 ^ 64 - k) % xbits_per_block N W + a % xbits_per_block N W)
      % xbits_per_block N W = (a - k) % xbits_per_block N W := by
    rw [← Nat.add_mod]
    obtain ⟨c, hc⟩ := g.e_dvd 64 (by decide)
    have : 2 ^ 64 - k + a = (a - k) + xbits_per_block N W * c := by omega
    rw [this, Nat.add_mul_mod_self_left]
  rw [h3, h4, h5, f3, f4]
  congr 1
  omega

theorem sub_one_make_iter {N W : Nat} (g : GoodWidths N W) (a : Nat) (ha : a < 2 ^ 63)
    (h0 : 0 < a) :
    XbitIterator.sub N W (XbitVector.make_iter N W a) 1 = XbitVector.make_iter N W (a - 1) := by
  unfold XbitIterator.sub
  exact incr_make_iter_neg g a 1 ha Nat.one_pos h0

theorem const_iterator_cast_make_iter {N W : Nat} (g : GoodWidths N W) (v : XbitVector) (p : Nat)
    (hp : p < 2 ^ 63) :
    XbitVector.const_iterator_cast N W v (XbitVector.make_iter N W p)
      = XbitVector.make_iter N W p := by
  unfold XbitVector.const_iterator_cast XbitVector.begin XbitIterator.add
  rw [diff_make_iter g p 0 hp (by decide)]
  have := incr_make_iter_nonneg g 0 p hp
  simpa using this

/-! ## The standard algorithms on linear positions -/

theorem elemAt_put_same {N W : Nat} (g : GoodWidths N W) (m : List Nat) (i x : Nat)
    (hi : i < m.length * xbits_per_block N W) :
    elemAt N W (XbitIterator.put N W m (XbitVector.make_iter N W i) x) i = x % 2 ^ N :=
  get_put_same g m i x hi

theorem elemAt_put_other {N W : Nat} (g : GoodWidths N W) (m : List Nat) (i j x : Nat)
    (hij : i ≠ j) :
    elemAt N W (XbitIterator.put N W m (XbitVector.make_iter N W i) x) j = elemAt N W m j :=
  get_put_other g m i j x hij

theorem elemAt_lt {N W : Nat} (g : GoodWidths N W) (m : List Nat) (i : Nat) :
    elemAt N W m i < 2 ^ N := by
  unfold elemAt XbitIterator.get XbitReference.toUInt8
  apply Nat.lt_pow_two_of_testBit
  intro j hj
  rw [extract_testBit N W _ _ _ g.N_le_W g.N_le]
  have : ¬ j < N := by omega
  simp [this]

theorem elemAt_mod {N W : Nat} (g : GoodWidths N W) (m : List Nat) (i : Nat) :
    elemAt N W m i % 2 ^ N = elemAt N W m i :=
  Nat.mod_eq_of_lt (elemAt_lt g m i)

theorem srcAt_lt {N W : Nat} (g : GoodWidths N W) (s : Source) (m : List Nat) (i : Nat) :
    srcAt N W s m i < 2 ^ N := by
  cases s with
  | same => exact elemAt_lt g m i
  | other src => exact elemAt_lt g src i

theorem srcAt_put {N W : Nat} (g : GoodWidths N W) (s : Source) (m : List Nat) (p i x : Nat)
    (h : s = Source.same → p ≠ i) :
    srcAt N W s (XbitIterator.put N W m (XbitVector.make_iter N W p) x) i = srcAt N W s m i := by
  cases s with
  | same => exact elemAt_put_other g m p i x (h rfl)
  | other src => rfl

theorem std_fill_n_length (N W : Nat) (k : Nat) (m : List Nat) (it : XbitIterator) (x : Nat) :
    (std_fill_n N W k m it x).length = m.length := by
  induction k generalizing m it with
  | zero => rfl
  | succ k ih =>
    unfold std_fill_n
    rw [ih, put_length]

theorem std_fill_n_elemAt {N W : Nat} (g : GoodWidths N W) (k : Nat) (m : List Nat)
    (p x j : Nat) (hb : p + k ≤ m.length * xbits_per_block N W) :
    elemAt N W (std_fill_n N W k m (XbitVector.make_iter N W p) x) j
      = if p ≤ j ∧ j < p + k then x % 2 ^ N else elemAt N W m j := by
  induction k generalizing m p with
  | zero =>
    unfold std_fill_n
    rw [if_neg (by omega)]
  | succ k ih =>
    unfold std_fill_n
    rw [bump_up_make_iter g, ih _ _ (by rw [put_length]; omega)]
    by_cases hj : j = p
    · subst hj
      rw [if_neg (by omega), if_pos (by omega)]
      exact elemAt_put_same g m j x (by omega)
    · rw [elemAt_put_other g m p j x (fun h => hj h.symm)]
      by_cases h1 : p + 1 ≤ j ∧ j < p + 1 + k
      · rw [if_pos h1, if_pos (by omega)]
      · rw [if_neg h1, if_neg (by omega)]

theorem std_copy_values_length (N W : Nat) (src m : List Nat) (it : XbitIterator) :
    (std_copy_values N W src m it).1.length = m.length := by
  induction src generalizing m it with
  | nil => rfl
  | cons x xs ih =>
    unfold std_copy_values
    rw [ih, put_length]

theorem std_copy_values_iter {N W : Nat} (g : GoodWidths N W) (src m : List Nat) (p : Nat) :
    (std_copy_values N W src m (XbitVector.make_iter N W p)).2
      = XbitVector.make_iter N W (p + src.length) := by
  induction src generalizing m p with
  | nil => rfl
  | cons x xs ih =>
    unfold std_copy_values
    rw [bump_up_make_iter g, ih, List.length_cons]
    congr 1
    omega

theorem std_copy_values_elemAt {N W : Nat} (g : GoodWidths N W) (src m : List Nat)
    (p j : Nat) (hb : p + src.length ≤ m.length * xbits_per_block N W) :
    elemAt N W (std_copy_values N W src m (XbitVector.make_iter N W p)).1 j
      = if p ≤ j ∧ j < p + src.length then src.getD (j - p) 0 % 2 ^ N else elemAt N W m j := by
  induction src generalizing m p with
  | nil =>
    unfold std_copy_values
    rw [if_neg (by simp)]
  | cons x xs ih =>
    unfold std_copy_values
    rw [List.length_cons] at hb
    rw [bump_up_make_iter g, ih _ _ (by rw [put_length]; omega), List.length_cons]
    by_cases hj : j = p
    · subst hj
      rw [if_neg (by omega), if_pos (by omega), Nat.sub_self]
      exact elemAt_put_same g m j x (by omega)
    · rw [elemAt_put_other g m p j x (fun h => hj h.symm)]
      by_cases h1 : p + 1 ≤ j ∧ j < p + 1 + xs.length
      · rw [if_pos h1, if_pos (by omega)]
        have : j - p = (j - (p + 1)) + 1 := by omega
        rw [this, List.getD_cons_succ]
      · rw [if_neg h1, if_neg (by omega)]

theorem std_copy_length (N W : Nat) (s : Source) (k : Nat) (first : XbitIterator) (m : List Nat)
    (result : XbitIterator) : (std_copy N W s k first m result).1.length = m.length := by
  induction k generalizing first m result with
  | zero => rfl
  | succ k ih =>
    unfold std_copy
    rw [ih, put_length]

theorem std_copy_iter {N W : Nat} (g : GoodWidths N W) (s : Source) (k : Nat)
    (first : XbitIterator) (m : List Nat) (p : Nat) :
    (std_copy N W s k first m (XbitVector.make_iter N W p)).2
      = XbitVector.make_iter N W (p + k) := by
  induction k generalizing first m p with
  | zero => rfl
  | succ k ih =>
    unfold std_copy
    rw [bump_up_make_iter g, ih]
    congr 1
    omega

theorem std_copy_elemAt {N W : Nat} (g : GoodWidths N W) (s : Source) (k : Nat) (m : List Nat)
    (f p j : Nat) (hs : s = Source.same → p ≤ f)
    (hb : p + k ≤ m.length * xbits_per_block N W) :
    elemAt N W (std_copy N W s k (XbitVector.make_iter N W f) m (XbitVector.make_iter N W p)).1 j
      = if p ≤ j ∧ j < p + k then srcAt N W s m (f + (j - p)) else elemAt N W m j := by
  induction k generalizing m f p with
  | zero =>
    unfold std_copy
    rw [if_neg (by omega)]
  | succ k ih =>
    unfold std_copy
    rw [bump_up_make_iter g, bump_up_make_iter g,
      ih _ _ _ (fun h => by have := hs h; omega) (by rw [put_length]; omega)]
    have hsrc : s.get N W m (XbitVector.make_iter N W f) = srcAt N W s m f := rfl
    rw [hsrc]
    by_cases hj : j = p
    · subst hj
      rw [if_neg (by omega), if_pos (by omega), Nat.sub_self, Nat.add_zero,
        elemAt_put_same g m j _ (by omega)]
      exact Nat.mod_eq_of_lt (srcAt_lt g s m f)
    · rw [elemAt_put_other g m p j _ (fun h => hj h.symm)]
      by_cases h1 : p + 1 ≤ j ∧ j < p + 1 + k
      · rw [if_pos h1, if_pos (by omega),
          srcAt_put g s m p _ _ (fun h => by have := hs h; omega)]
        congr 1
        omega
      · rw [if_neg h1, if_neg (by omega)]

theorem std_copy_backward_length (N W : Nat) (s : Source) (k : Nat) (last : XbitIterator)
    (m : List Nat) (d_last : XbitIterator) :
    (std_copy_backward N W s k last m d_last).length = m.length := by
  induction k generalizing last m d_last with
  | zero => rfl
  | succ k ih =>
    unfold std_copy_backward
    rw [ih, put_length]

theorem std_copy_backward_elemAt {N W : Nat} (g : GoodWidths N W) (s : Source) (k : Nat)
    (m : List Nat) (l d j : Nat) (hkl : k ≤ l) (hkd : k ≤ d) (hs : s = Source.same → l ≤ d)
    (hb : d ≤ m.length * xbits_per_block N W) :
    elemAt N W (std_copy_backward N W s k (XbitVector.make_iter N W l) m
        (XbitVector.make_iter N W d)) j
      = if d - k ≤ j ∧ j < d then srcAt N W s m (l - (d - j)) else elemAt N W m j := by
  induction k generalizing m l d with
  | zero =>
    unfold std_copy_backward
    rw [if_neg (by omega)]
  | succ k ih =>
    unfold std_copy_backward
    obtain ⟨l1, rfl⟩ : ∃ l1, l = l1 + 1 := ⟨l - 1, by omega⟩
    obtain ⟨d1, rfl⟩ : ∃ d1, d = d1 + 1 := ⟨d - 1, by omega⟩
    rw [bump_down_make_iter g, bump_down_make_iter g,
      ih _ _ _ (by omega) (by omega) (fun h => by have := hs h; omega)
        (by rw [put_length]; omega)]
    have hsrc : s.get N W m (XbitVector.make_iter N W l1) = srcAt N W s m l1 := rfl
    rw [hsrc]
    by_cases hj : j = d1
    · subst hj
      rw [if_neg (by omega), if_pos (by omega), elemAt_put_same g m j _ (by omega)]
      rw [Nat.mod_eq_of_lt (srcAt_lt g s m l1)]
      congr 1
      omega
    · rw [elemAt_put_other g m d1 j _ (fun h => hj h.symm)]
      by_cases h1 : d1 - k ≤ j ∧ j < d1
      · rw [if_pos h1, if_pos (by omega),
          srcAt_put g s m d1 _ _ (fun h => by have := hs h; omega)]
        congr 1
        omega
      · rw [if_neg h1, if_neg (by omega)]

theorem values_length (N W : Nat) (m : List Nat) (k : Nat) (first : XbitIterator) :
    (XbitVector.values N W m k first).length = k := by
  induction k generalizing first with
  | zero => rfl
  | succ k ih =>
    unfold XbitVector.values
    rw [List.length_cons, ih]

theorem values_getD {N W : Nat} (g : GoodWidths N W) (m : List Nat) (k f i : Nat) (hi : i < k) :
    (XbitVector.values N W m k (XbitVector.make_iter N W f)).getD i 0 = elemAt N W m (f + i) := by
  induction k generalizing f i with
  | zero => omega
  | succ k ih =>
    unfold XbitVector.values
    cases i with
    | zero => rfl
    | succ i =>
      rw [List.getD_cons_succ, bump_up_make_iter g, ih _ _ (by omega)]
      congr 1
      omega

/-! ## Capacity arithmetic -/

theorem max_size_le {N W : Nat} (g : GoodWidths N W) (v : XbitVector) :
    XbitVector.max_size N W v ≤ 2 ^ 63 - 1 := by
  unfold XbitVector.max_size XbitVector.internal_cap_to_external SIZE_MAX
  have he := g.e_pos
  simp only
  split
  · decide
  · rename_i h
    have h1 : v.alloc_.max_size ≤ (2 ^ 64 - 1) / 2 / xbits_per_block N W := by omega
    have h2 : v.alloc_.max_size * xbits_per_block N W
        ≤ (2 ^ 64 - 1) / 2 / xbits_per_block N W * xbits_per_block N W :=
      Nat.mul_le_mul_right _ h1
    have h3 := Nat.div_mul_le_self ((2 ^ 64 - 1) / 2) (xbits_per_block N W)
    have h4 : v.alloc_.max_size * xbits_per_block N W % 2 ^ 64
        ≤ v.alloc_.max_size * xbits_per_block N W := Nat.mod_le _ _
    have h5 : (2 ^ 64 - 1) / 2 = 2 ^ 63 - 1 := by decide
    omega

theorem max_size_alloc (N W : Nat) (v w : XbitVector) (h : v.alloc_ = w.alloc_) :
    XbitVector.max_size N W v = XbitVector.max_size N W w := by
  unfold XbitVector.max_size
  rw [h]

theorem XbitVector.Valid.capacity_eq {N W : Nat} {v : XbitVector} (h : XbitVector.Valid N W v) :
    XbitVector.capacity N W v = v.cap_ * xbits_per_block N W := by
  unfold XbitVector.capacity XbitVector.internal_cap_to_external
  exact Nat.mod_eq_of_lt (by have := h.cap_lt; omega)

theorem XbitVector.Valid.size_le {N W : Nat} {v : XbitVector} (h : XbitVector.Valid N W v) :
    v.size_ ≤ v.cap_ * xbits_per_block N W := by
  have hc := h.capacity_eq
  have hi := h.inv
  unfold XbitVector.invariants at hi
  by_cases hn : v.begin_.isNone = true
  · rw [if_pos hn] at hi
    by_cases h0 : v.size_ ≠ 0 ∨ v.cap_ ≠ 0
    · rw [if_pos h0] at hi; exact absurd hi (by decide)
    · omega
  · rw [if_neg hn] at hi
    by_cases h1 : v.cap_ = 0
    · rw [if_pos h1] at hi; exact absurd hi (by decide)
    · rw [if_neg h1] at hi
      by_cases h2 : v.size_ > XbitVector.capacity N W v
      · rw [if_pos h2] at hi; exact absurd hi (by decide)
      · omega

theorem XbitVector.Valid.mem_length {N W : Nat} {v : XbitVector} (h : XbitVector.Valid N W v) :
    v.size_ ≤ v.mem.length * xbits_per_block N W := by
  rw [h.len]; exact h.size_le

theorem external_cap_to_internal_eq (N W : Nat) (n : Nat) (h0 : 0 < n)
    (h1 : n < 2 ^ 64) :
    XbitVector.external_cap_to_internal N W n = (n - 1) / xbits_per_block N W + 1 := by
  unfold XbitVector.external_cap_to_internal
  have h2 : toSize ((n : Int) - 1) = n - 1 := by
    rw [toSize_of_nonneg _ (by omega) (by omega)]
    omega
  rw [h2]
  apply Nat.mod_eq_of_lt
  have := Nat.div_le_self (n - 1) (xbits_per_block N W)
  omega

theorem blocks_cover {N W : Nat} (g : GoodWidths N W) (n : Nat) :
    n ≤ ((n - 1) / xbits_per_block N W + 1) * xbits_per_block N W := by
  have hd := Nat.div_add_mod (n - 1) (xbits_per_block N W)
  have hm := Nat.mod_lt (n - 1) g.e_pos
  rw [Nat.add_mul, Nat.one_mul, Nat.mul_comm]
  omega

theorem blocks_tight (N W : Nat) (n : Nat) (h0 : 0 < n) :
    ((n - 1) / xbits_per_block N W + 1) * xbits_per_block N W < n + xbits_per_block N W := by
  have hd := Nat.div_add_mod (n - 1) (xbits_per_block N W)
  rw [Nat.add_mul, Nat.one_mul, Nat.mul_comm]
  omega

theorem align_it_eq {N W : Nat} (g : GoodWidths N W) (n : Nat) (h1 : n < 2 ^ 63) :
    XbitVector.align_it N W n
      = (n + (xbits_per_block N W - 1)) / xbits_per_block N W * xbits_per_block N W := by
  unfold XbitVector.align_it
  have he := g.e_le
  have h2 : (n + (xbits_per_block N W - 1)) % 2 ^ 64 = n + (xbits_per_block N W - 1) :=
    Nat.mod_eq_of_lt (by omega)
  rw [h2]
  apply Nat.mod_eq_of_lt
  have := Nat.div_mul_le_self (n + (xbits_per_block N W - 1)) (xbits_per_block N W)
  omega

theorem align_it_blocks {N W : Nat} (g : GoodWidths N W) (n : Nat) (h0 : 0 < n)
    (h1 : n < 2 ^ 63) :
    XbitVector.align_it N W n
      = ((n - 1) / xbits_per_block N W + 1) * xbits_per_block N W := by
  rw [align_it_eq g n h1]
  congr 1
  have he := g.e_pos
  have : n + (xbits_per_block N W - 1) = (n - 1) + xbits_per_block N W * 1 := by omega
  rw [this, Nat.add_mul_div_left _ _ he]

/-! ## Allocation and construction -/

theorem allocate_ok (W : Nat) (a : Allocator) (n : Nat) (h : a.avail n = true) :
    ∃ buf, buf.length = n ∧ a.allocate W n = some buf := by
  unfold Allocator.allocate
  rw [if_pos h]
  exact ⟨_, by simp, rfl⟩

theorem vallocate_empty {N W : Nat} (a : Allocator) (n : Nat)
    (hn : n ≤ XbitVector.max_size N W (XbitVector.empty a))
    (ha : a.avail (XbitVector.external_cap_to_internal N W n) = true) :
    ∃ buf, buf.length = XbitVector.external_cap_to_internal N W n ∧
      XbitVector.vallocate N W (XbitVector.empty a) n
        = Except.ok ⟨some buf, 0, XbitVector.external_cap_to_internal N W n, a⟩ := by
  unfold XbitVector.vallocate
  rw [if_neg (by omega)]
  obtain ⟨buf, hlen, hbuf⟩ := allocate_ok W a (XbitVector.external_cap_to_internal N W n) ha
  refine ⟨buf, hlen, ?_⟩
  simp only [XbitVector.empty, hbuf]

theorem range_eq {N W : Nat} (g : GoodWidths N W) (v : XbitVector) (h : XbitVector.Valid N W v) :
    XbitVector.range N W v
      = XbitVector.values N W v.mem v.size_ (XbitVector.make_iter N W 0) := by
  unfold XbitVector.range XbitVector.end XbitVector.begin
  have := h.size_le
  have := h.cap_lt
  rw [diff_make_iter g v.size_ 0 (by omega) (by decide)]
  simp

theorem range_length {N W : Nat} (g : GoodWidths N W) (v : XbitVector)
    (h : XbitVector.Valid N W v) : (XbitVector.range N W v).length = v.size_ := by
  rw [range_eq g v h, values_length]

theorem range_getD {N W : Nat} (g : GoodWidths N W) (v : XbitVector)
    (h : XbitVector.Valid N W v) (i : Nat) (hi : i < v.size_) :
    (XbitVector.range N W v).getD i 0 = elemAt N W v.mem i := by
  rw [range_eq g v h, values_getD g _ _ _ _ hi, Nat.zero_add]

theorem range_empty (N W : Nat) (a : Allocator) :
    XbitVector.range N W (XbitVector.empty a) = [] := by
  unfold XbitVector.range XbitVector.end XbitVector.begin XbitVector.empty
  have : XbitIterator.diff N W (XbitVector.make_iter N W 0) (XbitVector.make_iter N W 0) = 0 := by
    unfold XbitIterator.diff
    simp [toSize, toSigned]
  simp only [this]
  rfl

theorem vallocate_ok_inv (N W : Nat) (w : XbitVector) (n : Nat) (w1 : XbitVector)
    (h : XbitVector.vallocate N W w n = Except.ok w1) :
    n ≤ XbitVector.max_size N W w ∧
      w.alloc_.avail (XbitVector.external_cap_to_internal N W n) = true := by
  unfold XbitVector.vallocate Allocator.allocate at h
  by_cases hn : n > XbitVector.max_size N W w
  · simp [hn] at h
  · by_cases ha : w.alloc_.avail (XbitVector.external_cap_to_internal N W n) = true
    · exact ⟨by omega, ha⟩
    · simp [hn, ha] at h

theorem reserve_ok_inv (N W : Nat) (v : XbitVector) (n : Nat) (v1 : XbitVector)
    (hcap : n > XbitVector.capacity N W v)
    (h : XbitVector.reserve N W v n = Except.ok v1) :
    n ≤ XbitVector.max_size N W v ∧
      v.alloc_.avail (XbitVector.external_cap_to_internal N W n) = true := by
  unfold XbitVector.reserve at h
  rw [if_pos hcap] at h
  cases hva : XbitVector.vallocate N W (XbitVector.empty v.alloc_) n with
  | error e => rw [hva] at h; simp at h
  | ok w =>
    have := vallocate_ok_inv N W _ n w hva
    rw [max_size_alloc N W (XbitVector.empty v.alloc_) v rfl] at this
    exact this

/-- The effect of `reserve(n)` when it has to reallocate. -/
theorem reserve_grow {N W : Nat} (g : GoodWidths N W) (v : XbitVector)
    (h : XbitVector.Valid N W v) (n : Nat) (hcap : n > XbitVector.capacity N W v)
    (hn : n ≤ XbitVector.max_size N W v)
    (ha : v.alloc_.avail (XbitVector.external_cap_to_internal N W n) = true) :
    ∃ buf, buf.length = XbitVector.external_cap_to_internal N W n ∧
      XbitVector.reserve N W v n
        = Except.ok ⟨some buf, v.size_, XbitVector.external_cap_to_internal N W n, v.alloc_⟩ ∧
      ∀ i, i < v.size_ → elemAt N W buf i = elemAt N W v.mem i := by
  have hms : XbitVector.max_size N W (XbitVector.empty v.alloc_) = XbitVector.max_size N W v :=
    max_size_alloc N W _ _ rfl
  obtain ⟨buf, hlen, hv⟩ := vallocate_empty (N := N) (W := W) v.alloc_ n (by rw [hms]; exact hn) ha
  have hmax := max_size_le g v
  have hsz := h.size_le
  have hcl := h.cap_lt
  have hce := h.capacity_eq
  have hn0 : 0 < n := by omega
  have hext := external_cap_to_internal_eq N W n hn0 (by omega)
  have hcover := blocks_cover g n
  have hrl := range_length g v h
  refine ⟨(std_copy_values N W (XbitVector.range N W v) buf (XbitVector.make_iter N W 0)).1,
    ?_, ?_, ?_⟩
  · rw [std_copy_values_length, hlen]
  · unfold XbitVector.reserve
    rw [if_pos hcap, hv]
    simp only [XbitVector.construct_at_end, XbitVector.setMem, XbitVector.mem, XbitVector.swap,
      hrl, Option.map_some', Option.getD_some, Nat.zero_add]
    have : v.size_ % 2 ^ 64 = v.size_ := Nat.mod_eq_of_lt (by omega)
    rw [this]
    split <;> rfl
  · intro i hi
    rw [std_copy_values_elemAt g _ _ _ _ (by rw [hrl, hlen, hext]; omega), hrl,
      if_pos (by omega), Nat.sub_zero, range_getD g v h i hi]
    exact elemAt_mod g _ _

theorem reserve_keep (N W : Nat) (v : XbitVector) (n : Nat)
    (hcap : ¬ n > XbitVector.capacity N W v) :
    XbitVector.reserve N W v n = Except.ok v := by
  unfold XbitVector.reserve
  rw [if_neg hcap]

theorem construct_from_values {N W : Nat} (g : GoodWidths N W) (a : Allocator) (s : List Nat)
    (hs : ∀ x ∈ s, x < 2 ^ N) (h0 : s ≠ [])
    (hn : s.length ≤ XbitVector.max_size N W (XbitVector.empty a))
    (ha : a.avail (XbitVector.external_cap_to_internal N W s.length) = true) :
    ∃ v, XbitVector.ofList N W a s = Except.ok v ∧ XbitVector.ofRange N W a s = Except.ok v ∧
      v.size = s.length ∧ ∀ i (hi : i < s.length), XbitVector.get N W v i = s[i] := by
  obtain ⟨buf, hlen, hv⟩ := vallocate_empty (N := N) (W := W) a s.length hn ha
  have hpos : 0 < s.length := List.length_pos.mpr h0
  have hmax := max_size_le g (XbitVector.empty a)
  have hext := external_cap_to_internal_eq N W s.length hpos (by omega)
  have hcover := blocks_cover g s.length
  have hmod : s.length % 2 ^ 64 = s.length := Nat.mod_eq_of_lt (by omega)
  refine ⟨⟨some (std_copy_values N W s buf (XbitVector.make_iter N W 0)).1, s.length,
    XbitVector.external_cap_to_internal N W s.length, a⟩, ?_, ?_, rfl, ?_⟩
  · unfold XbitVector.ofList
    simp only [if_pos hpos, hv, XbitVector.construct_at_end, XbitVector.setMem, XbitVector.mem,
      Option.map_some', Option.getD_some, Nat.zero_add, hmod]
  · unfold XbitVector.ofRange
    simp only [if_pos hpos, hv, XbitVector.construct_at_end, XbitVector.setMem, XbitVector.mem,
      Option.map_some', Option.getD_some, Nat.zero_add, hmod]
  · intro i hi
    have hget : XbitVector.get N W ⟨some (std_copy_values N W s buf
        (XbitVector.make_iter N W 0)).1, s.length,
        XbitVector.external_cap_to_internal N W s.length, a⟩ i
        = elemAt N W (std_copy_values N W s buf (XbitVector.make_iter N W 0)).1 i := rfl
    rw [hget, std_copy_values_elemAt g _ _ _ _ (by rw [hlen, hext]; omega),
      if_pos (by omega), Nat.sub_zero, List.getD_eq_getElem _ _ hi]
    exact Nat.mod_eq_of_lt (hs _ (List.getElem_mem hi))

/-! ## Growth -/

theorem valid_empty (N W : Nat) (a : Allocator) : XbitVector.Valid N W (XbitVector.empty a) :=
  ⟨rfl, rfl, by simp [XbitVector.empty]⟩

theorem mem_put (N W : Nat) (v : XbitVector) (it : XbitIterator) (x : Nat) :
    (XbitVector.put N W v it x).mem = XbitIterator.put N W v.mem it x := by
  unfold XbitVector.put XbitVector.mem
  cases v.begin_ with
  | none =>
    have h := put_length N W [] it x
    simp only [Option.map_none', Option.getD_none]
    exact (List.length_eq_zero.mp h).symm
  | some m => rfl

theorem mem_setMem (v : XbitVector) (m : List Nat) (h : m.length = v.mem.length) :
    (v.setMem m).mem = m := by
  unfold XbitVector.setMem XbitVector.mem at *
  cases hb : v.begin_ with
  | none =>
    rw [hb] at h
    simp only [Option.map_none', Option.getD_none] at h ⊢
    exact (List.length_eq_zero.mp h).symm
  | some m0 => rfl

theorem max_size_ge_block {N W : Nat} (g : GoodWidths N W) (v : XbitVector)
    (h : 0 < XbitVector.max_size N W v) : xbits_per_block N W ≤ XbitVector.max_size N W v := by
  have he := g.e_le
  unfold XbitVector.max_size XbitVector.internal_cap_to_external SIZE_MAX at h ⊢
  simp only at h ⊢
  split
  · have : (2 ^ 64 - 1) / 2 = 2 ^ 63 - 1 := by decide
    omega
  · rename_i hlt
    rw [if_neg hlt] at h
    have h1 : v.alloc_.max_size ≤ (2 ^ 64 - 1) / 2 / xbits_per_block N W := by omega
    have h2 : v.alloc_.max_size * xbits_per_block N W
        ≤ (2 ^ 64 - 1) / 2 / xbits_per_block N W * xbits_per_block N W :=
      Nat.mul_le_mul_right _ h1
    have h3 := Nat.div_mul_le_self ((2 ^ 64 - 1) / 2) (xbits_per_block N W)
    have h5 : (2 ^ 64 - 1) / 2 = 2 ^ 63 - 1 := by decide
    have hmod : v.alloc_.max_size * xbits_per_block N W % 2 ^ 64
        = v.alloc_.max_size * xbits_per_block N W := Nat.mod_eq_of_lt (by omega)
    rw [hmod] at h ⊢
    have hpos : 0 < v.alloc_.max_size := by
      rcases Nat.eq_zero_or_pos v.alloc_.max_size with h0 | h0
      · rw [h0, Nat.zero_mul] at h; exact absurd h (Nat.lt_irrefl 0)
      · exact h0
    calc xbits_per_block N W = 1 * xbits_per_block N W := (Nat.one_mul _).symm
      _ ≤ v.alloc_.max_size * xbits_per_block N W := Nat.mul_le_mul_right _ hpos

theorem align_it_ge {N W : Nat} (g : GoodWidths N W) (n : Nat) (h1 : n < 2 ^ 63) :
    n ≤ XbitVector.align_it N W n := by
  rcases Nat.eq_zero_or_pos n with h0 | h0
  · omega
  · rw [align_it_blocks g n h0 h1]
    exact blocks_cover g n

/-- The value of `recommend(new_size)` when the request passes the length check. -/
theorem recommend_eq {N W : Nat} (v : XbitVector) (hv : XbitVector.Valid N W v) (ns : Nat)
    (h : ns ≤ XbitVector.max_size N W v) :
    XbitVector.recommend N W v ns = Except.ok
      (if v.cap_ * xbits_per_block N W ≥ XbitVector.max_size N W v / 2
        then XbitVector.max_size N W v
        else max (2 * (v.cap_ * xbits_per_block N W)) (XbitVector.align_it N W ns)) := by
  unfold XbitVector.recommend
  have hcl := hv.cap_lt
  simp only [if_neg (Nat.not_lt.mpr h), hv.capacity_eq]
  have : 2 * (v.cap_ * xbits_per_block N W) % 2 ^ 64 = 2 * (v.cap_ * xbits_per_block N W) :=
    Nat.mod_eq_of_lt (by omega)
  rw [this]
  split <;> rfl

/-- When the buffer is full, `recommend(size_ + 1)` yields a capacity that holds one more
element and that `vallocate` accepts. -/
theorem recommend_full {N W : Nat} (g : GoodWidths N W) (v : XbitVector)
    (hv : XbitVector.Valid N W v) (hfull : v.size_ = v.cap_ * xbits_per_block N W)
    (h : v.size_ < XbitVector.max_size N W v) :
    ∃ c, XbitVector.recommend N W v (v.size_ + 1) = Except.ok c ∧ v.size_ + 1 ≤ c ∧
      c ≤ XbitVector.max_size N W v := by
  have hmax := max_size_le g v
  have hcl := hv.cap_lt
  refine ⟨_, recommend_eq v hv (v.size_ + 1) (by omega), ?_, ?_⟩
  · split
    · omega
    · have := align_it_ge g (v.size_ + 1) (by omega)
      omega
  · split
    · exact Nat.le_refl _
    · rename_i hlt
      have hal := align_it_blocks g (v.size_ + 1) (by omega) (by omega)
      have hge := max_size_ge_block g v (by omega)
      have hdiv : (v.size_ + 1 - 1) / xbits_per_block N W = v.cap_ := by
        rw [Nat.add_sub_cancel, hfull, Nat.mul_div_cancel _ g.e_pos]
      rw [hal, hdiv, Nat.add_mul, Nat.one_mul]
      rcases Nat.eq_zero_or_pos v.cap_ with h0 | h0
      · rw [h0]; omega
      · have : xbits_per_block N W ≤ v.cap_ * xbits_per_block N W :=
          Nat.le_mul_of_pos_left _ h0
        omega

/-- The effect of `reserve(c)` on the temporary `XbitVector v(alloc_)`. -/
theorem reserve_empty {N W : Nat} (g : GoodWidths N W) (a : Allocator) (c : Nat) (h0 : 0 < c)
    (hc : c ≤ XbitVector.max_size N W (XbitVector.empty a))
    (ha : a.avail (XbitVector.external_cap_to_internal N W c) = true) :
    ∃ buf, buf.length = (c - 1) / xbits_per_block N W + 1 ∧
      c ≤ buf.length * xbits_per_block N W ∧
      XbitVector.reserve N W (XbitVector.empty a) c
        = Except.ok ⟨some buf, 0, (c - 1) / xbits_per_block N W + 1, a⟩ := by
  have hmax := max_size_le g (XbitVector.empty a)
  have hcap : c > XbitVector.capacity N W (XbitVector.empty a) := by
    rw [(valid_empty N W a).capacity_eq]
    simpa [XbitVector.empty] using h0
  obtain ⟨buf, hlen, hr, _⟩ := reserve_grow g _ (valid_empty N W a) c hcap hc ha
  have hext := external_cap_to_internal_eq N W c h0 (by omega)
  rw [hext] at hlen hr
  exact ⟨buf, hlen, by rw [hlen]; exact blocks_cover g c, hr⟩

/-- The effect of `push_back(x)`. -/
theorem push_back_ok {N W : Nat} (g : GoodWidths N W) (v : XbitVector)
    (hv : XbitVector.Valid N W v) (x : Nat)
    (hn : v.size_ = XbitVector.capacity N W v → v.size_ < XbitVector.max_size N W v)
    (ha : v.size_ = XbitVector.capacity N W v → ∀ k, v.alloc_.avail k = true) :
    ∃ v1, XbitVector.push_back N W v x = Except.ok v1 ∧ v1.size_ = v.size_ + 1 ∧
      elemAt N W v1.mem v.size_ = x % 2 ^ N ∧
      ∀ i, i < v.size_ → elemAt N W v1.mem i = elemAt N W v.mem i := by
  have hmax := max_size_le g v
  have hcl := hv.cap_lt
  have hsz := hv.size_le
  have hce := hv.capacity_eq
  have hmod : (v.size_ + 1) % 2 ^ 64 = v.size_ + 1 := Nat.mod_eq_of_lt (by omega)
  have hsub : XbitIterator.sub N W (XbitVector.make_iter N W (v.size_ + 1)) 1
      = XbitVector.make_iter N W v.size_ := by
    rw [sub_one_make_iter g _ (by omega) (by omega), Nat.add_sub_cancel]
  by_cases hfull : v.size_ = XbitVector.capacity N W v
  · have hn1 := hn hfull
    obtain ⟨c, hrec, hc1, hc2⟩ := recommend_full g v hv (hfull.trans hce) hn1
    obtain ⟨buf, hlen, hres, hel⟩ := reserve_grow g v hv c (by omega) hc2 (ha hfull _)
    have hext := external_cap_to_internal_eq N W c (by omega) (by omega)
    have hcover := blocks_cover g c
    refine ⟨XbitVector.put N W ⟨some buf, v.size_ + 1,
      XbitVector.external_cap_to_internal N W c, v.alloc_⟩
      (XbitVector.make_iter N W v.size_) x, ?_, rfl, ?_, ?_⟩
    · unfold XbitVector.push_back
      simp only [if_pos hfull, hmod, hrec, hres, XbitVector.end, hsub]
    · rw [mem_put]
      exact elemAt_put_same g buf _ x (by rw [hlen, hext]; omega)
    · intro i hi
      rw [mem_put]
      have : elemAt N W (XbitIterator.put N W buf (XbitVector.make_iter N W v.size_) x) i
          = elemAt N W buf i := elemAt_put_other g buf _ i x (by omega)
      exact this.trans (hel i hi)
  · refine ⟨XbitVector.put N W { v with size_ := v.size_ + 1 }
      (XbitVector.make_iter N W v.size_) x, ?_, rfl, ?_, ?_⟩
    · unfold XbitVector.push_back
      simp only [if_neg hfull, hmod, XbitVector.end, hsub]
    · rw [mem_put]
      have hlt : v.size_ < v.mem.length * xbits_per_block N W := by rw [hv.len]; omega
      exact elemAt_put_same g v.mem _ x hlt
    · intro i hi
      rw [mem_put]
      exact elemAt_put_other g v.mem _ i x (by omega)

/-- The effect of `insert(position, x)` at the position with index `p`. -/
theorem insert_ok {N W : Nat} (g : GoodWidths N W) (v : XbitVector)
    (hv : XbitVector.Valid N W v) (p x : Nat) (hp : p ≤ v.size_)
    (hn : v.size_ = XbitVector.capacity N W v → v.size_ < XbitVector.max_size N W v)
    (ha : v.size_ = XbitVector.capacity N W v → ∀ k, v.alloc_.avail k = true) :
    ∃ v1, XbitVector.insert N W v (XbitVector.make_iter N W p) x
        = Except.ok (v1, XbitVector.make_iter N W p) ∧
      v1.size_ = v.size_ + 1 ∧
      elemAt N W v1.mem p = x % 2 ^ N ∧
      (∀ i, i < p → elemAt N W v1.mem i = elemAt N W v.mem i) ∧
      (∀ i, p ≤ i → i < v.size_ → elemAt N W v1.mem (i + 1) = elemAt N W v.mem i) := by
  have hmax := max_size_le g v
  have hcl := hv.cap_lt
  have hsz := hv.size_le
  have hce := hv.capacity_eq
  have hmod : (v.size_ + 1) % 2 ^ 64 = v.size_ + 1 := Nat.mod_eq_of_lt (by omega)
  have hd1 : (XbitIterator.diff N W (XbitVector.make_iter N W v.size_)
      (XbitVector.make_iter N W p)).toNat = v.size_ - p := by
    rw [diff_make_iter g _ _ (by omega) (by omega)]
    omega
  have hd2 : (XbitIterator.diff N W (XbitVector.make_iter N W p)
      (XbitVector.make_iter N W 0)).toNat = p := by
    rw [diff_make_iter g _ _ (by omega) (by omega)]
    simp
  by_cases hfull : v.size < XbitVector.capacity N W v
  · -- spare capacity: shift the tail in place
    have hlt : v.size_ < v.cap_ * xbits_per_block N W := by rw [← hce]; exact hfull
    let m2 := std_copy_backward N W Source.same (v.size_ - p)
      (XbitVector.make_iter N W v.size_) v.mem (XbitVector.make_iter N W (v.size_ + 1))
    have hm2len : m2.length = v.mem.length := std_copy_backward_length _ _ _ _ _ _ _
    have hm2 : ∀ j, elemAt N W m2 j
        = if v.size_ + 1 - (v.size_ - p) ≤ j ∧ j < v.size_ + 1
          then srcAt N W Source.same v.mem (v.size_ - (v.size_ + 1 - j))
          else elemAt N W v.mem j := fun j =>
      std_copy_backward_elemAt g Source.same (v.size_ - p) v.mem v.size_ (v.size_ + 1) j
        (by omega) (by omega) (fun _ => by omega) (by rw [hv.len]; omega)
    have hmem : (XbitVector.setMem { v with size_ := v.size_ + 1 } m2).mem = m2 :=
      mem_setMem _ m2 hm2len
    refine ⟨XbitVector.put N W (XbitVector.setMem { v with size_ := v.size_ + 1 } m2)
      (XbitVector.make_iter N W p) x, ?_, rfl, ?_, ?_, ?_⟩
    · unfold XbitVector.insert
      simp only [if_pos hfull, hmod, XbitVector.end, hd1,
        const_iterator_cast_make_iter g _ p (by omega)]
      rfl
    · rw [mem_put, hmem]
      exact elemAt_put_same g m2 p x (by rw [hm2len, hv.len]; omega)
    · intro i hi
      rw [mem_put, hmem, elemAt_put_other g m2 p i x (by omega), hm2, if_neg (by omega)]
    · intro i hi1 hi2
      rw [mem_put, hmem, elemAt_put_other g m2 p (i + 1) x (by omega), hm2, if_pos (by omega)]
      have : v.size_ - (v.size_ + 1 - (i + 1)) = i := by omega
      rw [this]
      rfl
  · -- no spare capacity: build the result in a new buffer
    have hfull1 : v.size_ = XbitVector.capacity N W v := by
      have : v.size = v.size_ := rfl
      omega
    have hn1 := hn hfull1
    obtain ⟨c, hrec, hc1, hc2⟩ := recommend_full g v hv (hfull1.trans hce) hn1
    have hms : XbitVector.max_size N W (XbitVector.empty v.alloc_) = XbitVector.max_size N W v :=
      max_size_alloc N W _ _ rfl
    obtain ⟨buf, hlen, hcov, hres⟩ := reserve_empty g v.alloc_ c (by omega)
      (by rw [hms]; exact hc2) (ha hfull1 _)
    let m1 := (std_copy N W (Source.other v.mem) p (XbitVector.make_iter N W 0) buf
      (XbitVector.make_iter N W 0)).1
    have hm1len : m1.length = buf.length := std_copy_length _ _ _ _ _ _ _
    have hm1 : ∀ j, elemAt N W m1 j
        = if 0 ≤ j ∧ j < 0 + p then srcAt N W (Source.other v.mem) buf (0 + (j - 0))
          else elemAt N W buf j := fun j =>
      std_copy_elemAt g (Source.other v.mem) p buf 0 0 j (fun h => by cases h) (by omega)
    have hr : (std_copy N W (Source.other v.mem) p (XbitVector.make_iter N W 0) buf
        (XbitVector.make_iter N W 0)).2 = XbitVector.make_iter N W p := by
      rw [std_copy_iter g, Nat.zero_add]
    let m2 := std_copy_backward N W (Source.other v.mem) (v.size_ - p)
      (XbitVector.make_iter N W v.size_) m1 (XbitVector.make_iter N W (v.size_ + 1))
    have hm2len : m2.length = m1.length := std_copy_backward_length _ _ _ _ _ _ _
    have hm2 : ∀ j, elemAt N W m2 j
        = if v.size_ + 1 - (v.size_ - p) ≤ j ∧ j < v.size_ + 1
          then srcAt N W (Source.other v.mem) m1 (v.size_ - (v.size_ + 1 - j))
          else elemAt N W m1 j := fun j =>
      std_copy_backward_elemAt g (Source.other v.mem) (v.size_ - p) m1 v.size_ (v.size_ + 1) j
        (by omega) (by omega) (fun h => by cases h) (by rw [hm1len]; omega)
    have hmem2 : (⟨some m2, v.size_ + 1, (c - 1) / xbits_per_block N W + 1,
        v.alloc_⟩ : XbitVector).mem = m2 := rfl
    have hr1 := hr
    unfold XbitVector.mem at hr1
    refine ⟨XbitVector.put N W ⟨some m2, v.size_ + 1, (c - 1) / xbits_per_block N W + 1,
      v.alloc_⟩ (XbitVector.make_iter N W p) x, ?_, rfl, ?_, ?_, ?_⟩
    · unfold XbitVector.insert
      simp only [if_neg hfull, hmod, hrec, hres, XbitVector.end, XbitVector.begin, hd1, hd2,
        XbitVector.setMem, XbitVector.mem, XbitVector.swap, Option.map_some',
        Option.getD_some, hr1]
      split <;> rfl
    · rw [mem_put, hmem2]
      exact elemAt_put_same g m2 p x (by rw [hm2len, hm1len]; omega)
    · intro i hi
      rw [mem_put, hmem2, elemAt_put_other g m2 p i x (by omega), hm2, if_neg (by omega), hm1,
        if_pos (by omega)]
      simp only [Nat.zero_add, Nat.sub_zero]
      rfl
    · intro i hi1 hi2
      rw [mem_put, hmem2, elemAt_put_other g m2 p (i + 1) x (by omega), hm2, if_pos (by omega)]
      have : v.size_ - (v.size_ + 1 - (i + 1)) = i := by omega
      rw [this]
      rfl

/-- The effect of `erase(first, last)` for the positions with indices `a <= b`. -/
theorem erase_ok {N W : Nat} (g : GoodWidths N W) (v : XbitVector)
    (hv : XbitVector.Valid N W v) (a b : Nat) (hab : a ≤ b) (hb : b ≤ v.size_) :
    (XbitVector.erase N W v (XbitVector.make_iter N W a) (XbitVector.make_iter N W b)).2
        = XbitVector.make_iter N W a ∧
      (XbitVector.erase N W v (XbitVector.make_iter N W a) (XbitVector.make_iter N W b)).1.size_
        = v.size_ - (b - a) ∧
      (XbitVector.erase N W v (XbitVector.make_iter N W a) (XbitVector.make_iter N W b)).1.cap_
        = v.cap_ ∧
      ∀ j, elemAt N W
          (XbitVector.erase N W v (XbitVector.make_iter N W a) (XbitVector.make_iter N W b)).1.mem j
        = if a ≤ j ∧ j < a + (v.size_ - b) then elemAt N W v.mem (b + (j - a))
          else elemAt N W v.mem j := by
  have hcl := hv.cap_lt
  have hsz := hv.size_le
  have hd1 : (XbitIterator.diff N W (XbitVector.make_iter N W v.size_)
      (XbitVector.make_iter N W b)).toNat = v.size_ - b := by
    rw [diff_make_iter g _ _ (by omega) (by omega)]
    omega
  have hd2 : XbitIterator.diff N W (XbitVector.make_iter N W b) (XbitVector.make_iter N W a)
      = ((b - a : Nat) : Int) := by
    rw [diff_make_iter g _ _ (by omega) (by omega)]
    omega
  have hcast := const_iterator_cast_make_iter g v a (by omega)
  let m1 := (std_copy N W Source.same (v.size_ - b) (XbitVector.make_iter N W b) v.mem
    (XbitVector.make_iter N W a)).1
  have hm1len : m1.length = v.mem.length := std_copy_length _ _ _ _ _ _ _
  have hmem : (v.setMem m1).mem = m1 := mem_setMem v m1 hm1len
  have herase : XbitVector.erase N W v (XbitVector.make_iter N W a) (XbitVector.make_iter N W b)
      = ({ v.setMem m1 with size_ := toSize (((v.setMem m1).size_ : Int) - ((b - a : Nat) : Int)) },
          XbitVector.make_iter N W a) := by
    unfold XbitVector.erase
    simp only [XbitVector.end, hd1, hd2, hcast]
  have hsize : toSize (((v.setMem m1).size_ : Int) - ((b - a : Nat) : Int)) = v.size_ - (b - a) := by
    have h1 : (v.setMem m1).size_ = v.size_ := rfl
    rw [h1, toSize_of_nonneg _ (by omega) (by omega)]
    omega
  rw [herase]
  refine ⟨rfl, hsize, rfl, ?_⟩
  intro j
  have hm : ({ v.setMem m1 with
      size_ := toSize (((v.setMem m1).size_ : Int) - ((b - a : Nat) : Int)) } : XbitVector).mem
      = m1 := hmem
  simp only [hm]
  exact std_copy_elemAt g Source.same (v.size_ - b) v.mem b a j (fun _ => hab)
    (by rw [hv.len]; omega)

/-- The effect of `resize(sz, x)`. -/
theorem resize_ok {N W : Nat} (g : GoodWidths N W) (v : XbitVector)
    (hv : XbitVector.Valid N W v) (sz x : Nat)
    (hn : sz > XbitVector.capacity N W v →
      sz ≤ XbitVector.max_size N W v ∧ XbitVector.align_it N W sz ≤ XbitVector.max_size N W v)
    (ha : sz > XbitVector.capacity N W v → ∀ k, v.alloc_.avail k = true) :
    ∃ v1, XbitVector.resize N W v sz x = Except.ok v1 ∧ v1.size_ = sz ∧
      (∀ i, i < v.size_ → i < sz → elemAt N W v1.mem i = elemAt N W v.mem i) ∧
      (∀ i, v.size_ ≤ i → i < sz → elemAt N W v1.mem i = x % 2 ^ N) := by
  have hmax := max_size_le g v
  have hcl := hv.cap_lt
  have hsz := hv.size_le
  have hce := hv.capacity_eq
  by_cases hgrow : v.size_ < sz
  · have hadd : v.size_ + (sz - v.size_) = sz := by omega
    by_cases hfit : sz - v.size_ ≤ XbitVector.capacity N W v
        ∧ v.size_ ≤ XbitVector.capacity N W v - (sz - v.size_)
    · -- the new elements fit the buffer
      have hfit1 : sz ≤ v.cap_ * xbits_per_block N W := by omega
      have hmod : (v.size_ + (sz - v.size_)) % 2 ^ 64 = sz := by
        rw [hadd]; exact Nat.mod_eq_of_lt (by omega)
      let m1 := std_fill_n N W (sz - v.size_) v.mem (XbitVector.make_iter N W v.size_) x
      have hm1len : m1.length = v.mem.length := std_fill_n_length _ _ _ _ _ _
      have hm1 : ∀ j, elemAt N W m1 j
          = if v.size_ ≤ j ∧ j < v.size_ + (sz - v.size_) then x % 2 ^ N
            else elemAt N W v.mem j := fun j =>
        std_fill_n_elemAt g (sz - v.size_) v.mem v.size_ x j (by rw [hv.len]; omega)
      have hmem : (XbitVector.setMem { v with size_ := sz } m1).mem = m1 :=
        mem_setMem _ m1 hm1len
      refine ⟨XbitVector.setMem { v with size_ := sz } m1, ?_, rfl, ?_, ?_⟩
      · unfold XbitVector.resize
        simp only [XbitVector.size, if_pos hgrow, if_pos hfit, XbitVector.end, hmod]
        rfl
      · intro i hi1 hi2
        rw [hmem, hm1, if_neg (by omega)]
      · intro i hi1 hi2
        rw [hmem, hm1, if_pos (by omega)]
    · -- reallocation
      have hbig : sz > XbitVector.capacity N W v := by omega
      obtain ⟨hn1, hn2⟩ := hn hbig
      have hmod : (v.size_ + (sz - v.size_)) % 2 ^ 64 = sz := by
        rw [hadd]; exact Nat.mod_eq_of_lt (by omega)
      have hrec := recommend_eq v hv sz hn1
      have halge := align_it_ge g sz (by omega)
      obtain ⟨c, hc⟩ : ∃ c, c = (if v.cap_ * xbits_per_block N W ≥ XbitVector.max_size N W v / 2
          then XbitVector.max_size N W v
          else max (2 * (v.cap_ * xbits_per_block N W)) (XbitVector.align_it N W sz)) := ⟨_, rfl⟩
      rw [← hc] at hrec
      have hc1 : sz ≤ c := by
        rw [hc]; split <;> omega
      have hc2 : c ≤ XbitVector.max_size N W v := by
        rw [hc]; split <;> omega
      have hms : XbitVector.max_size N W (XbitVector.empty v.alloc_)
          = XbitVector.max_size N W v := max_size_alloc N W _ _ rfl
      obtain ⟨buf, hlen, hcov, hres⟩ := reserve_empty g v.alloc_ c (by omega)
        (by rw [hms]; exact hc2) (ha hbig _)
      have hd : (XbitIterator.diff N W (XbitVector.make_iter N W v.size_)
          (XbitVector.make_iter N W 0)).toNat = v.size_ := by
        rw [diff_make_iter g _ _ (by omega) (by omega)]
        simp
      let m1 := (std_copy N W (Source.other v.mem) v.size_ (XbitVector.make_iter N W 0) buf
        (XbitVector.make_iter N W 0)).1
      have hm1len : m1.length = buf.length := std_copy_length _ _ _ _ _ _ _
      have hm1 : ∀ j, elemAt N W m1 j
          = if 0 ≤ j ∧ j < 0 + v.size_ then srcAt N W (Source.other v.mem) buf (0 + (j - 0))
            else elemAt N W buf j := fun j =>
        std_copy_elemAt g (Source.other v.mem) v.size_ buf 0 0 j (fun h => by cases h) (by omega)
      have hr : (std_copy N W (Source.other v.mem) v.size_ (XbitVector.make_iter N W 0) buf
          (XbitVector.make_iter N W 0)).2 = XbitVector.make_iter N W v.size_ := by
        rw [std_copy_iter g, Nat.zero_add]
      have hr1 := hr
      unfold XbitVector.mem at hr1
      let m2 := std_fill_n N W (sz - v.size_) m1 (XbitVector.make_iter N W v.size_) x
      have hm2len : m2.length = m1.length := std_fill_n_length _ _ _ _ _ _
      have hm2 : ∀ j, elemAt N W m2 j
          = if v.size_ ≤ j ∧ j < v.size_ + (sz - v.size_) then x % 2 ^ N
            else elemAt N W m1 j := fun j =>
        std_fill_n_elemAt g (sz - v.size_) m1 v.size_ x j (by rw [hm1len]; omega)
      refine ⟨⟨some m2, sz, (c - 1) / xbits_per_block N W + 1, v.alloc_⟩, ?_, rfl, ?_, ?_⟩
      · unfold XbitVector.resize
        simp only [XbitVector.size, if_pos hgrow, if_neg hfit, hmod, hrec, hres, XbitVector.end,
          XbitVector.begin, hd, XbitVector.setMem, XbitVector.mem, XbitVector.swap,
          Option.map_some', Option.getD_some, hr1]
        split <;> rfl
      · intro i hi1 hi2
        have hmem2 : (⟨some m2, sz, (c - 1) / xbits_per_block N W + 1,
            v.alloc_⟩ : XbitVector).mem = m2 := rfl
        rw [hmem2, hm2, if_neg (by omega), hm1, if_pos (by omega)]
        simp only [Nat.zero_add, Nat.sub_zero]
        rfl
      · intro i hi1 hi2
        have hmem2 : (⟨some m2, sz, (c - 1) / xbits_per_block N W + 1,
            v.alloc_⟩ : XbitVector).mem = m2 := rfl
        rw [hmem2, hm2, if_pos (by omega)]
  · refine ⟨{ v with size_ := sz }, ?_, rfl, fun _ _ _ => rfl, ?_⟩
    · unfold XbitVector.resize
      simp only [XbitVector.size, if_neg hgrow]
    · intro i hi1 hi2
      omega

/-- On a non-empty container the guard of `shrink_to_fit()` is false, so nothing
happens. -/
theorem shrink_to_fit_nonempty {N W : Nat} (g : GoodWidths N W) (v : XbitVector)
    (hv : XbitVector.Valid N W v) (h0 : 0 < v.size_) : XbitVector.shrink_to_fit N W v = v := by
  have hcl := hv.cap_lt
  have hsz := hv.size_le
  have he := g.e_pos
  unfold XbitVector.shrink_to_fit
  have hext := external_cap_to_internal_eq N W v.size_ h0 (by omega)
  have hle : (v.size_ - 1) / xbits_per_block N W + 1 ≤ v.cap_ := by
    have : (v.size_ - 1) / xbits_per_block N W < v.cap_ :=
      (Nat.div_lt_iff_lt_mul he).mpr (by omega)
    omega
  have : ¬ XbitVector.external_cap_to_internal N W v.size > v.cap_ := by
    have h1 : v.size = v.size_ := rfl
    rw [h1, hext]
    omega
  rw [if_neg this]

/-! ## Iterator arithmetic for arbitrary block pointers -/

theorem diff_make_iter_gen {N W : Nat} (g : GoodWidths N W) (a b : Nat) :
    XbitIterator.diff N W (XbitVector.make_iter N W a) (XbitVector.make_iter N W b)
      = toSigned (toSize ((a : Int) - (b : Int))) := by
  rw [make_iter_eq g, make_iter_eq g]
  unfold XbitIterator.diff
  simp only
  have hda := Nat.div_add_mod a (xbits_per_block N W)
  have hdb := Nat.div_add_mod b (xbits_per_block N W)
  have key : (((a / xbits_per_block N W : Nat) : Int) - ((b / xbits_per_block N W : Nat) : Int))
      * (xbits_per_block N W : Int) + ((a % xbits_per_block N W : Nat) : Int)
      - ((b % xbits_per_block N W : Nat) : Int) = (a : Int) - (b : Int) := by
    have ha' : (a : Int) = (xbits_per_block N W : Int) * ((a / xbits_per_block N W : Nat) : Int)
        + ((a % xbits_per_block N W : Nat) : Int) := by exact_mod_cast hda.symm
    have hb' : (b : Int) = (xbits_per_block N W : Int) * ((b / xbits_per_block N W : Nat) : Int)
        + ((b % xbits_per_block N W : Nat) : Int) := by exact_mod_cast hdb.symm
    rw [ha', hb']
    ring
  rw [key]

/-- Moving the block pointer of the start by `d` moves the result of `incr` by `d`. -/
theorem incr_shift (N W : Nat) (s d : Int) (o : Nat) (n : Int) :
    XbitIterator.incr N W ⟨s + d, o⟩ n
      = ⟨(XbitIterator.incr N W ⟨s, o⟩ n).seg_ + d, (XbitIterator.incr N W ⟨s, o⟩ n).offset_⟩ := by
  unfold XbitIterator.incr
  simp only
  split
  · congr 1
    omega
  · congr 1
    omega

theorem diff_shift (N W : Nat) (x y : XbitIterator) (d : Int) :
    XbitIterator.diff N W ⟨x.seg_ + d, x.offset_⟩ ⟨y.seg_ + d, y.offset_⟩
      = XbitIterator.diff N W x y := by
  unfold XbitIterator.diff
  simp only
  have : x.seg_ + d - (y.seg_ + d) = x.seg_ - y.seg_ := by omega
  rw [this]

/-- The effect of `it + n` for an iterator with a valid offset and any block pointer,
for every `n` from `-2^63 + xbits_per_block` on. -/
theorem incr_any {N W : Nat} (g : GoodWidths N W) (it : XbitIterator) (n : Int)
    (ho : it.offset_ < xbits_per_block N W)
    (hlo : -2 ^ 63 + (xbits_per_block N W : Int) ≤ n) (hhi : n < 2 ^ 63) :
    (XbitIterator.incr N W it n).offset_ < xbits_per_block N W ∧
      XbitIterator.diff N W (XbitIterator.incr N W it n) it = n ∧
      (XbitIterator.incr N W it n).seg_ * (xbits_per_block N W : Int)
          + ((XbitIterator.incr N W it n).offset_ : Int)
        = it.seg_ * (xbits_per_block N W : Int) + (it.offset_ : Int) + n := by
  have he := g.e_pos
  have he32 := g.e_le
  obtain ⟨q, hq⟩ := g.e_dvd 63 (by decide)
  -- a position in the block `q - 1` with the offset of `it`
  have hq1 : 1 ≤ q := by
    rcases Nat.eq_zero_or_pos q with h0 | h0
    · rw [h0, Nat.mul_zero] at hq; exact absurd hq (by decide)
    · exact h0
  have hmul : xbits_per_block N W * (q - 1) + xbits_per_block N W = 2 ^ 63 := by
    have : xbits_per_block N W * (q - 1) + xbits_per_block N W
        = xbits_per_block N W * (q - 1 + 1) := by rw [Nat.mul_add, Nat.mul_one]
    rw [this, Nat.sub_add_cancel hq1, ← hq]
  obtain ⟨a, ha⟩ : ∃ a, a = xbits_per_block N W * (q - 1) + it.offset_ := ⟨_, rfl⟩
  have hadiv : a / xbits_per_block N W = q - 1 := by
    rw [ha, Nat.add_comm, Nat.add_mul_div_left _ _ he, Nat.div_eq_of_lt ho, Nat.zero_add]
  have hamod : a % xbits_per_block N W = it.offset_ := by
    rw [ha, Nat.add_comm, Nat.add_mul_mod_self_left, Nat.mod_eq_of_lt ho]
  have hbase : XbitVector.make_iter N W a = ⟨((q - 1 : Nat) : Int), it.offset_⟩ := by
    rw [make_iter_eq g, hadiv, hamod]
  have hit : it = ⟨((q - 1 : Nat) : Int) + (it.seg_ - ((q - 1 : Nat) : Int)), it.offset_⟩ := by
    cases it with
    | mk s o => simp
  -- the result at the base position
  obtain ⟨b, hb, hres⟩ : ∃ b : Nat, (b : Int) = (a : Int) + n ∧
      XbitIterator.incr N W (XbitVector.make_iter N W a) n = XbitVector.make_iter N W b := by
    by_cases hn : 0 ≤ n
    · refine ⟨a + n.toNat, by push_cast; rw [Int.toNat_of_nonneg hn], ?_⟩
      have := incr_make_iter_nonneg g a n.toNat (by omega)
      rw [Int.toNat_of_nonneg hn] at this
      exact this
    · refine ⟨a - (-n).toNat, by omega, ?_⟩
      have := incr_make_iter_neg g a (-n).toNat (by omega) (by omega) (by omega)
      rw [Int.toNat_of_nonneg (by omega), Int.neg_neg] at this
      exact this
  have hshift := incr_shift N W ((q - 1 : Nat) : Int) (it.seg_ - ((q - 1 : Nat) : Int))
    it.offset_ n
  rw [← hit, ← hbase, hres] at hshift
  have hmk := make_iter_eq g b
  have hbd := Nat.div_add_mod b (xbits_per_block N W)
  have hbm := Nat.mod_lt b he
  rw [hshift, hmk]
  refine ⟨hbm, ?_, ?_⟩
  · have h1 := diff_shift N W ⟨((b / xbits_per_block N W : Nat) : Int),
      b % xbits_per_block N W⟩ ⟨((q - 1 : Nat) : Int), it.offset_⟩
      (it.seg_ - ((q - 1 : Nat) : Int))
    simp only at h1
    have h2 : ((q - 1 : Nat) : Int) + (it.seg_ - ((q - 1 : Nat) : Int)) = it.seg_ := by omega
    rw [h2] at h1
    have h3 : (⟨it.seg_, it.offset_⟩ : XbitIterator) = it := by
      cases it with
      | mk s o => rfl
    rw [h3] at h1
    rw [h1, ← hmk, ← hbase, diff_make_iter_gen g]
    have : (b : Int) - (a : Int) = n := by omega
    rw [this]
    apply toSigned_toSize <;> omega
  · simp only
    have h4 : ((b / xbits_per_block N W : Nat) : Int) * (xbits_per_block N W : Int)
        + ((b % xbits_per_block N W : Nat) : Int) = (b : Int) := by
      have : xbits_per_block N W * (b / xbits_per_block N W) + b % xbits_per_block N W = b := hbd
      have h5 : ((xbits_per_block N W * (b / xbits_per_block N W) + b % xbits_per_block N W
        : Nat) : Int) = (b : Int) := by rw [this]
      push_cast at h5
      rw [Int.mul_comm]
      exact h5
    have h6 : ((q - 1 : Nat) : Int) * (xbits_per_block N W : Int) + (it.offset_ : Int)
        = (a : Int) := by
      rw [ha]
      push_cast
      ring
    have h7 : (((b / xbits_per_block N W : Nat) : Int) + (it.seg_ - ((q - 1 : Nat) : Int)))
        * (xbits_per_block N W : Int) + ((b % xbits_per_block N W : Nat) : Int)
        = (((b / xbits_per_block N W : Nat) : Int) * (xbits_per_block N W : Int)
            + ((b % xbits_per_block N W : Nat) : Int))
          + it.seg_ * (xbits_per_block N W : Int)
          - ((q - 1 : Nat) : Int) * (xbits_per_block N W : Int) := by ring
    rw [h7, h4]
    omega

/-! ## `flip` -/

theorem complement_lt (W b : Nat) : complement W b < 2 ^ W := by
  unfold complement
  have := Nat.two_pow_pos W
  omega

theorem complement_testBit (W b i : Nat) :
    (complement W b).testBit i = (decide (i < W) && !b.testBit i) := by
  unfold complement
  have hlt : b % 2 ^ W < 2 ^ W := Nat.mod_lt _ (Nat.two_pow_pos W)
  have h1 : 2 ^ W - 1 - b % 2 ^ W = 2 ^ W - (b % 2 ^ W + 1) := by omega
  rw [h1, Nat.testBit_two_pow_sub_succ hlt, Nat.testBit_mod_two_pow]
  by_cases h : i < W <;> simp [h]

theorem complement_complement (W b : Nat) (h : b < 2 ^ W) :
    complement W (complement W b) = b := by
  unfold complement
  have h1 : b % 2 ^ W = b := Nat.mod_eq_of_lt h
  have h2 : (2 ^ W - 1 - b) % 2 ^ W = 2 ^ W - 1 - b := Nat.mod_eq_of_lt (by omega)
  rw [h1, h2]
  omega

/-- A field of the complemented block is the `N`-bit complement of the field. -/
theorem extract_complement (N W b shift : Nat) (hN : N ≤ W) (h8 : N ≤ 8)
    (hs : shift + N ≤ W) :
    XbitReference.extract N W (complement W b) shift
      = 2 ^ N - 1 - XbitReference.extract N W b shift := by
  have hx : XbitReference.extract N W b shift < 2 ^ N := by
    apply Nat.lt_pow_two_of_testBit
    intro j hj
    rw [extract_testBit N W _ _ _ hN h8]
    have : ¬ j < N := by omega
    simp [this]
  have h1 : 2 ^ N - 1 - XbitReference.extract N W b shift
      = 2 ^ N - (XbitReference.extract N W b shift + 1) := by omega
  rw [h1]
  apply Nat.eq_of_testBit_eq
  intro i
  rw [extract_testBit N W _ _ _ hN h8, complement_testBit, Nat.testBit_two_pow_sub_succ hx,
    extract_testBit N W _ _ _ hN h8]
  by_cases h : i < N
  · have : shift + i < W := by omega
    simp [h, this]
  · simp [h]

theorem load_natCast (m : List Nat) (j : Nat) : load m (j : Int) = m.getD j 0 := by
  unfold load
  simp

theorem getD_store (m : List Nat) (j i b : Nat) :
    (store m (j : Int) b).getD i 0 = if i = j ∧ j < m.length then b else m.getD i 0 := by
  unfold store
  rw [if_pos (Int.natCast_nonneg j), Int.toNat_natCast, List.getD_eq_getElem?_getD,
    List.getElem?_set]
  by_cases hij : j = i
  · subst hij
    by_cases hl : j < m.length
    · simp [hl]
    · have hnone : m[j]? = none := List.getElem?_eq_none (by omega)
      simp [hl, hnone]
  · have : ¬ (i = j ∧ j < m.length) := fun h => hij h.1.symm
    rw [if_neg hij, if_neg this, List.getD_eq_getElem?_getD]

/-- The loop of `flip()` started at block `j` ends within `fuel` iterations when
`fuel` covers the remaining elements, and complements exactly the blocks from `j` on
that the size spans. -/
theorem flip_loop_spec {N W : Nat} (g : GoodWidths N W) (size fuel : Nat) (m : List Nat)
    (j : Nat) (hsize : size ≤ 2 ^ 63) (hfuel : size ≤ (fuel + j) * xbits_per_block N W) :
    ∃ m1, XbitVector.flip_loop N W size fuel m (j : Int) (j * xbits_per_block N W) = some m1 ∧
      m1.length = m.length ∧
      ∀ i, m1.getD i 0
        = if j ≤ i ∧ i * xbits_per_block N W < size ∧ i < m.length
          then complement W (m.getD i 0) else m.getD i 0 := by
  have he := g.e_pos
  have he32 := g.e_le
  induction fuel generalizing m j with
  | zero =>
    unfold XbitVector.flip_loop
    rw [Nat.zero_add] at hfuel
    rw [if_neg (by omega)]
    refine ⟨m, rfl, rfl, ?_⟩
    intro i
    rw [if_neg]
    intro ⟨h1, h2, _⟩
    have : j * xbits_per_block N W ≤ i * xbits_per_block N W := Nat.mul_le_mul_right _ h1
    omega
  | succ fuel ih =>
    unfold XbitVector.flip_loop
    by_cases hn : j * xbits_per_block N W < size
    · rw [if_pos hn]
      have hnext : (j * xbits_per_block N W + xbits_per_block N W) % 2 ^ 64
          = (j + 1) * xbits_per_block N W := by
        rw [Nat.add_mul, Nat.one_mul]
        exact Nat.mod_eq_of_lt (by omega)
      have hp : ((j : Int) + 1) = ((j + 1 : Nat) : Int) := by push_cast; rfl
      rw [hnext, hp]
      obtain ⟨m1, h1, h2, h3⟩ := ih (store m (j : Int) (complement W (load m (j : Int))))
        (j + 1) (by rw [show fuel + (j + 1) = fuel + 1 + j by omega]; exact hfuel)
      refine ⟨m1, h1, by rw [h2, store_length], ?_⟩
      intro i
      rw [h3, store_length, getD_store, load_natCast]
      by_cases hij : i = j
      · subst hij
        rw [if_neg (by omega)]
        by_cases hl : i < m.length
        · rw [if_pos ⟨rfl, hl⟩, if_pos ⟨Nat.le_refl _, hn, hl⟩]
        · rw [if_neg (fun h => hl h.2), if_neg (fun h => hl h.2.2)]
      · have hne : ¬ (i = j ∧ j < m.length) := fun h => hij h.1
        rw [if_neg hne]
        by_cases hc : j + 1 ≤ i ∧ i * xbits_per_block N W < size ∧ i < m.length
        · rw [if_pos hc, if_pos ⟨by omega, hc.2.1, hc.2.2⟩]
        · rw [if_neg hc, if_neg]
          intro ⟨h4, h5, h6⟩
          exact hc ⟨by omega, h5, h6⟩
    · rw [if_neg hn]
      refine ⟨m, rfl, rfl, ?_⟩
      intro i
      rw [if_neg]
      intro ⟨h1, h2, _⟩
      have : j * xbits_per_block N W ≤ i * xbits_per_block N W := Nat.mul_le_mul_right _ h1
      omega

theorem elemAt_eq_extract {N W : Nat} (g : GoodWidths N W) (m : List Nat) (i : Nat) :
    elemAt N W m i = XbitReference.extract N W (m.getD (i / xbits_per_block N W) 0)
      (i % xbits_per_block N W * N) := by
  unfold elemAt
  rw [make_iter_eq g]
  unfold XbitIterator.get XbitReference.toUInt8 XbitIterator.deref XbitReference.ofOffset
  simp only
  rw [load_natCast]

/-- The effect of `flip()`. -/
theorem flip_ok {N W : Nat} (g : GoodWidths N W) (v : XbitVector)
    (hv : XbitVector.Valid N W v) (fuel : Nat) (hfuel : v.size_ ≤ fuel) :
    ∃ m1, XbitVector.flip N W fuel v = some (v.setMem m1) ∧ (v.setMem m1).mem = m1 ∧
      m1.length = v.mem.length ∧
      (∀ j, m1.getD j 0 = if j * xbits_per_block N W < v.size_
        then complement W (v.mem.getD j 0) else v.mem.getD j 0) ∧
      (∀ i, i < v.size_ → elemAt N W m1 i = 2 ^ N - 1 - elemAt N W v.mem i) := by
  have he := g.e_pos
  have hcl := hv.cap_lt
  have hsz := hv.size_le
  have hlen := hv.len
  have hf : v.size_ ≤ (fuel + 0) * xbits_per_block N W := by
    rw [Nat.add_zero]
    calc v.size_ ≤ fuel := hfuel
      _ = fuel * 1 := (Nat.mul_one _).symm
      _ ≤ fuel * xbits_per_block N W := Nat.mul_le_mul_left _ he
  obtain ⟨m1, h1, h2, h3⟩ := flip_loop_spec g v.size_ fuel v.mem 0 (by omega) hf
  have hblk : ∀ j, m1.getD j 0 = if j * xbits_per_block N W < v.size_
      then complement W (v.mem.getD j 0) else v.mem.getD j 0 := by
    intro j
    rw [h3 j]
    by_cases hj : j * xbits_per_block N W < v.size_
    · have hjl : j < v.mem.length := by
        rw [hlen]
        by_contra hcon
        have : v.cap_ * xbits_per_block N W ≤ j * xbits_per_block N W :=
          Nat.mul_le_mul_right _ (by omega)
        omega
      rw [if_pos ⟨Nat.zero_le _, hj, hjl⟩, if_pos hj]
    · rw [if_neg (fun h => hj h.2.1), if_neg hj]
  refine ⟨m1, ?_, mem_setMem v m1 h2, h2, hblk, ?_⟩
  · unfold XbitVector.flip
    have h0 : ((0 : Nat) : Int) = 0 := rfl
    rw [Nat.zero_mul, h0] at h1
    rw [h1]
    rfl
  · intro i hi
    rw [elemAt_eq_extract g, elemAt_eq_extract g, hblk]
    have hd := Nat.div_add_mod i (xbits_per_block N W)
    have hlt : i / xbits_per_block N W * xbits_per_block N W < v.size_ := by
      rw [Nat.mul_comm]; omega
    rw [if_pos hlt]
    exact extract_complement N W _ _ g.N_le_W g.N_le (g.shift_le _ (Nat.mod_lt _ he))

/-! ## Equality and ordering -/

theorem lexCompare_eq_iff (l1 l2 : List Nat) : lexCompare l1 l2 = Ordering.eq ↔ l1 = l2 := by
  induction l1 generalizing l2 with
  | nil =>
    cases l2 with
    | nil => simp [lexCompare]
    | cons y ys => simp [lexCompare]
  | cons x xs ih =>
    cases l2 with
    | nil => simp [lexCompare]
    | cons y ys =>
      unfold lexCompare
      by_cases h1 : x < y
      · rw [if_pos h1]
        constructor
        · intro h; exact absurd h (by decide)
        · intro h
          injection h with hx _
          omega
      · rw [if_neg h1]
        by_cases h2 : y < x
        · rw [if_pos h2]
          constructor
          · intro h; exact absurd h (by decide)
          · intro h
            injection h with hx _
            omega
        · rw [if_neg h2, ih]
          have hxy : x = y := by omega
          constructor
          · intro h; rw [hxy, h]
          · intro h
            injection h

theorem lexCompare_gt_iff (l1 l2 : List Nat) :
    lexCompare l1 l2 = Ordering.gt ↔ lexCompare l2 l1 = Ordering.lt := by
  induction l1 generalizing l2 with
  | nil =>
    cases l2 with
    | nil => simp [lexCompare]
    | cons y ys => simp [lexCompare]
  | cons x xs ih =>
    cases l2 with
    | nil => simp [lexCompare]
    | cons y ys =>
      unfold lexCompare
      by_cases h1 : x < y
      · have h2 : ¬ y < x := by omega
        simp [h1, h2]
      · by_cases h2 : y < x
        · simp [h1, h2]
        · simp only [if_neg h1, if_neg h2]
          exact ih ys

theorem lexCompare_lt_trans (l1 l2 l3 : List Nat) (h12 : lexCompare l1 l2 = Ordering.lt)
    (h23 : lexCompare l2 l3 = Ordering.lt) : lexCompare l1 l3 = Ordering.lt := by
  induction l1 generalizing l2 l3 with
  | nil =>
    cases l3 with
    | nil =>
      cases l2 with
      | nil => exact absurd h12 (by simp [lexCompare])
      | cons y ys => exact absurd h23 (by simp [lexCompare])
    | cons z zs => simp [lexCompare]
  | cons x xs ih =>
    cases l2 with
    | nil => exact absurd h12 (by simp [lexCompare])
    | cons y ys =>
      cases l3 with
      | nil => exact absurd h23 (by simp [lexCompare])
      | cons z zs =>
        unfold lexCompare at h12 h23 ⊢
        by_cases hxy : x < y
        · by_cases hyz : y < z
          · rw [if_pos (by omega : x < z)]
          · rw [if_neg hyz] at h23
            by_cases hzy : z < y
            · rw [if_pos hzy] at h23; exact absurd h23 (by decide)
            · rw [if_pos (by omega : x < z)]
        · rw [if_neg hxy] at h12
          by_cases hyx : y < x
          · rw [if_pos hyx] at h12; exact absurd h12 (by decide)
          · rw [if_neg hyx] at h12
            have hx : x = y := by omega
            subst hx
            by_cases hyz : x < z
            · rw [if_pos hyz]
            · rw [if_neg hyz] at h23 ⊢
              by_cases hzy : z < x
              · rw [if_pos hzy] at h23; exact absurd h23 (by decide)
              · rw [if_neg hzy] at h23 ⊢
                exact ih ys zs h12 h23

/-- `lexCompare` says "less" exactly when the first list is a proper prefix of the
second or is smaller at the first index where they differ. -/
theorem lexCompare_lt_iff (l1 l2 : List Nat) :
    lexCompare l1 l2 = Ordering.lt ↔
      (l1.length < l2.length ∧ ∀ i, i < l1.length → l1.getD i 0 = l2.getD i 0) ∨
      (∃ k, k < l1.length ∧ k < l2.length ∧ (∀ i, i < k → l1.getD i 0 = l2.getD i 0) ∧
        l1.getD k 0 < l2.getD k 0) := by
  induction l1 generalizing l2 with
  | nil =>
    cases l2 with
    | nil =>
      simp [lexCompare]
    | cons y ys =>
      simp [lexCompare]
  | cons x xs ih =>
    cases l2 with
    | nil =>
      simp [lexCompare]
    | cons y ys =>
      unfold lexCompare
      by_cases h1 : x < y
      · rw [if_pos h1]
        constructor
        · intro _
          right
          exact ⟨0, by simp, by simp, fun i hi => absurd hi (Nat.not_lt_zero i), by simpa using h1⟩
        · intro _; rfl
      · rw [if_neg h1]
        by_cases h2 : y < x
        · rw [if_pos h2]
          constructor
          · intro h; exact absurd h (by decide)
          · intro h
            exfalso
            rcases h with ⟨_, hall⟩ | ⟨k, hk1, hk2, hall, hlt⟩
            · have := hall 0 (by simp)
              simp at this
              omega
            · cases k with
              | zero => simp at hlt; omega
              | succ k =>
                have := hall 0 (by omega)
                simp at this
                omega
        · rw [if_neg h2, ih ys]
          have hxy : x = y := by omega
          constructor
          · intro h
            rcases h with ⟨hlen, hall⟩ | ⟨k, hk1, hk2, hall, hlt⟩
            · left
              refine ⟨by simpa using hlen, ?_⟩
              intro i hi
              cases i with
              | zero => simpa using hxy
              | succ i =>
                rw [List.getD_cons_succ, List.getD_cons_succ]
                exact hall i (by simpa using hi)
            · right
              refine ⟨k + 1, by simpa using hk1, by simpa using hk2, ?_, ?_⟩
              · intro i hi
                cases i with
                | zero => simpa using hxy
                | succ i =>
                  rw [List.getD_cons_succ, List.getD_cons_succ]
                  exact hall i (by omega)
              · rw [List.getD_cons_succ, List.getD_cons_succ]
                exact hlt
          · intro h
            rcases h with ⟨hlen, hall⟩ | ⟨k, hk1, hk2, hall, hlt⟩
            · left
              refine ⟨by simpa using hlen, ?_⟩
              intro i hi
              have := hall (i + 1) (by simpa using hi)
              rw [List.getD_cons_succ, List.getD_cons_succ] at this
              exact this
            · cases k with
              | zero => simp at hlt; omega
              | succ k =>
                right
                refine ⟨k, by simpa using hk1, by simpa using hk2, ?_, ?_⟩
                · intro i hi
                  have := hall (i + 1) (by omega)
                  rw [List.getD_cons_succ, List.getD_cons_succ] at this
                  exact this
                · rw [List.getD_cons_succ, List.getD_cons_succ] at hlt
                  exact hlt

theorem std_lexicographical_compare_three_way_eq (N W : Nat) (k1 : Nat) (m1 : List Nat)
    (f1 : XbitIterator) (k2 : Nat) (m2 : List Nat) (f2 : XbitIterator) :
    std_lexicographical_compare_three_way N W k1 m1 f1 k2 m2 f2
      = lexCompare (XbitVector.values N W m1 k1 f1) (XbitVector.values N W m2 k2 f2) := by
  induction k1 generalizing k2 f1 f2 with
  | zero =>
    cases k2 with
    | zero => simp [std_lexicographical_compare_three_way, XbitVector.values, lexCompare]
    | succ k2 => simp [std_lexicographical_compare_three_way, XbitVector.values, lexCompare]
  | succ k1 ih =>
    cases k2 with
    | zero => simp [std_lexicographical_compare_three_way, XbitVector.values, lexCompare]
    | succ k2 =>
      unfold std_lexicographical_compare_three_way XbitVector.values lexCompare
      by_cases h1 : XbitIterator.get N W m1 f1 < XbitIterator.get N W m2 f2
      · rw [if_pos h1, Nat.compare_eq_lt.mpr h1]
      · rw [if_neg h1]
        by_cases h2 : XbitIterator.get N W m2 f2 < XbitIterator.get N W m1 f1
        · rw [if_pos h2, Nat.compare_eq_gt.mpr h2]
        · rw [if_neg h2, Nat.compare_eq_eq.mpr (by omega)]
          exact ih _ _ _

theorem std_equal_iff {N W : Nat} (g : GoodWidths N W) (k : Nat) (m1 m2 : List Nat)
    (f1 f2 : Nat) :
    std_equal N W k m1 (XbitVector.make_iter N W f1) m2 (XbitVector.make_iter N W f2) = true
      ↔ ∀ i, i < k → elemAt N W m1 (f1 + i) = elemAt N W m2 (f2 + i) := by
  induction k generalizing f1 f2 with
  | zero =>
    unfold std_equal
    simp
  | succ k ih =>
    unfold std_equal
    rw [bump_up_make_iter g, bump_up_make_iter g]
    by_cases h : XbitIterator.get N W m1 (XbitVector.make_iter N W f1)
        = XbitIterator.get N W m2 (XbitVector.make_iter N W f2)
    · rw [if_pos h, ih]
      constructor
      · intro hall i hi
        cases i with
        | zero => exact h
        | succ i =>
          have := hall i (by omega)
          rw [show f1 + (i + 1) = f1 + 1 + i by omega, show f2 + (i + 1) = f2 + 1 + i by omega]
          exact this
      · intro hall i hi
        have := hall (i + 1) (by omega)
        rw [show f1 + (i + 1) = f1 + 1 + i by omega, show f2 + (i + 1) = f2 + 1 + i by omega]
          at this
        exact this
    · rw [if_neg h]
      constructor
      · intro hf; exact absurd hf (by decide)
      · intro hall
        exact absurd (hall 0 (by omega)) h

theorem toList_length (N W : Nat) (v : XbitVector) : (XbitVector.toList N W v).length = v.size_ := by
  unfold XbitVector.toList
  rw [List.length_map, List.length_range]

theorem toList_getD (N W : Nat) (v : XbitVector) (i : Nat) (hi : i < v.size_) :
    (XbitVector.toList N W v).getD i 0 = XbitVector.get N W v i := by
  have hl : i < (XbitVector.toList N W v).length := by rw [toList_length]; exact hi
  rw [List.getD_eq_getElem _ _ hl]
  unfold XbitVector.toList
  rw [List.getElem_map, List.getElem_range]

theorem toList_eq_values {N W : Nat} (g : GoodWidths N W) (v : XbitVector) :
    XbitVector.toList N W v = XbitVector.values N W v.mem v.size_ (XbitVector.make_iter N W 0) := by
  apply List.ext_getElem
  · rw [toList_length, values_length]
  · intro i h1 h2
    have hi : i < v.size_ := by rw [toList_length] at h1; exact h1
    rw [← List.getD_eq_getElem _ 0 h1, ← List.getD_eq_getElem _ 0 h2, toList_getD N W v i hi,
      values_getD g _ _ _ _ hi, Nat.zero_add]
    rfl

theorem toList_eq_iff (N W : Nat) (a b : XbitVector) :
    XbitVector.toList N W a = XbitVector.toList N W b
      ↔ a.size_ = b.size_ ∧ ∀ i, i < a.size_ → XbitVector.get N W a i = XbitVector.get N W b i := by
  constructor
  · intro h
    have hlen : a.size_ = b.size_ := by
      rw [← toList_length N W a, ← toList_length N W b, h]
    refine ⟨hlen, ?_⟩
    intro i hi
    rw [← toList_getD N W a i hi, ← toList_getD N W b i (by omega), h]
  · intro ⟨hlen, hall⟩
    apply List.ext_getElem
    · rw [toList_length, toList_length, hlen]
    · intro i h1 h2
      have hi : i < a.size_ := by rw [toList_length] at h1; exact h1
      rw [← List.getD_eq_getElem _ 0 h1, ← List.getD_eq_getElem _ 0 h2, toList_getD N W a i hi,
        toList_getD N W b i (by omega)]
      exact hall i hi

theorem size_diff {N W : Nat} (g : GoodWidths N W) (v : XbitVector) (h : v.size_ < 2 ^ 63) :
    (XbitIterator.diff N W (XbitVector.end N W v) (XbitVector.begin N W v)).toNat = v.size_ := by
  unfold XbitVector.end XbitVector.begin
  rw [diff_make_iter g v.size_ 0 h (by decide)]
  simp

/-- The value of `operator==`. -/
theorem equal_iff {N W : Nat} (g : GoodWidths N W) (a b : XbitVector) (ha : a.size_ < 2 ^ 63) :
    XbitVector.equal N W a b = true
      ↔ a.size_ = b.size_ ∧ ∀ i, i < a.size_ → XbitVector.get N W a i = XbitVector.get N W b i := by
  unfold XbitVector.equal
  rw [size_diff g a ha]
  unfold XbitVector.begin
  rw [Bool.and_eq_true, std_equal_iff g]
  simp only [XbitVector.size, beq_iff_eq, Nat.zero_add]
  rfl

/-- The value of `operator<=>`. -/
theorem three_way_eq {N W : Nat} (g : GoodWidths N W) (a b : XbitVector) (ha : a.size_ < 2 ^ 63)
    (hb : b.size_ < 2 ^ 63) :
    XbitVector.three_way N W a b
      = lexCompare (XbitVector.toList N W a) (XbitVector.toList N W b) := by
  unfold XbitVector.three_way
  rw [size_diff g a ha, size_diff g b hb, std_lexicographical_compare_three_way_eq,
    toList_eq_values g, toList_eq_values g]
  rfl

/-! ## `assign` -/

/-- The effect of `assign(first, last)` for the range of another container `c`. -/
theorem assign_range_ok {N W : Nat} (g : GoodWidths N W) (c2 c : XbitVector)
    (h2 : XbitVector.Valid N W c2) (hc : XbitVector.Valid N W c)
    (hn : c.size_ > XbitVector.capacity N W c2 → c.size_ ≤ XbitVector.max_size N W c2)
    (ha : c.size_ > XbitVector.capacity N W c2 →
      c2.alloc_.avail (XbitVector.external_cap_to_internal N W c.size_) = true) :
    ∃ r, XbitVector.assign_range N W c2 (XbitVector.range N W c) = Except.ok r ∧
      r.size_ = c.size_ ∧
      ∀ i, i < c.size_ → elemAt N W r.mem i = elemAt N W c.mem i := by
  have hrl := range_length g c hc
  have hcl := hc.cap_lt
  have hsz := hc.size_le
  have hmod : c.size_ % 2 ^ 64 = c.size_ := Nat.mod_eq_of_lt (by omega)
  have hcap0 : XbitVector.capacity N W (XbitVector.clear c2) = XbitVector.capacity N W c2 := rfl
  by_cases h0 : c.size_ = 0
  · refine ⟨XbitVector.clear c2, ?_, by rw [h0]; rfl, fun i hi => by omega⟩
    unfold XbitVector.assign_range
    simp only [hrl, h0]
    rfl
  · by_cases hbig : c.size_ > XbitVector.capacity N W c2
    · -- a new buffer is allocated
      have hms : XbitVector.max_size N W (XbitVector.empty c2.alloc_)
          = XbitVector.max_size N W c2 := max_size_alloc N W _ _ rfl
      obtain ⟨buf, hlen, hv⟩ := vallocate_empty (N := N) (W := W) c2.alloc_ c.size_
        (by rw [hms]; exact hn hbig) (ha hbig)
      have hmax := max_size_le g c2
      have hext := external_cap_to_internal_eq N W c.size_ (by omega) (by omega)
      have hcover := blocks_cover g c.size_
      have hval : XbitVector.vallocate N W (XbitVector.vdeallocate (XbitVector.clear c2)) c.size_
          = Except.ok ⟨some buf, 0, XbitVector.external_cap_to_internal N W c.size_,
              c2.alloc_⟩ := by
        have halloc : (XbitVector.vdeallocate (XbitVector.clear c2)).alloc_ = c2.alloc_ := by
          unfold XbitVector.vdeallocate XbitVector.clear
          split <;> rfl
        unfold XbitVector.vallocate at hv ⊢
        have hms2 : XbitVector.max_size N W (XbitVector.vdeallocate (XbitVector.clear c2))
            = XbitVector.max_size N W (XbitVector.empty c2.alloc_) :=
          max_size_alloc N W _ _ halloc
        rw [hms2, halloc]
        exact hv
      refine ⟨⟨some (std_copy_values N W (XbitVector.range N W c) buf
        (XbitVector.make_iter N W 0)).1, c.size_,
        XbitVector.external_cap_to_internal N W c.size_, c2.alloc_⟩, ?_, rfl, ?_⟩
      · unfold XbitVector.assign_range
        simp only [hrl, hcap0, if_pos hbig, hval, ne_eq, h0, not_false_eq_true, if_true,
          XbitVector.construct_at_end, XbitVector.setMem, XbitVector.mem, Option.map_some',
          Option.getD_some, Nat.zero_add, hmod]
      · intro i hi
        have hm : (⟨some (std_copy_values N W (XbitVector.range N W c) buf
            (XbitVector.make_iter N W 0)).1, c.size_,
            XbitVector.external_cap_to_internal N W c.size_, c2.alloc_⟩ : XbitVector).mem
            = (std_copy_values N W (XbitVector.range N W c) buf
              (XbitVector.make_iter N W 0)).1 := rfl
        rw [hm, std_copy_values_elemAt g _ _ _ _ (by rw [hrl, hlen, hext]; omega), hrl,
          if_pos (by omega), Nat.sub_zero, range_getD g c hc i hi]
        exact elemAt_mod g _ _
    · -- the buffer is reused
      have hce := h2.capacity_eq
      have hfit : c.size_ ≤ c2.mem.length * xbits_per_block N W := by
        rw [h2.len]; omega
      let m1 := (std_copy_values N W (XbitVector.range N W c) c2.mem
        (XbitVector.make_iter N W 0)).1
      have hm1len : m1.length = c2.mem.length := std_copy_values_length _ _ _ _ _
      have hmem : (XbitVector.setMem { c2 with size_ := c.size_ } m1).mem = m1 :=
        mem_setMem _ m1 hm1len
      refine ⟨XbitVector.setMem { c2 with size_ := c.size_ } m1, ?_, rfl, ?_⟩
      · unfold XbitVector.assign_range
        simp only [hrl, hcap0, if_neg hbig, ne_eq, h0, not_false_eq_true, if_true,
          XbitVector.construct_at_end]
        have hz : (XbitVector.clear c2).size_ = 0 := rfl
        simp only [hz, Nat.zero_add, hmod]
        rfl
      · intro i hi
        rw [hmem, std_copy_values_elemAt g _ _ _ _ (by rw [hrl]; omega), hrl,
          if_pos (by omega), Nat.sub_zero, range_getD g c hc i hi]
        exact elemAt_mod g _ _

/-- The outcome of `assign(n, x)` for a count beyond `max_size()` and the capacity. -/
theorem assign_fill_too_long (N W : Nat) (v : XbitVector) (n x : Nat)
    (hn : n > XbitVector.max_size N W v) (hc : n > XbitVector.capacity N W v) :
    XbitVector.assign_fill N W v n x
      = (Except.error Error.length_error, { v with size_ := 0 }) := by
  unfold XbitVector.assign_fill
  have h0 : n > 0 := by omega
  have hcap : XbitVector.capacity N W { v with size_ := 0 } = XbitVector.capacity N W v := rfl
  have hms : XbitVector.max_size N W { v with size_ := 0 } = XbitVector.max_size N W v := rfl
  have hrec : XbitVector.recommend N W { v with size_ := 0 } n
      = Except.error Error.length_error := by
    unfold XbitVector.recommend
    simp only [hms, if_pos hn]
  simp only [if_pos h0, hcap, if_neg (Nat.not_le.mpr hc), hrec]

/-- The outcome of `insert(position, n, x)` when `size_ + n` does not wrap but exceeds
`max_size()` and the capacity. -/
theorem insert_n_too_long (N W : Nat) (v : XbitVector) (position : XbitIterator) (n x : Nat)
    (hw : v.size_ + n < 2 ^ 64) (hn : v.size_ + n > XbitVector.max_size N W v)
    (hc : v.size_ + n > XbitVector.capacity N W v) :
    XbitVector.insert_n N W v position n x = (Except.error Error.length_error, v) := by
  unfold XbitVector.insert_n
  have hfit : ¬ (n ≤ XbitVector.capacity N W v ∧
      v.size ≤ XbitVector.capacity N W v - n) := by
    intro ⟨h1, h2⟩
    have : v.size = v.size_ := rfl
    omega
  have hmod : (v.size_ + n) % 2 ^ 64 = v.size_ + n := Nat.mod_eq_of_lt hw
  have hrec : XbitVector.recommend N W v (v.size_ + n) = Except.error Error.length_error := by
    unfold XbitVector.recommend
    simp only [if_pos hn]
  simp only [if_neg hfit, hmod, hrec]

theorem complement_complement_mod (W b : Nat) :
    complement W (complement W b) = b % 2 ^ W := by
  unfold complement
  have hlt : b % 2 ^ W < 2 ^ W := Nat.mod_lt _ (Nat.two_pow_pos W)
  have h2 : (2 ^ W - 1 - b % 2 ^ W) % 2 ^ W = 2 ^ W - 1 - b % 2 ^ W :=
    Nat.mod_eq_of_lt (by omega)
  rw [h2]
  omega

theorem valid_setMem {N W : Nat} (v : XbitVector) (hv : XbitVector.Valid N W v) (m : List Nat)
    (hm : m.length = v.mem.length) : XbitVector.Valid N W (v.setMem m) := by
  have hmem := mem_setMem v m hm
  refine ⟨?_, by rw [hmem, hm]; exact hv.len, hv.cap_lt⟩
  have hi := hv.inv
  unfold XbitVector.invariants XbitVector.setMem XbitVector.capacity at *
  cases hb : v.begin_ with
  | none => rw [hb] at hi; simpa using hi
  | some m0 => rw [hb] at hi; simpa using hi

theorem setMem_self (v : XbitVector) : v.setMem v.mem = v := by
  unfold XbitVector.setMem XbitVector.mem
  cases v with
  | mk b s c a =>
    cases b with
    | none => rfl
    | some m => rfl

theorem setMem_setMem (v : XbitVector) (m1 m2 : List Nat) :
    (v.setMem m1).setMem m2 = v.setMem m2 := by
  unfold XbitVector.setMem
  cases v with
  | mk b s c a =>
    cases b with
    | none => rfl
    | some m => rfl

/-- The effect of two calls of `flip()`. -/
theorem flip_flip_ok {N W : Nat} (g : GoodWidths N W) (v : XbitVector)
    (hv : XbitVector.Valid N W v) (f1 f2 : Nat) (h1 : v.size_ ≤ f1) (h2 : v.size_ ≤ f2) :
    ∃ m1 m2, XbitVector.flip N W f1 v = some (v.setMem m1) ∧
      XbitVector.flip N W f2 (v.setMem m1) = some (v.setMem m2) ∧
      (v.setMem m2).mem = m2 ∧ m2.length = v.mem.length ∧
      (∀ j, m2.getD j 0 = if j * xbits_per_block N W < v.size_
        then v.mem.getD j 0 % 2 ^ W else v.mem.getD j 0) ∧
      (∀ i, i < v.size_ → elemAt N W m2 i = elemAt N W v.mem i) := by
  obtain ⟨m1, ha, hb, hc, hd, he⟩ := flip_ok g v hv f1 h1
  have hv1 := valid_setMem v hv m1 hc
  have hs1 : (v.setMem m1).size_ = v.size_ := rfl
  obtain ⟨m2, ha2, hb2, hc2, hd2, he2⟩ := flip_ok g (v.setMem m1) hv1 f2 (by rw [hs1]; exact h2)
  rw [setMem_setMem] at ha2 hb2
  rw [hb] at hc2 hd2 he2
  rw [hs1] at hd2 he2
  refine ⟨m1, m2, ha, ha2, hb2, by rw [hc2, hc], ?_, ?_⟩
  · intro j
    rw [hd2 j, hd j]
    by_cases hj : j * xbits_per_block N W < v.size_
    · simp only [if_pos hj, complement_complement_mod]
    · simp only [if_neg hj]
  · intro i hi
    rw [he2 i hi, he i hi]
    have := elemAt_lt g v.mem i
    omega

/-! ## The class invariant -/

theorem shape_iff (N W : Nat) (v : XbitVector) :
    XbitVector.Shape N W v ↔
      (v.begin_.isSome = false ∧ v.size_ = 0 ∧ v.cap_ = 0) ∨
      (v.begin_.isSome = true ∧ v.cap_ ≠ 0 ∧ v.size_ ≤ v.cap_ * xbits_per_block N W ∧
        v.cap_ * xbits_per_block N W ≤ 2 ^ 63) := by
  constructor
  · intro ⟨hinv, hcap⟩
    unfold XbitVector.invariants XbitVector.capacity XbitVector.internal_cap_to_external at hinv
    have hmod : v.cap_ * xbits_per_block N W % 2 ^ 64 = v.cap_ * xbits_per_block N W :=
      Nat.mod_eq_of_lt (by omega)
    rw [hmod] at hinv
    cases hb : v.begin_ with
    | none =>
      left
      rw [hb] at hinv
      by_cases h : v.size_ ≠ 0 ∨ v.cap_ ≠ 0
      · simp [h] at hinv
      · exact ⟨rfl, by omega, by omega⟩
    | some m =>
      right
      rw [hb] at hinv
      by_cases h0 : v.cap_ = 0
      · simp [h0] at hinv
      · by_cases h1 : v.size_ > v.cap_ * xbits_per_block N W
        · simp [h0, h1] at hinv
        · exact ⟨rfl, h0, by omega, hcap⟩
  · intro h
    rcases h with ⟨hb, hs, hc⟩ | ⟨hb, hc0, hs, hc⟩
    · refine ⟨?_, by rw [hc]; simp⟩
      unfold XbitVector.invariants
      cases hb1 : v.begin_ with
      | none => simp [hs, hc]
      | some m => rw [hb1] at hb; simp at hb
    · refine ⟨?_, hc⟩
      unfold XbitVector.invariants XbitVector.capacity XbitVector.internal_cap_to_external
      have hmod : v.cap_ * xbits_per_block N W % 2 ^ 64 = v.cap_ * xbits_per_block N W :=
        Nat.mod_eq_of_lt (by omega)
      rw [hmod]
      cases hb1 : v.begin_ with
      | none => rw [hb1] at hb; simp at hb
      | some m => simp [hc0, Nat.not_lt.mpr hs]

theorem XbitVector.Shape.capacity_nowrap {N W : Nat} {v : XbitVector} (h : XbitVector.Shape N W v) :
    XbitVector.capacity N W v = v.cap_ * xbits_per_block N W := by
  unfold XbitVector.capacity XbitVector.internal_cap_to_external
  exact Nat.mod_eq_of_lt (by have := h.cap_le; omega)

theorem XbitVector.Shape.size_bound {N W : Nat} {v : XbitVector} (h : XbitVector.Shape N W v) :
    v.size_ ≤ v.cap_ * xbits_per_block N W := by
  rcases (shape_iff N W v).mp h with ⟨_, hs, hc⟩ | ⟨_, _, hs, _⟩
  · omega
  · exact hs

theorem XbitVector.Shape.size_le_capacity {N W : Nat} {v : XbitVector}
    (h : XbitVector.Shape N W v) : v.size ≤ XbitVector.capacity N W v := by
  rw [h.capacity_nowrap]
  exact h.size_bound

/-- A state with the buffer and the capacity of a state in shape, and a size within that
capacity, is in shape. -/
theorem shape_of {N W : Nat} {v : XbitVector} (hv : XbitVector.Shape N W v) (v1 : XbitVector)
    (hb : v1.begin_.isSome = v.begin_.isSome) (hc : v1.cap_ = v.cap_)
    (hs : v1.size_ ≤ v.cap_ * xbits_per_block N W) : XbitVector.Shape N W v1 := by
  rw [shape_iff] at hv ⊢
  rw [hb, hc]
  rcases hv with ⟨h1, h2, h3⟩ | ⟨h1, h2, h3, h4⟩
  · left
    rw [h3] at hs
    exact ⟨h1, by omega, h3⟩
  · right
    exact ⟨h1, h2, hs, h4⟩

theorem shape_empty (N W : Nat) (a : Allocator) : XbitVector.Shape N W (XbitVector.empty a) :=
  (shape_iff N W _).mpr (Or.inl ⟨rfl, rfl, rfl⟩)

theorem shape_valid {N W : Nat} {v : XbitVector} (h : XbitVector.Valid N W v) :
    XbitVector.Shape N W v :=
  ⟨h.inv, by have := h.cap_lt; omega⟩

theorem setMem_isSome (v : XbitVector) (m : List Nat) :
    (v.setMem m).begin_.isSome = v.begin_.isSome := by
  unfold XbitVector.setMem
  cases v.begin_ <;> rfl

theorem put_isSome (N W : Nat) (v : XbitVector) (it : XbitIterator) (x : Nat) :
    (XbitVector.put N W v it x).begin_.isSome = v.begin_.isSome := by
  unfold XbitVector.put
  cases v.begin_ <;> rfl

theorem shape_setMem {N W : Nat} {v : XbitVector} (hv : XbitVector.Shape N W v) (m : List Nat) :
    XbitVector.Shape N W (v.setMem m) :=
  shape_of hv _ (setMem_isSome v m) rfl hv.size_bound

theorem shape_put {N W : Nat} {v : XbitVector} (hv : XbitVector.Shape N W v)
    (it : XbitIterator) (x : Nat) : XbitVector.Shape N W (XbitVector.put N W v it x) :=
  shape_of hv _ (put_isSome N W v it x) rfl hv.size_bound

theorem shape_vdeallocate {N W : Nat} {v : XbitVector} (hv : XbitVector.Shape N W v) :
    XbitVector.Shape N W (XbitVector.vdeallocate v) := by
  unfold XbitVector.vdeallocate
  split
  · exact (shape_iff N W _).mpr (Or.inl ⟨rfl, rfl, rfl⟩)
  · exact hv

theorem vdeallocate_alloc (v : XbitVector) : (XbitVector.vdeallocate v).alloc_ = v.alloc_ := by
  unfold XbitVector.vdeallocate
  split <;> rfl

/-- What a successful `vallocate(n)` with `n > 0` leaves: a buffer of at least `n`
elements, at most `2^63`, and size 0. -/
theorem vallocate_shape {N W : Nat} (g : GoodWidths N W) (v : XbitVector) (n : Nat)
    (w : XbitVector) (h : XbitVector.vallocate N W v n = Except.ok w) (h0 : 0 < n) :
    w.begin_.isSome = true ∧ w.size_ = 0 ∧ w.cap_ ≠ 0 ∧ n ≤ w.cap_ * xbits_per_block N W ∧
      w.cap_ * xbits_per_block N W ≤ 2 ^ 63 ∧ w.alloc_ = v.alloc_ ∧ n < 2 ^ 63 := by
  have hms := max_size_le g v
  have hn := (vallocate_ok_inv N W v n w h).1
  have hext := external_cap_to_internal_eq N W n h0 (by omega)
  unfold XbitVector.vallocate at h
  rw [if_neg (by omega)] at h
  simp only at h
  cases ha : v.alloc_.allocate W (XbitVector.external_cap_to_internal N W n) with
  | none => rw [ha] at h; simp at h
  | some buf =>
    rw [ha] at h
    simp only [Except.ok.injEq] at h
    subst h
    have hcov := blocks_cover g n
    obtain ⟨q, hq⟩ := g.e_dvd 63 (by decide)
    have hle : ((n - 1) / xbits_per_block N W + 1) * xbits_per_block N W ≤ 2 ^ 63 := by
      have h1 : (n - 1) / xbits_per_block N W < q := by
        apply (Nat.div_lt_iff_lt_mul g.e_pos).mpr
        rw [Nat.mul_comm] at hq
        omega
      calc ((n - 1) / xbits_per_block N W + 1) * xbits_per_block N W
          ≤ q * xbits_per_block N W := Nat.mul_le_mul_right _ h1
        _ = 2 ^ 63 := by rw [Nat.mul_comm]; exact hq.symm
    refine ⟨rfl, rfl, ?_, ?_, ?_, rfl, by omega⟩
    · show XbitVector.external_cap_to_internal N W n ≠ 0
      rw [hext]
      exact Nat.succ_ne_zero _
    · show n ≤ XbitVector.external_cap_to_internal N W n * xbits_per_block N W
      rw [hext]
      exact hcov
    · show XbitVector.external_cap_to_internal N W n * xbits_per_block N W ≤ 2 ^ 63
      rw [hext]
      exact hle

theorem vallocate_shape_of {N W : Nat} (g : GoodWidths N W) (v : XbitVector) (n : Nat)
    (w : XbitVector) (h : XbitVector.vallocate N W v n = Except.ok w) (h0 : 0 < n) :
    XbitVector.Shape N W w := by
  obtain ⟨h1, h2, h3, h4, h5, _, _⟩ := vallocate_shape g v n w h h0
  exact (shape_iff N W w).mpr (Or.inr ⟨h1, h3, by omega, h5⟩)

theorem range_length_le {N W : Nat} (g : GoodWidths N W) (v : XbitVector) :
    (XbitVector.range N W v).length ≤ v.size_ := by
  unfold XbitVector.range XbitVector.«end» XbitVector.begin
  rw [values_length, diff_make_iter_gen g]
  have h0 : ((v.size_ : Nat) : Int) - ((0 : Nat) : Int) = (v.size_ : Int) := by simp
  rw [h0]
  have h1 : toSize (v.size_ : Int) = v.size_ % 2 ^ 64 := by
    unfold toSize
    omega
  rw [h1]
  have h2 := Nat.mod_le v.size_ (2 ^ 64)
  have h3 := Nat.mod_lt v.size_ (show 0 < 2 ^ 64 by decide)
  by_cases h : v.size_ % 2 ^ 64 < 2 ^ 63
  · rw [toSigned_of_lt _ h]
    omega
  · rw [toSigned_of_ge _ (by omega) h3]
    omega

theorem shape_construct_at_end {N W : Nat} {w : XbitVector} (hw : XbitVector.Shape N W w)
    (src : List Nat) (h : w.size_ + src.length ≤ w.cap_ * xbits_per_block N W) :
    XbitVector.Shape N W (XbitVector.construct_at_end N W w src) := by
  refine shape_of hw _ ?_ rfl ?_
  · exact setMem_isSome _ _
  · exact Nat.le_trans (Nat.mod_le (w.size_ + src.length) _) h

theorem shape_construct_at_end_fill {N W : Nat} {w : XbitVector} (hw : XbitVector.Shape N W w)
    (n x : Nat) (h : w.size_ + n ≤ w.cap_ * xbits_per_block N W) :
    XbitVector.Shape N W (XbitVector.construct_at_end_fill N W w n x) := by
  refine shape_of hw _ ?_ rfl ?_
  · exact setMem_isSome _ _
  · exact Nat.le_trans (Nat.mod_le (w.size_ + n) _) h

/-- A fresh buffer for `n > 0` elements filled from a range of at most `n` values. -/
theorem shape_vallocate_construct {N W : Nat} (g : GoodWidths N W) (v : XbitVector) (n : Nat)
    (w : XbitVector) (h : XbitVector.vallocate N W v n = Except.ok w) (h0 : 0 < n)
    (src : List Nat) (hs : src.length ≤ n) :
    XbitVector.Shape N W (XbitVector.construct_at_end N W w src) := by
  obtain ⟨_, h2, _, h4, _, _, _⟩ := vallocate_shape g v n w h h0
  exact shape_construct_at_end (vallocate_shape_of g v n w h h0) src (by omega)

theorem recommend_ok_ge {N W : Nat} (g : GoodWidths N W) (v : XbitVector) (ns c : Nat)
    (h : XbitVector.recommend N W v ns = Except.ok c) : ns ≤ c := by
  have hms := max_size_le g v
  unfold XbitVector.recommend at h
  by_cases h1 : ns > XbitVector.max_size N W v
  · simp [h1] at h
  · simp only [if_neg h1] at h
    have hal := align_it_ge g ns (by omega)
    split at h
    · simp only [Except.ok.injEq] at h
      omega
    · simp only [Except.ok.injEq] at h
      omega

theorem swap_fst (v x : XbitVector) :
    (XbitVector.swap v x).1.begin_ = x.begin_ ∧ (XbitVector.swap v x).1.size_ = x.size_ ∧
      (XbitVector.swap v x).1.cap_ = x.cap_ := by
  unfold XbitVector.swap
  split <;> exact ⟨rfl, rfl, rfl⟩

theorem swap_snd (v x : XbitVector) :
    (XbitVector.swap v x).2.begin_ = v.begin_ ∧ (XbitVector.swap v x).2.size_ = v.size_ ∧
      (XbitVector.swap v x).2.cap_ = v.cap_ := by
  unfold XbitVector.swap
  split <;> exact ⟨rfl, rfl, rfl⟩

theorem shape_congr {N W : Nat} {v : XbitVector} (hv : XbitVector.Shape N W v) (v1 : XbitVector)
    (hb : v1.begin_ = v.begin_) (hs : v1.size_ = v.size_) (hc : v1.cap_ = v.cap_) :
    XbitVector.Shape N W v1 :=
  shape_of hv v1 (by rw [hb]) hc (by rw [hs]; exact hv.size_bound)

theorem shape_swap_fst {N W : Nat} (v : XbitVector) {x : XbitVector}
    (hx : XbitVector.Shape N W x) : XbitVector.Shape N W (XbitVector.swap v x).1 :=
  shape_congr hx _ (swap_fst v x).1 (swap_fst v x).2.1 (swap_fst v x).2.2

theorem shape_swap_snd {N W : Nat} {v : XbitVector} (x : XbitVector)
    (hv : XbitVector.Shape N W v) : XbitVector.Shape N W (XbitVector.swap v x).2 :=
  shape_congr hv _ (swap_snd v x).1 (swap_snd v x).2.1 (swap_snd v x).2.2

/-- A successful `reserve(n)` keeps the shape, does not enlarge the size and leaves room
for `n` elements. -/
theorem reserve_shape {N W : Nat} (g : GoodWidths N W) (v : XbitVector)
    (hv : XbitVector.Shape N W v) (n : Nat) (v1 : XbitVector)
    (h : XbitVector.reserve N W v n = Except.ok v1) :
    XbitVector.Shape N W v1 ∧ v1.size_ ≤ v.size_ ∧ n ≤ v1.cap_ * xbits_per_block N W ∧
      v1.size_ ≤ v1.cap_ * xbits_per_block N W := by
  unfold XbitVector.reserve at h
  by_cases hn : n > XbitVector.capacity N W v
  · rw [if_pos hn] at h
    cases hval : XbitVector.vallocate N W (XbitVector.empty v.alloc_) n with
    | error e => rw [hval] at h; simp at h
    | ok w =>
      rw [hval] at h
      simp only [Except.ok.injEq] at h
      have h0 : 0 < n := by omega
      have hrl := range_length_le g v
      have hsz := hv.size_bound
      rw [hv.capacity_nowrap] at hn
      obtain ⟨_, h2, _, h4, _, _, _⟩ := vallocate_shape g _ n w hval h0
      have hsh := shape_vallocate_construct g _ n w hval h0 (XbitVector.range N W v) (by omega)
      have hfst := swap_fst v (XbitVector.construct_at_end N W w (XbitVector.range N W v))
      have hres := shape_swap_fst v hsh
      rw [h] at hres hfst
      have hsize : (XbitVector.construct_at_end N W w (XbitVector.range N W v)).size_
          = (w.size_ + (XbitVector.range N W v).length) % 2 ^ 64 := rfl
      have hcap : (XbitVector.construct_at_end N W w (XbitVector.range N W v)).cap_
          = w.cap_ := rfl
      have hmod := Nat.mod_le (w.size_ + (XbitVector.range N W v).length) (2 ^ 64)
      refine ⟨hres, ?_, ?_, hres.size_bound⟩
      · rw [hfst.2.1, hsize]
        omega
      · rw [hfst.2.2, hcap]
        exact h4
  · rw [if_neg hn] at h
    simp only [Except.ok.injEq] at h
    subst h
    rw [hv.capacity_nowrap] at hn
    exact ⟨hv, Nat.le_refl _, by omega, hv.size_bound⟩

/-- A buffer reserved for `c` elements whose size is then set to at most `c`. -/
theorem shape_reserve_resized {N W : Nat} (g : GoodWidths N W) (a : Allocator) (c : Nat)
    (w : XbitVector) (h : XbitVector.reserve N W (XbitVector.empty a) c = Except.ok w)
    (w1 : XbitVector) (hb : w1.begin_.isSome = w.begin_.isSome) (hc : w1.cap_ = w.cap_)
    (hs : w1.size_ ≤ c) : XbitVector.Shape N W w1 := by
  obtain ⟨h1, _, h3, _⟩ := reserve_shape g _ (shape_empty N W a) c w h
  exact shape_of h1 w1 hb hc (by omega)

theorem shape_ofFill {N W : Nat} (g : GoodWidths N W) (a : Allocator) (n x : Nat)
    (v : XbitVector) (h : XbitVector.ofFill N W a n x = Except.ok v) :
    XbitVector.Shape N W v := by
  unfold XbitVector.ofFill at h
  by_cases hn : n > 0
  · rw [if_pos hn] at h
    cases hval : XbitVector.vallocate N W (XbitVector.empty a) n with
    | error e => rw [hval] at h; simp at h
    | ok w =>
      rw [hval] at h
      simp only [Except.ok.injEq] at h
      subst h
      obtain ⟨_, h2, _, h4, _, _, _⟩ := vallocate_shape g _ n w hval hn
      exact shape_construct_at_end_fill (vallocate_shape_of g _ n w hval hn) n x (by omega)
  · rw [if_neg hn] at h
    simp only [Except.ok.injEq] at h
    subst h
    exact shape_empty N W a

theorem shape_ofRange {N W : Nat} (g : GoodWidths N W) (a : Allocator) (src : List Nat)
    (v : XbitVector) (h : XbitVector.ofRange N W a src = Except.ok v) :
    XbitVector.Shape N W v := by
  unfold XbitVector.ofRange at h
  by_cases hn : src.length > 0
  · simp only [if_pos hn] at h
    cases hval : XbitVector.vallocate N W (XbitVector.empty a) src.length with
    | error e => rw [hval] at h; simp at h
    | ok w =>
      rw [hval] at h
      simp only [Except.ok.injEq] at h
      subst h
      exact shape_vallocate_construct g _ _ w hval hn src (Nat.le_refl _)
  · simp only [if_neg hn, Except.ok.injEq] at h
    subst h
    exact shape_empty N W a

theorem shape_ofList {N W : Nat} (g : GoodWidths N W) (a : Allocator) (il : List Nat)
    (v : XbitVector) (h : XbitVector.ofList N W a il = Except.ok v) :
    XbitVector.Shape N W v :=
  shape_ofRange g a il v h

theorem shape_copy {N W : Nat} (g : GoodWidths N W) (v : XbitVector) (a : Allocator)
    (w : XbitVector) (h : XbitVector.copy N W v a = Except.ok w) :
    XbitVector.Shape N W w := by
  unfold XbitVector.copy at h
  by_cases hn : v.size > 0
  · simp only [if_pos hn] at h
    cases hval : XbitVector.vallocate N W (XbitVector.empty a) v.size with
    | error e => rw [hval] at h; simp at h
    | ok w0 =>
      rw [hval] at h
      simp only [Except.ok.injEq] at h
      subst h
      exact shape_vallocate_construct g _ _ w0 hval hn _ (range_length_le g v)
  · simp only [if_neg hn, Except.ok.injEq] at h
    subst h
    exact shape_empty N W a

theorem shape_push_back {N W : Nat} (g : GoodWidths N W) (v : XbitVector)
    (hv : XbitVector.Shape N W v) (x : Nat) (v1 : XbitVector)
    (h : XbitVector.push_back N W v x = Except.ok v1) : XbitVector.Shape N W v1 := by
  unfold XbitVector.push_back at h
  have hsz := hv.size_bound
  have hcl := hv.cap_le
  have hmod : (v.size_ + 1) % 2 ^ 64 = v.size_ + 1 := Nat.mod_eq_of_lt (by omega)
  by_cases hfull : v.size_ = XbitVector.capacity N W v
  · simp only [if_pos hfull, hmod] at h
    cases hrec : XbitVector.recommend N W v (v.size_ + 1) with
    | error e => rw [hrec] at h; simp at h
    | ok c =>
      rw [hrec] at h
      simp only at h
      cases hres : XbitVector.reserve N W v c with
      | error e => rw [hres] at h; simp at h
      | ok w =>
        rw [hres] at h
        simp only [Except.ok.injEq] at h
        subst h
        have hge := recommend_ok_ge g v _ c hrec
        obtain ⟨hw, hle, hroom, _⟩ := reserve_shape g v hv c w hres
        apply shape_put
        refine shape_of hw _ rfl rfl ?_
        exact Nat.le_trans (Nat.mod_le (w.size_ + 1) _) (by omega)
  · simp only [if_neg hfull, Except.ok.injEq] at h
    subst h
    rw [hv.capacity_nowrap] at hfull
    apply shape_put
    refine shape_of hv _ rfl rfl ?_
    exact Nat.le_trans (Nat.mod_le (v.size_ + 1) _) (by omega)

theorem shape_push_back_all {N W : Nat} (g : GoodWidths N W) (src : List Nat) (v : XbitVector)
    (hv : XbitVector.Shape N W v) (v1 : XbitVector)
    (h : XbitVector.push_back_all N W src v = Except.ok v1) : XbitVector.Shape N W v1 := by
  induction src generalizing v with
  | nil =>
    unfold XbitVector.push_back_all at h
    simp only [Except.ok.injEq] at h
    subst h
    exact hv
  | cons x xs ih =>
    unfold XbitVector.push_back_all at h
    cases hp : XbitVector.push_back N W v x with
    | error e => rw [hp] at h; simp at h
    | ok w =>
      rw [hp] at h
      exact ih w (shape_push_back g v hv x w hp) h

theorem shape_clear {N W : Nat} {v : XbitVector} (hv : XbitVector.Shape N W v) :
    XbitVector.Shape N W (XbitVector.clear v) :=
  shape_of hv _ rfl rfl (Nat.zero_le _)

theorem shape_move_fst {N W : Nat} {v : XbitVector} (hv : XbitVector.Shape N W v) :
    XbitVector.Shape N W (XbitVector.move v).1 :=
  shape_congr hv _ rfl rfl rfl

theorem shape_move_snd (N W : Nat) (v : XbitVector) :
    XbitVector.Shape N W (XbitVector.move v).2 :=
  (shape_iff N W _).mpr (Or.inl ⟨rfl, rfl, rfl⟩)

theorem shape_move_alloc {N W : Nat} (g : GoodWidths N W) (v : XbitVector)
    (hv : XbitVector.Shape N W v) (a : Allocator) (p : XbitVector × XbitVector)
    (h : XbitVector.move_alloc N W v a = Except.ok p) :
    XbitVector.Shape N W p.1 ∧ XbitVector.Shape N W p.2 := by
  unfold XbitVector.move_alloc at h
  by_cases hid : a.ident = v.alloc_.ident
  · simp only [if_pos hid, Except.ok.injEq] at h
    subst h
    exact ⟨shape_congr hv _ rfl rfl rfl, (shape_iff N W _).mpr (Or.inl ⟨rfl, rfl, rfl⟩)⟩
  · simp only [if_neg hid] at h
    by_cases hn : v.size > 0
    · simp only [if_pos hn] at h
      cases hval : XbitVector.vallocate N W (XbitVector.empty a) v.size with
      | error e => rw [hval] at h; simp at h
      | ok w0 =>
        rw [hval] at h
        simp only [Except.ok.injEq] at h
        subst h
        exact ⟨shape_vallocate_construct g _ _ w0 hval hn _ (range_length_le g v), hv⟩
    · simp only [if_neg hn, Except.ok.injEq] at h
      subst h
      exact ⟨shape_empty N W a, hv⟩

theorem shape_assign_range {N W : Nat} (g : GoodWidths N W) (v : XbitVector)
    (hv : XbitVector.Shape N W v) (src : List Nat) (v1 : XbitVector)
    (h : XbitVector.assign_range N W v src = Except.ok v1) : XbitVector.Shape N W v1 := by
  unfold XbitVector.assign_range at h
  have hcl := shape_clear hv
  by_cases hn : src.length ≠ 0
  · simp only [if_pos hn] at h
    by_cases hbig : src.length > XbitVector.capacity N W (XbitVector.clear v)
    · simp only [if_pos hbig] at h
      cases hval : XbitVector.vallocate N W (XbitVector.vdeallocate (XbitVector.clear v))
          src.length with
      | error e => rw [hval] at h; simp at h
      | ok w =>
        rw [hval] at h
        simp only [Except.ok.injEq] at h
        subst h
        exact shape_vallocate_construct g _ _ w hval (by omega) src (Nat.le_refl _)
    · simp only [if_neg hbig, Except.ok.injEq] at h
      subst h
      rw [hcl.capacity_nowrap] at hbig
      apply shape_construct_at_end hcl
      have h0 : (XbitVector.clear v).size_ = 0 := rfl
      omega
  · simp only [if_neg hn, Except.ok.injEq] at h
    subst h
    exact hcl

theorem shape_assign_fill {N W : Nat} (g : GoodWidths N W) (v : XbitVector)
    (hv : XbitVector.Shape N W v) (n x : Nat) :
    XbitVector.Shape N W (XbitVector.assign_fill N W v n x).2 := by
  unfold XbitVector.assign_fill
  have hcl : XbitVector.Shape N W { v with size_ := 0 } := shape_of hv _ rfl rfl (Nat.zero_le _)
  by_cases hn : n > 0
  · simp only [if_pos hn]
    by_cases hfit : n ≤ XbitVector.capacity N W { v with size_ := 0 }
    · simp only [if_pos hfit]
      rw [hcl.capacity_nowrap] at hfit
      apply shape_setMem
      exact shape_of hv _ rfl rfl hfit
    · simp only [if_neg hfit]
      cases hrec : XbitVector.recommend N W { v with size_ := 0 } n with
      | error e => exact hcl
      | ok c =>
        simp only
        cases hres : XbitVector.reserve N W (XbitVector.empty v.alloc_) c with
        | error e => exact hcl
        | ok w =>
          simp only
          have hge := recommend_ok_ge g _ n c hrec
          apply shape_setMem
          apply shape_swap_fst
          exact shape_reserve_resized g _ c w hres _ rfl rfl hge
  · simp only [if_neg hn]
    exact hcl

theorem shape_copy_assign_alloc {N W : Nat} {this : XbitVector}
    (ht : XbitVector.Shape N W this) (v : XbitVector) :
    XbitVector.Shape N W (XbitVector.copy_assign_alloc this v) := by
  unfold XbitVector.copy_assign_alloc
  split
  · split
    · exact shape_congr (shape_vdeallocate ht) _ rfl rfl rfl
    · exact shape_congr ht _ rfl rfl rfl
  · exact ht

theorem shape_copy_assign {N W : Nat} (g : GoodWidths N W) (this : XbitVector)
    (ht : XbitVector.Shape N W this) (v v1 : XbitVector)
    (h : XbitVector.copy_assign N W this v = Except.ok v1) : XbitVector.Shape N W v1 := by
  unfold XbitVector.copy_assign at h
  have hta := shape_copy_assign_alloc ht v
  by_cases hn : v.size_ ≠ 0
  · simp only [if_pos hn] at h
    by_cases hbig : v.size_ > XbitVector.capacity N W (XbitVector.copy_assign_alloc this v)
    · simp only [if_pos hbig] at h
      cases hval : XbitVector.vallocate N W
          (XbitVector.vdeallocate (XbitVector.copy_assign_alloc this v)) v.size_ with
      | error e => rw [hval] at h; simp at h
      | ok w =>
        rw [hval] at h
        simp only [Except.ok.injEq] at h
        subst h
        obtain ⟨_, _, _, h4, _, _, _⟩ := vallocate_shape g _ _ w hval (by omega)
        exact shape_of (vallocate_shape_of g _ _ w hval (by omega)) _ (setMem_isSome _ _) rfl h4
    · simp only [if_neg hbig, Except.ok.injEq] at h
      subst h
      rw [hta.capacity_nowrap] at hbig
      exact shape_of hta _ (setMem_isSome _ _) rfl (show v.size_ ≤ _ by omega)
  · simp only [if_neg hn, Except.ok.injEq] at h
    subst h
    exact shape_of hta _ rfl rfl (show v.size_ ≤ _ by omega)

theorem shape_move_assign (N W : Nat) (this : XbitVector) {c : XbitVector}
    (hc : XbitVector.Shape N W c) :
    XbitVector.Shape N W (XbitVector.move_assign this c).1 ∧
      XbitVector.Shape N W (XbitVector.move_assign this c).2 :=
  ⟨shape_congr hc _ rfl rfl rfl, (shape_iff N W _).mpr (Or.inl ⟨rfl, rfl, rfl⟩)⟩

theorem shape_move_assign_op {N W : Nat} (g : GoodWidths N W) (this v : XbitVector)
    (ht : XbitVector.Shape N W this) (hv : XbitVector.Shape N W v) (p : XbitVector × XbitVector)
    (h : XbitVector.move_assign_op N W this v = Except.ok p) :
    XbitVector.Shape N W p.1 ∧ XbitVector.Shape N W p.2 := by
  unfold XbitVector.move_assign_op at h
  split at h
  · simp only [Except.ok.injEq] at h
    subst h
    exact shape_move_assign N W this hv
  · split at h
    · cases ha : XbitVector.assign_range N W this (XbitVector.range N W v) with
      | error e => rw [ha] at h; simp at h
      | ok t =>
        rw [ha] at h
        simp only [Except.ok.injEq] at h
        subst h
        exact ⟨shape_assign_range g this ht _ t ha, hv⟩
    · simp only [Except.ok.injEq] at h
      subst h
      exact shape_move_assign N W this hv

theorem shape_shrink_to_fit {N W : Nat} (g : GoodWidths N W) (v : XbitVector)
    (hv : XbitVector.Shape N W v) : XbitVector.Shape N W (XbitVector.shrink_to_fit N W v) := by
  unfold XbitVector.shrink_to_fit
  split
  · cases hc : XbitVector.copy N W v v.alloc_ with
    | error e => exact hv
    | ok w => exact shape_swap_snd v (shape_copy g v v.alloc_ w hc)
  · exact hv

theorem shape_pop_back {N W : Nat} {v : XbitVector} (hv : XbitVector.Shape N W v)
    (h : v.size ≠ 0) : XbitVector.Shape N W (XbitVector.pop_back v) := by
  have hsz := hv.size_bound
  have hcl := hv.cap_le
  have h0 : v.size_ ≠ 0 := h
  refine shape_of hv _ rfl rfl ?_
  show toSize ((v.size_ : Int) - 1) ≤ _
  rw [toSize_of_nonneg _ (by omega) (by omega)]
  omega

theorem shape_resize {N W : Nat} (g : GoodWidths N W) (v : XbitVector)
    (hv : XbitVector.Shape N W v) (sz x : Nat) (v1 : XbitVector)
    (h : XbitVector.resize N W v sz x = Except.ok v1) : XbitVector.Shape N W v1 := by
  unfold XbitVector.resize at h
  have hsz := hv.size_bound
  have hs : v.size = v.size_ := rfl
  by_cases hgrow : v.size < sz
  · simp only [if_pos hgrow] at h
    by_cases hfit : sz - v.size ≤ XbitVector.capacity N W v
        ∧ v.size ≤ XbitVector.capacity N W v - (sz - v.size)
    · simp only [if_pos hfit, Except.ok.injEq] at h
      subst h
      rw [hv.capacity_nowrap] at hfit
      apply shape_setMem
      refine shape_of hv _ rfl rfl ?_
      exact Nat.le_trans (Nat.mod_le (v.size_ + (sz - v.size)) _) (by omega)
    · simp only [if_neg hfit] at h
      cases hrec : XbitVector.recommend N W v ((v.size_ + (sz - v.size)) % 2 ^ 64) with
      | error e => rw [hrec] at h; simp at h
      | ok c =>
        rw [hrec] at h
        simp only at h
        cases hres : XbitVector.reserve N W (XbitVector.empty v.alloc_) c with
        | error e => rw [hres] at h; simp at h
        | ok w =>
          rw [hres] at h
          simp only [Except.ok.injEq] at h
          subst h
          have hge := recommend_ok_ge g _ _ c hrec
          apply shape_setMem
          apply shape_swap_fst
          exact shape_reserve_resized g _ c w hres _ (setMem_isSome _ _) rfl hge
  · simp only [if_neg hgrow, Except.ok.injEq] at h
    subst h
    exact shape_of hv _ rfl rfl (show sz ≤ _ by omega)

/-- The size `erase` stores for the positions `i <= j <= s`: `s - (j - i)`, also when the
difference `j - i` does not fit `difference_type`. -/
theorem erase_size (i j s : Nat) (hij : i ≤ j) (hjs : j ≤ s) (hs : s ≤ 2 ^ 63) :
    toSize ((s : Int) - toSigned (toSize ((j : Int) - (i : Int)))) = s - (j - i) := by
  have h1 : toSize ((j : Int) - (i : Int)) = j - i := by
    rw [toSize_of_nonneg _ (by omega) (by omega)]
    omega
  rw [h1]
  by_cases h : j - i < 2 ^ 63
  · rw [toSigned_of_lt _ h, toSize_of_nonneg _ (by omega) (by omega)]
    omega
  · rw [toSigned_of_ge _ (by omega) (by omega)]
    have h2 : ((s : Int) - (((j - i : Nat) : Int) - 2 ^ 64)) = (2 : Int) ^ 64 := by omega
    rw [h2]
    have h3 : toSize ((2 : Int) ^ 64) = 0 := by decide
    rw [h3]
    omega

theorem shape_erase {N W : Nat} (g : GoodWidths N W) (v : XbitVector)
    (hv : XbitVector.Shape N W v) (i j : Nat) (hij : i ≤ j) (hj : j ≤ v.size) :
    XbitVector.Shape N W
      (XbitVector.erase N W v (XbitVector.make_iter N W i) (XbitVector.make_iter N W j)).1 := by
  have hsz := hv.size_bound
  have hcl := hv.cap_le
  have hs : v.size = v.size_ := rfl
  unfold XbitVector.erase
  refine shape_of hv _ (setMem_isSome _ _) rfl ?_
  show toSize ((v.size_ : Int) - XbitIterator.diff N W (XbitVector.make_iter N W j)
    (XbitVector.make_iter N W i)) ≤ _
  rw [diff_make_iter_gen g, erase_size i j v.size_ hij (by omega) (by omega)]
  omega

theorem shape_erase_at {N W : Nat} (v : XbitVector) (hv : XbitVector.Shape N W v)
    (position : XbitIterator) (h : v.size ≠ 0) :
    XbitVector.Shape N W (XbitVector.erase_at N W v position).1 := by
  have hsz := hv.size_bound
  have hcl := hv.cap_le
  have h0 : v.size_ ≠ 0 := h
  unfold XbitVector.erase_at
  refine shape_of hv _ (setMem_isSome _ _) rfl ?_
  show toSize ((v.size_ : Int) - 1) ≤ _
  rw [toSize_of_nonneg _ (by omega) (by omega)]
  omega

theorem shape_flip {N W : Nat} (g : GoodWidths N W) (v : XbitVector)
    (hv : XbitVector.Shape N W v) (fuel : Nat) (hfuel : v.size ≤ fuel) :
    ∃ v1, XbitVector.flip N W fuel v = some v1 ∧ XbitVector.Shape N W v1 ∧
      v1.size = v.size := by
  have he := g.e_pos
  have hsz := hv.size_bound
  have hcl := hv.cap_le
  have hf : v.size_ ≤ (fuel + 0) * xbits_per_block N W := by
    rw [Nat.add_zero]
    calc v.size_ ≤ fuel := hfuel
      _ = fuel * 1 := (Nat.mul_one _).symm
      _ ≤ fuel * xbits_per_block N W := Nat.mul_le_mul_left _ he
  obtain ⟨m1, h1, _, _⟩ := flip_loop_spec g v.size_ fuel v.mem 0 (by omega) hf
  refine ⟨v.setMem m1, ?_, shape_setMem hv m1, rfl⟩
  unfold XbitVector.flip
  rw [Nat.zero_mul] at h1
  have h2 : ((0 : Nat) : Int) = 0 := rfl
  rw [h2] at h1
  rw [h1]
  rfl

theorem shape_insert {N W : Nat} (g : GoodWidths N W) (v : XbitVector)
    (hv : XbitVector.Shape N W v) (position : XbitIterator) (x : Nat)
    (p : XbitVector × XbitIterator)
    (h : XbitVector.insert N W v position x = Except.ok p) : XbitVector.Shape N W p.1 := by
  unfold XbitVector.insert at h
  have hs : v.size = v.size_ := rfl
  by_cases hroom : v.size < XbitVector.capacity N W v
  · simp only [if_pos hroom, Except.ok.injEq] at h
    subst h
    rw [hv.capacity_nowrap] at hroom
    apply shape_put
    apply shape_setMem
    refine shape_of hv _ rfl rfl ?_
    exact Nat.le_trans (Nat.mod_le (v.size_ + 1) _) (by omega)
  · simp only [if_neg hroom] at h
    cases hrec : XbitVector.recommend N W v ((v.size_ + 1) % 2 ^ 64) with
    | error e => rw [hrec] at h; simp at h
    | ok c =>
      rw [hrec] at h
      simp only at h
      cases hres : XbitVector.reserve N W (XbitVector.empty v.alloc_) c with
      | error e => rw [hres] at h; simp at h
      | ok w =>
        rw [hres] at h
        simp only [Except.ok.injEq] at h
        subst h
        have hge := recommend_ok_ge g _ _ c hrec
        apply shape_put
        apply shape_swap_fst
        apply shape_setMem
        exact shape_reserve_resized g _ c w hres _ (setMem_isSome _ _) rfl hge

theorem shape_insert_n {N W : Nat} (g : GoodWidths N W) (v : XbitVector)
    (hv : XbitVector.Shape N W v) (position : XbitIterator) (n x : Nat) :
    XbitVector.Shape N W (XbitVector.insert_n N W v position n x).2 := by
  unfold XbitVector.insert_n
  have hs : v.size = v.size_ := rfl
  by_cases hfit : n ≤ XbitVector.capacity N W v ∧ v.size ≤ XbitVector.capacity N W v - n
  · simp only [if_pos hfit]
    rw [hv.capacity_nowrap] at hfit
    apply shape_setMem
    apply shape_setMem
    refine shape_of hv _ rfl rfl ?_
    exact Nat.le_trans (Nat.mod_le (v.size_ + n) _) (by omega)
  · simp only [if_neg hfit]
    cases hrec : XbitVector.recommend N W v ((v.size_ + n) % 2 ^ 64) with
    | error e => exact hv
    | ok c =>
      simp only
      cases hres : XbitVector.reserve N W (XbitVector.empty v.alloc_) c with
      | error e => exact hv
      | ok w =>
        simp only
        have hge := recommend_ok_ge g _ _ c hrec
        apply shape_setMem
        apply shape_swap_fst
        apply shape_setMem
        exact shape_reserve_resized g _ c w hres _ (setMem_isSome _ _) rfl hge

theorem shape_insert_range {N W : Nat} (g : GoodWidths N W) (v : XbitVector)
    (hv : XbitVector.Shape N W v) (position : XbitIterator) (src : List Nat) :
    XbitVector.Shape N W (XbitVector.insert_range N W v position src).2 := by
  unfold XbitVector.insert_range
  have hs : v.size = v.size_ := rfl
  by_cases hfit : src.length ≤ XbitVector.capacity N W v
      ∧ v.size ≤ XbitVector.capacity N W v - src.length
  · simp only [if_pos hfit]
    rw [hv.capacity_nowrap] at hfit
    apply shape_setMem
    apply shape_setMem
    refine shape_of hv _ rfl rfl ?_
    exact Nat.le_trans (Nat.mod_le (v.size_ + src.length) _) (by omega)
  · simp only [if_neg hfit]
    cases hrec : XbitVector.recommend N W v ((v.size_ + src.length) % 2 ^ 64) with
    | error e => exact hv
    | ok c =>
      simp only
      cases hres : XbitVector.reserve N W (XbitVector.empty v.alloc_) c with
      | error e => exact hv
      | ok w =>
        simp only
        have hge := recommend_ok_ge g _ _ c hrec
        apply shape_setMem
        apply shape_swap_fst
        apply shape_setMem
        exact shape_reserve_resized g _ c w hres _ (setMem_isSome _ _) rfl hge

theorem shape_append_while {N W : Nat} (src : List Nat) (v : XbitVector)
    (hv : XbitVector.Shape N W v) :
    XbitVector.Shape N W (XbitVector.append_while N W src v).1 ∧
      v.size_ ≤ (XbitVector.append_while N W src v).1.size_ := by
  induction src generalizing v with
  | nil => exact ⟨hv, Nat.le_refl _⟩
  | cons x xs ih =>
    unfold XbitVector.append_while
    have hsz := hv.size_bound
    have hcl := hv.cap_le
    have hs : v.size = v.size_ := rfl
    by_cases hroom : v.size ≠ XbitVector.capacity N W v
    · simp only [if_pos hroom]
      rw [hv.capacity_nowrap] at hroom
      have hmod : (v.size_ + 1) % 2 ^ 64 = v.size_ + 1 := Nat.mod_eq_of_lt (by omega)
      have hsh : XbitVector.Shape N W (XbitVector.put N W
          { v with size_ := (v.size_ + 1) % 2 ^ 64 }
          (XbitIterator.sub N W (XbitVector.«end» N W { v with size_ := (v.size_ + 1) % 2 ^ 64 }) 1)
          x) := by
        apply shape_put
        refine shape_of hv _ rfl rfl ?_
        show (v.size_ + 1) % 2 ^ 64 ≤ _
        omega
      obtain ⟨h1, h2⟩ := ih _ hsh
      refine ⟨h1, Nat.le_trans ?_ h2⟩
      show v.size_ ≤ (v.size_ + 1) % 2 ^ 64
      omega
    · simp only [if_neg hroom]
      exact ⟨hv, Nat.le_refl _⟩

theorem shape_insert_input_finish {N W : Nat} (g : GoodWidths N W) (v tmp : XbitVector)
    (hv : XbitVector.Shape N W v) (p old_end : XbitIterator) (off : Int) :
    XbitVector.Shape N W (XbitVector.insert_input_finish N W v tmp p old_end off).2 := by
  unfold XbitVector.insert_input_finish
  have h := shape_insert_range g (v.setMem
    (std_rotate N W v.mem p old_end (XbitVector.«end» N W v)).1) (shape_setMem hv _)
    (std_rotate N W v.mem p old_end (XbitVector.«end» N W v)).2 (XbitVector.range N W tmp)
  simp only
  split <;> exact h

theorem shape_insert_input {N W : Nat} (g : GoodWidths N W) (v : XbitVector)
    (hv : XbitVector.Shape N W v) (position : XbitIterator) (src : List Nat) :
    XbitVector.Shape N W (XbitVector.insert_input N W v position src).2 := by
  unfold XbitVector.insert_input
  obtain ⟨h1, h2⟩ := shape_append_while (N := N) (W := W) src v hv
  have herase : XbitVector.Shape N W (XbitVector.erase N W (XbitVector.append_while N W src v).1
      (XbitVector.«end» N W v) (XbitVector.«end» N W (XbitVector.append_while N W src v).1)).1 :=
    shape_erase g _ h1 v.size_ _ h2 (Nat.le_refl _)
  simp only
  cases hrest : (XbitVector.append_while N W src v).2 with
  | nil => exact shape_insert_input_finish g _ _ h1 _ _ _
  | cons x xs =>
    simp only
    cases ha : XbitVector.assign_input N W
        (XbitVector.empty (XbitVector.append_while N W src v).1.alloc_) (x :: xs) with
    | error e => exact herase
    | ok tmp =>
      simp only
      cases hrec : XbitVector.recommend N W (XbitVector.append_while N W src v).1
          (((XbitVector.append_while N W src v).1.size + tmp.size) % 2 ^ 64) with
      | error e => exact herase
      | ok c =>
        simp only
        cases hres : XbitVector.reserve N W (XbitVector.append_while N W src v).1 c with
        | error e => exact herase
        | ok v2 =>
          simp only
          exact shape_insert_input_finish g _ _
            (reserve_shape g _ h1 c v2 hres).1 _ _ _

/-! ## Field accessors: increment, decrement, frame -/

theorem extract_lt (N W blk shift : Nat) (hN : N ≤ W) :
    XbitReference.extract N W blk shift < 2 ^ N := by
  unfold XbitReference.extract
  rw [mask_eq N W hN, Nat.and_pow_two_sub_one_eq_mod]
  exact Nat.lt_of_le_of_lt (Nat.mod_le _ _) (Nat.mod_lt _ (Nat.two_pow_pos N))

theorem toUInt8_lt {N W : Nat} (g : GoodWidths N W) (m : List Nat) (r : XbitReference) :
    r.toUInt8 N W m < 2 ^ N :=
  extract_lt N W _ _ g.N_le_W

theorem toUInt8_assign {N W : Nat} (g : GoodWidths N W) (m : List Nat) (p o x : Nat)
    (hp : p < m.length) (ho : o < xbits_per_block N W) :
    (XbitReference.ofOffset N (p : Int) o).toUInt8 N W
      ((XbitReference.ofOffset N (p : Int) o).assign N W m x) = x % 2 ^ N := by
  unfold XbitReference.toUInt8 XbitReference.assign XbitReference.ofOffset
  simp only
  rw [load_store_same _ _ _ (Int.natCast_nonneg _) (by simpa using hp)]
  exact extract_deposit_same N W _ _ _ g.N_le_W g.N_le (g.shift_le o ho)

/-- Reading another field of the same block, or a field of another block, after an
assignment through an accessor. -/
theorem toUInt8_assign_other {N W : Nat} (g : GoodWidths N W) (m : List Nat) (p o q t x : Nat)
    (ht : t < xbits_per_block N W) (hne : p ≠ q ∨ o ≠ t) :
    (XbitReference.ofOffset N (q : Int) t).toUInt8 N W
      ((XbitReference.ofOffset N (p : Int) o).assign N W m x)
      = (XbitReference.ofOffset N (q : Int) t).toUInt8 N W m := by
  unfold XbitReference.toUInt8 XbitReference.assign XbitReference.ofOffset
  simp only
  by_cases hpq : p = q
  · subst hpq
    have hot : o ≠ t := by
      rcases hne with h | h
      · exact absurd rfl h
      · exact h
    by_cases hp : p < m.length
    · rw [load_store_same _ _ _ (Int.natCast_nonneg _) (by simpa using hp)]
      apply extract_deposit_other N W _ _ _ _ g.N_le_W g.N_le (g.shift_le t ht)
      rcases Nat.lt_or_gt_of_ne hot with h | h
      · left
        calc o * N + N = (o + 1) * N := by ring
          _ ≤ t * N := Nat.mul_le_mul_right N h
      · right
        calc t * N + N = (t + 1) * N := by ring
          _ ≤ o * N := Nat.mul_le_mul_right N h
    · rw [load_store_oob _ _ _ (by simpa using hp)]
  · rw [load_store_other _ _ _ _ (by omega)]

theorem two_pow_dvd_256 (N : Nat) (h : N ≤ 8) : 2 ^ N ∣ 256 := by
  have : (256 : Nat) = 2 ^ 8 := by decide
  rw [this]
  exact Nat.pow_dvd_pow 2 h

theorem two_pow_le_256 (N : Nat) (h : N ≤ 8) : 2 ^ N ≤ 256 :=
  Nat.le_of_dvd (by decide) (two_pow_dvd_256 N h)

theorem pre_incr_read {N W : Nat} (g : GoodWidths N W) (m : List Nat) (p o : Nat)
    (hp : p < m.length) (ho : o < xbits_per_block N W) :
    (XbitReference.ofOffset N (p : Int) o).toUInt8 N W
      ((XbitReference.ofOffset N (p : Int) o).pre_incr N W m)
      = ((XbitReference.ofOffset N (p : Int) o).toUInt8 N W m + 1) % 2 ^ N := by
  unfold XbitReference.pre_incr
  rw [toUInt8_assign g m p o _ hp ho]
  exact Nat.mod_mod_of_dvd _ (two_pow_dvd_256 N g.N_le)

theorem pre_decr_read {N W : Nat} (g : GoodWidths N W) (m : List Nat) (p o : Nat)
    (hp : p < m.length) (ho : o < xbits_per_block N W) :
    (XbitReference.ofOffset N (p : Int) o).toUInt8 N W
      ((XbitReference.ofOffset N (p : Int) o).pre_decr N W m)
      = ((XbitReference.ofOffset N (p : Int) o).toUInt8 N W m + (2 ^ N - 1)) % 2 ^ N := by
  unfold XbitReference.pre_decr
  rw [toUInt8_assign g m p o _ hp ho]
  have hc := toUInt8_lt g m (XbitReference.ofOffset N (p : Int) o)
  have h256 := two_pow_le_256 N g.N_le
  have hpos := Nat.two_pow_pos N
  generalize (XbitReference.ofOffset N (p : Int) o).toUInt8 N W m = c at hc ⊢
  rcases Nat.eq_zero_or_pos c with h0 | h0
  · subst h0
    have h1 : ((((0 : Nat) : Int) - 1) % 256).toNat = 255 := by decide
    rw [h1, Nat.zero_add, Nat.mod_eq_of_lt (Nat.sub_lt hpos Nat.one_pos)]
    have hN := g.N_le
    interval_cases N <;> rfl
  · have h1 : ((((c : Nat) : Int) - 1) % 256).toNat = c - 1 := by omega
    rw [h1]
    have h2 : c + (2 ^ N - 1) = c - 1 + 2 ^ N := by omega
    rw [h2, Nat.add_mod_right]

/-! ## Iterator steps by block and offset -/

/-- An iterator with its offset inside the block is determined by its linear position. -/
theorem iter_pos_unique {e : Int} (he : 0 < e) (s1 s2 o1 o2 : Int) (h1 : 0 ≤ o1) (h1e : o1 < e)
    (h2 : 0 ≤ o2) (h2e : o2 < e) (h : s1 * e + o1 = s2 * e + o2) : s1 = s2 ∧ o1 = o2 := by
  have a1 := (Int.ediv_emod_unique (a := s1 * e + o1) (r := o1) (q := s1) he).mpr
    ⟨by rw [Int.mul_comm e s1, Int.add_comm], h1, h1e⟩
  have a2 := (Int.ediv_emod_unique (a := s1 * e + o1) (r := o2) (q := s2) he).mpr
    ⟨by rw [h, Int.mul_comm e s2, Int.add_comm], h2, h2e⟩
  exact ⟨a1.1.symm.trans a2.1, a1.2.symm.trans a2.2⟩

/-- The block and the offset `it + n` arrives at: the floor quotient and the remainder
of `offset + n` by the number of fields of a block. -/
theorem incr_seg {N W : Nat} (g : GoodWidths N W) (it : XbitIterator) (n : Int)
    (ho : it.offset_ < xbits_per_block N W)
    (hlo : -2 ^ 63 + (xbits_per_block N W : Int) ≤ n) (hhi : n < 2 ^ 63) :
    (XbitIterator.incr N W it n).seg_
        = it.seg_ + ((it.offset_ : Int) + n) / (xbits_per_block N W : Int) ∧
      ((XbitIterator.incr N W it n).offset_ : Int)
        = ((it.offset_ : Int) + n) % (xbits_per_block N W : Int) := by
  have he : (0 : Int) < (xbits_per_block N W : Int) := by exact_mod_cast g.e_pos
  obtain ⟨h1, _, h3⟩ := incr_any g it n ho hlo hhi
  have hd := Int.emod_add_ediv ((it.offset_ : Int) + n) (xbits_per_block N W : Int)
  have hm0 := Int.emod_nonneg ((it.offset_ : Int) + n) (Int.ne_of_gt he)
  have hm1 := Int.emod_lt_of_pos ((it.offset_ : Int) + n) he
  have hu := iter_pos_unique he (XbitIterator.incr N W it n).seg_
    (it.seg_ + ((it.offset_ : Int) + n) / (xbits_per_block N W : Int))
    ((XbitIterator.incr N W it n).offset_ : Int)
    (((it.offset_ : Int) + n) % (xbits_per_block N W : Int))
    (Int.natCast_nonneg _) (by exact_mod_cast h1) hm0 hm1
    (by rw [h3, Int.add_mul, Int.mul_comm (((it.offset_ : Int) + n) / _)]; omega)
  exact hu

/-- The block `it + n` arrives at for `n < 0`, as the code computes it: a truncating
division of `n - xbits_per_block + offset + 1`. -/
theorem incr_seg_neg {N W : Nat} (g : GoodWidths N W) (it : XbitIterator) (n : Int)
    (ho : it.offset_ < xbits_per_block N W)
    (hlo : -2 ^ 63 + (xbits_per_block N W : Int) ≤ n) (hn : n < 0) :
    (XbitIterator.incr N W it n).seg_
      = it.seg_ + Int.tdiv (n - (xbits_per_block N W : Int) + (it.offset_ : Int) + 1)
          (xbits_per_block N W : Int) := by
  have he := g.e_pos
  have he32 := g.e_le
  unfold XbitIterator.incr
  simp only
  rw [if_neg (by omega), toSigned_toSize _ (by omega) (by omega),
    toSigned_of_lt _ (by omega)]

/-- The block `it + n` arrives at for `n >= 0`, as the code computes it: the unsigned
quotient of `n + offset`. -/
theorem incr_seg_nonneg {N W : Nat} (it : XbitIterator) (n : Nat) (ho : it.offset_ < 2 ^ 63)
    (hn : n < 2 ^ 63) :
    (XbitIterator.incr N W it (n : Int)).seg_
      = it.seg_ + (((n + it.offset_) / xbits_per_block N W : Nat) : Int) := by
  unfold XbitIterator.incr
  simp only
  rw [if_pos (by omega)]
  have : toSize ((n : Int) + (it.offset_ : Int)) = n + it.offset_ := by
    rw [← Int.natCast_add]
    exact toSize_natCast _ (by omega)
  rw [this]

/-- Floor division of the adjusted numerator, against the floor quotient of `n + offset`:
they agree exactly when `n + offset + 1` is a multiple of the divisor, and differ by
one otherwise. -/
theorem fdiv_adjusted {N W : Nat} (g : GoodWidths N W) (y : Int) :
    Int.fdiv (y - (xbits_per_block N W : Int) + 1) (xbits_per_block N W : Int)
      = y / (xbits_per_block N W : Int)
        - (if (y + 1) % (xbits_per_block N W : Int) = 0 then 0 else 1) := by
  obtain ⟨k, hk5, hk⟩ := g.pow
  rw [hk, Int.fdiv_eq_ediv _ (by positivity)]
  interval_cases k <;> simp only [Nat.reducePow, Nat.cast_ofNat, Nat.cast_one] <;>
    split <;> omega

theorem bump_up_eq_incr {N W : Nat} (g : GoodWidths N W) (it : XbitIterator)
    (ho : it.offset_ < xbits_per_block N W) :
    XbitIterator.bump_up N W it = XbitIterator.incr N W it 1 := by
  have he := g.e_pos
  have he32 := g.e_le
  have hei : (0 : Int) < (xbits_per_block N W : Int) := by exact_mod_cast he
  obtain ⟨h1, _, h3⟩ := incr_any g it 1 ho (by omega) (by decide)
  have hmain : (XbitIterator.bump_up N W it).seg_ = (XbitIterator.incr N W it 1).seg_ ∧
      ((XbitIterator.bump_up N W it).offset_ : Int)
        = ((XbitIterator.incr N W it 1).offset_ : Int) := by
    apply iter_pos_unique hei _ _ _ _ (Int.natCast_nonneg _) _ (Int.natCast_nonneg _)
      (by exact_mod_cast h1)
    · rw [h3]
      unfold XbitIterator.bump_up
      by_cases hb : it.offset_ ≠ xbits_per_block N W - 1
      · rw [if_pos hb]
        simp only
        push_cast
        omega
      · rw [if_neg hb]
        simp only
        have : (it.offset_ : Int) = (xbits_per_block N W : Int) - 1 := by omega
        rw [this, Int.add_mul]
        omega
    · unfold XbitIterator.bump_up
      by_cases hb : it.offset_ ≠ xbits_per_block N W - 1
      · rw [if_pos hb]
        simp only
        omega
      · rw [if_neg hb]
        simp only
        omega
  cases hx : XbitIterator.bump_up N W it with
  | mk s1 o1 =>
    cases hy : XbitIterator.incr N W it 1 with
    | mk s2 o2 =>
      rw [hx, hy] at hmain
      simp only at hmain
      obtain ⟨ha, hb⟩ := hmain
      have hb1 : o1 = o2 := by exact_mod_cast hb
      rw [ha, hb1]

theorem bump_down_eq_incr {N W : Nat} (g : GoodWidths N W) (it : XbitIterator)
    (ho : it.offset_ < xbits_per_block N W) :
    XbitIterator.bump_down N W it = XbitIterator.incr N W it (-1) := by
  have he := g.e_pos
  have he32 := g.e_le
  have hei : (0 : Int) < (xbits_per_block N W : Int) := by exact_mod_cast he
  obtain ⟨h1, _, h3⟩ := incr_any g it (-1) ho (by omega) (by decide)
  have hmain : (XbitIterator.bump_down N W it).seg_ = (XbitIterator.incr N W it (-1)).seg_ ∧
      ((XbitIterator.bump_down N W it).offset_ : Int)
        = ((XbitIterator.incr N W it (-1)).offset_ : Int) := by
    apply iter_pos_unique hei _ _ _ _ (Int.natCast_nonneg _) _ (Int.natCast_nonneg _)
      (by exact_mod_cast h1)
    · rw [h3]
      unfold XbitIterator.bump_down
      by_cases hb : it.offset_ ≠ 0
      · rw [if_pos hb]
        simp only
        omega
      · rw [if_neg hb]
        simp only
        have : it.offset_ = 0 := by omega
        rw [this, Int.sub_mul]
        omega
    · unfold XbitIterator.bump_down
      by_cases hb : it.offset_ ≠ 0
      · rw [if_pos hb]
        simp only
        omega
      · rw [if_neg hb]
        simp only
        omega
  cases hx : XbitIterator.bump_down N W it with
  | mk s1 o1 =>
    cases hy : XbitIterator.incr N W it (-1) with
    | mk s2 o2 =>
      rw [hx, hy] at hmain
      simp only at hmain
      obtain ⟨ha, hb⟩ := hmain
      have hb1 : o1 = o2 := by exact_mod_cast hb
      rw [ha, hb1]

/-! ## `recommend` and the capacity translator -/

/-- The value of `recommend(new_size)`, for every state and request. -/
theorem recommend_spec {N W : Nat} (g : GoodWidths N W) (v : XbitVector) (ns : Nat) :
    XbitVector.recommend N W v ns
      = if ns > XbitVector.max_size N W v then Except.error Error.length_error
        else Except.ok
          (if XbitVector.capacity N W v ≥ XbitVector.max_size N W v / 2
            then XbitVector.max_size N W v
            else max (2 * XbitVector.capacity N W v) (XbitVector.align_it N W ns)) := by
  have hms := max_size_le g v
  unfold XbitVector.recommend
  simp only
  by_cases h1 : ns > XbitVector.max_size N W v
  · rw [if_pos h1, if_pos h1]
  · rw [if_neg h1, if_neg h1]
    by_cases h2 : XbitVector.capacity N W v ≥ XbitVector.max_size N W v / 2
    · rw [if_pos h2, if_pos h2]
    · rw [if_neg h2, if_neg h2, Nat.mod_eq_of_lt (by omega)]

/-- The value `align_it(n)` is the smallest multiple of `xbits_per_block` that is at least `n`. -/
theorem align_it_least {N W : Nat} (g : GoodWidths N W) (n : Nat) (h : n < 2 ^ 63) :
    XbitVector.align_it N W n
        = (n + (xbits_per_block N W - 1)) / xbits_per_block N W * xbits_per_block N W ∧
      xbits_per_block N W ∣ XbitVector.align_it N W n ∧
      n ≤ XbitVector.align_it N W n ∧
      ∀ m, xbits_per_block N W ∣ m → n ≤ m → XbitVector.align_it N W n ≤ m := by
  have he := g.e_pos
  have heq := align_it_eq g n h
  refine ⟨heq, ?_, align_it_ge g n h, ?_⟩
  · rw [heq]
    exact Nat.dvd_mul_left _ _
  · intro m ⟨q, hq⟩ hnm
    rw [heq, hq, Nat.mul_comm (xbits_per_block N W) q]
    apply Nat.mul_le_mul_right
    apply (Nat.div_le_iff_le_mul_add_pred he).mpr
    rw [hq] at hnm
    omega

theorem external_cap_to_internal_zero {N W : Nat} (hw : ValidWidths N W) :
    XbitVector.external_cap_to_internal N W 0 = 2 ^ 64 / xbits_per_block N W ∧
      XbitVector.external_cap_to_internal N W 0 ≠ 0 := by
  obtain ⟨hN, hW⟩ := hw
  rcases hN with rfl | rfl <;> rcases hW with rfl | rfl | rfl | rfl <;> decide

theorem ceil_blocks {N W : Nat} (g : GoodWidths N W) (n : Nat) (h0 : 0 < n) :
    (n - 1) / xbits_per_block N W + 1 = (n + (xbits_per_block N W - 1)) / xbits_per_block N W := by
  have he := g.e_pos
  have : n + (xbits_per_block N W - 1) = n - 1 + xbits_per_block N W := by omega
  rw [this, Nat.add_div_right _ he]

theorem e_even {N W : Nat} (hw : ValidWidths N W) : 2 ∣ xbits_per_block N W := by
  obtain ⟨hN, hW⟩ := hw
  rcases hN with rfl | rfl <;> rcases hW with rfl | rfl | rfl | rfl <;> decide

theorem capacity_even {N W : Nat} (hw : ValidWidths N W) (v : XbitVector) :
    2 ∣ XbitVector.capacity N W v := by
  unfold XbitVector.capacity XbitVector.internal_cap_to_external
  have h2 : (2 : Nat) ∣ 2 ^ 64 := ⟨2 ^ 63, by decide⟩
  rw [Nat.dvd_mod_iff h2]
  exact Dvd.dvd.mul_left (e_even hw) _

/-- The test `cap >= ms / 2` of `recommend`, with its integer division, holds exactly
when the capacity is at least half of `max_size()`. -/
theorem half_max_size_iff {N W : Nat} (hw : ValidWidths N W) (v : XbitVector) :
    XbitVector.capacity N W v ≥ XbitVector.max_size N W v / 2
      ↔ 2 * XbitVector.capacity N W v ≥ XbitVector.max_size N W v := by
  obtain ⟨j, hj⟩ := capacity_even hw v
  obtain ⟨t, ht⟩ := e_even hw
  rw [hj]
  unfold XbitVector.max_size XbitVector.internal_cap_to_external SIZE_MAX
  simp only
  split
  · omega
  · have h1 : v.alloc_.max_size * xbits_per_block N W % 2 ^ 64
        = 2 * ((v.alloc_.max_size * xbits_per_block N W % 2 ^ 64) / 2) := by
      have h2 : (2 : Nat) ∣ 2 ^ 64 := ⟨2 ^ 63, by decide⟩
      have h3 : 2 ∣ v.alloc_.max_size * xbits_per_block N W % 2 ^ 64 := by
        rw [Nat.dvd_mod_iff h2]
        exact Dvd.dvd.mul_left ⟨t, ht⟩ _
      omega
    generalize v.alloc_.max_size * xbits_per_block N W % 2 ^ 64 = ms at h1
    omega

/-! ## Sized and copy construction -/

/-- The forward-range constructor on a range that yields arbitrary values. -/
theorem ofRange_ok {N W : Nat} (g : GoodWidths N W) (a : Allocator) (src : List Nat)
    (hn : src.length ≤ XbitVector.max_size N W (XbitVector.empty a))
    (ha : src ≠ [] → a.avail (XbitVector.external_cap_to_internal N W src.length) = true) :
    ∃ v, XbitVector.ofRange N W a src = Except.ok v ∧ v.size_ = src.length ∧
      v.alloc_ = a ∧ (src = [] → v = XbitVector.empty a) ∧
      ∀ i, i < src.length → elemAt N W v.mem i = src.getD i 0 % 2 ^ N := by
  by_cases h0 : src = []
  · subst h0
    exact ⟨XbitVector.empty a, rfl, rfl, rfl, fun _ => rfl, fun i hi => absurd hi (by simp)⟩
  · obtain ⟨buf, hlen, hv⟩ := vallocate_empty (N := N) (W := W) a src.length hn (ha h0)
    have hpos : 0 < src.length := List.length_pos.mpr h0
    have hmax := max_size_le g (XbitVector.empty a)
    have hext := external_cap_to_internal_eq N W src.length hpos (by omega)
    have hcover := blocks_cover g src.length
    have hmod : src.length % 2 ^ 64 = src.length := Nat.mod_eq_of_lt (by omega)
    refine ⟨⟨some (std_copy_values N W src buf (XbitVector.make_iter N W 0)).1, src.length,
      XbitVector.external_cap_to_internal N W src.length, a⟩, ?_, rfl, rfl,
      fun h => absurd h h0, ?_⟩
    · unfold XbitVector.ofRange
      simp only [if_pos hpos, hv, XbitVector.construct_at_end, XbitVector.setMem,
        XbitVector.mem, Option.map_some', Option.getD_some, Nat.zero_add, hmod]
    · intro i hi
      have hm : (⟨some (std_copy_values N W src buf (XbitVector.make_iter N W 0)).1,
          src.length, XbitVector.external_cap_to_internal N W src.length, a⟩ : XbitVector).mem
          = (std_copy_values N W src buf (XbitVector.make_iter N W 0)).1 := rfl
      rw [hm, std_copy_values_elemAt g _ _ _ _ (by rw [hlen, hext]; omega),
        if_pos (by omega), Nat.sub_zero]

theorem copy_eq_ofRange {N W : Nat} (g : GoodWidths N W) (v : XbitVector)
    (hv : XbitVector.Valid N W v) (a : Allocator) :
    XbitVector.copy N W v a = XbitVector.ofRange N W a (XbitVector.range N W v) := by
  unfold XbitVector.copy XbitVector.ofRange
  simp only [range_length g v hv]
  rfl

/-- The copy constructor. -/
theorem copy_ok {N W : Nat} (g : GoodWidths N W) (v : XbitVector)
    (hv : XbitVector.Valid N W v) (a : Allocator)
    (hn : v.size_ ≤ XbitVector.max_size N W (XbitVector.empty a))
    (ha : v.size_ ≠ 0 → a.avail (XbitVector.external_cap_to_internal N W v.size_) = true) :
    ∃ w, XbitVector.copy N W v a = Except.ok w ∧ w.size_ = v.size_ ∧ w.alloc_ = a ∧
      (v.size_ = 0 → w = XbitVector.empty a) ∧
      ∀ i, i < v.size_ → elemAt N W w.mem i = elemAt N W v.mem i := by
  have hrl := range_length g v hv
  obtain ⟨w, h1, h2, h3, h4, h5⟩ := ofRange_ok g a (XbitVector.range N W v)
    (by rw [hrl]; exact hn)
    (fun hne => by
      rw [hrl]
      apply ha
      intro h0
      apply hne
      apply List.eq_nil_of_length_eq_zero
      rw [hrl]
      exact h0)
  refine ⟨w, by rw [copy_eq_ofRange g v hv a]; exact h1, by rw [h2, hrl], h3, ?_, ?_⟩
  · intro h0
    apply h4
    apply List.eq_nil_of_length_eq_zero
    rw [hrl]
    exact h0
  · intro i hi
    rw [h5 i (by rw [hrl]; exact hi), range_getD g v hv i hi]
    exact elemAt_mod g _ _

/-- The sized constructors. -/
theorem ofFill_ok {N W : Nat} (g : GoodWidths N W) (a : Allocator) (n x : Nat)
    (hn : n ≤ XbitVector.max_size N W (XbitVector.empty a))
    (ha : n ≠ 0 → a.avail (XbitVector.external_cap_to_internal N W n) = true) :
    ∃ v, XbitVector.ofFill N W a n x = Except.ok v ∧ v.size_ = n ∧ v.alloc_ = a ∧
      (n = 0 → v = XbitVector.empty a) ∧
      (n ≠ 0 → v.begin_.isSome = true ∧ v.cap_ = (n - 1) / xbits_per_block N W + 1) ∧
      ∀ i, i < n → elemAt N W v.mem i = x % 2 ^ N := by
  by_cases h0 : n = 0
  · subst h0
    exact ⟨XbitVector.empty a, rfl, rfl, rfl, fun _ => rfl, fun h => absurd rfl h,
      fun i hi => absurd hi (by omega)⟩
  · obtain ⟨buf, hlen, hv⟩ := vallocate_empty (N := N) (W := W) a n hn (ha h0)
    have hpos : 0 < n := Nat.pos_of_ne_zero h0
    have hmax := max_size_le g (XbitVector.empty a)
    have hext := external_cap_to_internal_eq N W n hpos (by omega)
    have hcover := blocks_cover g n
    have hmod : n % 2 ^ 64 = n := Nat.mod_eq_of_lt (by omega)
    refine ⟨⟨some (std_fill_n N W n buf (XbitVector.make_iter N W 0) x), n,
      XbitVector.external_cap_to_internal N W n, a⟩, ?_, rfl, rfl, fun h => absurd h h0,
      fun _ => ⟨rfl, hext⟩, ?_⟩
    · unfold XbitVector.ofFill
      simp only [if_pos hpos, hv, XbitVector.construct_at_end_fill, XbitVector.setMem,
        XbitVector.mem, Option.map_some', Option.getD_some, Nat.zero_add, hmod]
    · intro i hi
      have hm : (⟨some (std_fill_n N W n buf (XbitVector.make_iter N W 0) x), n,
          XbitVector.external_cap_to_internal N W n, a⟩ : XbitVector).mem
          = std_fill_n N W n buf (XbitVector.make_iter N W 0) x := rfl
      rw [hm, std_fill_n_elemAt g _ _ _ _ _ (by rw [hlen, hext]; omega), if_pos (by omega)]

/-! ## Containers up to the largest capacity -/

theorem wide_of_valid {N W : Nat} {v : XbitVector} (h : XbitVector.Valid N W v) :
    XbitVector.Wide N W v :=
  ⟨h.inv, h.len, by have := h.cap_lt; omega, by have := h.cap_lt; have := h.size_le; omega⟩

theorem XbitVector.Wide.shape {N W : Nat} {v : XbitVector} (h : XbitVector.Wide N W v) :
    XbitVector.Shape N W v :=
  ⟨h.inv, h.cap_le⟩

theorem XbitVector.Wide.capacity_val {N W : Nat} {v : XbitVector} (h : XbitVector.Wide N W v) :
    XbitVector.capacity N W v = v.cap_ * xbits_per_block N W :=
  h.shape.capacity_nowrap

theorem XbitVector.Wide.size_room {N W : Nat} {v : XbitVector} (h : XbitVector.Wide N W v) :
    v.size_ ≤ v.cap_ * xbits_per_block N W :=
  h.shape.size_bound

/-- A state with a buffer of `c` blocks, `0 < c`, `c * xbits_per_block <= 2^63`, and a
size within that buffer and below `2^63`. -/
theorem wide_mk {N W : Nat} (buf : List Nat) (s c : Nat) (a : Allocator)
    (hlen : buf.length = c) (hc0 : c ≠ 0) (hc : c * xbits_per_block N W ≤ 2 ^ 63)
    (hs : s ≤ c * xbits_per_block N W) (hs63 : s < 2 ^ 63) :
    XbitVector.Wide N W ⟨some buf, s, c, a⟩ :=
  ⟨((shape_iff N W ⟨some buf, s, c, a⟩).mpr (Or.inr ⟨rfl, hc0, hs, hc⟩)).inv, hlen, hc, hs63⟩

/-- A state with the buffer length, capacity and allocator of a wide state, and a size
within that capacity and below `2^63`. -/
theorem wide_of {N W : Nat} {v : XbitVector} (hv : XbitVector.Wide N W v) (v1 : XbitVector)
    (hb : v1.begin_.isSome = v.begin_.isSome) (hl : v1.mem.length = v.mem.length)
    (hc : v1.cap_ = v.cap_) (hs : v1.size_ ≤ v.cap_ * xbits_per_block N W)
    (hs63 : v1.size_ < 2 ^ 63) : XbitVector.Wide N W v1 :=
  ⟨(shape_of hv.shape v1 hb hc hs).inv, by rw [hl, hc]; exact hv.len,
    by rw [hc]; exact hv.cap_le, hs63⟩

theorem wide_setMem {N W : Nat} {v : XbitVector} (hv : XbitVector.Wide N W v) (m : List Nat)
    (hm : m.length = v.mem.length) : XbitVector.Wide N W (v.setMem m) :=
  wide_of hv _ (setMem_isSome v m) (by rw [mem_setMem v m hm, hm]) rfl hv.size_room hv.size_lt

theorem wide_empty (N W : Nat) (a : Allocator) : XbitVector.Wide N W (XbitVector.empty a) :=
  wide_of_valid (valid_empty N W a)

theorem wide_range_eq {N W : Nat} (g : GoodWidths N W) (v : XbitVector)
    (h : XbitVector.Wide N W v) :
    XbitVector.range N W v
      = XbitVector.values N W v.mem v.size_ (XbitVector.make_iter N W 0) := by
  unfold XbitVector.range XbitVector.end XbitVector.begin
  have := h.size_lt
  rw [diff_make_iter g v.size_ 0 (by omega) (by decide)]
  simp

theorem wide_range_length {N W : Nat} (g : GoodWidths N W) (v : XbitVector)
    (h : XbitVector.Wide N W v) : (XbitVector.range N W v).length = v.size_ := by
  rw [wide_range_eq g v h, values_length]

theorem wide_range_getD {N W : Nat} (g : GoodWidths N W) (v : XbitVector)
    (h : XbitVector.Wide N W v) (i : Nat) (hi : i < v.size_) :
    (XbitVector.range N W v).getD i 0 = elemAt N W v.mem i := by
  rw [wide_range_eq g v h, values_getD g _ _ _ _ hi, Nat.zero_add]

/-- The effect of `reserve(n)` when it has to reallocate, up to the largest capacity. -/
theorem wide_reserve_grow {N W : Nat} (g : GoodWidths N W) (v : XbitVector)
    (h : XbitVector.Wide N W v) (n : Nat) (hcap : n > XbitVector.capacity N W v)
    (hn : n ≤ XbitVector.max_size N W v)
    (ha : v.alloc_.avail (XbitVector.external_cap_to_internal N W n) = true) :
    ∃ buf, buf.length = (n - 1) / xbits_per_block N W + 1 ∧
      XbitVector.reserve N W v n
        = Except.ok ⟨some buf, v.size_, (n - 1) / xbits_per_block N W + 1, v.alloc_⟩ ∧
      (∀ i, i < v.size_ → elemAt N W buf i = elemAt N W v.mem i) ∧
      XbitVector.Wide N W ⟨some buf, v.size_, (n - 1) / xbits_per_block N W + 1, v.alloc_⟩ ∧
      n ≤ ((n - 1) / xbits_per_block N W + 1) * xbits_per_block N W := by
  have hms : XbitVector.max_size N W (XbitVector.empty v.alloc_) = XbitVector.max_size N W v :=
    max_size_alloc N W _ _ rfl
  obtain ⟨buf, hlen, hv⟩ := vallocate_empty (N := N) (W := W) v.alloc_ n (by rw [hms]; exact hn) ha
  have hmax := max_size_le g v
  have hsz := h.size_room
  have hs63 := h.size_lt
  have hce := h.capacity_val
  have hn0 : 0 < n := by omega
  have hext := external_cap_to_internal_eq N W n hn0 (by omega)
  have hcover := blocks_cover g n
  have hrl := wide_range_length g v h
  obtain ⟨_, _, _, _, hle, _, _⟩ := vallocate_shape g _ n _ hv hn0
  have hle1 : ((n - 1) / xbits_per_block N W + 1) * xbits_per_block N W ≤ 2 ^ 63 := by
    rw [← hext]
    exact hle
  rw [hext] at hlen hv
  refine ⟨(std_copy_values N W (XbitVector.range N W v) buf (XbitVector.make_iter N W 0)).1,
    ?_, ?_, ?_, ?_, hcover⟩
  · rw [std_copy_values_length, hlen]
  · unfold XbitVector.reserve
    rw [if_pos hcap, hv]
    simp only [XbitVector.construct_at_end, XbitVector.setMem, XbitVector.mem, XbitVector.swap,
      hrl, Option.map_some', Option.getD_some, Nat.zero_add]
    have : v.size_ % 2 ^ 64 = v.size_ := Nat.mod_eq_of_lt (by omega)
    rw [this]
    split <;> rfl
  · intro i hi
    rw [std_copy_values_elemAt g _ _ _ _ (by rw [hrl, hlen]; omega), hrl,
      if_pos (by omega), Nat.sub_zero, wide_range_getD g v h i hi]
    exact elemAt_mod g _ _
  · exact wide_mk _ _ _ _ (by rw [std_copy_values_length, hlen]) (Nat.succ_ne_zero _) hle1
      (by omega) hs63

/-- A request that `recommend` turns into a capacity `vallocate` accepts. -/
theorem recommend_ok_bounds {N W : Nat} (g : GoodWidths N W) (v : XbitVector) (ns : Nat)
    (hns : ns ≤ XbitVector.max_size N W v)
    (hre : ¬ XbitVector.capacity N W v ≥ XbitVector.max_size N W v / 2 →
      XbitVector.align_it N W ns ≤ XbitVector.max_size N W v) :
    ∃ c, XbitVector.recommend N W v ns = Except.ok c ∧ ns ≤ c ∧
      c ≤ XbitVector.max_size N W v := by
  have hms := max_size_le g v
  rw [recommend_spec g v ns, if_neg (by omega)]
  by_cases h : XbitVector.capacity N W v ≥ XbitVector.max_size N W v / 2
  · rw [if_pos h]
    exact ⟨_, rfl, hns, Nat.le_refl _⟩
  · rw [if_neg h]
    have h1 := align_it_ge g ns (by omega)
    have h2 := hre h
    refine ⟨_, rfl, ?_, ?_⟩
    · exact Nat.le_trans h1 (Nat.le_max_right _ _)
    · apply Nat.max_le.mpr
      exact ⟨by omega, h2⟩

/-- When the buffer is full and below `max_size()`, the rounded request for one more
element is within `max_size()`. -/
theorem align_it_full {N W : Nat} (g : GoodWidths N W) (v : XbitVector)
    (hv : XbitVector.Wide N W v) (hfull : v.size_ = v.cap_ * xbits_per_block N W)
    (h : v.size_ < XbitVector.max_size N W v)
    (hlt : ¬ XbitVector.capacity N W v ≥ XbitVector.max_size N W v / 2) :
    XbitVector.align_it N W (v.size_ + 1) ≤ XbitVector.max_size N W v := by
  have hmax := max_size_le g v
  have hal := align_it_blocks g (v.size_ + 1) (by omega) (by omega)
  have hge := max_size_ge_block g v (by omega)
  have hdiv : (v.size_ + 1 - 1) / xbits_per_block N W = v.cap_ := by
    rw [Nat.add_sub_cancel, hfull, Nat.mul_div_cancel _ g.e_pos]
  rw [hv.capacity_val] at hlt
  rw [hal, hdiv, Nat.add_mul, Nat.one_mul]
  rcases Nat.eq_zero_or_pos v.cap_ with h0 | h0
  · rw [h0]; omega
  · have : xbits_per_block N W ≤ v.cap_ * xbits_per_block N W :=
      Nat.le_mul_of_pos_left _ h0
    omega

/-- The effect of `push_back(x)`, up to the largest capacity. -/
theorem wide_push_back {N W : Nat} (g : GoodWidths N W) (v : XbitVector)
    (hv : XbitVector.Wide N W v) (x : Nat) (hn : v.size_ < XbitVector.max_size N W v)
    (ha : v.size_ = XbitVector.capacity N W v → ∀ k, v.alloc_.avail k = true) :
    ∃ v1, XbitVector.push_back N W v x = Except.ok v1 ∧ XbitVector.Wide N W v1 ∧
      v1.size_ = v.size_ + 1 ∧ v1.alloc_ = v.alloc_ ∧
      elemAt N W v1.mem v.size_ = x % 2 ^ N ∧
      ∀ i, i < v.size_ → elemAt N W v1.mem i = elemAt N W v.mem i := by
  have hmax := max_size_le g v
  have hsz := hv.size_room
  have hce := hv.capacity_val
  have hmod : (v.size_ + 1) % 2 ^ 64 = v.size_ + 1 := Nat.mod_eq_of_lt (by omega)
  have hsub : XbitIterator.sub N W (XbitVector.make_iter N W (v.size_ + 1)) 1
      = XbitVector.make_iter N W v.size_ := by
    rw [sub_one_make_iter g _ (by omega) (by omega), Nat.add_sub_cancel]
  by_cases hfull : v.size_ = XbitVector.capacity N W v
  · obtain ⟨c, hrec, hc1, hc2⟩ := recommend_ok_bounds g v (v.size_ + 1) (by omega)
      (align_it_full g v hv (hfull.trans hce) hn)
    obtain ⟨buf, hlen, hres, hel, hwide, hroom⟩ :=
      wide_reserve_grow g v hv c (by omega) hc2 (ha hfull _)
    have hput : (XbitVector.put N W ⟨some buf, v.size_ + 1,
        (c - 1) / xbits_per_block N W + 1, v.alloc_⟩ (XbitVector.make_iter N W v.size_) x).mem
        = XbitIterator.put N W buf (XbitVector.make_iter N W v.size_) x := mem_put _ _ _ _ _
    refine ⟨XbitVector.put N W ⟨some buf, v.size_ + 1,
      (c - 1) / xbits_per_block N W + 1, v.alloc_⟩
      (XbitVector.make_iter N W v.size_) x, ?_, ?_, rfl, rfl, ?_, ?_⟩
    · unfold XbitVector.push_back
      simp only [if_pos hfull, hmod, hrec, hres, XbitVector.end, hsub]
    · refine wide_of hwide _ ?_ ?_ rfl ?_ ?_
      · exact put_isSome _ _ _ _ _
      · rw [hput, put_length]
        rfl
      · show v.size_ + 1 ≤ ((c - 1) / xbits_per_block N W + 1) * xbits_per_block N W
        omega
      · show v.size_ + 1 < _
        omega
    · rw [hput]
      exact elemAt_put_same g buf _ x (by rw [hlen]; omega)
    · intro i hi
      rw [hput]
      have : elemAt N W (XbitIterator.put N W buf (XbitVector.make_iter N W v.size_) x) i
          = elemAt N W buf i := elemAt_put_other g buf _ i x (by omega)
      exact this.trans (hel i hi)
  · have hput : (XbitVector.put N W { v with size_ := v.size_ + 1 }
        (XbitVector.make_iter N W v.size_) x).mem
        = XbitIterator.put N W v.mem (XbitVector.make_iter N W v.size_) x := mem_put _ _ _ _ _
    refine ⟨XbitVector.put N W { v with size_ := v.size_ + 1 }
      (XbitVector.make_iter N W v.size_) x, ?_, ?_, rfl, rfl, ?_, ?_⟩
    · unfold XbitVector.push_back
      simp only [if_neg hfull, hmod, XbitVector.end, hsub]
    · refine wide_of hv _ ?_ ?_ rfl ?_ ?_
      · exact put_isSome _ _ _ _ _
      · rw [hput, put_length]
      · show v.size_ + 1 ≤ v.cap_ * xbits_per_block N W
        omega
      · show v.size_ + 1 < _
        omega
    · rw [hput]
      have hlt : v.size_ < v.mem.length * xbits_per_block N W := by rw [hv.len]; omega
      exact elemAt_put_same g v.mem _ x hlt
    · intro i hi
      rw [hput]
      exact elemAt_put_other g v.mem _ i x (by omega)

/-- The loop `for (; first != last; ++first) push_back(*first)`. -/
theorem push_back_all_ok {N W : Nat} (g : GoodWidths N W) (src : List Nat) (v : XbitVector)
    (hv : XbitVector.Wide N W v) (hn : v.size_ + src.length ≤ XbitVector.max_size N W v)
    (ha : ∀ k, v.alloc_.avail k = true) :
    ∃ v1, XbitVector.push_back_all N W src v = Except.ok v1 ∧ XbitVector.Wide N W v1 ∧
      v1.size_ = v.size_ + src.length ∧ v1.alloc_ = v.alloc_ ∧
      (∀ i, i < v.size_ → elemAt N W v1.mem i = elemAt N W v.mem i) ∧
      ∀ j, j < src.length → elemAt N W v1.mem (v.size_ + j) = src.getD j 0 % 2 ^ N := by
  induction src generalizing v with
  | nil =>
    exact ⟨v, rfl, hv, rfl, rfl, fun _ _ => rfl, fun j hj => absurd hj (by simp)⟩
  | cons x xs ih =>
    rw [List.length_cons] at hn
    obtain ⟨w, h1, h2, h3, h4, h5, h6⟩ := wide_push_back g v hv x (by omega) (fun _ => ha)
    have hms : XbitVector.max_size N W w = XbitVector.max_size N W v :=
      max_size_alloc N W w v h4
    obtain ⟨v1, k1, k2, k3, k4, k5, k6⟩ := ih w h2 (by rw [hms, h3]; omega)
      (by rw [h4]; exact ha)
    refine ⟨v1, ?_, k2, ?_, k4.trans h4, ?_, ?_⟩
    · unfold XbitVector.push_back_all
      rw [h1]
      exact k1
    · rw [k3, h3, List.length_cons]
      omega
    · intro i hi
      rw [k5 i (by rw [h3]; omega), h6 i hi]
    · intro j hj
      rcases Nat.eq_zero_or_pos j with h0 | h0
      · subst h0
        rw [Nat.add_zero, k5 _ (by rw [h3]; omega), h5]
        rfl
      · have hj1 : j - 1 < xs.length := by
          rw [List.length_cons] at hj
          omega
        have := k6 (j - 1) hj1
        rw [h3] at this
        have hidx : v.size_ + 1 + (j - 1) = v.size_ + j := by omega
        rw [hidx] at this
        rw [this]
        have hj2 : j = (j - 1) + 1 := by omega
        rw [hj2, List.getD_cons_succ]
        rfl

/-- The first loop of the single-pass `insert`: it appends the first `k` source values,
where it stops because the source is used up or the buffer is full. -/
theorem append_while_ok {N W : Nat} (g : GoodWidths N W) (src : List Nat) (v : XbitVector)
    (hv : XbitVector.Wide N W v) (hb : v.size_ + src.length < 2 ^ 63) :
    ∃ k, k ≤ src.length ∧
      (XbitVector.append_while N W src v).2 = src.drop k ∧
      XbitVector.Wide N W (XbitVector.append_while N W src v).1 ∧
      (XbitVector.append_while N W src v).1.size_ = v.size_ + k ∧
      (XbitVector.append_while N W src v).1.cap_ = v.cap_ ∧
      (XbitVector.append_while N W src v).1.alloc_ = v.alloc_ ∧
      ((XbitVector.append_while N W src v).2 ≠ [] →
        (XbitVector.append_while N W src v).1.size_ = v.cap_ * xbits_per_block N W) ∧
      (∀ i, i < v.size_ →
        elemAt N W (XbitVector.append_while N W src v).1.mem i = elemAt N W v.mem i) ∧
      ∀ j, j < k → elemAt N W (XbitVector.append_while N W src v).1.mem (v.size_ + j)
        = src.getD j 0 % 2 ^ N := by
  induction src generalizing v with
  | nil =>
    exact ⟨0, Nat.le_refl _, rfl, hv, rfl, rfl, rfl, fun h => absurd rfl h, fun _ _ => rfl,
      fun j hj => absurd hj (by omega)⟩
  | cons x xs ih =>
    have hsz := hv.size_room
    have hce := hv.capacity_val
    rw [List.length_cons] at hb
    unfold XbitVector.append_while
    by_cases hroom : v.size ≠ XbitVector.capacity N W v
    · rw [if_pos hroom]
      have hroom1 : v.size_ ≠ v.cap_ * xbits_per_block N W := by rw [← hce]; exact hroom
      have hmod : (v.size_ + 1) % 2 ^ 64 = v.size_ + 1 := Nat.mod_eq_of_lt (by omega)
      have hsub : XbitIterator.sub N W (XbitVector.make_iter N W (v.size_ + 1)) 1
          = XbitVector.make_iter N W v.size_ := by
        rw [sub_one_make_iter g _ (by omega) (by omega), Nat.add_sub_cancel]
      simp only [hmod, XbitVector.end, hsub]
      have hput : (XbitVector.put N W { v with size_ := v.size_ + 1 }
          (XbitVector.make_iter N W v.size_) x).mem
          = XbitIterator.put N W v.mem (XbitVector.make_iter N W v.size_) x := mem_put _ _ _ _ _
      have hw : XbitVector.Wide N W (XbitVector.put N W { v with size_ := v.size_ + 1 }
          (XbitVector.make_iter N W v.size_) x) := by
        refine wide_of hv _ ?_ ?_ rfl ?_ ?_
        · exact put_isSome _ _ _ _ _
        · rw [hput, put_length]
        · show v.size_ + 1 ≤ v.cap_ * xbits_per_block N W
          omega
        · show v.size_ + 1 < 2 ^ 63
          omega
      obtain ⟨k, h1, h2, h3, h4, h5, h6, h7, h8, h9⟩ := ih _ hw
        (by show v.size_ + 1 + xs.length < 2 ^ 63; omega)
      refine ⟨k + 1, by rw [List.length_cons]; omega, ?_, h3, ?_, h5, h6, ?_, ?_, ?_⟩
      · rw [h2, List.drop_succ_cons]
      · rw [h4]
        show v.size_ + 1 + k = v.size_ + (k + 1)
        omega
      · intro hne
        exact h7 hne
      · intro i hi
        rw [h8 i (by show i < v.size_ + 1; omega), hput]
        exact elemAt_put_other g v.mem _ i x (by omega)
      · intro j hj
        rcases Nat.eq_zero_or_pos j with h0 | h0
        · subst h0
          rw [Nat.add_zero, h8 _ (by show v.size_ < v.size_ + 1; omega), hput]
          have hlt : v.size_ < v.mem.length * xbits_per_block N W := by rw [hv.len]; omega
          exact elemAt_put_same g v.mem _ x hlt
        · have := h9 (j - 1) (by omega)
          have hidx : (XbitVector.put N W { v with size_ := v.size_ + 1 }
              (XbitVector.make_iter N W v.size_) x).size_ + (j - 1) = v.size_ + j := by
            show v.size_ + 1 + (j - 1) = v.size_ + j
            omega
          rw [hidx] at this
          rw [this]
          have hj2 : j = (j - 1) + 1 := by omega
          rw [hj2, List.getD_cons_succ]
          rfl
    · rw [if_neg hroom]
      have hfull : v.size_ = v.cap_ * xbits_per_block N W := by
        have : v.size = XbitVector.capacity N W v := by
          by_contra hc
          exact hroom hc
        rw [← hce]
        exact this
      exact ⟨0, Nat.zero_le _, rfl, hv, rfl, rfl, rfl, fun _ => hfull, fun _ _ => rfl,
        fun j hj => absurd hj (by omega)⟩

/-- The effect of `std::rotate(first, middle, last)` on the positions `a <= b <= c`. -/
theorem std_rotate_ok {N W : Nat} (g : GoodWidths N W) (m : List Nat) (a b c : Nat)
    (hab : a ≤ b) (hbc : b ≤ c) (hc : c < 2 ^ 63) (hm : c ≤ m.length * xbits_per_block N W) :
    (std_rotate N W m (XbitVector.make_iter N W a) (XbitVector.make_iter N W b)
        (XbitVector.make_iter N W c)).2 = XbitVector.make_iter N W (a + (c - b)) ∧
      (std_rotate N W m (XbitVector.make_iter N W a) (XbitVector.make_iter N W b)
        (XbitVector.make_iter N W c)).1.length = m.length ∧
      ∀ j, elemAt N W (std_rotate N W m (XbitVector.make_iter N W a)
          (XbitVector.make_iter N W b) (XbitVector.make_iter N W c)).1 j
        = if a ≤ j ∧ j < a + (c - b) then elemAt N W m (b + (j - a))
          else if a + (c - b) ≤ j ∧ j < c then elemAt N W m (j - (c - b))
          else elemAt N W m j := by
  have hd1 : (XbitIterator.diff N W (XbitVector.make_iter N W b)
      (XbitVector.make_iter N W a)).toNat = b - a := by
    rw [diff_make_iter g _ _ (by omega) (by omega)]
    omega
  have hd2 : (XbitIterator.diff N W (XbitVector.make_iter N W c)
      (XbitVector.make_iter N W b)).toNat = c - b := by
    rw [diff_make_iter g _ _ (by omega) (by omega)]
    omega
  unfold std_rotate
  simp only [hd1, hd2]
  have hrl : (XbitVector.values N W m (c - b) (XbitVector.make_iter N W b)).length = c - b :=
    values_length _ _ _ _ _
  have hll : (XbitVector.values N W m (b - a) (XbitVector.make_iter N W a)).length = b - a :=
    values_length _ _ _ _ _
  have hit : (std_copy_values N W (XbitVector.values N W m (c - b) (XbitVector.make_iter N W b))
      m (XbitVector.make_iter N W a)).2 = XbitVector.make_iter N W (a + (c - b)) := by
    rw [std_copy_values_iter g, hrl]
  have hlen1 : (std_copy_values N W (XbitVector.values N W m (c - b)
      (XbitVector.make_iter N W b)) m (XbitVector.make_iter N W a)).1.length = m.length :=
    std_copy_values_length _ _ _ _ _
  refine ⟨hit, ?_, ?_⟩
  · rw [std_copy_values_length, hlen1]
  · intro j
    rw [hit, std_copy_values_elemAt g _ _ _ _ (by rw [hll, hlen1]; omega), hll,
      std_copy_values_elemAt g _ _ _ _ (by rw [hrl]; omega), hrl]
    by_cases h1 : a ≤ j ∧ j < a + (c - b)
    · rw [if_neg (by omega), if_pos h1, if_pos h1, values_getD g _ _ _ _ (by omega)]
      exact elemAt_mod g _ _
    · rw [if_neg h1]
      by_cases h2 : a + (c - b) ≤ j ∧ j < c
      · rw [if_pos (by omega), if_neg h1, if_pos h2, values_getD g _ _ _ _ (by omega)]
        have : a + (j - (a + (c - b))) = j - (c - b) := by omega
        rw [this]
        exact elemAt_mod g _ _
      · rw [if_neg (by omega), if_neg h1, if_neg h2]

/-! ## `insert` of several elements -/

/-- The common part of `insert(position, n, x)` and of the forward-range `insert`: the
state `G` in which a gap of `n` elements is open at index `p`, by shifting the tail in
place or by building a new buffer; both members then write into the gap of `G`. -/
theorem insert_gap {N W : Nat} (g : GoodWidths N W) (v : XbitVector)
    (hv : XbitVector.Wide N W v) (p n : Nat) (hp : p ≤ v.size_)
    (hms : v.size_ + n ≤ XbitVector.max_size N W v)
    (hre : ¬ (n ≤ XbitVector.capacity N W v ∧ v.size ≤ XbitVector.capacity N W v - n) →
      (¬ XbitVector.capacity N W v ≥ XbitVector.max_size N W v / 2 →
        XbitVector.align_it N W (v.size_ + n) ≤ XbitVector.max_size N W v) ∧
      ∀ k, v.alloc_.avail k = true) :
    ∃ G, XbitVector.Wide N W G ∧ G.size_ = v.size_ + n ∧ G.alloc_ = v.alloc_ ∧
      ((n ≤ XbitVector.capacity N W v ∧ v.size ≤ XbitVector.capacity N W v - n) →
        G.cap_ = v.cap_) ∧
      (∀ i, i < p → elemAt N W G.mem i = elemAt N W v.mem i) ∧
      (∀ i, p ≤ i → i < v.size_ → elemAt N W G.mem (i + n) = elemAt N W v.mem i) ∧
      (∀ x, XbitVector.insert_n N W v (XbitVector.make_iter N W p) n x
        = (Except.ok (XbitVector.make_iter N W p),
            G.setMem (std_fill_n N W n G.mem (XbitVector.make_iter N W p) x))) ∧
      (∀ src, src.length = n →
        XbitVector.insert_range N W v (XbitVector.make_iter N W p) src
        = (Except.ok (XbitVector.make_iter N W p),
            G.setMem (std_copy_values N W src G.mem (XbitVector.make_iter N W p)).1)) := by
  have hmax := max_size_le g v
  have hsz := hv.size_room
  have hs63 := hv.size_lt
  have hce := hv.capacity_val
  have hmod : (v.size_ + n) % 2 ^ 64 = v.size_ + n := Nat.mod_eq_of_lt (by omega)
  have hd1 : (XbitIterator.diff N W (XbitVector.make_iter N W v.size_)
      (XbitVector.make_iter N W p)).toNat = v.size_ - p := by
    rw [diff_make_iter g _ _ (by omega) (by omega)]
    omega
  have hd2 : (XbitIterator.diff N W (XbitVector.make_iter N W p)
      (XbitVector.make_iter N W 0)).toNat = p := by
    rw [diff_make_iter g _ _ (by omega) (by omega)]
    simp
  have hs : v.size = v.size_ := rfl
  by_cases hfit : n ≤ XbitVector.capacity N W v ∧ v.size ≤ XbitVector.capacity N W v - n
  · -- spare capacity: shift the tail in place
    have hfit1 : v.size_ + n ≤ v.cap_ * xbits_per_block N W := by omega
    let m2 := std_copy_backward N W Source.same (v.size_ - p)
      (XbitVector.make_iter N W v.size_) v.mem (XbitVector.make_iter N W (v.size_ + n))
    have hm2len : m2.length = v.mem.length := std_copy_backward_length _ _ _ _ _ _ _
    have hm2 : ∀ j, elemAt N W m2 j
        = if v.size_ + n - (v.size_ - p) ≤ j ∧ j < v.size_ + n
          then srcAt N W Source.same v.mem (v.size_ - (v.size_ + n - j))
          else elemAt N W v.mem j := fun j =>
      std_copy_backward_elemAt g Source.same (v.size_ - p) v.mem v.size_ (v.size_ + n) j
        (by omega) (by omega) (fun _ => by omega) (by rw [hv.len]; omega)
    have hw1 : XbitVector.Wide N W { v with size_ := v.size_ + n } :=
      wide_of hv _ rfl rfl rfl hfit1 (by show v.size_ + n < 2 ^ 63; omega)
    have hmem : (XbitVector.setMem { v with size_ := v.size_ + n } m2).mem = m2 :=
      mem_setMem _ m2 hm2len
    refine ⟨XbitVector.setMem { v with size_ := v.size_ + n } m2, wide_setMem hw1 m2 hm2len,
      rfl, rfl, fun _ => rfl, ?_, ?_, ?_, ?_⟩
    · intro i hi
      rw [hmem, hm2, if_neg (by omega)]
    · intro i hi1 hi2
      rw [hmem, hm2, if_pos (by omega)]
      have : v.size_ - (v.size_ + n - (i + n)) = i := by omega
      rw [this]
      rfl
    · intro x
      unfold XbitVector.insert_n
      simp only [if_pos hfit, hmod, XbitVector.end, hd1,
        const_iterator_cast_make_iter g _ p (by omega)]
      rfl
    · intro src hsrc
      subst hsrc
      unfold XbitVector.insert_range
      simp only [if_pos hfit, hmod, XbitVector.end, hd1,
        const_iterator_cast_make_iter g _ p (by omega)]
      rfl
  · -- no spare capacity: build the result in a new buffer
    obtain ⟨hal, ha⟩ := hre hfit
    have hbig : v.size_ + n > v.cap_ * xbits_per_block N W := by
      rw [hce] at hfit
      omega
    obtain ⟨c, hrec, hc1, hc2⟩ := recommend_ok_bounds g v (v.size_ + n) hms hal
    have hmsa : XbitVector.max_size N W (XbitVector.empty v.alloc_) = XbitVector.max_size N W v :=
      max_size_alloc N W _ _ rfl
    obtain ⟨buf, hlen, hcov, hres⟩ := reserve_empty g v.alloc_ c (by omega)
      (by rw [hmsa]; exact hc2) (ha _)
    have hcle : ((c - 1) / xbits_per_block N W + 1) * xbits_per_block N W ≤ 2 ^ 63 := by
      obtain ⟨w, hw⟩ : ∃ w, XbitVector.vallocate N W (XbitVector.empty v.alloc_) c
          = Except.ok w := by
        obtain ⟨b1, _, hb1⟩ := vallocate_empty (N := N) (W := W) v.alloc_ c
          (by rw [hmsa]; exact hc2) (ha _)
        exact ⟨_, hb1⟩
      obtain ⟨_, _, _, _, hle, _, _⟩ := vallocate_shape g _ c w hw (by omega)
      have hwc : w.cap_ = (c - 1) / xbits_per_block N W + 1 := by
        have hext := external_cap_to_internal_eq N W c (by omega) (by omega)
        unfold XbitVector.vallocate at hw
        rw [if_neg (by rw [hmsa]; omega)] at hw
        simp only at hw
        cases hal2 : (XbitVector.empty v.alloc_).alloc_.allocate W
            (XbitVector.external_cap_to_internal N W c) with
        | none => rw [hal2] at hw; simp at hw
        | some b2 =>
          rw [hal2] at hw
          simp only [Except.ok.injEq] at hw
          rw [← hw]
          exact hext
      rw [hwc] at hle
      exact hle
    let m1 := (std_copy N W (Source.other v.mem) p (XbitVector.make_iter N W 0) buf
      (XbitVector.make_iter N W 0)).1
    have hm1len : m1.length = buf.length := std_copy_length _ _ _ _ _ _ _
    have hm1 : ∀ j, elemAt N W m1 j
        = if 0 ≤ j ∧ j < 0 + p then srcAt N W (Source.other v.mem) buf (0 + (j - 0))
          else elemAt N W buf j := fun j =>
      std_copy_elemAt g (Source.other v.mem) p buf 0 0 j (fun h => by cases h) (by omega)
    have hr : (std_copy N W (Source.other v.mem) p (XbitVector.make_iter N W 0) buf
        (XbitVector.make_iter N W 0)).2 = XbitVector.make_iter N W p := by
      rw [std_copy_iter g, Nat.zero_add]
    let m2 := std_copy_backward N W (Source.other v.mem) (v.size_ - p)
      (XbitVector.make_iter N W v.size_) m1 (XbitVector.make_iter N W (v.size_ + n))
    have hm2len : m2.length = m1.length := std_copy_backward_length _ _ _ _ _ _ _
    have hm2 : ∀ j, elemAt N W m2 j
        = if v.size_ + n - (v.size_ - p) ≤ j ∧ j < v.size_ + n
          then srcAt N W (Source.other v.mem) m1 (v.size_ - (v.size_ + n - j))
          else elemAt N W m1 j := fun j =>
      std_copy_backward_elemAt g (Source.other v.mem) (v.size_ - p) m1 v.size_ (v.size_ + n) j
        (by omega) (by omega) (fun h => by cases h) (by rw [hm1len]; omega)
    have hmem2 : (⟨some m2, v.size_ + n, (c - 1) / xbits_per_block N W + 1,
        v.alloc_⟩ : XbitVector).mem = m2 := rfl
    have hr1 := hr
    unfold XbitVector.mem at hr1
    refine ⟨⟨some m2, v.size_ + n, (c - 1) / xbits_per_block N W + 1, v.alloc_⟩,
      wide_mk m2 _ _ _ (by rw [hm2len, hm1len, hlen]) (Nat.succ_ne_zero _) hcle
        (by rw [← hlen]; omega) (by omega),
      rfl, rfl, fun h => absurd h hfit, ?_, ?_, ?_, ?_⟩
    · intro i hi
      rw [hmem2, hm2, if_neg (by omega), hm1, if_pos (by omega)]
      simp only [Nat.zero_add, Nat.sub_zero]
      rfl
    · intro i hi1 hi2
      rw [hmem2, hm2, if_pos (by omega)]
      have : v.size_ - (v.size_ + n - (i + n)) = i := by omega
      rw [this]
      rfl
    · intro x
      unfold XbitVector.insert_n
      simp only [if_neg hfit, hmod, hrec, hres, XbitVector.end, XbitVector.begin, hd1, hd2,
        XbitVector.setMem, XbitVector.mem, XbitVector.swap, Option.map_some',
        Option.getD_some, hr1]
      split <;> rfl
    · intro src hsrc
      subst hsrc
      unfold XbitVector.insert_range
      simp only [if_neg hfit, hmod, hrec, hres, XbitVector.end, XbitVector.begin, hd1, hd2,
        XbitVector.setMem, XbitVector.mem, XbitVector.swap, Option.map_some',
        Option.getD_some, hr1]
      split <;> rfl

/-- The effect of `insert(position, n, x)` at the position with index `p`. -/
theorem insert_n_ok {N W : Nat} (g : GoodWidths N W) (v : XbitVector)
    (hv : XbitVector.Wide N W v) (p n x : Nat) (hp : p ≤ v.size_)
    (hms : v.size_ + n ≤ XbitVector.max_size N W v)
    (hre : ¬ (n ≤ XbitVector.capacity N W v ∧ v.size ≤ XbitVector.capacity N W v - n) →
      (¬ XbitVector.capacity N W v ≥ XbitVector.max_size N W v / 2 →
        XbitVector.align_it N W (v.size_ + n) ≤ XbitVector.max_size N W v) ∧
      ∀ k, v.alloc_.avail k = true) :
    ∃ R, XbitVector.insert_n N W v (XbitVector.make_iter N W p) n x
        = (Except.ok (XbitVector.make_iter N W p), R) ∧
      XbitVector.Wide N W R ∧ R.size_ = v.size_ + n ∧ R.alloc_ = v.alloc_ ∧
      ((n ≤ XbitVector.capacity N W v ∧ v.size ≤ XbitVector.capacity N W v - n) →
        R.cap_ = v.cap_) ∧
      (∀ i, i < p → elemAt N W R.mem i = elemAt N W v.mem i) ∧
      (∀ j, p ≤ j → j < p + n → elemAt N W R.mem j = x % 2 ^ N) ∧
      (∀ i, p ≤ i → i < v.size_ → elemAt N W R.mem (i + n) = elemAt N W v.mem i) := by
  obtain ⟨G, hG, h2, h3, h4, h5, h6, h7, _⟩ := insert_gap g v hv p n hp hms hre
  have hroom := hG.size_room
  have hfl : (std_fill_n N W n G.mem (XbitVector.make_iter N W p) x).length = G.mem.length :=
    std_fill_n_length _ _ _ _ _ _
  have hmem := mem_setMem G _ hfl
  have hel : ∀ j, elemAt N W (std_fill_n N W n G.mem (XbitVector.make_iter N W p) x) j
      = if p ≤ j ∧ j < p + n then x % 2 ^ N else elemAt N W G.mem j := fun j =>
    std_fill_n_elemAt g n G.mem p x j (by rw [hG.len]; omega)
  refine ⟨_, h7 x, wide_setMem hG _ hfl, h2, h3, h4, ?_, ?_, ?_⟩
  · intro i hi
    rw [hmem, hel, if_neg (by omega)]
    exact h5 i hi
  · intro j hj1 hj2
    rw [hmem, hel, if_pos ⟨hj1, hj2⟩]
  · intro i hi1 hi2
    rw [hmem, hel, if_neg (by omega)]
    exact h6 i hi1 hi2

/-- The effect of the forward-range `insert` at the position with index `p`. -/
theorem insert_range_ok {N W : Nat} (g : GoodWidths N W) (v : XbitVector)
    (hv : XbitVector.Wide N W v) (p : Nat) (src : List Nat) (hp : p ≤ v.size_)
    (hms : v.size_ + src.length ≤ XbitVector.max_size N W v)
    (hre : ¬ (src.length ≤ XbitVector.capacity N W v
        ∧ v.size ≤ XbitVector.capacity N W v - src.length) →
      (¬ XbitVector.capacity N W v ≥ XbitVector.max_size N W v / 2 →
        XbitVector.align_it N W (v.size_ + src.length) ≤ XbitVector.max_size N W v) ∧
      ∀ k, v.alloc_.avail k = true) :
    ∃ R, XbitVector.insert_range N W v (XbitVector.make_iter N W p) src
        = (Except.ok (XbitVector.make_iter N W p), R) ∧
      XbitVector.Wide N W R ∧ R.size_ = v.size_ + src.length ∧ R.alloc_ = v.alloc_ ∧
      (∀ i, i < p → elemAt N W R.mem i = elemAt N W v.mem i) ∧
      (∀ j, p ≤ j → j < p + src.length → elemAt N W R.mem j = src.getD (j - p) 0 % 2 ^ N) ∧
      (∀ i, p ≤ i → i < v.size_ →
        elemAt N W R.mem (i + src.length) = elemAt N W v.mem i) := by
  obtain ⟨G, hG, h2, h3, _, h5, h6, _, h8⟩ := insert_gap g v hv p src.length hp hms hre
  have hroom := hG.size_room
  have hfl : (std_copy_values N W src G.mem (XbitVector.make_iter N W p)).1.length
      = G.mem.length := std_copy_values_length _ _ _ _ _
  have hmem := mem_setMem G _ hfl
  have hel : ∀ j, elemAt N W (std_copy_values N W src G.mem (XbitVector.make_iter N W p)).1 j
      = if p ≤ j ∧ j < p + src.length then src.getD (j - p) 0 % 2 ^ N
        else elemAt N W G.mem j := fun j =>
    std_copy_values_elemAt g src G.mem p j (by rw [hG.len]; omega)
  refine ⟨_, h8 src rfl, wide_setMem hG _ hfl, h2, h3, ?_, ?_, ?_⟩
  · intro i hi
    rw [hmem, hel, if_neg (by omega)]
    exact h5 i hi
  · intro j hj1 hj2
    rw [hmem, hel, if_pos ⟨hj1, hj2⟩]
  · intro i hi1 hi2
    rw [hmem, hel, if_neg (by omega)]
    exact h6 i hi1 hi2

/-- The band in which `recommend` passes a request that `vallocate` then rejects: the
members that grow through `recommend` fail with a length error and change nothing. -/
theorem insert_gap_rejected {N W : Nat} (g : GoodWidths N W) (v : XbitVector) (p : XbitIterator)
    (n : Nat) (hms : v.size_ + n ≤ XbitVector.max_size N W v)
    (hfit : ¬ (n ≤ XbitVector.capacity N W v ∧ v.size ≤ XbitVector.capacity N W v - n))
    (hhalf : ¬ XbitVector.capacity N W v ≥ XbitVector.max_size N W v / 2)
    (hal : XbitVector.align_it N W (v.size_ + n) > XbitVector.max_size N W v) :
    (∀ x, XbitVector.insert_n N W v p n x = (Except.error Error.length_error, v)) ∧
    (∀ src, src.length = n →
      XbitVector.insert_range N W v p src = (Except.error Error.length_error, v)) := by
  have hmax := max_size_le g v
  have hmod : (v.size_ + n) % 2 ^ 64 = v.size_ + n := Nat.mod_eq_of_lt (by omega)
  have hrec : XbitVector.recommend N W v (v.size_ + n)
      = Except.ok (max (2 * XbitVector.capacity N W v)
          (XbitVector.align_it N W (v.size_ + n))) := by
    rw [recommend_spec g v _, if_neg (by omega), if_neg hhalf]
  have hres : XbitVector.reserve N W (XbitVector.empty v.alloc_)
      (max (2 * XbitVector.capacity N W v) (XbitVector.align_it N W (v.size_ + n)))
      = Except.error Error.length_error := by
    have hmsa : XbitVector.max_size N W (XbitVector.empty v.alloc_)
        = XbitVector.max_size N W v := max_size_alloc N W _ _ rfl
    have hcap0 : XbitVector.capacity N W (XbitVector.empty v.alloc_) = 0 := by
      simp [XbitVector.capacity, XbitVector.internal_cap_to_external, XbitVector.empty]
    have hbig : max (2 * XbitVector.capacity N W v) (XbitVector.align_it N W (v.size_ + n))
        > XbitVector.max_size N W v := Nat.lt_of_lt_of_le hal (Nat.le_max_right _ _)
    have hval : XbitVector.vallocate N W (XbitVector.empty v.alloc_)
        (max (2 * XbitVector.capacity N W v) (XbitVector.align_it N W (v.size_ + n)))
        = Except.error Error.length_error := by
      unfold XbitVector.vallocate
      rw [hmsa, if_pos hbig]
    unfold XbitVector.reserve
    rw [hcap0, if_pos (by omega)]
    have hal2 : (XbitVector.empty v.alloc_).alloc_ = v.alloc_ := rfl
    rw [hal2, hval]
  constructor
  · intro x
    unfold XbitVector.insert_n
    simp only [if_neg hfit, hmod, hrec, hres]
  · intro src hsrc
    subst hsrc
    unfold XbitVector.insert_range
    simp only [if_neg hfit, hmod, hrec, hres]

/-! ## The single-pass `insert` -/

/-- The tail of the single-pass `insert`: the appended values `[q, size)` are rotated
in front of the old tail `[p, q)` and the buffered remainder is inserted behind them. -/
theorem insert_input_finish_ok {N W : Nat} (g : GoodWidths N W) (V tmp : XbitVector)
    (hV : XbitVector.Wide N W V) (ht : XbitVector.Wide N W tmp) (p q o : Nat) (hpq : p ≤ q)
    (hq : q ≤ V.size_) (ho : o < 2 ^ 63)
    (hfit : V.size_ + tmp.size_ ≤ V.cap_ * xbits_per_block N W)
    (hms : V.size_ + tmp.size_ ≤ XbitVector.max_size N W V) :
    ∃ R, XbitVector.insert_input_finish N W V tmp (XbitVector.make_iter N W p)
        (XbitVector.make_iter N W q) (o : Int) = (Except.ok (XbitVector.make_iter N W o), R) ∧
      XbitVector.Wide N W R ∧ R.size_ = V.size_ + tmp.size_ ∧
      (∀ i, i < p → elemAt N W R.mem i = elemAt N W V.mem i) ∧
      (∀ j, p ≤ j → j < p + (V.size_ - q) → elemAt N W R.mem j = elemAt N W V.mem (q + (j - p))) ∧
      (∀ j, p + (V.size_ - q) ≤ j → j < p + (V.size_ - q) + tmp.size_ →
        elemAt N W R.mem j = elemAt N W tmp.mem (j - (p + (V.size_ - q)))) ∧
      (∀ i, p ≤ i → i < q →
        elemAt N W R.mem (i + (V.size_ - q) + tmp.size_) = elemAt N W V.mem i) := by
  have hs63 := hV.size_lt
  have hroom := hV.size_room
  obtain ⟨r1, r2, r3⟩ := std_rotate_ok g V.mem p q V.size_ hpq hq hs63
    (by rw [hV.len]; exact hroom)
  have hV1 : XbitVector.Wide N W (V.setMem (std_rotate N W V.mem (XbitVector.make_iter N W p)
      (XbitVector.make_iter N W q) (XbitVector.make_iter N W V.size_)).1) :=
    wide_setMem hV _ r2
  have hmem1 := mem_setMem V _ r2
  have hrl := wide_range_length g tmp ht
  have hce : XbitVector.capacity N W (V.setMem (std_rotate N W V.mem
      (XbitVector.make_iter N W p) (XbitVector.make_iter N W q)
      (XbitVector.make_iter N W V.size_)).1) = V.cap_ * xbits_per_block N W := hV1.capacity_val
  obtain ⟨R, k1, k2, k3, _, k5, k6, k7⟩ := insert_range_ok g _ hV1 (p + (V.size_ - q))
    (XbitVector.range N W tmp) (by show p + (V.size_ - q) ≤ V.size_; omega)
    (by rw [hrl]; exact hms)
    (fun h => absurd (by
      rw [hrl, hce]
      have : (V.setMem (std_rotate N W V.mem (XbitVector.make_iter N W p)
        (XbitVector.make_iter N W q) (XbitVector.make_iter N W V.size_)).1).size
        = V.size_ := rfl
      rw [this]
      omega) h)
  rw [hrl] at k3 k6 k7
  have hadd : XbitIterator.add N W (XbitVector.make_iter N W 0) (o : Int)
      = XbitVector.make_iter N W o := by
    unfold XbitIterator.add
    rw [incr_make_iter_nonneg g 0 o ho, Nat.zero_add]
  refine ⟨R, ?_, k2, k3, ?_, ?_, ?_, ?_⟩
  · unfold XbitVector.insert_input_finish
    simp only [XbitVector.end, r1, k1, XbitVector.begin, hadd]
  · intro i hi
    rw [k5 i (by omega), hmem1, r3, if_neg (by omega), if_neg (by omega)]
  · intro j hj1 hj2
    rw [k5 j (by omega), hmem1, r3, if_pos ⟨hj1, hj2⟩]
  · intro j hj1 hj2
    rw [k6 j hj1 hj2, wide_range_getD g tmp ht _ (by omega)]
    exact elemAt_mod g _ _
  · intro i hi1 hi2
    have h := k7 (i + (V.size_ - q)) (by omega) (by show i + (V.size_ - q) < V.size_; omega)
    rw [h, hmem1, r3, if_neg (by omega), if_pos (by omega)]
    have : i + (V.size_ - q) - (V.size_ - q) = i := by omega
    rw [this]

/-- The effect of `reserve(n)` when it has to reallocate, by the state it leaves. -/
theorem wide_reserve_state {N W : Nat} (g : GoodWidths N W) (v : XbitVector)
    (h : XbitVector.Wide N W v) (n : Nat) (hcap : n > XbitVector.capacity N W v)
    (hn : n ≤ XbitVector.max_size N W v)
    (ha : v.alloc_.avail (XbitVector.external_cap_to_internal N W n) = true) :
    ∃ V, XbitVector.reserve N W v n = Except.ok V ∧ XbitVector.Wide N W V ∧
      V.size_ = v.size_ ∧ V.alloc_ = v.alloc_ ∧ n ≤ V.cap_ * xbits_per_block N W ∧
      ∀ i, i < v.size_ → elemAt N W V.mem i = elemAt N W v.mem i := by
  obtain ⟨buf, _, h2, h3, h4, h5⟩ := wide_reserve_grow g v h n hcap hn ha
  exact ⟨_, h2, h4, rfl, rfl, h5, h3⟩

/-- The single-pass `insert` after its first loop has left the container `A` and the
source values `rest`. -/
theorem insert_input_step {N W : Nat} (g : GoodWidths N W) (v : XbitVector)
    (hv : XbitVector.Wide N W v) (p : Nat) (src : List Nat) (hp : p ≤ v.size_)
    (hms : v.size_ + src.length ≤ XbitVector.max_size N W v)
    (ha : ∀ k, v.alloc_.avail k = true)
    (hre : v.size_ + src.length > XbitVector.capacity N W v →
      ¬ XbitVector.capacity N W v ≥ XbitVector.max_size N W v / 2 →
      XbitVector.align_it N W (v.size_ + src.length) ≤ XbitVector.max_size N W v)
    (A : XbitVector) (rest : List Nat) (hA : XbitVector.append_while N W src v = (A, rest))
    (k : Nat) (a1 : k ≤ src.length) (a2 : rest = src.drop k) (a3 : XbitVector.Wide N W A)
    (a4 : A.size_ = v.size_ + k) (a5 : A.cap_ = v.cap_) (a6 : A.alloc_ = v.alloc_)
    (a7 : rest ≠ [] → A.size_ = v.cap_ * xbits_per_block N W)
    (a8 : ∀ i, i < v.size_ → elemAt N W A.mem i = elemAt N W v.mem i)
    (a9 : ∀ j, j < k → elemAt N W A.mem (v.size_ + j) = src.getD j 0 % 2 ^ N) :
    ∃ R, XbitVector.insert_input N W v (XbitVector.make_iter N W p) src
        = (Except.ok (XbitVector.make_iter N W p), R) ∧
      XbitVector.Wide N W R ∧ R.size_ = v.size_ + src.length ∧
      (∀ i, i < p → elemAt N W R.mem i = elemAt N W v.mem i) ∧
      (∀ j, p ≤ j → j < p + src.length → elemAt N W R.mem j = src.getD (j - p) 0 % 2 ^ N) ∧
      (∀ i, p ≤ i → i < v.size_ →
        elemAt N W R.mem (i + src.length) = elemAt N W v.mem i) := by
  have hmax := max_size_le g v
  have hs63 := hv.size_lt
  have hroom := hv.size_room
  have hce := hv.capacity_val
  have hoff : XbitIterator.diff N W (XbitVector.make_iter N W p) (XbitVector.make_iter N W 0)
      = ((p : Nat) : Int) := by
    rw [diff_make_iter g _ _ (by omega) (by omega)]
    simp
  have hosz : XbitIterator.diff N W (XbitVector.make_iter N W v.size_)
      (XbitVector.make_iter N W 0) = ((v.size_ : Nat) : Int) := by
    rw [diff_make_iter g _ _ (by omega) (by omega)]
    simp
  have hcast := const_iterator_cast_make_iter g v p (by omega)
  have hmsA : XbitVector.max_size N W A
      = XbitVector.max_size N W v := max_size_alloc N W _ _ a6
  have hceA : XbitVector.capacity N W A
      = XbitVector.capacity N W v := by
    rw [a3.capacity_val, a5, hce]
  cases rest with
  | nil =>
    -- the whole source fitted the spare capacity
    have hk : k = src.length := by
      have := congrArg List.length a2
      rw [List.length_nil, List.length_drop] at this
      omega
    have ht := wide_empty N W A.alloc_
    obtain ⟨R, f1, f2, f3, f4, f5, _, f7⟩ := insert_input_finish_ok g
      A
      (XbitVector.empty A.alloc_) a3 ht p v.size_ p hp
      (by rw [a4]; omega) (by omega)
      (by show _ + 0 ≤ _; rw [Nat.add_zero]; exact a3.size_room)
      (by show _ + 0 ≤ _; rw [Nat.add_zero, hmsA, a4, hk]; exact hms)
    have hsz0 : (XbitVector.empty A.alloc_).size_ = 0 := rfl
    simp only [hsz0, Nat.add_zero] at f3 f7
    rw [a4, hk] at f3 f5 f7
    have hkk : v.size_ + src.length - v.size_ = src.length := by omega
    rw [hkk] at f5 f7
    refine ⟨R, ?_, f2, f3, ?_, ?_, ?_⟩
    · unfold XbitVector.insert_input
      simp only [XbitVector.begin, hoff, hcast, XbitVector.end, hA]
      exact f1
    · intro i hi
      rw [f4 i hi, a8 i (by omega)]
    · intro j hj1 hj2
      rw [f5 j hj1 hj2, a9 (j - p) (by omega)]
    · intro i hi1 hi2
      rw [f7 i hi1 hi2, a8 i hi2]
  | cons x xs =>
    -- the buffer is full and a remainder is left
    have hfull := a7 (List.cons_ne_nil _ _)
    have hdrop : src.drop k = x :: xs := a2.symm
    have hlen : (x :: xs).length + k = src.length := by
      rw [← hdrop, List.length_drop]
      omega
    have hklt : k < src.length := by
      have : 0 < (x :: xs).length := by simp
      omega
    have htmp0 : XbitVector.clear (XbitVector.empty A.alloc_) = XbitVector.empty A.alloc_ := rfl
    have hmsT : XbitVector.max_size N W (XbitVector.empty A.alloc_)
        = XbitVector.max_size N W v := max_size_alloc N W _ _ a6
    have hsz0 : (XbitVector.empty A.alloc_).size_ = 0 := rfl
    obtain ⟨tmp, t1, t2, t3, t4, _, t6⟩ := push_back_all_ok g (x :: xs)
      (XbitVector.empty A.alloc_) (wide_empty N W _) (by rw [hmsT, hsz0]; omega)
      (by intro j; show A.alloc_.avail j = true; rw [a6]; exact ha j)
    rw [hsz0, Nat.zero_add] at t3
    have hts : tmp.size_ + k = src.length := by rw [t3]; exact hlen
    have htot : A.size_ + tmp.size_ = v.size_ + src.length := by
      rw [a4]
      omega
    have hmod : (A.size + tmp.size) % 2 ^ 64 = v.size_ + src.length := by
      show (A.size_ + tmp.size_) % 2 ^ 64 = _
      rw [htot]
      exact Nat.mod_eq_of_lt (by omega)
    have hbig : v.size_ + src.length > XbitVector.capacity N W v := by
      rw [hce, ← hfull, a4]
      omega
    obtain ⟨c, hrec, hc1, hc2⟩ := recommend_ok_bounds g A
      (v.size_ + src.length) (by rw [hmsA]; exact hms)
      (by rw [hmsA, hceA]; exact hre hbig)
    rw [hmsA] at hc2
    obtain ⟨V, hres, hw2, hVs, hVa, hcov, hel⟩ := wide_reserve_state g A a3 c
      (by rw [hceA]; omega) (by rw [hmsA]; exact hc2) (by rw [a6]; exact ha _)
    have hms2 : XbitVector.max_size N W V = XbitVector.max_size N W v :=
      max_size_alloc N W _ _ (hVa.trans a6)
    have hVk : V.size_ = v.size_ + k := hVs.trans a4
    obtain ⟨R, f1, f2, f3, f4, f5, f6, f7⟩ := insert_input_finish_ok g V tmp hw2 t2 p v.size_ p
      hp (by rw [hVk]; omega) (by omega) (by rw [hVs, htot]; omega)
      (by rw [hms2, hVs, htot]; exact hms)
    have hAk : V.size_ - v.size_ = k := by
      rw [hVk]
      omega
    rw [hAk] at f5 f6 f7
    rw [hVs, htot] at f3
    clear hAk
    have haddp : XbitIterator.add N W (XbitVector.make_iter N W 0) ((p : Nat) : Int)
        = XbitVector.make_iter N W p := by
      unfold XbitIterator.add
      rw [incr_make_iter_nonneg g 0 p (by omega), Nat.zero_add]
    have hadds : XbitIterator.add N W (XbitVector.make_iter N W 0) ((v.size_ : Nat) : Int)
        = XbitVector.make_iter N W v.size_ := by
      unfold XbitIterator.add
      rw [incr_make_iter_nonneg g 0 v.size_ (by omega), Nat.zero_add]
    refine ⟨R, ?_, f2, f3, ?_, ?_, ?_⟩
    · unfold XbitVector.insert_input
      simp only [XbitVector.begin, hoff, hosz, hcast, XbitVector.end, hA,
        XbitVector.assign_input, htmp0, t1, hmod, hrec, hres, haddp, hadds]
      exact f1
    · intro i hi
      rw [f4 i hi, hel i (by rw [a4]; omega), a8 i (by omega)]
    · intro j hj1 hj2
      by_cases hjk : j < p + k
      · have h1 : v.size_ + (j - p) < A.size_ := by rw [a4]; omega
        have h2 : j - p < k := by omega
        rw [f5 j hj1 hjk, hel _ h1, a9 (j - p) h2]
      · have h1 : p + k ≤ j := by omega
        have h2 : j < p + k + tmp.size_ := by omega
        have h3 : j - (p + k) < (x :: xs).length := by omega
        have h4 : k + (j - (p + k)) = j - p := by omega
        have h5 := t6 (j - (p + k)) h3
        rw [hsz0, Nat.zero_add] at h5
        rw [f6 j h1 h2, h5, ← hdrop, List.getD_eq_getElem?_getD, List.getElem?_drop,
          ← List.getD_eq_getElem?_getD, h4]
    · intro i hi1 hi2
      have h := f7 i hi1 hi2
      have hidx : i + k + tmp.size_ = i + src.length := by omega
      rw [hidx] at h
      rw [h, hel i (by rw [a4]; omega), a8 i hi2]

/-- The effect of the single-pass `insert` at the position with index `p`. -/
theorem insert_input_ok {N W : Nat} (g : GoodWidths N W) (v : XbitVector)
    (hv : XbitVector.Wide N W v) (p : Nat) (src : List Nat) (hp : p ≤ v.size_)
    (hms : v.size_ + src.length ≤ XbitVector.max_size N W v)
    (ha : ∀ k, v.alloc_.avail k = true)
    (hre : v.size_ + src.length > XbitVector.capacity N W v →
      ¬ XbitVector.capacity N W v ≥ XbitVector.max_size N W v / 2 →
      XbitVector.align_it N W (v.size_ + src.length) ≤ XbitVector.max_size N W v) :
    ∃ R, XbitVector.insert_input N W v (XbitVector.make_iter N W p) src
        = (Except.ok (XbitVector.make_iter N W p), R) ∧
      XbitVector.Wide N W R ∧ R.size_ = v.size_ + src.length ∧
      (∀ i, i < p → elemAt N W R.mem i = elemAt N W v.mem i) ∧
      (∀ j, p ≤ j → j < p + src.length → elemAt N W R.mem j = src.getD (j - p) 0 % 2 ^ N) ∧
      (∀ i, p ≤ i → i < v.size_ →
        elemAt N W R.mem (i + src.length) = elemAt N W v.mem i) := by
  have hmax := max_size_le g v
  have hs63 := hv.size_lt
  obtain ⟨k, a1, a2, a3, a4, a5, a6, a7, a8, a9⟩ := append_while_ok g src v hv (by omega)
  exact insert_input_step g v hv p src hp hms ha hre _ _ rfl k a1 a2 a3 a4 a5 a6 a7 a8 a9

/-! ## Calls that return: what their success tells -/

/-- The member `push_back(x)` when the growth it may need is granted. -/
theorem wide_push_back_granted {N W : Nat} (g : GoodWidths N W) (v : XbitVector)
    (hv : XbitVector.Wide N W v) (x : Nat) (hb : v.size_ + 1 < 2 ^ 63)
    (hgrow : v.size_ = XbitVector.capacity N W v →
      ∃ c, XbitVector.recommend N W v (v.size_ + 1) = Except.ok c ∧
        c ≤ XbitVector.max_size N W v ∧
        v.alloc_.avail (XbitVector.external_cap_to_internal N W c) = true) :
    ∃ v1, XbitVector.push_back N W v x = Except.ok v1 ∧ XbitVector.Wide N W v1 ∧
      v1.size_ = v.size_ + 1 ∧ v1.alloc_ = v.alloc_ := by
  have hsz := hv.size_room
  have hce := hv.capacity_val
  have hmod : (v.size_ + 1) % 2 ^ 64 = v.size_ + 1 := Nat.mod_eq_of_lt (by omega)
  have hsub : XbitIterator.sub N W (XbitVector.make_iter N W (v.size_ + 1)) 1
      = XbitVector.make_iter N W v.size_ := by
    rw [sub_one_make_iter g _ (by omega) (by omega), Nat.add_sub_cancel]
  by_cases hfull : v.size_ = XbitVector.capacity N W v
  · obtain ⟨c, hrec, hc2, hav⟩ := hgrow hfull
    have hc1 := recommend_ok_ge g v _ c hrec
    obtain ⟨buf, hlen, hres, _, hwide, hroom⟩ :=
      wide_reserve_grow g v hv c (by omega) hc2 hav
    have hput : (XbitVector.put N W ⟨some buf, v.size_ + 1,
        (c - 1) / xbits_per_block N W + 1, v.alloc_⟩ (XbitVector.make_iter N W v.size_) x).mem
        = XbitIterator.put N W buf (XbitVector.make_iter N W v.size_) x := mem_put _ _ _ _ _
    refine ⟨XbitVector.put N W ⟨some buf, v.size_ + 1,
      (c - 1) / xbits_per_block N W + 1, v.alloc_⟩
      (XbitVector.make_iter N W v.size_) x, ?_, ?_, rfl, rfl⟩
    · unfold XbitVector.push_back
      simp only [if_pos hfull, hmod, hrec, hres, XbitVector.end, hsub]
    · refine wide_of hwide _ ?_ ?_ rfl ?_ ?_
      · exact put_isSome _ _ _ _ _
      · rw [hput, put_length]
        rfl
      · show v.size_ + 1 ≤ ((c - 1) / xbits_per_block N W + 1) * xbits_per_block N W
        omega
      · show v.size_ + 1 < _
        omega
  · have hput : (XbitVector.put N W { v with size_ := v.size_ + 1 }
        (XbitVector.make_iter N W v.size_) x).mem
        = XbitIterator.put N W v.mem (XbitVector.make_iter N W v.size_) x := mem_put _ _ _ _ _
    refine ⟨XbitVector.put N W { v with size_ := v.size_ + 1 }
      (XbitVector.make_iter N W v.size_) x, ?_, ?_, rfl, rfl⟩
    · unfold XbitVector.push_back
      simp only [if_neg hfull, hmod, XbitVector.end, hsub]
    · refine wide_of hv _ ?_ ?_ rfl ?_ ?_
      · exact put_isSome _ _ _ _ _
      · rw [hput, put_length]
      · show v.size_ + 1 ≤ v.cap_ * xbits_per_block N W
        omega
      · show v.size_ + 1 < _
        omega

/-- A `push_back(x)` that returns leaves a container with one more element. -/
theorem push_back_sound {N W : Nat} (g : GoodWidths N W) (v v1 : XbitVector)
    (hv : XbitVector.Wide N W v) (x : Nat) (hb : v.size_ + 1 < 2 ^ 63)
    (h : XbitVector.push_back N W v x = Except.ok v1) :
    XbitVector.Wide N W v1 ∧ v1.size_ = v.size_ + 1 ∧ v1.alloc_ = v.alloc_ := by
  have hmod : (v.size_ + 1) % 2 ^ 64 = v.size_ + 1 := Nat.mod_eq_of_lt (by omega)
  have hgrow : v.size_ = XbitVector.capacity N W v →
      ∃ c, XbitVector.recommend N W v (v.size_ + 1) = Except.ok c ∧
        c ≤ XbitVector.max_size N W v ∧
        v.alloc_.avail (XbitVector.external_cap_to_internal N W c) = true := by
    intro hfull
    unfold XbitVector.push_back at h
    cases hrec : XbitVector.recommend N W v (v.size_ + 1) with
    | error e =>
      simp only [if_pos hfull, hmod, hrec] at h
      cases h
    | ok c =>
      simp only [if_pos hfull, hmod, hrec] at h
      have hc1 := recommend_ok_ge g v _ c hrec
      cases hres : XbitVector.reserve N W v c with
      | error e =>
        rw [hres] at h
        cases h
      | ok V =>
        obtain ⟨hle, hav⟩ := reserve_ok_inv N W v c V (by omega) hres
        exact ⟨c, rfl, hle, hav⟩
  obtain ⟨w, h1, h2, h3, h4⟩ := wide_push_back_granted g v hv x hb hgrow
  rw [h1] at h
  injection h with h
  subst h
  exact ⟨h2, h3, h4⟩

/-- A loop of `push_back` that returns has appended every value. -/
theorem push_back_all_sound {N W : Nat} (g : GoodWidths N W) (src : List Nat)
    (v v1 : XbitVector) (hv : XbitVector.Wide N W v) (hb : v.size_ + src.length < 2 ^ 63)
    (h : XbitVector.push_back_all N W src v = Except.ok v1) :
    XbitVector.Wide N W v1 ∧ v1.size_ = v.size_ + src.length ∧ v1.alloc_ = v.alloc_ := by
  induction src generalizing v with
  | nil =>
    unfold XbitVector.push_back_all at h
    injection h with h
    subst h
    exact ⟨hv, rfl, rfl⟩
  | cons x xs ih =>
    rw [List.length_cons] at hb
    unfold XbitVector.push_back_all at h
    cases hp : XbitVector.push_back N W v x with
    | error e =>
      rw [hp] at h
      cases h
    | ok w =>
      rw [hp] at h
      obtain ⟨w1, w2, w3⟩ := push_back_sound g v w hv x (by omega) hp
      obtain ⟨k1, k2, k3⟩ := ih w w1 (by omega) h
      refine ⟨k1, ?_, k3.trans w3⟩
      rw [k2, w2, List.length_cons]
      omega

/-- The forward `insert` of an empty range returns. -/
theorem insert_range_nil {N W : Nat} (V : XbitVector) (it : XbitIterator)
    (hs : V.size_ ≤ XbitVector.capacity N W V) :
    ∃ r R, XbitVector.insert_range N W V it [] = (Except.ok r, R) := by
  unfold XbitVector.insert_range
  simp only [List.length_nil]
  rw [if_pos ⟨Nat.zero_le _, by rw [Nat.sub_zero]; exact hs⟩]
  exact ⟨_, _, rfl⟩

/-- The tail of the single-pass `insert` returns when nothing was buffered. -/
theorem insert_input_finish_nil {N W : Nat} (g : GoodWidths N W) (V : XbitVector)
    (a : Allocator) (p q : XbitIterator) (off : Int)
    (hs : V.size_ ≤ XbitVector.capacity N W V) (e : Error) :
    (XbitVector.insert_input_finish N W V (XbitVector.empty a) p q off).1
      ≠ Except.error e := by
  have hr : XbitVector.range N W (XbitVector.empty a) = [] :=
    List.length_eq_zero.mp (wide_range_length g _ (wide_empty N W a))
  unfold XbitVector.insert_input_finish
  simp only [hr]
  obtain ⟨r, R, h⟩ := insert_range_nil (N := N) (W := W)
    (V.setMem (std_rotate N W V.mem p q (XbitVector.end N W V)).1)
    (std_rotate N W V.mem p q (XbitVector.end N W V)).2 hs
  rw [h]
  intro hc
  cases hc

/-! ## Failure of the single-pass `insert` -/

/-- The call `erase(q, end())` only resets the size. -/
theorem erase_tail {N W : Nat} (g : GoodWidths N W) (A : XbitVector)
    (hA : XbitVector.Wide N W A) (q : Nat) (hq : q ≤ A.size_) :
    (XbitVector.erase N W A (XbitVector.make_iter N W q) (XbitVector.make_iter N W A.size_)).1
      = { A with size_ := q } := by
  have hs63 := hA.size_lt
  have hd1 : (XbitIterator.diff N W (XbitVector.make_iter N W A.size_)
      (XbitVector.make_iter N W A.size_)).toNat = 0 := by
    rw [diff_make_iter g _ _ hs63 hs63]
    omega
  have hd2 : XbitIterator.diff N W (XbitVector.make_iter N W A.size_)
      (XbitVector.make_iter N W q) = (A.size_ : Int) - (q : Int) := by
    rw [diff_make_iter g _ _ hs63 (by omega)]
  have hsz : toSize ((A.size_ : Int) - ((A.size_ : Int) - (q : Int))) = q := by
    rw [toSize_of_nonneg _ (by omega) (by omega)]
    omega
  unfold XbitVector.erase
  simp only [XbitVector.end, hd1, hd2, std_copy, setMem_self, hsz]

/-- Every failure of the single-pass `insert` comes from buffering the remainder, from
`recommend` or from `reserve`, and leaves the container as the first loop left it with
the size reset by `erase(old_end, end())`. -/
theorem insert_input_failure_step {N W : Nat} (g : GoodWidths N W) (v : XbitVector)
    (hv : XbitVector.Wide N W v) (p : Nat) (src : List Nat) (hp : p ≤ v.size_)
    (hb : v.size_ + src.length < 2 ^ 63)
    (A : XbitVector) (rest : List Nat) (hA : XbitVector.append_while N W src v = (A, rest))
    (k : Nat) (a1 : k ≤ src.length) (a2 : rest = src.drop k) (a3 : XbitVector.Wide N W A)
    (a4 : A.size_ = v.size_ + k) (a5 : A.cap_ = v.cap_) (a6 : A.alloc_ = v.alloc_)
    (a7 : rest ≠ [] → A.size_ = v.cap_ * xbits_per_block N W) (e : Error)
    (he : (XbitVector.insert_input N W v (XbitVector.make_iter N W p) src).1
      = Except.error e) :
    (XbitVector.insert_input N W v (XbitVector.make_iter N W p) src).2
      = { A with size_ := v.size_ } := by
  have hs63 := hv.size_lt
  have hroom := hv.size_room
  have hce := hv.capacity_val
  have hoff : XbitIterator.diff N W (XbitVector.make_iter N W p) (XbitVector.make_iter N W 0)
      = ((p : Nat) : Int) := by
    rw [diff_make_iter g _ _ (by omega) (by omega)]
    simp
  have hosz : XbitIterator.diff N W (XbitVector.make_iter N W v.size_)
      (XbitVector.make_iter N W 0) = ((v.size_ : Nat) : Int) := by
    rw [diff_make_iter g _ _ (by omega) (by omega)]
    simp
  have hcast := const_iterator_cast_make_iter g v p (by omega)
  have hmsA : XbitVector.max_size N W A
      = XbitVector.max_size N W v := max_size_alloc N W _ _ a6
  have hceA : XbitVector.capacity N W A = v.cap_ * xbits_per_block N W := by
    rw [a3.capacity_val, a5]
  have hback := erase_tail g A a3 v.size_ (by omega)
  cases rest with
  | nil =>
    exfalso
    unfold XbitVector.insert_input at he
    simp only [XbitVector.begin, hoff, hcast, XbitVector.end, hA] at he
    exact insert_input_finish_nil g A A.alloc_ _ _ _
      (by rw [a3.capacity_val]; exact a3.size_room) e he
  | cons x xs =>
    have hfull := a7 (List.cons_ne_nil _ _)
    have hdrop : src.drop k = x :: xs := a2.symm
    have hlen : (x :: xs).length + k = src.length := by
      rw [← hdrop, List.length_drop]
      omega
    have hpos : 0 < (x :: xs).length := by simp
    have htmp0 : XbitVector.clear (XbitVector.empty A.alloc_) = XbitVector.empty A.alloc_ := rfl
    have hsz0 : (XbitVector.empty A.alloc_).size_ = 0 := rfl
    cases t1 : XbitVector.push_back_all N W (x :: xs) (XbitVector.empty A.alloc_) with
    | error e1 =>
      unfold XbitVector.insert_input
      simp only [XbitVector.begin, hoff, hosz, hcast, XbitVector.end, hA,
        XbitVector.assign_input, htmp0, t1, hback]
    | ok tmp =>
      obtain ⟨t2, t3, _⟩ := push_back_all_sound g (x :: xs) (XbitVector.empty A.alloc_) tmp
        (wide_empty N W _) (by rw [hsz0]; omega) t1
      rw [hsz0, Nat.zero_add] at t3
      have hmod : (A.size + tmp.size) % 2 ^ 64 = A.size_ + tmp.size_ := by
        show (A.size_ + tmp.size_) % 2 ^ 64 = _
        exact Nat.mod_eq_of_lt (by omega)
      cases hrec : XbitVector.recommend N W A (A.size_ + tmp.size_) with
      | error e2 =>
        unfold XbitVector.insert_input
        simp only [XbitVector.begin, hoff, hosz, hcast, XbitVector.end, hA,
          XbitVector.assign_input, htmp0, t1, hmod, hrec, hback]
      | ok c =>
        have hc1 := recommend_ok_ge g A _ c hrec
        have hns : A.size_ + tmp.size_ ≤ XbitVector.max_size N W A := by
          by_contra hgt
          rw [recommend_spec g, if_pos (by omega)] at hrec
          cases hrec
        cases hres : XbitVector.reserve N W A c with
        | error e3 =>
          unfold XbitVector.insert_input
          simp only [XbitVector.begin, hoff, hosz, hcast, XbitVector.end, hA,
            XbitVector.assign_input, htmp0, t1, hmod, hrec, hres, hback]
        | ok V2 =>
          exfalso
          have hbig : c > XbitVector.capacity N W A := by
            rw [hceA, ← hfull]
            omega
          obtain ⟨hle, hav⟩ := reserve_ok_inv N W A c V2 hbig hres
          obtain ⟨V, hres1, hw2, hVs, hVa, hcov, _⟩ := wide_reserve_state g A a3 c hbig hle hav
          have hms2 : XbitVector.max_size N W V = XbitVector.max_size N W A :=
            max_size_alloc N W _ _ hVa
          obtain ⟨R, f1, _⟩ := insert_input_finish_ok g V tmp hw2 t2 p v.size_ p
            hp (by rw [hVs, a4]; omega) (by omega) (by rw [hVs]; omega)
            (by rw [hms2, hVs]; exact hns)
          have haddp : XbitIterator.add N W (XbitVector.make_iter N W 0) ((p : Nat) : Int)
              = XbitVector.make_iter N W p := by
            unfold XbitIterator.add
            rw [incr_make_iter_nonneg g 0 p (by omega), Nat.zero_add]
          have hadds : XbitIterator.add N W (XbitVector.make_iter N W 0) ((v.size_ : Nat) : Int)
              = XbitVector.make_iter N W v.size_ := by
            unfold XbitIterator.add
            rw [incr_make_iter_nonneg g 0 v.size_ (by omega), Nat.zero_add]
          unfold XbitVector.insert_input at he
          simp only [XbitVector.begin, hoff, hosz, hcast, XbitVector.end, hA,
            XbitVector.assign_input, htmp0, t1, hmod, hrec, hres1, haddp, hadds, f1] at he
          cases he

/-- The state the single-pass `insert` leaves when it fails. -/
theorem insert_input_failure {N W : Nat} (g : GoodWidths N W) (v : XbitVector)
    (hv : XbitVector.Valid N W v) (p : Nat) (src : List Nat) (hp : p ≤ v.size_)
    (hb : v.size_ + src.length < 2 ^ 63) (e : Error)
    (he : (XbitVector.insert_input N W v (XbitVector.make_iter N W p) src).1
      = Except.error e) :
    (XbitVector.insert_input N W v (XbitVector.make_iter N W p) src).2
        = { (XbitVector.append_while N W src v).1 with size_ := v.size_ } ∧
      XbitVector.Valid N W (XbitVector.insert_input N W v (XbitVector.make_iter N W p) src).2 ∧
      (XbitVector.append_while N W src v).1.cap_ = v.cap_ ∧
      (XbitVector.append_while N W src v).1.alloc_ = v.alloc_ ∧
      ∀ i, i < v.size_ →
        elemAt N W (XbitVector.append_while N W src v).1.mem i = elemAt N W v.mem i := by
  have hw := wide_of_valid hv
  obtain ⟨k, a1, a2, a3, a4, a5, a6, a7, a8, _⟩ := append_while_ok g src v hw hb
  have hst := insert_input_failure_step g v hw p src hp hb _ _ rfl k a1 a2 a3 a4 a5 a6 a7 e he
  refine ⟨hst, ?_, a5, a6, a8⟩
  rw [hst]
  have hwide : XbitVector.Wide N W { (XbitVector.append_while N W src v).1 with size_ := v.size_ } :=
    wide_of a3 _ rfl rfl rfl (by show v.size_ ≤ _; rw [a5]; exact hw.size_room) hw.size_lt
  exact ⟨hwide.inv, hwide.len, by show (XbitVector.append_while N W src v).1.cap_ * _ < _; rw [a5]; exact hv.cap_lt⟩

/-! ## Copy assignment -/

theorem std_copy_blocks_length (src : List Nat) (k : Nat) (i : Int) (dst : List Nat) :
    (std_copy_blocks src k i dst).length = dst.length := by
  induction k generalizing i dst with
  | zero => rfl
  | succ k ih =>
    unfold std_copy_blocks
    rw [ih, store_length]

/-- The blocks after `std::copy(src + i, src + i + k, dst + i)`. -/
theorem std_copy_blocks_getD (src : List Nat) (k i : Nat) (dst : List Nat)
    (hk : i + k ≤ dst.length) (j : Nat) :
    (std_copy_blocks src k (i : Int) dst).getD j 0
      = if i ≤ j ∧ j < i + k then src.getD j 0 else dst.getD j 0 := by
  induction k generalizing i dst with
  | zero =>
    unfold std_copy_blocks
    rw [if_neg (by omega)]
  | succ k ih =>
    unfold std_copy_blocks
    have hcast : ((i : Int) + 1) = ((i + 1 : Nat) : Int) := by
      push_cast
      rfl
    rw [hcast, ih (i + 1) _ (by rw [store_length]; omega)]
    by_cases h1 : i + 1 ≤ j ∧ j < i + 1 + k
    · rw [if_pos h1, if_pos (by omega)]
    · rw [if_neg h1]
      by_cases h2 : j = i
      · subst h2
        rw [if_pos (by omega), ← load_natCast, ← load_natCast src,
          load_store_same _ _ _ (by omega) (by simp; omega)]
      · have hne : (i : Int) ≠ (j : Int) := by omega
        rw [if_neg (by omega), ← load_natCast, load_store_other dst _ _ _ hne, load_natCast]

theorem elemAt_of_block {N W : Nat} (g : GoodWidths N W) (m1 m2 : List Nat) (i : Nat)
    (h : m1.getD (i / xbits_per_block N W) 0 = m2.getD (i / xbits_per_block N W) 0) :
    elemAt N W m1 i = elemAt N W m2 i := by
  rw [elemAt_eq_extract g, elemAt_eq_extract g, h]

theorem copy_assign_alloc_fields (a b : XbitVector) (hid : a.alloc_.ident = b.alloc_.ident) :
    (XbitVector.copy_assign_alloc a b).begin_ = a.begin_ ∧
      (XbitVector.copy_assign_alloc a b).size_ = a.size_ ∧
      (XbitVector.copy_assign_alloc a b).cap_ = a.cap_ := by
  unfold XbitVector.copy_assign_alloc
  split
  · rw [if_neg (fun h => h hid)]
    exact ⟨rfl, rfl, rfl⟩
  · exact ⟨rfl, rfl, rfl⟩

theorem vallocate_any {N W : Nat} (w : XbitVector) (n : Nat)
    (hn : n ≤ XbitVector.max_size N W w)
    (ha : w.alloc_.avail (XbitVector.external_cap_to_internal N W n) = true) :
    ∃ buf, buf.length = XbitVector.external_cap_to_internal N W n ∧
      XbitVector.vallocate N W w n
        = Except.ok ⟨some buf, 0, XbitVector.external_cap_to_internal N W n, w.alloc_⟩ := by
  unfold XbitVector.vallocate
  rw [if_neg (by omega)]
  obtain ⟨buf, hlen, hbuf⟩ := allocate_ok W w.alloc_ (XbitVector.external_cap_to_internal N W n) ha
  refine ⟨buf, hlen, ?_⟩
  simp only [hbuf]

/-- The copy assignment between containers with equal allocators. -/
theorem copy_assign_ok {N W : Nat} (g : GoodWidths N W) (a b : XbitVector)
    (ha : XbitVector.Valid N W a) (hb : XbitVector.Valid N W b)
    (hid : a.alloc_.ident = b.alloc_.ident)
    (hre : b.size_ > XbitVector.capacity N W a →
      b.size_ ≤ XbitVector.max_size N W (XbitVector.copy_assign_alloc a b) ∧
      (XbitVector.copy_assign_alloc a b).alloc_.avail
        (XbitVector.external_cap_to_internal N W b.size_) = true) :
    ∃ r, XbitVector.copy_assign N W a b = Except.ok r ∧ XbitVector.Valid N W r ∧
      r.size_ = b.size_ ∧ r.alloc_ = (XbitVector.copy_assign_alloc a b).alloc_ ∧
      (∀ i, i < b.size_ → elemAt N W r.mem i = elemAt N W b.mem i) ∧
      (b.size_ ≠ 0 → ∀ j, j < XbitVector.external_cap_to_internal N W b.size_ →
        r.mem.getD j 0 = b.mem.getD j 0) ∧
      (b.size_ ≤ XbitVector.capacity N W a →
        r.cap_ = a.cap_ ∧ r.begin_.isSome = a.begin_.isSome ∧ r.mem.length = a.mem.length ∧
        ∀ j, (b.size_ ≠ 0 → XbitVector.external_cap_to_internal N W b.size_ ≤ j) →
          r.mem.getD j 0 = a.mem.getD j 0) := by
  obtain ⟨tb, ts, tc⟩ := copy_assign_alloc_fields a b hid
  have hwa := wide_of_valid ha
  have hmemt : (XbitVector.copy_assign_alloc a b).mem = a.mem := by
    unfold XbitVector.mem
    rw [tb]
  have hwt : XbitVector.Wide N W (XbitVector.copy_assign_alloc a b) :=
    wide_of hwa _ (by rw [tb]) (by rw [hmemt]) tc (by rw [ts]; exact hwa.size_room)
      (by rw [ts]; exact hwa.size_lt)
  have hcapt : XbitVector.capacity N W (XbitVector.copy_assign_alloc a b)
      = XbitVector.capacity N W a := by
    rw [hwt.capacity_val, hwa.capacity_val, tc]
  have hbs := hb.size_le
  have hbc := hb.cap_lt
  have hbce := hb.capacity_eq
  have hace := hwa.capacity_val
  have hacl := ha.cap_lt
  have he := g.e_pos
  by_cases h0 : b.size_ = 0
  · refine ⟨{ XbitVector.copy_assign_alloc a b with size_ := b.size_ }, ?_, ?_, rfl, rfl, ?_, ?_, ?_⟩
    · unfold XbitVector.copy_assign
      simp only [if_neg (not_not.mpr h0)]
    · have hw1 : XbitVector.Wide N W { XbitVector.copy_assign_alloc a b with size_ := b.size_ } :=
        wide_of hwt _ rfl rfl rfl (by show b.size_ ≤ _; omega) (by show b.size_ < _; omega)
      exact ⟨hw1.inv, hw1.len, by show (XbitVector.copy_assign_alloc a b).cap_ * _ < _; rw [tc]; exact hacl⟩
    · intro i hi
      omega
    · intro h
      exact absurd h0 h
    · intro _
      refine ⟨tc, by show (XbitVector.copy_assign_alloc a b).begin_.isSome = _; rw [tb], ?_, ?_⟩
      · show (XbitVector.copy_assign_alloc a b).mem.length = _
        rw [hmemt]
      · intro j _
        show (XbitVector.copy_assign_alloc a b).mem.getD j 0 = _
        rw [hmemt]
  · have hpos : 0 < b.size_ := Nat.pos_of_ne_zero h0
    have hext := external_cap_to_internal_eq N W b.size_ hpos (by omega)
    have hcover := blocks_cover g b.size_
    have hkb : (b.size_ - 1) / xbits_per_block N W + 1 ≤ b.cap_ := by
      have : (b.size_ - 1) / xbits_per_block N W < b.cap_ :=
        (Nat.div_lt_iff_lt_mul he).mpr (by omega)
      omega
    have hblk : ∀ i, i < b.size_ → i / xbits_per_block N W < (b.size_ - 1) / xbits_per_block N W + 1 := by
      intro i hi
      have : i / xbits_per_block N W ≤ (b.size_ - 1) / xbits_per_block N W :=
        Nat.div_le_div_right (by omega)
      omega
    by_cases hbig : b.size_ > XbitVector.capacity N W a
    · obtain ⟨hms, hav⟩ := hre hbig
      have hmsd : XbitVector.max_size N W (XbitVector.vdeallocate (XbitVector.copy_assign_alloc a b))
          = XbitVector.max_size N W (XbitVector.copy_assign_alloc a b) :=
        max_size_alloc N W _ _ (vdeallocate_alloc _)
      obtain ⟨buf, hlen, hval⟩ := vallocate_any (N := N) (W := W)
        (XbitVector.vdeallocate (XbitVector.copy_assign_alloc a b)) b.size_
        (by rw [hmsd]; exact hms) (by rw [vdeallocate_alloc]; exact hav)
      rw [vdeallocate_alloc, hext] at hval
      rw [hext] at hlen
      have hget := std_copy_blocks_getD b.mem ((b.size_ - 1) / xbits_per_block N W + 1) 0 buf
        (by rw [hlen]; omega)
      refine ⟨⟨some (std_copy_blocks b.mem ((b.size_ - 1) / xbits_per_block N W + 1) 0 buf),
        b.size_, (b.size_ - 1) / xbits_per_block N W + 1,
        (XbitVector.copy_assign_alloc a b).alloc_⟩, ?_, ?_, rfl, rfl, ?_, ?_, ?_⟩
      · unfold XbitVector.copy_assign
        simp only [if_pos h0, if_pos (hcapt ▸ hbig), hval, hext]
        rfl
      · have hw1 := wide_mk (N := N) (W := W)
          (std_copy_blocks b.mem ((b.size_ - 1) / xbits_per_block N W + 1) 0 buf) b.size_
          ((b.size_ - 1) / xbits_per_block N W + 1) (XbitVector.copy_assign_alloc a b).alloc_
          (by rw [std_copy_blocks_length, hlen]) (Nat.succ_ne_zero _)
          (by
            have := Nat.mul_le_mul_right (xbits_per_block N W) hkb
            omega)
          hcover (by omega)
        exact ⟨hw1.inv, hw1.len, by
          have := Nat.mul_le_mul_right (xbits_per_block N W) hkb
          show ((b.size_ - 1) / xbits_per_block N W + 1) * _ < _
          omega⟩
      · intro i hi
        apply elemAt_of_block g
        show (std_copy_blocks b.mem _ ((0 : Nat) : Int) buf).getD _ 0 = _
        rw [hget, if_pos ⟨Nat.zero_le _, by rw [Nat.zero_add]; exact hblk i hi⟩]
      · intro _ j hj
        rw [hext] at hj
        show (std_copy_blocks b.mem _ ((0 : Nat) : Int) buf).getD _ 0 = _
        rw [hget, if_pos ⟨Nat.zero_le _, by rw [Nat.zero_add]; exact hj⟩]
      · intro hfit
        omega
    · have hfit : b.size_ ≤ a.cap_ * xbits_per_block N W := by omega
      have hka : (b.size_ - 1) / xbits_per_block N W + 1 ≤ a.mem.length := by
        rw [ha.len]
        have : (b.size_ - 1) / xbits_per_block N W < a.cap_ :=
          (Nat.div_lt_iff_lt_mul he).mpr (by omega)
        omega
      have hget := std_copy_blocks_getD b.mem ((b.size_ - 1) / xbits_per_block N W + 1) 0 a.mem
        (by omega)
      have hmem1 : ((XbitVector.copy_assign_alloc a b).setMem
          (std_copy_blocks b.mem ((b.size_ - 1) / xbits_per_block N W + 1) ((0 : Nat) : Int)
            a.mem)).mem
          = std_copy_blocks b.mem ((b.size_ - 1) / xbits_per_block N W + 1) ((0 : Nat) : Int) a.mem :=
        mem_setMem _ _ (by rw [std_copy_blocks_length, hmemt])
      refine ⟨{ (XbitVector.copy_assign_alloc a b).setMem
          (std_copy_blocks b.mem ((b.size_ - 1) / xbits_per_block N W + 1) ((0 : Nat) : Int) a.mem)
          with size_ := b.size_ }, ?_, ?_, rfl, rfl, ?_, ?_, ?_⟩
      · unfold XbitVector.copy_assign
        simp only [if_pos h0, if_neg (hcapt ▸ hbig), hext, hmemt]
        rfl
      · have hw1 : XbitVector.Wide N W { (XbitVector.copy_assign_alloc a b).setMem
            (std_copy_blocks b.mem ((b.size_ - 1) / xbits_per_block N W + 1) ((0 : Nat) : Int)
              a.mem) with size_ := b.size_ } :=
          wide_of hwt _ (setMem_isSome _ _) (by
            show (XbitVector.setMem _ _).mem.length = _
            rw [hmem1, std_copy_blocks_length, hmemt]) rfl
            (by show b.size_ ≤ _; rw [tc]; exact hfit) (by show b.size_ < _; omega)
        exact ⟨hw1.inv, hw1.len, by show (XbitVector.copy_assign_alloc a b).cap_ * _ < _; rw [tc]; exact hacl⟩
      · intro i hi
        apply elemAt_of_block g
        show (XbitVector.setMem _ _).mem.getD _ 0 = _
        rw [hmem1, hget, if_pos ⟨Nat.zero_le _, by rw [Nat.zero_add]; exact hblk i hi⟩]
      · intro _ j hj
        rw [hext] at hj
        show (XbitVector.setMem _ _).mem.getD _ 0 = _
        rw [hmem1, hget, if_pos ⟨Nat.zero_le _, by rw [Nat.zero_add]; exact hj⟩]
      · intro _
        refine ⟨tc, ?_, ?_, ?_⟩
        · show (XbitVector.setMem _ _).begin_.isSome = _
          rw [setMem_isSome, tb]
        · show (XbitVector.setMem _ _).mem.length = _
          rw [hmem1, std_copy_blocks_length]
        · intro j hj
          have hj1 := hj h0
          rw [hext] at hj1
          show (XbitVector.setMem _ _).mem.getD _ 0 = _
          rw [hmem1, hget, if_neg (by omega)]

/-! ## `swap` of two field accessors -/

theorem assign_length (N W : Nat) (m : List Nat) (r : XbitReference) (x : Nat) :
    (r.assign N W m x).length = m.length := by
  unfold XbitReference.assign
  exact store_length _ _ _

theorem load_assign_other (N W : Nat) (m : List Nat) (r : XbitReference) (x : Nat) (j : Int)
    (h : r.seg_ ≠ j) : load (r.assign N W m x) j = load m j := by
  unfold XbitReference.assign
  exact load_store_other _ _ _ _ h

/-- The fields after `swap(x, y)` of the accessors at block `p`, offset `o` and at block
`q`, offset `t`. -/
theorem swap_fields {N W : Nat} (g : GoodWidths N W) (m : List Nat) (p o q t : Nat)
    (hp : p < m.length) (hq : q < m.length) (ho : o < xbits_per_block N W)
    (ht : t < xbits_per_block N W) :
    (XbitReference.ofOffset N (p : Int) o).toUInt8 N W
        (XbitReference.swap N W m (XbitReference.ofOffset N (p : Int) o)
          (XbitReference.ofOffset N (q : Int) t))
        = (XbitReference.ofOffset N (q : Int) t).toUInt8 N W m ∧
      (XbitReference.ofOffset N (q : Int) t).toUInt8 N W
        (XbitReference.swap N W m (XbitReference.ofOffset N (p : Int) o)
          (XbitReference.ofOffset N (q : Int) t))
        = (XbitReference.ofOffset N (p : Int) o).toUInt8 N W m ∧
      ∀ r s, s < xbits_per_block N W → (p ≠ r ∨ o ≠ s) → (q ≠ r ∨ t ≠ s) →
        (XbitReference.ofOffset N (r : Int) s).toUInt8 N W
          (XbitReference.swap N W m (XbitReference.ofOffset N (p : Int) o)
            (XbitReference.ofOffset N (q : Int) t))
          = (XbitReference.ofOffset N (r : Int) s).toUInt8 N W m := by
  have hxv := toUInt8_lt g m (XbitReference.ofOffset N (p : Int) o)
  have hyv := toUInt8_lt g m (XbitReference.ofOffset N (q : Int) t)
  have hq1 : q < ((XbitReference.ofOffset N (p : Int) o).assign N W m
      ((XbitReference.ofOffset N (q : Int) t).toUInt8 N W m)).length := by
    rw [assign_length]
    exact hq
  have hy : (XbitReference.ofOffset N (q : Int) t).toUInt8 N W
      (XbitReference.swap N W m (XbitReference.ofOffset N (p : Int) o)
        (XbitReference.ofOffset N (q : Int) t))
      = (XbitReference.ofOffset N (p : Int) o).toUInt8 N W m := by
    unfold XbitReference.swap
    simp only
    rw [toUInt8_assign g _ q t _ hq1 ht, Nat.mod_eq_of_lt hxv]
  refine ⟨?_, hy, ?_⟩
  · by_cases hsame : q = p ∧ t = o
    · obtain ⟨h1, h2⟩ := hsame
      subst h1
      subst h2
      exact hy
    · have hne : q ≠ p ∨ t ≠ o := by
        by_contra hc
        exact hsame ⟨by_contra (fun h => hc (Or.inl h)), by_contra (fun h => hc (Or.inr h))⟩
      unfold XbitReference.swap
      simp only
      rw [toUInt8_assign_other g _ q t p o _ ho hne, toUInt8_assign g m p o _ hp ho,
        Nat.mod_eq_of_lt hyv]
  · intro r s hs h1 h2
    unfold XbitReference.swap
    simp only
    rw [toUInt8_assign_other g _ q t r s _ hs h2, toUInt8_assign_other g _ p o r s _ hs h1]

/-! ## The capacity `recommend` returns against `max_size()` -/

/-- A request within `max_size()` is answered with a capacity of at least the request;
the answer is within `max_size()` exactly when the capacity has reached half of
`max_size()` or the request rounded up to whole blocks is within `max_size()`. -/
theorem recommend_within_max_size_iff {N W : Nat} (g : GoodWidths N W) (v : XbitVector)
    (ns : Nat) (hns : ns ≤ XbitVector.max_size N W v) :
    ∃ c, XbitVector.recommend N W v ns = Except.ok c ∧ ns ≤ c ∧
      (c ≤ XbitVector.max_size N W v ↔
        (XbitVector.capacity N W v ≥ XbitVector.max_size N W v / 2 ∨
          XbitVector.align_it N W ns ≤ XbitVector.max_size N W v)) := by
  have hspec := recommend_spec g v ns
  rw [if_neg (by omega)] at hspec
  refine ⟨_, hspec, recommend_ok_ge g v ns _ hspec, ?_⟩
  by_cases hhalf : XbitVector.capacity N W v ≥ XbitVector.max_size N W v / 2
  · rw [if_pos hhalf]
    exact ⟨fun _ => Or.inl hhalf, fun _ => Nat.le_refl _⟩
  · rw [if_neg hhalf]
    constructor
    · intro h
      exact Or.inr (Nat.le_trans (Nat.le_max_right _ _) h)
    · intro h
      rcases h with h | h
      · exact absurd h hhalf
      · exact Nat.max_le.mpr ⟨by omega, h⟩

/-- The call `reserve(c)` for a `c` above the capacity and above `max_size()` is
rejected by the length check of `vallocate`. -/
theorem reserve_beyond_max_size (N W : Nat) (v : XbitVector) (c : Nat)
    (hcap : c > XbitVector.capacity N W v) (hc : c > XbitVector.max_size N W v) :
    XbitVector.reserve N W v c = Except.error Error.length_error := by
  have hms : XbitVector.max_size N W (XbitVector.empty v.alloc_) = XbitVector.max_size N W v :=
    max_size_alloc N W _ _ rfl
  unfold XbitVector.reserve
  rw [if_pos hcap]
  unfold XbitVector.vallocate
  rw [hms, if_pos hc]

/-! ## `it + n` down to the least representable numerator -/

/-- The block and the offset `it + n` arrives at for `n < 0`, for every `n` whose
numerator `n - xbits_per_block + offset + 1` is representable in `difference_type`. -/
theorem incr_neg_exact {N W : Nat} (g : GoodWidths N W) (it : XbitIterator) (n : Int)
    (ho : it.offset_ < xbits_per_block N W)
    (hlo : -2 ^ 63 + ((xbits_per_block N W : Int) - 1 - (it.offset_ : Int)) ≤ n) (hn : n < 0) :
    (XbitIterator.incr N W it n).seg_
        = it.seg_ + ((it.offset_ : Int) + n) / (xbits_per_block N W : Int) ∧
      ((XbitIterator.incr N W it n).offset_ : Int)
        = ((it.offset_ : Int) + n) % (xbits_per_block N W : Int) := by
  have he := g.e_pos
  have he32 := g.e_le
  have hmod := Nat.mod_lt (toSize n) he
  obtain ⟨t, ht⟩ : ∃ t : Nat, (t : Int) = n + 2 ^ 64 := ⟨(n + 2 ^ 64).toNat, by omega⟩
  have hts : toSize n = t := by
    rw [toSize_of_neg n hn (by omega), ← ht]
    exact Int.toNat_natCast t
  have hcast : ((toSize n % xbits_per_block N W : Nat) : Int) + (it.offset_ : Int)
      = ((toSize n % xbits_per_block N W + it.offset_ : Nat) : Int) := by
    push_cast
    rfl
  have htd : Int.tdiv (n - (xbits_per_block N W : Int) + (it.offset_ : Int) + 1)
      (xbits_per_block N W : Int)
      = -((-(n - (xbits_per_block N W : Int) + (it.offset_ : Int) + 1))
          / (xbits_per_block N W : Int)) := by
    have h1 : n - (xbits_per_block N W : Int) + (it.offset_ : Int) + 1
        = -(-(n - (xbits_per_block N W : Int) + (it.offset_ : Int) + 1)) := by omega
    rw [h1, Int.neg_tdiv, Int.tdiv_eq_ediv (by omega) (by omega), Int.neg_neg]
  unfold XbitIterator.incr
  simp only [g.and_eq_mod]
  rw [if_neg (by omega), toSigned_toSize _ (by omega) (by omega),
    toSigned_of_lt (xbits_per_block N W) (by omega), toSigned_of_lt _ (by omega), hcast,
    toSize_natCast _ (by omega), htd, hts]
  obtain ⟨k, hk5, hk⟩ := g.pow
  rw [hk] at ho hlo ⊢
  clear hmod hcast htd he he32 hk hts
  interval_cases k <;> simp only [Nat.reducePow, Nat.cast_ofNat, Nat.cast_one] at ho hlo ⊢ <;>
    omega

/-- The effect of `it + n` for an iterator with a valid offset and any block pointer,
for every `n` at which the numerator the code divides is representable. -/
theorem incr_exact {N W : Nat} (g : GoodWidths N W) (it : XbitIterator) (n : Int)
    (ho : it.offset_ < xbits_per_block N W)
    (hlo : -2 ^ 63 + ((xbits_per_block N W : Int) - 1 - (it.offset_ : Int)) ≤ n)
    (hhi : n < 2 ^ 63) :
    (XbitIterator.incr N W it n).offset_ < xbits_per_block N W ∧
      XbitIterator.diff N W (XbitIterator.incr N W it n) it = n ∧
      (XbitIterator.incr N W it n).seg_ * (xbits_per_block N W : Int)
          + ((XbitIterator.incr N W it n).offset_ : Int)
        = it.seg_ * (xbits_per_block N W : Int) + (it.offset_ : Int) + n := by
  have hepos : (0 : Int) < (xbits_per_block N W : Int) := by exact_mod_cast g.e_pos
  have he32 := g.e_le
  by_cases hn : 0 ≤ n
  · exact incr_any g it n ho (by omega) hhi
  · obtain ⟨h1, h2⟩ := incr_neg_exact g it n ho hlo (by omega)
    have hd := Int.emod_add_ediv ((it.offset_ : Int) + n) (xbits_per_block N W : Int)
    have hm1 := Int.emod_lt_of_pos ((it.offset_ : Int) + n) hepos
    have hlin : (XbitIterator.incr N W it n).seg_ * (xbits_per_block N W : Int)
          + ((XbitIterator.incr N W it n).offset_ : Int)
        = it.seg_ * (xbits_per_block N W : Int) + (it.offset_ : Int) + n := by
      rw [h1, h2, Int.add_mul, Int.mul_comm (((it.offset_ : Int) + n) / _)]
      omega
    refine ⟨?_, ?_, hlin⟩
    · have : ((XbitIterator.incr N W it n).offset_ : Int) < (xbits_per_block N W : Int) := by
        rw [h2]
        exact hm1
      exact_mod_cast this
    · unfold XbitIterator.diff
      have hin : ((XbitIterator.incr N W it n).seg_ - it.seg_) * (xbits_per_block N W : Int)
          + ((XbitIterator.incr N W it n).offset_ : Int) - (it.offset_ : Int) = n := by
        rw [Int.sub_mul]
        omega
      rw [hin]
      exact toSigned_toSize n (by omega) hhi

/-- Every move between two positions of a buffer is within the range of `incr_exact`:
for positions `i`, `j` up to the capacity, `make_iter(i) + (j - i)` is `make_iter(j)`. -/
theorem move_in_buffer {N W : Nat} (g : GoodWidths N W) (v : XbitVector)
    (hv : XbitVector.Valid N W v) (i j : Nat) (hi : i ≤ XbitVector.capacity N W v)
    (hj : j ≤ XbitVector.capacity N W v) :
    (XbitVector.make_iter N W i).offset_ < xbits_per_block N W ∧
      -2 ^ 63 + (xbits_per_block N W : Int) ≤ (j : Int) - (i : Int) ∧
      (j : Int) - (i : Int) < 2 ^ 63 ∧
      XbitIterator.add N W (XbitVector.make_iter N W i) ((j : Int) - (i : Int))
        = XbitVector.make_iter N W j := by
  have he := g.e_pos
  have hcl := hv.cap_lt
  have hce := hv.capacity_eq
  obtain ⟨q, hq⟩ := g.e_dvd 63 (by decide)
  have hcq : v.cap_ < q := by
    apply Nat.lt_of_mul_lt_mul_left (a := xbits_per_block N W)
    rw [← hq, Nat.mul_comm]
    exact hcl
  have hroom : v.cap_ * xbits_per_block N W + xbits_per_block N W ≤ 2 ^ 63 := by
    have := Nat.mul_le_mul_left (xbits_per_block N W) (Nat.succ_le_of_lt hcq)
    rw [← hq, Nat.mul_succ, Nat.mul_comm] at this
    exact this
  refine ⟨?_, by omega, by omega, ?_⟩
  · rw [make_iter_eq g]
    exact Nat.mod_lt _ he
  · unfold XbitIterator.add
    by_cases hij : i ≤ j
    · have h1 : (j : Int) - (i : Int) = ((j - i : Nat) : Int) := by omega
      rw [h1, incr_make_iter_nonneg g i (j - i) (by omega)]
      congr 1
      omega
    · have h1 : (j : Int) - (i : Int) = -((i - j : Nat) : Int) := by omega
      rw [h1, incr_make_iter_neg g i (i - j) (by omega) (by omega) (by omega)]
      congr 1
      omega

/-! ## Requests in the last partial block below `max_size()` -/

/-- A growing `resize(sz, x)` with `sz` within `max_size()` fails with a length error
when the capacity is below half of `max_size()` and `sz` rounded up to whole blocks
exceeds `max_size()`. -/
theorem resize_rejected {N W : Nat} (g : GoodWidths N W) (v : XbitVector) (sz x : Nat)
    (hgrow : v.size_ < sz) (hms : sz ≤ XbitVector.max_size N W v)
    (hcap : sz > XbitVector.capacity N W v)
    (hhalf : ¬ XbitVector.capacity N W v ≥ XbitVector.max_size N W v / 2)
    (hal : XbitVector.align_it N W sz > XbitVector.max_size N W v) :
    XbitVector.resize N W v sz x = Except.error Error.length_error := by
  have hmax := max_size_le g v
  have hs : v.size = v.size_ := rfl
  have hfit : ¬ (sz - v.size ≤ XbitVector.capacity N W v
      ∧ v.size ≤ XbitVector.capacity N W v - (sz - v.size)) := by
    rw [hs]
    omega
  have hmod : (v.size_ + (sz - v.size)) % 2 ^ 64 = sz := by
    rw [hs, Nat.add_sub_cancel' (Nat.le_of_lt hgrow)]
    exact Nat.mod_eq_of_lt (by omega)
  have hrec : XbitVector.recommend N W v sz
      = Except.ok (max (2 * XbitVector.capacity N W v) (XbitVector.align_it N W sz)) := by
    rw [recommend_spec g v _, if_neg (by omega), if_neg hhalf]
  have hbig : max (2 * XbitVector.capacity N W v) (XbitVector.align_it N W sz)
      > XbitVector.max_size N W v := Nat.lt_of_lt_of_le hal (Nat.le_max_right _ _)
  have hcap0 : XbitVector.capacity N W (XbitVector.empty v.alloc_) = 0 := by
    simp [XbitVector.capacity, XbitVector.internal_cap_to_external, XbitVector.empty]
  have hres := reserve_beyond_max_size N W (XbitVector.empty v.alloc_)
    (max (2 * XbitVector.capacity N W v) (XbitVector.align_it N W sz))
    (by rw [hcap0]; omega)
    (by rw [max_size_alloc N W (XbitVector.empty v.alloc_) v rfl]; exact hbig)
  unfold XbitVector.resize
  simp only [if_pos (show v.size < sz from hgrow), if_neg hfit, hmod, hrec, hres]

/-- C2: for every block, every in-block offset `o < xbits_per_block` and every value `v`,
assigning `v` through the field accessor at offset `o` and then reading the accessor
yields `v mod 2^N`, which is `v & mask` with `mask = 2^N - 1`; so assigning `v` stores
the same buffer as assigning `v & mask`. -/
theorem field_assign_read_truncates (N W : Nat) (hw : ValidWidths N W) (m : List Nat)
    (p o v : Nat) (hp : p < m.length) (ho : o < xbits_per_block N W) :
    (XbitReference.ofOffset N (p : Int) o).toUInt8 N W
        ((XbitReference.ofOffset N (p : Int) o).assign N W m v) = v % 2 ^ N
    ∧ v % 2 ^ N = v &&& XbitReference.mask N W
    ∧ XbitReference.mask N W = 2 ^ N - 1
    ∧ (XbitReference.ofOffset N (p : Int) o).assign N W m v
        = (XbitReference.ofOffset N (p : Int) o).assign N W m (v &&& XbitReference.mask N W) := by
  have g := hw.good
  have hm := mask_eq N W g.N_le_W
  refine ⟨?_, ?_, hm, ?_⟩
  · unfold XbitReference.toUInt8 XbitReference.assign XbitReference.ofOffset
    simp only
    rw [load_store_same _ _ _ (Int.natCast_nonneg _) (by simpa using hp)]
    exact extract_deposit_same N W _ _ _ g.N_le_W g.N_le (g.shift_le o ho)
  · rw [hm, Nat.and_pow_two_sub_one_eq_mod]
  · unfold XbitReference.assign XbitReference.deposit
    simp only [Nat.and_assoc, Nat.and_self]

theorem field_assign_read_truncates_witness :
    (XbitReference.ofOffset 2 ((0 : Nat) : Int) 1).toUInt8 2 8
        ((XbitReference.ofOffset 2 ((0 : Nat) : Int) 1).assign 2 8 [213] 7) = 7 % 2 ^ 2
    ∧ 7 % 2 ^ 2 = 7 &&& XbitReference.mask 2 8
    ∧ XbitReference.mask 2 8 = 2 ^ 2 - 1
    ∧ (XbitReference.ofOffset 2 ((0 : Nat) : Int) 1).assign 2 8 [213] 7
        = (XbitReference.ofOffset 2 ((0 : Nat) : Int) 1).assign 2 8 [213]
            (7 &&& XbitReference.mask 2 8) :=
  field_assign_read_truncates 2 8 (by decide) [213] 0 1 7 (by decide) (by decide)

/-- C6: `at(index)` fails, and then with a range error, exactly when `index >= size()`;
for `index < size()` it returns the value of `operator[](index)`; in both cases the
container is left as it was. -/
theorem at_checks_range (N W : Nat) (v : XbitVector) (n : Nat) :
    ((∃ e, (XbitVector.at N W v n).1 = Except.error e) ↔ n ≥ v.size)
    ∧ (n ≥ v.size → (XbitVector.at N W v n).1 = Except.error Error.out_of_range)
    ∧ (n < v.size → (XbitVector.at N W v n).1 = Except.ok (XbitVector.get N W v n))
    ∧ (XbitVector.at N W v n).2 = v := by
  unfold XbitVector.at
  by_cases h : n ≥ v.size
  · simp [h]
  · simp [h]

/-- C1: for `N` in {2, 4}, every block width and every list `s` of values below `2^N`
(within `max_size()`, the allocation succeeding), the container built from `s` by the
literal-list constructor or by the forward-range constructor has `size()` equal to the
length of `s` and `container[i] == s[i]` for every `i` below that length. -/
theorem construct_from_sequence (N W : Nat) (hw : ValidWidths N W) (a : Allocator)
    (s : List Nat) (hs : ∀ x ∈ s, x < 2 ^ N)
    (hn : s.length ≤ XbitVector.max_size N W (XbitVector.empty a))
    (ha : s ≠ [] → a.avail (XbitVector.external_cap_to_internal N W s.length) = true) :
    ∃ v, XbitVector.ofList N W a s = Except.ok v ∧ XbitVector.ofRange N W a s = Except.ok v ∧
      v.size = s.length ∧ ∀ i (hi : i < s.length), XbitVector.get N W v i = s[i] := by
  by_cases h0 : s = []
  · subst h0
    exact ⟨XbitVector.empty a, rfl, rfl, rfl, fun i hi => absurd hi (Nat.not_lt_zero i)⟩
  · exact construct_from_values hw.good a s hs h0 hn (ha h0)

theorem construct_from_sequence_witness :
    ∃ v, XbitVector.ofList 2 8 stdAllocator [0, 2, 3, 1, 1] = Except.ok v ∧
      XbitVector.ofRange 2 8 stdAllocator [0, 2, 3, 1, 1] = Except.ok v ∧
      v.size = [0, 2, 3, 1, 1].length ∧
      ∀ i (hi : i < [0, 2, 3, 1, 1].length), XbitVector.get 2 8 v i = [0, 2, 3, 1, 1][i] :=
  construct_from_sequence 2 8 (by decide) stdAllocator [0, 2, 3, 1, 1] (by decide) (by decide)
    (fun _ => rfl)

/-- C8: for every container and every `n <= max_size()`, the allocation succeeding,
`reserve(n)` returns with `capacity()` equal to the maximum of the old `capacity()` and
`n` rounded up to a whole number of blocks; so `capacity()` does not decrease and is at
least `n` afterwards. -/
theorem reserve_capacity (N W : Nat) (hw : ValidWidths N W) (v : XbitVector)
    (hv : XbitVector.Valid N W v) (n : Nat) (hn : n ≤ XbitVector.max_size N W v)
    (ha : n > XbitVector.capacity N W v →
      v.alloc_.avail (XbitVector.external_cap_to_internal N W n) = true) :
    ∃ v1, XbitVector.reserve N W v n = Except.ok v1 ∧
      XbitVector.capacity N W v1 = max (XbitVector.capacity N W v)
        ((n + (xbits_per_block N W - 1)) / xbits_per_block N W * xbits_per_block N W) ∧
      XbitVector.capacity N W v ≤ XbitVector.capacity N W v1 ∧
      n ≤ XbitVector.capacity N W v1 := by
  have g := hw.good
  have hmax := max_size_le g v
  have hce := hv.capacity_eq
  have he := g.e_pos
  have hal := align_it_eq g n (by omega)
  by_cases hcap : n > XbitVector.capacity N W v
  · obtain ⟨buf, hlen, hr, _⟩ := reserve_grow g v hv n hcap hn (ha hcap)
    have hn0 : 0 < n := by omega
    have hext := external_cap_to_internal_eq N W n hn0 (by omega)
    have hcover := blocks_cover g n
    have htight := blocks_tight N W n hn0
    have hab := align_it_blocks g n hn0 (by omega)
    refine ⟨_, hr, ?_⟩
    have hc1 : XbitVector.capacity N W (⟨some buf, v.size_,
        XbitVector.external_cap_to_internal N W n, v.alloc_⟩ : XbitVector)
        = ((n - 1) / xbits_per_block N W + 1) * xbits_per_block N W := by
      unfold XbitVector.capacity XbitVector.internal_cap_to_external
      simp only [hext]
      exact Nat.mod_eq_of_lt (by have := g.e_le; omega)
    rw [hc1, ← hal, hab]
    omega
  · refine ⟨v, reserve_keep N W v n hcap, ?_⟩
    have hle : (n + (xbits_per_block N W - 1)) / xbits_per_block N W * xbits_per_block N W
        ≤ v.cap_ * xbits_per_block N W := by
      apply Nat.mul_le_mul_right
      rw [Nat.div_le_iff_le_mul_add_pred he]
      rw [hce] at hcap
      have : xbits_per_block N W * v.cap_ = v.cap_ * xbits_per_block N W := Nat.mul_comm _ _
      omega
    rw [hce] at hcap ⊢
    omega

theorem reserve_capacity_witness :
    ∃ v1, XbitVector.reserve 2 8 dibit111 1024 = Except.ok v1 ∧
      XbitVector.capacity 2 8 v1 = max (XbitVector.capacity 2 8 dibit111)
        ((1024 + (xbits_per_block 2 8 - 1)) / xbits_per_block 2 8 * xbits_per_block 2 8) ∧
      XbitVector.capacity 2 8 dibit111 ≤ XbitVector.capacity 2 8 v1 ∧
      1024 ≤ XbitVector.capacity 2 8 v1 :=
  reserve_capacity 2 8 (by decide) dibit111 ⟨by decide, by decide, by decide⟩ 1024 (by decide)
    (fun _ => rfl)

/-- C9: a successful `reserve(n)` leaves `size()` and every element below `size()`
unchanged, both when it reallocates (`n > capacity()`) and when it does nothing; and
`reserve(n)` is successful whenever `n <= max_size()` and the allocation succeeds. -/
theorem reserve_keeps_elements (N W : Nat) (hw : ValidWidths N W) (v : XbitVector)
    (hv : XbitVector.Valid N W v) (n : Nat) :
    (∀ v1, XbitVector.reserve N W v n = Except.ok v1 →
      v1.size = v.size ∧ ∀ i, i < v.size → XbitVector.get N W v1 i = XbitVector.get N W v i)
    ∧ (n ≤ XbitVector.max_size N W v →
        v.alloc_.avail (XbitVector.external_cap_to_internal N W n) = true →
        ∃ v1, XbitVector.reserve N W v n = Except.ok v1) := by
  have g := hw.good
  constructor
  · intro v1 h1
    by_cases hcap : n > XbitVector.capacity N W v
    · obtain ⟨hn, ha⟩ := reserve_ok_inv N W v n v1 hcap h1
      obtain ⟨buf, _, hr, hel⟩ := reserve_grow g v hv n hcap hn ha
      rw [hr] at h1
      injection h1 with h1
      subst h1
      exact ⟨rfl, hel⟩
    · rw [reserve_keep N W v n hcap] at h1
      injection h1 with h1
      subst h1
      exact ⟨rfl, fun _ _ => rfl⟩
  · intro hn ha
    by_cases hcap : n > XbitVector.capacity N W v
    · obtain ⟨buf, _, hr, _⟩ := reserve_grow g v hv n hcap hn ha
      exact ⟨_, hr⟩
    · exact ⟨v, reserve_keep N W v n hcap⟩

theorem reserve_keeps_elements_witness :
    (∀ v1, XbitVector.reserve 2 8 dibit111 1024 = Except.ok v1 →
      v1.size = dibit111.size ∧
        ∀ i, i < dibit111.size → XbitVector.get 2 8 v1 i = XbitVector.get 2 8 dibit111 i)
    ∧ (1024 ≤ XbitVector.max_size 2 8 dibit111 →
        dibit111.alloc_.avail (XbitVector.external_cap_to_internal 2 8 1024) = true →
        ∃ v1, XbitVector.reserve 2 8 dibit111 1024 = Except.ok v1) :=
  reserve_keeps_elements 2 8 (by decide) dibit111 ⟨by decide, by decide, by decide⟩ 1024

/-- C5: for every container and every value `x`, `push_back(x)` (within `max_size()` and
with the allocation succeeding when `size == capacity` forces the buffer to grow)
increases `size()` by exactly one, makes the new last element read `x mod 2^N`, and
leaves the elements `0 .. old_size-1` unchanged. -/
theorem push_back_appends (N W : Nat) (hw : ValidWidths N W) (v : XbitVector)
    (hv : XbitVector.Valid N W v) (x : Nat)
    (hn : v.size = XbitVector.capacity N W v → v.size < XbitVector.max_size N W v)
    (ha : v.size = XbitVector.capacity N W v → ∀ k, v.alloc_.avail k = true) :
    ∃ v1, XbitVector.push_back N W v x = Except.ok v1 ∧ v1.size = v.size + 1 ∧
      XbitVector.get N W v1 v.size = x % 2 ^ N ∧
      ∀ i, i < v.size → XbitVector.get N W v1 i = XbitVector.get N W v i :=
  push_back_ok hw.good v hv x hn ha

theorem push_back_appends_witness :
    ∃ v1, XbitVector.push_back 2 8 dibit1230 6 = Except.ok v1 ∧ v1.size = dibit1230.size + 1 ∧
      XbitVector.get 2 8 v1 dibit1230.size = 6 % 2 ^ 2 ∧
      ∀ i, i < dibit1230.size → XbitVector.get 2 8 v1 i = XbitVector.get 2 8 dibit1230 i :=
  push_back_appends 2 8 (by decide) dibit1230 ⟨by decide, by decide, by decide⟩ 6
    (fun _ => by decide) (fun _ _ => rfl)

/-- C3 (as stated, refuted): inserting the value 5 at the front of the `DibitVector`
`{1, 1, 1}` succeeds, and element 0 then reads `1`, not the inserted `x = 5`. -/
theorem insert_wide_value_not_read_back :
    ∃ v1, XbitVector.insert 2 8 dibit111 (XbitVector.make_iter 2 8 0) 5
        = Except.ok (v1, XbitVector.make_iter 2 8 0) ∧
      XbitVector.get 2 8 v1 0 = 1 ∧ XbitVector.get 2 8 v1 0 ≠ 5 := by
  obtain ⟨v1, h1, _, h2, _⟩ := insert_ok (ValidWidths.good (by decide : ValidWidths 2 8))
    dibit111 ⟨by decide, by decide, by decide⟩ 0 5 (by decide)
    (fun h => absurd h (by decide)) (fun _ _ => rfl)
  have h3 : XbitVector.get 2 8 v1 0 = 1 := h2
  exact ⟨v1, h1, h3, by rw [h3]; decide⟩

/-- C3 (amended): for every container with elements `e[0..size)`, every position
`p <= size` and every value `x`, `insert(p, x)` (within `max_size()` and with the
allocation succeeding when there is no spare capacity) yields a container of `size + 1`
elements in which element `p` reads `x mod 2^N` (so `x` itself when `x < 2^N`), every
element before `p` is unchanged and element `i + 1` is the old `e[i]` for every `i >= p`;
the returned iterator is at index `p`. -/
theorem insert_shifts_tail (N W : Nat) (hw : ValidWidths N W) (v : XbitVector)
    (hv : XbitVector.Valid N W v) (p x : Nat) (hp : p ≤ v.size)
    (hn : v.size = XbitVector.capacity N W v → v.size < XbitVector.max_size N W v)
    (ha : v.size = XbitVector.capacity N W v → ∀ k, v.alloc_.avail k = true) :
    ∃ v1 r, XbitVector.insert N W v (XbitVector.make_iter N W p) x = Except.ok (v1, r) ∧
      r = XbitVector.make_iter N W p ∧
      XbitIterator.diff N W r (XbitVector.begin N W v1) = (p : Int) ∧
      v1.size = v.size + 1 ∧
      XbitVector.get N W v1 p = x % 2 ^ N ∧
      (x < 2 ^ N → XbitVector.get N W v1 p = x) ∧
      (∀ i, i < p → XbitVector.get N W v1 i = XbitVector.get N W v i) ∧
      (∀ i, p ≤ i → i < v.size → XbitVector.get N W v1 (i + 1) = XbitVector.get N W v i) := by
  have g := hw.good
  obtain ⟨v1, h1, h2, h3, h4, h5⟩ := insert_ok g v hv p x hp hn ha
  have hcl := hv.cap_lt
  have hsz := hv.size_le
  have hp1 : p ≤ v.size_ := hp
  refine ⟨v1, XbitVector.make_iter N W p, h1, rfl, ?_, h2, h3, ?_, h4, h5⟩
  · unfold XbitVector.begin
    rw [diff_make_iter g p 0 (by omega) (by decide)]
    simp
  · intro hx
    have h6 : XbitVector.get N W v1 p = x % 2 ^ N := h3
    rw [h6]
    exact Nat.mod_eq_of_lt hx

theorem insert_shifts_tail_witness :
    ∃ v1 r, XbitVector.insert 2 8 dibit1230 (XbitVector.make_iter 2 8 2) 6 = Except.ok (v1, r) ∧
      r = XbitVector.make_iter 2 8 2 ∧
      XbitIterator.diff 2 8 r (XbitVector.begin 2 8 v1) = ((2 : Nat) : Int) ∧
      v1.size = dibit1230.size + 1 ∧
      XbitVector.get 2 8 v1 2 = 6 % 2 ^ 2 ∧
      (6 < 2 ^ 2 → XbitVector.get 2 8 v1 2 = 6) ∧
      (∀ i, i < 2 → XbitVector.get 2 8 v1 i = XbitVector.get 2 8 dibit1230 i) ∧
      (∀ i, 2 ≤ i → i < dibit1230.size →
        XbitVector.get 2 8 v1 (i + 1) = XbitVector.get 2 8 dibit1230 i) :=
  insert_shifts_tail 2 8 (by decide) dibit1230 ⟨by decide, by decide, by decide⟩ 2 6
    (by decide) (fun _ => by decide) (fun _ _ => rfl)

/-- C4: for every container with elements `e[0..size)` and positions
`0 <= first <= last <= size`, `erase(first, last)` yields a container of
`size - (last - first)` elements, namely `e[0..first)` followed by `e[last..size)` in
their original order, with the capacity unchanged; the returned iterator is at index
`first`. -/
theorem erase_range_closes_gap (N W : Nat) (hw : ValidWidths N W) (v : XbitVector)
    (hv : XbitVector.Valid N W v) (a b : Nat) (hab : a ≤ b) (hb : b ≤ v.size) :
    (XbitVector.erase N W v (XbitVector.make_iter N W a) (XbitVector.make_iter N W b)).2
        = XbitVector.make_iter N W a ∧
      XbitIterator.diff N W
        (XbitVector.erase N W v (XbitVector.make_iter N W a) (XbitVector.make_iter N W b)).2
        (XbitVector.begin N W v) = (a : Int) ∧
      (XbitVector.erase N W v (XbitVector.make_iter N W a) (XbitVector.make_iter N W b)).1.size
        = v.size - (b - a) ∧
      XbitVector.capacity N W
        (XbitVector.erase N W v (XbitVector.make_iter N W a) (XbitVector.make_iter N W b)).1
        = XbitVector.capacity N W v ∧
      (∀ i, i < a → XbitVector.get N W
        (XbitVector.erase N W v (XbitVector.make_iter N W a) (XbitVector.make_iter N W b)).1 i
        = XbitVector.get N W v i) ∧
      (∀ i, a ≤ i → i < v.size - (b - a) → XbitVector.get N W
        (XbitVector.erase N W v (XbitVector.make_iter N W a) (XbitVector.make_iter N W b)).1 i
        = XbitVector.get N W v (i + (b - a))) := by
  have g := hw.good
  have hb1 : b ≤ v.size_ := hb
  have hcl := hv.cap_lt
  have hsz := hv.size_le
  obtain ⟨h1, h2, h3, h4⟩ := erase_ok g v hv a b hab hb1
  refine ⟨h1, ?_, h2, ?_, ?_, ?_⟩
  · rw [h1]
    unfold XbitVector.begin
    rw [diff_make_iter g a 0 (by omega) (by decide)]
    simp
  · unfold XbitVector.capacity
    rw [h3]
  · intro i hi
    have := h4 i
    rw [if_neg (by omega)] at this
    exact this
  · intro i hi1 hi2
    have hi3 : i < v.size_ - (b - a) := hi2
    have := h4 i
    rw [if_pos (by omega)] at this
    have hidx : b + (i - a) = i + (b - a) := by omega
    rw [hidx] at this
    exact this

theorem erase_range_closes_gap_witness :
    (XbitVector.erase 2 8 dibit1230 (XbitVector.make_iter 2 8 1) (XbitVector.make_iter 2 8 3)).2
        = XbitVector.make_iter 2 8 1 ∧
      XbitIterator.diff 2 8
        (XbitVector.erase 2 8 dibit1230 (XbitVector.make_iter 2 8 1)
          (XbitVector.make_iter 2 8 3)).2
        (XbitVector.begin 2 8 dibit1230) = ((1 : Nat) : Int) ∧
      (XbitVector.erase 2 8 dibit1230 (XbitVector.make_iter 2 8 1)
          (XbitVector.make_iter 2 8 3)).1.size
        = dibit1230.size - (3 - 1) ∧
      XbitVector.capacity 2 8
        (XbitVector.erase 2 8 dibit1230 (XbitVector.make_iter 2 8 1)
          (XbitVector.make_iter 2 8 3)).1
        = XbitVector.capacity 2 8 dibit1230 ∧
      (∀ i, i < 1 → XbitVector.get 2 8
        (XbitVector.erase 2 8 dibit1230 (XbitVector.make_iter 2 8 1)
          (XbitVector.make_iter 2 8 3)).1 i
        = XbitVector.get 2 8 dibit1230 i) ∧
      (∀ i, 1 ≤ i → i < dibit1230.size - (3 - 1) → XbitVector.get 2 8
        (XbitVector.erase 2 8 dibit1230 (XbitVector.make_iter 2 8 1)
          (XbitVector.make_iter 2 8 3)).1 i
        = XbitVector.get 2 8 dibit1230 (i + (3 - 1))) :=
  erase_range_closes_gap 2 8 (by decide) dibit1230 ⟨by decide, by decide, by decide⟩ 1 3
    (by decide) (by decide)

/-- The effect of `resize` where it returns: for every container with elements
`e[0..size)`, every `new_size` and every fill value (within `max_size()` after rounding
up to whole blocks, and with the allocation succeeding, when the buffer has to grow):
`resize(new_size, fill)` yields size `new_size`; the elements below both the old and the
new size are unchanged, and every element at an index in `[size, new_size)` reads
`fill mod 2^N`, whatever bits the storage beyond the old size held. -/
theorem resize_fills_or_truncates (N W : Nat) (hw : ValidWidths N W) (v : XbitVector)
    (hv : XbitVector.Valid N W v) (sz x : Nat)
    (hn : sz > XbitVector.capacity N W v →
      sz ≤ XbitVector.max_size N W v ∧ XbitVector.align_it N W sz ≤ XbitVector.max_size N W v)
    (ha : sz > XbitVector.capacity N W v → ∀ k, v.alloc_.avail k = true) :
    ∃ v1, XbitVector.resize N W v sz x = Except.ok v1 ∧ v1.size = sz ∧
      (∀ i, i < v.size → i < sz → XbitVector.get N W v1 i = XbitVector.get N W v i) ∧
      (∀ i, v.size ≤ i → i < sz → XbitVector.get N W v1 i = x % 2 ^ N) :=
  resize_ok hw.good v hv sz x hn ha

theorem resize_fills_or_truncates_witness :
    ∃ v1, XbitVector.resize 2 8 dibit111 10 6 = Except.ok v1 ∧ v1.size = 10 ∧
      (∀ i, i < dibit111.size → i < 10 →
        XbitVector.get 2 8 v1 i = XbitVector.get 2 8 dibit111 i) ∧
      (∀ i, dibit111.size ≤ i → i < 10 → XbitVector.get 2 8 v1 i = 6 % 2 ^ 2) :=
  resize_fills_or_truncates 2 8 (by decide) dibit111 ⟨by decide, by decide, by decide⟩ 10 6
    (fun _ => ⟨by decide, by decide⟩) (fun _ _ => rfl)

/-- C7 (the divergence): on the `DibitVector` `{1, 1, 1}` (capacity 4) the call
`resize(2^63 - 1, 1)` asks for a size within `max_size() = 2^63 - 1` and fails with a
length error instead of yielding that size: `recommend(2^63 - 1)` passes its own check
and returns `align_it(2^63 - 1) = 2^63`, which `reserve` rejects as greater than
`max_size()`, although `reserve(2^63 - 1)`, a buffer for `max_size()` elements, passes
the length check and is served. -/
theorem resize_within_max_size_rejected :
    dibit111.size < 2 ^ 63 - 1
    ∧ 2 ^ 63 - 1 ≤ XbitVector.max_size 2 8 dibit111
    ∧ XbitVector.resize 2 8 dibit111 (2 ^ 63 - 1) 1 = Except.error Error.length_error
    ∧ XbitVector.recommend 2 8 dibit111 (2 ^ 63 - 1) = Except.ok (2 ^ 63)
    ∧ ¬ 2 ^ 63 ≤ XbitVector.max_size 2 8 dibit111
    ∧ XbitVector.reserve 2 8 (XbitVector.empty dibit111.alloc_) (2 ^ 63)
        = Except.error Error.length_error
    ∧ (∃ w, XbitVector.reserve 2 8 (XbitVector.empty dibit111.alloc_) (2 ^ 63 - 1)
        = Except.ok w ∧ 2 ^ 63 - 1 ≤ XbitVector.capacity 2 8 w) := by
  refine ⟨by decide, by decide, rfl, rfl, by decide, rfl, ?_⟩
  have g : GoodWidths 2 8 := ValidWidths.good (by decide)
  obtain ⟨V, h1, h2, _, _, h5, _⟩ := wide_reserve_state g (XbitVector.empty dibit111.alloc_)
    (wide_empty 2 8 _) (2 ^ 63 - 1) (by decide) (by decide) rfl
  exact ⟨V, h1, by rw [h2.capacity_val]; exact h5⟩

/-- C10 (the code departs from the claim): build the `DibitVector` `{1, 1, 1}`, call
`reserve(1024)` and then `shrink_to_fit()`.  The guard
`external_cap_to_internal(size()) > cap_` is false, so the buffer is kept: `capacity()`
is still 1024, while the size rounded up to whole blocks is 4. -/
theorem shrink_to_fit_keeps_excess_capacity :
    ∃ v0 v1, XbitVector.ofList 2 8 stdAllocator [1, 1, 1] = Except.ok v0 ∧
      XbitVector.reserve 2 8 v0 1024 = Except.ok v1 ∧
      v1.size = 3 ∧ XbitVector.capacity 2 8 v1 = 1024 ∧
      (XbitVector.shrink_to_fit 2 8 v1).size = 3 ∧
      XbitVector.capacity 2 8 (XbitVector.shrink_to_fit 2 8 v1) = 1024 ∧
      XbitVector.external_cap_to_internal 2 8 3 = 1 ∧ v1.cap_ = 256 ∧
      XbitVector.align_it 2 8 3 = 4 := by
  refine ⟨⟨some [149], 3, 1, stdAllocator⟩, _, rfl, rfl, rfl, ?_, ?_, ?_, ?_, ?_, ?_⟩ <;> decide

/-- C11: for every container, `flip()` followed by `flip()` restores the original
contents: both calls end, `size()` is unchanged, every element below `size()` reads its
original value, and every block holds its original `W` bits (so the container is the
one before the calls when its blocks are `W`-bit values). -/
theorem flip_twice_restores (N W : Nat) (hw : ValidWidths N W) (v : XbitVector)
    (hv : XbitVector.Valid N W v) (f1 f2 : Nat) (h1 : v.size ≤ f1) (h2 : v.size ≤ f2) :
    ∃ v1 v2, XbitVector.flip N W f1 v = some v1 ∧ XbitVector.flip N W f2 v1 = some v2 ∧
      v2.size = v.size ∧
      (∀ i, i < v.size → XbitVector.get N W v2 i = XbitVector.get N W v i) ∧
      (∀ j, v2.mem.getD j 0 % 2 ^ W = v.mem.getD j 0 % 2 ^ W) ∧
      ((∀ j, v.mem.getD j 0 < 2 ^ W) → v2 = v) := by
  have g := hw.good
  obtain ⟨m1, m2, ha, hb, hc, hd, he, hf⟩ := flip_flip_ok g v hv f1 f2 h1 h2
  refine ⟨v.setMem m1, v.setMem m2, ha, hb, rfl, ?_, ?_, ?_⟩
  · intro i hi
    have : XbitVector.get N W (v.setMem m2) i = elemAt N W (v.setMem m2).mem i := rfl
    rw [this, hc]
    exact hf i hi
  · intro j
    rw [hc, he j]
    split
    · exact Nat.mod_mod _ _
    · rfl
  · intro hblk
    have hm : m2 = v.mem := by
      apply List.ext_getElem hd
      intro j h3 h4
      rw [← List.getD_eq_getElem _ 0 h3, ← List.getD_eq_getElem _ 0 h4, he j]
      split
      · exact Nat.mod_eq_of_lt (hblk j)
      · rfl
    rw [hm]
    exact setMem_self v

theorem flip_twice_restores_witness :
    ∃ v1 v2, XbitVector.flip 2 8 4 dibit0123 = some v1 ∧ XbitVector.flip 2 8 4 v1 = some v2 ∧
      v2.size = dibit0123.size ∧
      (∀ i, i < dibit0123.size → XbitVector.get 2 8 v2 i = XbitVector.get 2 8 dibit0123 i) ∧
      (∀ j, v2.mem.getD j 0 % 2 ^ 8 = dibit0123.mem.getD j 0 % 2 ^ 8) ∧
      ((∀ j, dibit0123.mem.getD j 0 < 2 ^ 8) → v2 = dibit0123) :=
  flip_twice_restores 2 8 (by decide) dibit0123 ⟨by decide, by decide, by decide⟩ 4 4
    (by decide) (by decide)

/-- C12: for every container with elements `e[0..size)`, `flip()` ends and leaves the
size unchanged; every element `i < size` then reads `(2^N - 1) - e[i]`; exactly the
`ceil(size / xbits_per_block)` blocks spanned by the size are complemented and no block
beyond them is modified. -/
theorem flip_complements_spanned_blocks (N W : Nat) (hw : ValidWidths N W) (v : XbitVector)
    (hv : XbitVector.Valid N W v) (fuel : Nat) (hf : v.size ≤ fuel) :
    ∃ v1, XbitVector.flip N W fuel v = some v1 ∧ v1.size = v.size ∧
      XbitVector.capacity N W v1 = XbitVector.capacity N W v ∧
      (∀ i, i < v.size → XbitVector.get N W v1 i = 2 ^ N - 1 - XbitVector.get N W v i) ∧
      v1.mem.length = v.mem.length ∧
      (∀ j, v1.mem.getD j 0 =
        if j < (v.size + (xbits_per_block N W - 1)) / xbits_per_block N W
        then complement W (v.mem.getD j 0) else v.mem.getD j 0) := by
  have g := hw.good
  have he := g.e_pos
  obtain ⟨m1, ha, hb, hc, hd, hel⟩ := flip_ok g v hv fuel hf
  refine ⟨v.setMem m1, ha, rfl, rfl, ?_, by rw [hb, hc], ?_⟩
  · intro i hi
    have : XbitVector.get N W (v.setMem m1) i = elemAt N W (v.setMem m1).mem i := rfl
    rw [this, hb]
    exact hel i hi
  · intro j
    rw [hb, hd j]
    have hiff : j * xbits_per_block N W < v.size_
        ↔ j < (v.size + (xbits_per_block N W - 1)) / xbits_per_block N W := by
      have hs : v.size = v.size_ := rfl
      rw [hs, Nat.lt_iff_add_one_le, Nat.lt_iff_add_one_le, Nat.le_div_iff_mul_le he,
        Nat.add_mul, Nat.one_mul]
      omega
    by_cases hj : j * xbits_per_block N W < v.size_
    · rw [if_pos hj, if_pos (hiff.mp hj)]
    · rw [if_neg hj, if_neg (fun h => hj (hiff.mpr h))]

theorem flip_complements_spanned_blocks_witness :
    ∃ v1, XbitVector.flip 2 8 4 dibit0123 = some v1 ∧ v1.size = dibit0123.size ∧
      XbitVector.capacity 2 8 v1 = XbitVector.capacity 2 8 dibit0123 ∧
      (∀ i, i < dibit0123.size →
        XbitVector.get 2 8 v1 i = 2 ^ 2 - 1 - XbitVector.get 2 8 dibit0123 i) ∧
      v1.mem.length = dibit0123.mem.length ∧
      (∀ j, v1.mem.getD j 0 =
        if j < (dibit0123.size + (xbits_per_block 2 8 - 1)) / xbits_per_block 2 8
        then complement 8 (dibit0123.mem.getD j 0) else dibit0123.mem.getD j 0) :=
  flip_complements_spanned_blocks 2 8 (by decide) dibit0123 ⟨by decide, by decide, by decide⟩ 4
    (by decide)

/-- C13: for all containers `a` and `b` of the same field and block width, `a == b`
holds if and only if `a.size() == b.size()` and `a[i] == b[i]` for every `i < size`; so
the result is the same for any two containers with these sizes and elements, whatever
their capacities and the bits stored beyond the logical size. -/
theorem equal_iff_same_size_and_elements (N W : Nat) (hw : ValidWidths N W) (a b : XbitVector)
    (ha : XbitVector.Valid N W a) :
    (XbitVector.equal N W a b = true
      ↔ a.size = b.size ∧ ∀ i, i < a.size → XbitVector.get N W a i = XbitVector.get N W b i)
    ∧ (∀ a1 b1, XbitVector.Valid N W a1 → a1.size = a.size → b1.size = b.size →
        (∀ i, i < a.size → XbitVector.get N W a1 i = XbitVector.get N W a i) →
        (∀ i, i < b.size → XbitVector.get N W b1 i = XbitVector.get N W b i) →
        XbitVector.equal N W a1 b1 = XbitVector.equal N W a b) := by
  have g := hw.good
  have hlt : a.size_ < 2 ^ 63 := by have := ha.size_le; have := ha.cap_lt; omega
  have hmain := equal_iff g a b hlt
  refine ⟨hmain, ?_⟩
  intro a1 b1 ha1 hs1 hs2 he1 he2
  have hs1' : a1.size_ = a.size_ := hs1
  have hs2' : b1.size_ = b.size_ := hs2
  have hmain1 := equal_iff g a1 b1 (by rw [hs1']; exact hlt)
  rw [Bool.eq_iff_iff, hmain, hmain1, hs1', hs2']
  constructor
  · intro ⟨h1, h2⟩
    refine ⟨h1, ?_⟩
    intro i hi
    rw [← he1 i hi, h2 i hi, he2 i (by have : b.size = b.size_ := rfl; omega)]
  · intro ⟨h1, h2⟩
    refine ⟨h1, ?_⟩
    intro i hi
    rw [he1 i hi, h2 i hi, he2 i (by have : b.size = b.size_ := rfl; omega)]

theorem equal_iff_same_size_and_elements_witness :
    (XbitVector.equal 2 8 dibit110 dibit11 = true
      ↔ dibit110.size = dibit11.size ∧
        ∀ i, i < dibit110.size → XbitVector.get 2 8 dibit110 i = XbitVector.get 2 8 dibit11 i)
    ∧ (∀ a1 b1, XbitVector.Valid 2 8 a1 → a1.size = dibit110.size → b1.size = dibit11.size →
        (∀ i, i < dibit110.size → XbitVector.get 2 8 a1 i = XbitVector.get 2 8 dibit110 i) →
        (∀ i, i < dibit11.size → XbitVector.get 2 8 b1 i = XbitVector.get 2 8 dibit11 i) →
        XbitVector.equal 2 8 a1 b1 = XbitVector.equal 2 8 dibit110 dibit11) :=
  equal_iff_same_size_and_elements 2 8 (by decide) dibit110 dibit11
    ⟨by decide, by decide, by decide⟩

/-- C14: for all containers `a`, `b` (and `c`), `a <=> b` is the lexicographic
comparison of their element lists under the unsigned order of the fields: `a < b`
exactly when `a` is a proper prefix of `b` or `a` has the smaller element at the first
index where they differ; the result is "equal" exactly when `a == b`, "greater" exactly
when `b < a`, and `<` is irreflexive and transitive. -/
theorem three_way_is_lexicographic (N W : Nat) (hw : ValidWidths N W) (a b c : XbitVector)
    (ha : XbitVector.Valid N W a) (hb : XbitVector.Valid N W b) (hc : XbitVector.Valid N W c) :
    XbitVector.three_way N W a b
        = lexCompare (XbitVector.toList N W a) (XbitVector.toList N W b)
    ∧ (XbitVector.three_way N W a b = Ordering.lt ↔
        (a.size < b.size ∧ ∀ i, i < a.size → XbitVector.get N W a i = XbitVector.get N W b i) ∨
        (∃ k, k < a.size ∧ k < b.size ∧
          (∀ i, i < k → XbitVector.get N W a i = XbitVector.get N W b i) ∧
          XbitVector.get N W a k < XbitVector.get N W b k))
    ∧ (XbitVector.three_way N W a b = Ordering.eq ↔ XbitVector.equal N W a b = true)
    ∧ (XbitVector.three_way N W a b = Ordering.eq
        ↔ XbitVector.toList N W a = XbitVector.toList N W b)
    ∧ (XbitVector.three_way N W a b = Ordering.gt ↔ XbitVector.three_way N W b a = Ordering.lt)
    ∧ XbitVector.three_way N W a a = Ordering.eq
    ∧ (XbitVector.three_way N W a b = Ordering.lt → XbitVector.three_way N W b c = Ordering.lt →
        XbitVector.three_way N W a c = Ordering.lt) := by
  have g := hw.good
  have hla : a.size_ < 2 ^ 63 := by have := ha.size_le; have := ha.cap_lt; omega
  have hlb : b.size_ < 2 ^ 63 := by have := hb.size_le; have := hb.cap_lt; omega
  have hlc : c.size_ < 2 ^ 63 := by have := hc.size_le; have := hc.cap_lt; omega
  have hab := three_way_eq g a b hla hlb
  have hba := three_way_eq g b a hlb hla
  have haa := three_way_eq g a a hla hla
  have hbc := three_way_eq g b c hlb hlc
  have hac := three_way_eq g a c hla hlc
  refine ⟨hab, ?_, ?_, ?_, ?_, ?_, ?_⟩
  · rw [hab, lexCompare_lt_iff, toList_length, toList_length]
    have hsa : a.size = a.size_ := rfl
    have hsb : b.size = b.size_ := rfl
    rw [hsa, hsb]
    constructor
    · intro h
      rcases h with ⟨h1, h2⟩ | ⟨k, h1, h2, h3, h4⟩
      · left
        refine ⟨h1, ?_⟩
        intro i hi
        rw [← toList_getD N W a i hi, ← toList_getD N W b i (by omega)]
        exact h2 i hi
      · right
        refine ⟨k, h1, h2, ?_, ?_⟩
        · intro i hi
          rw [← toList_getD N W a i (by omega), ← toList_getD N W b i (by omega)]
          exact h3 i hi
        · rw [← toList_getD N W a k h1, ← toList_getD N W b k h2]
          exact h4
    · intro h
      rcases h with ⟨h1, h2⟩ | ⟨k, h1, h2, h3, h4⟩
      · left
        refine ⟨h1, ?_⟩
        intro i hi
        rw [toList_getD N W a i hi, toList_getD N W b i (by omega)]
        exact h2 i hi
      · right
        refine ⟨k, h1, h2, ?_, ?_⟩
        · intro i hi
          rw [toList_getD N W a i (by omega), toList_getD N W b i (by omega)]
          exact h3 i hi
        · rw [toList_getD N W a k h1, toList_getD N W b k h2]
          exact h4
  · rw [hab, lexCompare_eq_iff, toList_eq_iff, equal_iff g a b hla]
  · rw [hab, lexCompare_eq_iff]
  · rw [hab, hba]
    exact lexCompare_gt_iff _ _
  · rw [haa, lexCompare_eq_iff]
  · rw [hab, hbc, hac]
    exact lexCompare_lt_trans _ _ _

theorem three_way_is_lexicographic_witness :
    XbitVector.three_way 2 8 dibit112 dibit121 = Ordering.lt
    ∧ XbitVector.three_way 2 8 dibit11 dibit110 = Ordering.lt
    ∧ XbitVector.three_way 2 8 dibit111 dibit111 = Ordering.eq
    ∧ XbitVector.three_way 2 8 dibit11 dibit121 = Ordering.lt :=
  ⟨(three_way_is_lexicographic 2 8 (by decide) dibit112 dibit121 dibit11
      ⟨by decide, by decide, by decide⟩ ⟨by decide, by decide, by decide⟩
      ⟨by decide, by decide, by decide⟩).1.trans (by decide),
    (three_way_is_lexicographic 2 8 (by decide) dibit11 dibit110 dibit121
      ⟨by decide, by decide, by decide⟩ ⟨by decide, by decide, by decide⟩
      ⟨by decide, by decide, by decide⟩).1.trans (by decide),
    (three_way_is_lexicographic 2 8 (by decide) dibit111 dibit111 dibit111
      ⟨by decide, by decide, by decide⟩ ⟨by decide, by decide, by decide⟩
      ⟨by decide, by decide, by decide⟩).2.2.2.2.2.1,
    (three_way_is_lexicographic 2 8 (by decide) dibit11 dibit110 dibit121
      ⟨by decide, by decide, by decide⟩ ⟨by decide, by decide, by decide⟩
      ⟨by decide, by decide, by decide⟩).2.2.2.2.2.2
      ((three_way_is_lexicographic 2 8 (by decide) dibit11 dibit110 dibit121
        ⟨by decide, by decide, by decide⟩ ⟨by decide, by decide, by decide⟩
        ⟨by decide, by decide, by decide⟩).1.trans (by decide))
      ((three_way_is_lexicographic 2 8 (by decide) dibit110 dibit121 dibit11
        ⟨by decide, by decide, by decide⟩ ⟨by decide, by decide, by decide⟩
        ⟨by decide, by decide, by decide⟩).1.trans (by decide))⟩

/-- C15: for all containers `c` and `c2`, whatever the prior size and capacity of `c2`,
`c2.assign(c.begin(), c.end())` succeeds (when a needed reallocation is within
`max_size()` and the allocation succeeds) and makes `c2 == c`: `c2` then has the size of
`c` and the elements of `c` in order. -/
theorem assign_range_makes_equal (N W : Nat) (hw : ValidWidths N W) (c2 c : XbitVector)
    (h2 : XbitVector.Valid N W c2) (hc : XbitVector.Valid N W c)
    (hn : c.size > XbitVector.capacity N W c2 → c.size ≤ XbitVector.max_size N W c2)
    (ha : c.size > XbitVector.capacity N W c2 →
      c2.alloc_.avail (XbitVector.external_cap_to_internal N W c.size) = true) :
    ∃ r, XbitVector.assign_range N W c2 (XbitVector.range N W c) = Except.ok r ∧
      r.size = c.size ∧
      (∀ i, i < c.size → XbitVector.get N W r i = XbitVector.get N W c i) ∧
      XbitVector.equal N W r c = true := by
  have g := hw.good
  obtain ⟨r, h1, h3, h4⟩ := assign_range_ok g c2 c h2 hc hn ha
  have hlt : r.size_ < 2 ^ 63 := by
    have := hc.size_le
    have := hc.cap_lt
    omega
  refine ⟨r, h1, h3, h4, ?_⟩
  rw [equal_iff g r c hlt]
  refine ⟨h3, ?_⟩
  intro i hi
  exact h4 i (by rw [← h3]; exact hi)

theorem assign_range_makes_equal_witness :
    ∃ r, XbitVector.assign_range 2 8 dibit111 (XbitVector.range 2 8 dibit321012) = Except.ok r ∧
      r.size = dibit321012.size ∧
      (∀ i, i < dibit321012.size → XbitVector.get 2 8 r i = XbitVector.get 2 8 dibit321012 i) ∧
      XbitVector.equal 2 8 r dibit321012 = true :=
  assign_range_makes_equal 2 8 (by decide) dibit111 dibit321012
    ⟨by decide, by decide, by decide⟩ ⟨by decide, by decide, by decide⟩
    (fun _ => by decide) (fun _ => rfl)

/-- C16 (as stated, refuted): on the `DibitVector` `{1, 1, 1}`, whose `max_size()` is
`2^63 - 1`, `assign(2^63, 1)` fails with a length error, and the container is then
empty: its size is 0, not the 3 it was before the call. -/
theorem assign_fill_failure_clears :
    2 ^ 63 > XbitVector.max_size 2 8 dibit111 ∧
    (XbitVector.assign_fill 2 8 dibit111 (2 ^ 63) 1).1 = Except.error Error.length_error ∧
    (XbitVector.assign_fill 2 8 dibit111 (2 ^ 63) 1).2.size = 0 ∧
    dibit111.size = 3 := by
  have h := assign_fill_too_long 2 8 dibit111 (2 ^ 63) 1 (by decide) (by decide)
  refine ⟨by decide, ?_, ?_, rfl⟩
  · rw [h]
  · rw [h]
    rfl

/-- C16 (amended): for every container and every count `n > max_size()` that also
exceeds the capacity, `assign(n, value)` fails with a length error and leaves the
container empty: the size is 0, while the buffer, its blocks, the capacity and the
allocator are the ones before the call. -/
theorem assign_fill_too_long_fails (N W : Nat) (v : XbitVector) (n x : Nat)
    (hn : n > XbitVector.max_size N W v) (hc : n > XbitVector.capacity N W v) :
    (XbitVector.assign_fill N W v n x).1 = Except.error Error.length_error ∧
    (XbitVector.assign_fill N W v n x).2 = { v with size_ := 0 } ∧
    (XbitVector.assign_fill N W v n x).2.size = 0 ∧
    (XbitVector.assign_fill N W v n x).2.mem = v.mem ∧
    XbitVector.capacity N W (XbitVector.assign_fill N W v n x).2 = XbitVector.capacity N W v := by
  rw [assign_fill_too_long N W v n x hn hc]
  exact ⟨rfl, rfl, rfl, rfl, rfl⟩

theorem assign_fill_too_long_fails_witness :
    (XbitVector.assign_fill 2 8 dibit111 (2 ^ 63) 1).1 = Except.error Error.length_error ∧
    (XbitVector.assign_fill 2 8 dibit111 (2 ^ 63) 1).2 = { dibit111 with size_ := 0 } ∧
    (XbitVector.assign_fill 2 8 dibit111 (2 ^ 63) 1).2.size = 0 ∧
    (XbitVector.assign_fill 2 8 dibit111 (2 ^ 63) 1).2.mem = dibit111.mem ∧
    XbitVector.capacity 2 8 (XbitVector.assign_fill 2 8 dibit111 (2 ^ 63) 1).2
      = XbitVector.capacity 2 8 dibit111 :=
  assign_fill_too_long_fails 2 8 dibit111 (2 ^ 63) 1 (by decide) (by decide)

/-- C17 (the divergence): on the `DibitVector` `{1, 1, 1}` with `n = 2^64 - 1`, the sum
`size() + n` is far above `max_size()`, yet `insert(begin(), n, 1)` reports no length
error: it returns an iterator and leaves the container with `size() == 2`, the sum
reduced modulo `2^64`. -/
theorem insert_n_count_wraps :
    dibit111.size + (2 ^ 64 - 1) > XbitVector.max_size 2 8 dibit111 ∧
    (XbitVector.insert_n 2 8 dibit111 (XbitVector.make_iter 2 8 0) (2 ^ 64 - 1) 1).1
      = Except.ok (XbitVector.make_iter 2 8 0) ∧
    (XbitVector.insert_n 2 8 dibit111 (XbitVector.make_iter 2 8 0) (2 ^ 64 - 1) 1).2.size = 2 ∧
    dibit111.size = 3 := by
  refine ⟨by decide, ?_, ?_, rfl⟩
  · rfl
  · decide

/-- C18: the class invariant, in the form every constructor gives and every mutator
keeps (`invariants()` holds and the capacity in elements is at most `2^63`, written
`Shape`).  A state in this form has `invariants()` true and `size() <= capacity()`: a
null base comes with size 0 and block capacity 0, a non-null one with a block capacity
above 0 and a size of at most block capacity times elements per block.  Every
constructor that returns gives a state in this form.  From states `v` and `x` in this
form, copy and move assignment, the three `assign` overloads, `reserve`,
`shrink_to_fit`, `resize`, `push_back`, `pop_back` on a non-empty container, the four
`insert` overloads, both `erase` overloads at valid positions, `clear`, `swap` and
`flip` (which ends within `size()` iterations) give states in this form again, whenever
they return, and also after a failed `assign(n, x)` or `insert`. -/
theorem class_invariant_preserved (N W : Nat) (hw : ValidWidths N W) (v x : XbitVector)
    (hv : XbitVector.Shape N W v) (hx : XbitVector.Shape N W x) :
    (XbitVector.invariants N W v = true ∧ v.size ≤ XbitVector.capacity N W v ∧
      (v.begin_.isSome = false → v.size_ = 0 ∧ v.cap_ = 0) ∧
      (v.begin_.isSome = true → 0 < v.cap_ ∧ v.size_ ≤ v.cap_ * xbits_per_block N W)) ∧
    (∀ a, XbitVector.Shape N W (XbitVector.empty a)) ∧
    (∀ a n val u, XbitVector.ofFill N W a n val = Except.ok u → XbitVector.Shape N W u) ∧
    (∀ a src u, XbitVector.ofInput N W a src = Except.ok u → XbitVector.Shape N W u) ∧
    (∀ a src u, XbitVector.ofRange N W a src = Except.ok u → XbitVector.Shape N W u) ∧
    (∀ a il u, XbitVector.ofList N W a il = Except.ok u → XbitVector.Shape N W u) ∧
    (∀ a u, XbitVector.copy N W v a = Except.ok u → XbitVector.Shape N W u) ∧
    (XbitVector.Shape N W (XbitVector.move v).1 ∧ XbitVector.Shape N W (XbitVector.move v).2) ∧
    (∀ a p, XbitVector.move_alloc N W v a = Except.ok p →
      XbitVector.Shape N W p.1 ∧ XbitVector.Shape N W p.2) ∧
    (∀ u, XbitVector.copy_assign N W v x = Except.ok u → XbitVector.Shape N W u) ∧
    (∀ p, XbitVector.move_assign_op N W v x = Except.ok p →
      XbitVector.Shape N W p.1 ∧ XbitVector.Shape N W p.2) ∧
    (∀ src u, XbitVector.assign_range N W v src = Except.ok u → XbitVector.Shape N W u) ∧
    (∀ src u, XbitVector.assign_input N W v src = Except.ok u → XbitVector.Shape N W u) ∧
    (∀ n val, XbitVector.Shape N W (XbitVector.assign_fill N W v n val).2) ∧
    (∀ n u, XbitVector.reserve N W v n = Except.ok u → XbitVector.Shape N W u) ∧
    XbitVector.Shape N W (XbitVector.shrink_to_fit N W v) ∧
    (∀ sz val u, XbitVector.resize N W v sz val = Except.ok u → XbitVector.Shape N W u) ∧
    (∀ val u, XbitVector.push_back N W v val = Except.ok u → XbitVector.Shape N W u) ∧
    (v.size ≠ 0 → XbitVector.Shape N W (XbitVector.pop_back v)) ∧
    (∀ k val p, k ≤ v.size →
      XbitVector.insert N W v (XbitVector.make_iter N W k) val = Except.ok p →
      XbitVector.Shape N W p.1) ∧
    (∀ k n val, k ≤ v.size →
      XbitVector.Shape N W (XbitVector.insert_n N W v (XbitVector.make_iter N W k) n val).2) ∧
    (∀ k src, k ≤ v.size →
      XbitVector.Shape N W (XbitVector.insert_range N W v (XbitVector.make_iter N W k) src).2) ∧
    (∀ k src, k ≤ v.size →
      XbitVector.Shape N W (XbitVector.insert_input N W v (XbitVector.make_iter N W k) src).2) ∧
    (∀ k, k < v.size →
      XbitVector.Shape N W (XbitVector.erase_at N W v (XbitVector.make_iter N W k)).1) ∧
    (∀ i j, i ≤ j → j ≤ v.size →
      XbitVector.Shape N W
        (XbitVector.erase N W v (XbitVector.make_iter N W i) (XbitVector.make_iter N W j)).1) ∧
    XbitVector.Shape N W (XbitVector.clear v) ∧
    (XbitVector.Shape N W (XbitVector.swap v x).1 ∧
      XbitVector.Shape N W (XbitVector.swap v x).2) ∧
    (∀ fuel, v.size ≤ fuel →
      ∃ u, XbitVector.flip N W fuel v = some u ∧ XbitVector.Shape N W u) := by
  have g := hw.good
  refine ⟨⟨hv.inv, hv.size_le_capacity, ?_, ?_⟩, shape_empty N W,
    fun a n val u h => shape_ofFill g a n val u h,
    fun a src u h => shape_push_back_all g src _ (shape_empty N W a) u h,
    fun a src u h => shape_ofRange g a src u h,
    fun a il u h => shape_ofList g a il u h,
    fun a u h => shape_copy g v a u h,
    ⟨shape_move_fst hv, shape_move_snd N W v⟩,
    fun a p h => shape_move_alloc g v hv a p h,
    fun u h => shape_copy_assign g v hv x u h,
    fun p h => shape_move_assign_op g v x hv hx p h,
    fun src u h => shape_assign_range g v hv src u h,
    fun src u h => shape_push_back_all g src _ (shape_clear hv) u h,
    fun n val => shape_assign_fill g v hv n val,
    fun n u h => (reserve_shape g v hv n u h).1,
    shape_shrink_to_fit g v hv,
    fun sz val u h => shape_resize g v hv sz val u h,
    fun val u h => shape_push_back g v hv val u h,
    fun h => shape_pop_back hv h,
    fun k val p _ h => shape_insert g v hv _ val p h,
    fun k n val _ => shape_insert_n g v hv _ n val,
    fun k src _ => shape_insert_range g v hv _ src,
    fun k src _ => shape_insert_input g v hv _ src,
    fun k hk => shape_erase_at v hv _ (by omega),
    fun i j hij hj => shape_erase g v hv i j hij hj,
    shape_clear hv,
    ⟨shape_swap_fst v hx, shape_swap_snd x hv⟩,
    fun fuel hf => ?_⟩
  · intro hb
    rcases (shape_iff N W v).mp hv with ⟨_, h2, h3⟩ | ⟨h1, _, _, _⟩
    · exact ⟨h2, h3⟩
    · rw [hb] at h1
      exact absurd h1 (by decide)
  · intro hb
    rcases (shape_iff N W v).mp hv with ⟨h1, _, _⟩ | ⟨_, h2, h3, _⟩
    · rw [hb] at h1
      exact absurd h1 (by decide)
    · exact ⟨Nat.pos_of_ne_zero h2, h3⟩
  · obtain ⟨u, h1, h2, _⟩ := shape_flip g v hv fuel hf
    exact ⟨u, h1, h2⟩

theorem class_invariant_preserved_witness :
    XbitVector.invariants 2 8 dibit111 = true ∧
    (∃ u, XbitVector.ofList 2 8 stdAllocator [1, 1, 1] = Except.ok u ∧
      XbitVector.invariants 2 8 u = true) ∧
    (∃ u, XbitVector.push_back 2 8 dibit1230 2 = Except.ok u ∧
      XbitVector.invariants 2 8 u = true) ∧
    XbitVector.invariants 2 8 (XbitVector.pop_back dibit111) = true ∧
    XbitVector.invariants 2 8
      (XbitVector.erase 2 8 dibit111 (XbitVector.make_iter 2 8 1)
        (XbitVector.make_iter 2 8 3)).1 = true ∧
    XbitVector.invariants 2 8 (XbitVector.swap dibit111 dibit321012).1 = true ∧
    (∃ u, XbitVector.flip 2 8 3 dibit111 = some u ∧ XbitVector.invariants 2 8 u = true) := by
  have h := class_invariant_preserved 2 8 (by decide) dibit111 dibit321012
    ⟨by decide, by decide⟩ ⟨by decide, by decide⟩
  have h2 := class_invariant_preserved 2 8 (by decide) dibit1230 dibit321012
    ⟨by decide, by decide⟩ ⟨by decide, by decide⟩
  obtain ⟨c0, _, _, _, _, c5, _, _, _, _, _, _, _, _, _, _, _, _, c18, _, _, _, _, _, c24,
    _, c26, c27⟩ := h
  obtain ⟨_, _, _, _, _, _, _, _, _, _, _, _, _, _, _, _, _, d17, _⟩ := h2
  refine ⟨c0.1, ⟨_, rfl, (c5 stdAllocator [1, 1, 1] _ rfl).inv⟩,
    ⟨_, rfl, (d17 2 _ rfl).inv⟩, (c18 (by decide)).inv,
    (c24 1 3 (by decide) (by decide)).inv, c26.1.inv, ?_⟩
  obtain ⟨u, hu, hs⟩ := c27 3 (by decide)
  exact ⟨u, hu, hs.inv⟩

/-- Below the bound of `incr_exact` the numerator wraps: for the dibit iterator at block
0, offset 0 and `n = -2^63`, a move that no buffer contains, the difference
`(it + n) - it` is `2^63 - 4`, not `n`. -/
theorem add_min_difference_not_n :
    XbitIterator.diff 2 8 (XbitIterator.add 2 8 ⟨0, 0⟩ (-2 ^ 63)) ⟨0, 0⟩ = 2 ^ 63 - 4 ∧
    XbitIterator.diff 2 8 (XbitIterator.add 2 8 ⟨0, 0⟩ (-2 ^ 63)) ⟨0, 0⟩ ≠ -2 ^ 63 := by
  constructor
  · decide
  · decide

/-- C19: for every iterator `it` whose offset is in `[0, elements_per_block)` and every
signed `n` of `difference_type` for which the numerator the code divides is
representable (`-2^63 + (elements_per_block - 1 - offset) <= n < 2^63`), `it + n` again
has its offset in `[0, elements_per_block)`, `(it + n) - it == n`, and the linear
position `block * elements_per_block + offset` has moved by exactly `n`, across block
boundaries in both directions.  Every move between two positions of a buffer is such an
`n`: for positions `i`, `j` up to the capacity of a container, `j - i` is within the
bound and `make_iter(i) + (j - i)` is `make_iter(j)`. -/
theorem add_moves_by_n (N W : Nat) (hw : ValidWidths N W) (it : XbitIterator) (n : Int)
    (ho : it.offset_ < xbits_per_block N W)
    (hlo : -2 ^ 63 + ((xbits_per_block N W : Int) - 1 - (it.offset_ : Int)) ≤ n)
    (hhi : n < 2 ^ 63) :
    (XbitIterator.add N W it n).offset_ < xbits_per_block N W ∧
    XbitIterator.diff N W (XbitIterator.add N W it n) it = n ∧
    (XbitIterator.add N W it n).seg_ * (xbits_per_block N W : Int)
        + ((XbitIterator.add N W it n).offset_ : Int)
      = it.seg_ * (xbits_per_block N W : Int) + (it.offset_ : Int) + n ∧
    (∀ v : XbitVector, XbitVector.Valid N W v → ∀ i j : Nat,
      i ≤ XbitVector.capacity N W v → j ≤ XbitVector.capacity N W v →
      (XbitVector.make_iter N W i).offset_ < xbits_per_block N W ∧
      -2 ^ 63 + (xbits_per_block N W : Int) ≤ (j : Int) - (i : Int) ∧
      (j : Int) - (i : Int) < 2 ^ 63 ∧
      XbitIterator.add N W (XbitVector.make_iter N W i) ((j : Int) - (i : Int))
        = XbitVector.make_iter N W j) := by
  obtain ⟨h1, h2, h3⟩ := incr_exact hw.good it n ho hlo hhi
  exact ⟨h1, h2, h3, fun v hv i j hi hj => move_in_buffer hw.good v hv i j hi hj⟩

theorem add_moves_by_n_witness :
    (XbitIterator.add 2 8 ⟨5, 1⟩ (-6)).offset_ < xbits_per_block 2 8 ∧
    XbitIterator.diff 2 8 (XbitIterator.add 2 8 ⟨5, 1⟩ (-6)) ⟨5, 1⟩ = -6 ∧
    XbitIterator.add 2 8 ⟨5, 1⟩ (-6) = ⟨3, 3⟩ ∧
    XbitIterator.diff 2 8 (XbitIterator.add 2 8 ⟨0, 0⟩ (-2 ^ 63 + 3)) ⟨0, 0⟩ = -2 ^ 63 + 3 ∧
    XbitIterator.diff 2 8 (XbitIterator.add 2 8 ⟨0, 3⟩ (-2 ^ 63)) ⟨0, 3⟩ = -2 ^ 63 ∧
    XbitIterator.add 2 8 (XbitVector.make_iter 2 8 6) (((1 : Nat) : Int) - ((6 : Nat) : Int))
      = XbitVector.make_iter 2 8 1 :=
  ⟨(add_moves_by_n 2 8 (by decide) ⟨5, 1⟩ (-6) (by decide) (by decide) (by decide)).1,
    (add_moves_by_n 2 8 (by decide) ⟨5, 1⟩ (-6) (by decide) (by decide) (by decide)).2.1,
    by decide,
    (add_moves_by_n 2 8 (by decide) ⟨0, 0⟩ (-2 ^ 63 + 3) (by decide) (by decide)
      (by decide)).2.1,
    (add_moves_by_n 2 8 (by decide) ⟨0, 3⟩ (-2 ^ 63) (by decide) (by decide) (by decide)).2.1,
    ((add_moves_by_n 2 8 (by decide) ⟨5, 1⟩ (-6) (by decide) (by decide) (by decide)).2.2.2
      dibit321012 ⟨by decide, by decide, by decide⟩ 6 1 (by decide) (by decide)).2.2.2⟩

/-- C20: for every container `v`, move-constructing `w` from `v` gives `w` the buffer,
size, capacity and elements `v` had, and leaves `v` in the empty state: base null,
`size() == 0`, `capacity() == 0`. -/
theorem move_transfers_buffer (N W : Nat) (v : XbitVector) :
    (XbitVector.move v).1.begin_ = v.begin_ ∧
    (XbitVector.move v).1.size = v.size ∧
    XbitVector.capacity N W (XbitVector.move v).1 = XbitVector.capacity N W v ∧
    (∀ i, XbitVector.get N W (XbitVector.move v).1 i = XbitVector.get N W v i) ∧
    XbitVector.toList N W (XbitVector.move v).1 = XbitVector.toList N W v ∧
    (XbitVector.move v).2.begin_ = none ∧
    (XbitVector.move v).2.size = 0 ∧
    XbitVector.capacity N W (XbitVector.move v).2 = 0 ∧
    (XbitVector.move v).2 = XbitVector.empty v.alloc_ := by
  refine ⟨rfl, rfl, rfl, fun _ => rfl, rfl, rfl, rfl, ?_, rfl⟩
  simp [XbitVector.move, XbitVector.capacity, XbitVector.internal_cap_to_external]

/-- C21: for every field (block `p` of a buffer, offset `o < xbits_per_block`) holding
the value `c`, which is below `2^N`: pre-increment stores `(c + 1) mod 2^N` and the
reference it returns reads that value; pre-decrement stores `(c - 1) mod 2^N`; so
`2^N - 1` increments to 0 and 0 decrements to `2^N - 1`; post-increment and
post-decrement store the same new values and return the old value `c`. -/
theorem field_increment_decrement (N W : Nat) (hw : ValidWidths N W) (m : List Nat)
    (p o : Nat) (r : XbitReference) (hr : r = XbitReference.ofOffset N (p : Int) o)
    (hp : p < m.length) (ho : o < xbits_per_block N W) :
    r.toUInt8 N W m < 2 ^ N
    ∧ r.toUInt8 N W (r.pre_incr N W m) = (r.toUInt8 N W m + 1) % 2 ^ N
    ∧ ((r.toUInt8 N W (r.pre_decr N W m) : Nat) : Int)
        = (((r.toUInt8 N W m : Nat) : Int) - 1) % (2 : Int) ^ N
    ∧ (r.toUInt8 N W m = 2 ^ N - 1 → r.toUInt8 N W (r.pre_incr N W m) = 0)
    ∧ (r.toUInt8 N W m = 0 → r.toUInt8 N W (r.pre_decr N W m) = 2 ^ N - 1)
    ∧ (r.post_incr N W m).1 = r.toUInt8 N W m
    ∧ (r.post_incr N W m).2 = r.pre_incr N W m
    ∧ (r.post_decr N W m).1 = r.toUInt8 N W m
    ∧ (r.post_decr N W m).2 = r.pre_decr N W m := by
  have g := hw.good
  subst hr
  have hc := toUInt8_lt g m (XbitReference.ofOffset N (p : Int) o)
  have hi := pre_incr_read g m p o hp ho
  have hd := pre_decr_read g m p o hp ho
  have hpos := Nat.two_pow_pos N
  refine ⟨hc, hi, ?_, ?_, ?_, rfl, rfl, rfl, rfl⟩
  · rw [hd]
    generalize (XbitReference.ofOffset N (p : Int) o).toUInt8 N W m = c at hc
    have h1 : ((c : Int) - 1) % (2 : Int) ^ N = ((c : Int) - 1 + (2 : Int) ^ N) % (2 : Int) ^ N :=
      (Int.add_emod_self).symm
    have h2 : ((c : Int) - 1 + (2 : Int) ^ N) = ((c + (2 ^ N - 1) : Nat) : Int) := by
      push_cast [Nat.cast_sub hpos]
      ring
    rw [h1, h2]
    push_cast
    rfl
  · intro h
    rw [hi, h, Nat.sub_add_cancel hpos, Nat.mod_self]
  · intro h
    rw [hd, h, Nat.zero_add]
    exact Nat.mod_eq_of_lt (by omega)

theorem field_increment_decrement_witness :
    ((XbitReference.ofOffset 2 ((0 : Nat) : Int) 2).toUInt8 2 8 [49] < 2 ^ 2
    ∧ (XbitReference.ofOffset 2 ((0 : Nat) : Int) 2).toUInt8 2 8
        ((XbitReference.ofOffset 2 ((0 : Nat) : Int) 2).pre_incr 2 8 [49])
      = ((XbitReference.ofOffset 2 ((0 : Nat) : Int) 2).toUInt8 2 8 [49] + 1) % 2 ^ 2
    ∧ (((XbitReference.ofOffset 2 ((0 : Nat) : Int) 2).toUInt8 2 8
        ((XbitReference.ofOffset 2 ((0 : Nat) : Int) 2).pre_decr 2 8 [49]) : Nat) : Int)
      = ((((XbitReference.ofOffset 2 ((0 : Nat) : Int) 2).toUInt8 2 8 [49] : Nat) : Int) - 1)
          % (2 : Int) ^ 2
    ∧ ((XbitReference.ofOffset 2 ((0 : Nat) : Int) 2).toUInt8 2 8 [49] = 2 ^ 2 - 1 →
        (XbitReference.ofOffset 2 ((0 : Nat) : Int) 2).toUInt8 2 8
          ((XbitReference.ofOffset 2 ((0 : Nat) : Int) 2).pre_incr 2 8 [49]) = 0)
    ∧ ((XbitReference.ofOffset 2 ((0 : Nat) : Int) 2).toUInt8 2 8 [49] = 0 →
        (XbitReference.ofOffset 2 ((0 : Nat) : Int) 2).toUInt8 2 8
          ((XbitReference.ofOffset 2 ((0 : Nat) : Int) 2).pre_decr 2 8 [49]) = 2 ^ 2 - 1)
    ∧ ((XbitReference.ofOffset 2 ((0 : Nat) : Int) 2).post_incr 2 8 [49]).1
      = (XbitReference.ofOffset 2 ((0 : Nat) : Int) 2).toUInt8 2 8 [49]
    ∧ ((XbitReference.ofOffset 2 ((0 : Nat) : Int) 2).post_incr 2 8 [49]).2
      = (XbitReference.ofOffset 2 ((0 : Nat) : Int) 2).pre_incr 2 8 [49]
    ∧ ((XbitReference.ofOffset 2 ((0 : Nat) : Int) 2).post_decr 2 8 [49]).1
      = (XbitReference.ofOffset 2 ((0 : Nat) : Int) 2).toUInt8 2 8 [49]
    ∧ ((XbitReference.ofOffset 2 ((0 : Nat) : Int) 2).post_decr 2 8 [49]).2
      = (XbitReference.ofOffset 2 ((0 : Nat) : Int) 2).pre_decr 2 8 [49])
    ∧ ((XbitReference.ofOffset 2 ((0 : Nat) : Int) 2).toUInt8 2 8 dibit103.mem = 3
      ∧ (XbitReference.ofOffset 2 ((0 : Nat) : Int) 2).toUInt8 2 8
          ((XbitReference.ofOffset 2 ((0 : Nat) : Int) 2).pre_decr 2 8 dibit103.mem) = 2
      ∧ ((XbitReference.ofOffset 2 ((0 : Nat) : Int) 2).post_decr 2 8 [33]).1 = 2
      ∧ (XbitReference.ofOffset 2 ((0 : Nat) : Int) 2).pre_decr 2 8 dibit103.mem = [33]
      ∧ ((XbitReference.ofOffset 2 ((0 : Nat) : Int) 2).post_decr 2 8 [33]).2 = [17]
      ∧ (XbitReference.ofOffset 2 ((0 : Nat) : Int) 2).pre_incr 2 8 [17] = [33]
      ∧ ((XbitReference.ofOffset 2 ((0 : Nat) : Int) 2).post_incr 2 8 [33]).1 = 2
      ∧ ((XbitReference.ofOffset 2 ((0 : Nat) : Int) 2).post_incr 2 8 [33]).2 = [49]) :=
  ⟨field_increment_decrement 2 8 (by decide) [49] 0 2 _ rfl (by decide) (by decide),
    by decide⟩

/-- C22 (the divergence): on the `DibitVector` `{1, 1, 1}` (capacity 4), the count
`n = 2^63 - 4` gives `size() + n = 2^63 - 1 = max_size()`, yet
`insert(begin(), n, 1)` fails with a length error and leaves the container as it was:
`recommend(2^63 - 1)` passes its own check and returns `align_it(2^63 - 1) = 2^63`,
which `reserve` rejects as greater than `max_size()`. -/
theorem insert_n_within_max_size_rejected :
    dibit111.size + (2 ^ 63 - 4) ≤ XbitVector.max_size 2 8 dibit111
    ∧ (XbitVector.insert_n 2 8 dibit111 (XbitVector.make_iter 2 8 0) (2 ^ 63 - 4) 1).1
        = Except.error Error.length_error
    ∧ (XbitVector.insert_n 2 8 dibit111 (XbitVector.make_iter 2 8 0) (2 ^ 63 - 4) 1).2 = dibit111
    ∧ XbitVector.recommend 2 8 dibit111 (dibit111.size + (2 ^ 63 - 4)) = Except.ok (2 ^ 63)
    ∧ XbitVector.align_it 2 8 (dibit111.size + (2 ^ 63 - 4)) = 2 ^ 63
    ∧ 2 ^ 63 > XbitVector.max_size 2 8 dibit111
    ∧ XbitVector.reserve 2 8 (XbitVector.empty dibit111.alloc_) (2 ^ 63)
        = Except.error Error.length_error := by
  refine ⟨by decide, rfl, rfl, rfl, by decide, by decide, rfl⟩

/-- C23: for every container `x`, the empty one with no storage included, the
copy-constructed container `y` (within `max_size()`, the allocation succeeding)
satisfies `y == x`: it has the size of `x` and the elements of `x` in order; a copy of
an empty container owns no storage.  The constructor takes `x` by reference to const
and writes nothing through it. -/
theorem copy_constructs_equal (N W : Nat) (hw : ValidWidths N W) (x : XbitVector)
    (hx : XbitVector.Valid N W x) (a : Allocator)
    (hn : x.size ≤ XbitVector.max_size N W (XbitVector.empty a))
    (ha : x.size ≠ 0 → a.avail (XbitVector.external_cap_to_internal N W x.size) = true) :
    ∃ y, XbitVector.copy N W x a = Except.ok y ∧ y.size = x.size ∧
      (∀ i, i < x.size → XbitVector.get N W y i = XbitVector.get N W x i) ∧
      XbitVector.equal N W y x = true ∧
      XbitVector.toList N W y = XbitVector.toList N W x ∧
      (x.size = 0 → y.begin_ = none ∧ XbitVector.capacity N W y = 0) := by
  have g := hw.good
  obtain ⟨y, h1, h2, _, h4, h5⟩ := copy_ok g x hx a hn ha
  have hlt : y.size_ < 2 ^ 63 := by
    have := hx.size_le
    have := hx.cap_lt
    omega
  have heq : XbitVector.equal N W y x = true := by
    rw [equal_iff g y x hlt]
    exact ⟨h2, fun i hi => h5 i (by rw [← h2]; exact hi)⟩
  refine ⟨y, h1, h2, h5, heq, ?_, ?_⟩
  · rw [toList_eq_iff]
    exact ⟨h2, fun i hi => h5 i (by rw [← h2]; exact hi)⟩
  · intro h0
    rw [h4 h0]
    exact ⟨rfl, by simp [XbitVector.capacity, XbitVector.internal_cap_to_external,
      XbitVector.empty]⟩

theorem copy_constructs_equal_witness :
    ∃ y, XbitVector.copy 2 8 dibit321012 stdAllocator = Except.ok y ∧
      y.size = dibit321012.size ∧
      (∀ i, i < dibit321012.size → XbitVector.get 2 8 y i = XbitVector.get 2 8 dibit321012 i) ∧
      XbitVector.equal 2 8 y dibit321012 = true ∧
      XbitVector.toList 2 8 y = XbitVector.toList 2 8 dibit321012 ∧
      (dibit321012.size = 0 → y.begin_ = none ∧ XbitVector.capacity 2 8 y = 0) :=
  copy_constructs_equal 2 8 (by decide) dibit321012 ⟨by decide, by decide, by decide⟩
    stdAllocator (by decide) (fun _ => rfl)

/-- C24: for every count `n <= max_size()` (the allocation succeeding) and every value
`x`, the sized constructor `XbitVector(n, x)` yields a container of size `n` in which
every element reads `x mod 2^N`, and `XbitVector(n)` yields size `n` with every element
0; for `n == 0` the container is empty and owns no storage (`capacity() == 0`). -/
theorem sized_constructor_fills (N W : Nat) (hw : ValidWidths N W) (a : Allocator) (n x : Nat)
    (hn : n ≤ XbitVector.max_size N W (XbitVector.empty a))
    (ha : n ≠ 0 → a.avail (XbitVector.external_cap_to_internal N W n) = true) :
    (∃ v, XbitVector.ofFill N W a n x = Except.ok v ∧ v.size = n ∧
      (∀ i, i < n → XbitVector.get N W v i = x % 2 ^ N) ∧
      (n = 0 → v.begin_ = none ∧ XbitVector.capacity N W v = 0)) ∧
    (∃ v, XbitVector.ofFill N W a n 0 = Except.ok v ∧ v.size = n ∧
      (∀ i, i < n → XbitVector.get N W v i = 0) ∧
      (n = 0 → v.begin_ = none ∧ XbitVector.capacity N W v = 0)) := by
  have g := hw.good
  have hcap : XbitVector.capacity N W (XbitVector.empty a) = 0 := by
    simp [XbitVector.capacity, XbitVector.internal_cap_to_external, XbitVector.empty]
  constructor
  · obtain ⟨v, h1, h2, _, h4, _, h6⟩ := ofFill_ok g a n x hn ha
    exact ⟨v, h1, h2, h6, fun h0 => by rw [h4 h0]; exact ⟨rfl, hcap⟩⟩
  · obtain ⟨v, h1, h2, _, h4, _, h6⟩ := ofFill_ok g a n 0 hn ha
    refine ⟨v, h1, h2, ?_, fun h0 => by rw [h4 h0]; exact ⟨rfl, hcap⟩⟩
    intro i hi
    have := h6 i hi
    rw [Nat.zero_mod] at this
    exact this

theorem sized_constructor_fills_witness :
    (∃ v, XbitVector.ofFill 2 8 stdAllocator 5 6 = Except.ok v ∧ v.size = 5 ∧
      (∀ i, i < 5 → XbitVector.get 2 8 v i = 6 % 2 ^ 2) ∧
      ((5 : Nat) = 0 → v.begin_ = none ∧ XbitVector.capacity 2 8 v = 0)) ∧
    (∃ v, XbitVector.ofFill 2 8 stdAllocator 5 0 = Except.ok v ∧ v.size = 5 ∧
      (∀ i, i < 5 → XbitVector.get 2 8 v i = 0) ∧
      ((5 : Nat) = 0 → v.begin_ = none ∧ XbitVector.capacity 2 8 v = 0)) :=
  sized_constructor_fills 2 8 (by decide) stdAllocator 5 6 (by decide) (fun _ => rfl)

/-- C25: for every block value `b`, all offsets `o`, `t` below `xbits_per_block` with
`t != o` and every value `x`, assigning `x` through the accessor at offset `o` leaves
field `t` of the block as it was, sets the bits `[o*N, o*N + N)` of the block to the
low `N` bits of `x`, and changes no other bit of the block; in a buffer, every field of
every other block and every other field of the same block reads as before, and every
other block is untouched. -/
theorem field_assign_frame (N W : Nat) (hw : ValidWidths N W) (b o t x : Nat)
    (ho : o < xbits_per_block N W) (ht : t < xbits_per_block N W) (hne : t ≠ o) :
    XbitReference.extract N W (XbitReference.deposit N W b (o * N) x) (t * N)
        = XbitReference.extract N W b (t * N)
    ∧ (∀ k, k < W → ¬ (o * N ≤ k ∧ k < o * N + N) →
        (XbitReference.deposit N W b (o * N) x).testBit k = b.testBit k)
    ∧ (b < 2 ^ W → ∀ k, ¬ (o * N ≤ k ∧ k < o * N + N) →
        (XbitReference.deposit N W b (o * N) x).testBit k = b.testBit k)
    ∧ (∀ k, o * N ≤ k → k < o * N + N →
        (XbitReference.deposit N W b (o * N) x).testBit k = x.testBit (k - o * N))
    ∧ (∀ (m : List Nat) (p q s : Nat), s < xbits_per_block N W → (p ≠ q ∨ o ≠ s) →
        (XbitReference.ofOffset N (q : Int) s).toUInt8 N W
          ((XbitReference.ofOffset N (p : Int) o).assign N W m x)
        = (XbitReference.ofOffset N (q : Int) s).toUInt8 N W m)
    ∧ (∀ (m : List Nat) (p : Nat) (q : Int), q ≠ (p : Int) →
        load ((XbitReference.ofOffset N (p : Int) o).assign N W m x) q = load m q)
    ∧ (∀ (m : List Nat) (p : Nat),
        ((XbitReference.ofOffset N (p : Int) o).assign N W m x).length = m.length) := by
  have g := hw.good
  have hso := g.shift_le o ho
  have hdis : o * N + N ≤ t * N ∨ t * N + N ≤ o * N := by
    rcases Nat.lt_or_gt_of_ne hne with h | h
    · right
      calc t * N + N = (t + 1) * N := by ring
        _ ≤ o * N := Nat.mul_le_mul_right N h
    · left
      calc o * N + N = (o + 1) * N := by ring
        _ ≤ t * N := Nat.mul_le_mul_right N h
  have hout : ∀ k, k < W → ¬ (o * N ≤ k ∧ k < o * N + N) →
      (XbitReference.deposit N W b (o * N) x).testBit k = b.testBit k := by
    intro k hk hnot
    rw [deposit_testBit N W b (o * N) x k g.N_le_W, if_neg hnot]
    simp [hk]
  refine ⟨extract_deposit_other N W b _ _ x g.N_le_W g.N_le (g.shift_le t ht) hdis, hout,
    ?_, ?_, ?_, ?_, ?_⟩
  · intro hb k hnot
    by_cases hk : k < W
    · exact hout k hk hnot
    · rw [deposit_testBit N W b (o * N) x k g.N_le_W]
      have hbk : b.testBit k = false :=
        Nat.testBit_lt_two_pow (Nat.lt_of_lt_of_le hb (Nat.pow_le_pow_right (by decide)
          (by omega)))
      simp [hk, hbk]
  · intro k h1 h2
    rw [deposit_testBit N W b (o * N) x k g.N_le_W, if_pos ⟨h1, h2⟩]
    have hk : k < W := by omega
    simp [hk]
  · intro m p q s hs hneq
    exact toUInt8_assign_other g m p o q s x hs hneq
  · intro m p q hq
    unfold XbitReference.assign XbitReference.ofOffset
    exact load_store_other _ _ _ _ (fun h => hq h.symm)
  · intro m p
    unfold XbitReference.assign
    exact store_length _ _ _

theorem field_assign_frame_witness :
    XbitReference.extract 2 8 (XbitReference.deposit 2 8 213 (1 * 2) 7) (3 * 2)
        = XbitReference.extract 2 8 213 (3 * 2)
    ∧ (∀ k, k < 8 → ¬ (1 * 2 ≤ k ∧ k < 1 * 2 + 2) →
        (XbitReference.deposit 2 8 213 (1 * 2) 7).testBit k = (213).testBit k)
    ∧ (213 < 2 ^ 8 → ∀ k, ¬ (1 * 2 ≤ k ∧ k < 1 * 2 + 2) →
        (XbitReference.deposit 2 8 213 (1 * 2) 7).testBit k = (213).testBit k)
    ∧ (∀ k, 1 * 2 ≤ k → k < 1 * 2 + 2 →
        (XbitReference.deposit 2 8 213 (1 * 2) 7).testBit k = (7).testBit (k - 1 * 2))
    ∧ (∀ (m : List Nat) (p q s : Nat), s < xbits_per_block 2 8 → (p ≠ q ∨ 1 ≠ s) →
        (XbitReference.ofOffset 2 (q : Int) s).toUInt8 2 8
          ((XbitReference.ofOffset 2 (p : Int) 1).assign 2 8 m 7)
        = (XbitReference.ofOffset 2 (q : Int) s).toUInt8 2 8 m)
    ∧ (∀ (m : List Nat) (p : Nat) (q : Int), q ≠ (p : Int) →
        load ((XbitReference.ofOffset 2 (p : Int) 1).assign 2 8 m 7) q = load m q)
    ∧ (∀ (m : List Nat) (p : Nat),
        ((XbitReference.ofOffset 2 (p : Int) 1).assign 2 8 m 7).length = m.length) :=
  field_assign_frame 2 8 (by decide) 213 1 3 7 (by decide) (by decide) (by decide)

/-- C26 (as stated, refuted): for the dibit iterator at block 5, offset 1 and `n = -1`,
`advance(n)` stays in block 5 (the new position is offset 0 of the same block), while
the floor quotient of `n - elements_per_block + offset + 1 = -3` by 4 is `-1`, which
would give block 4; the truncating quotient of the code is 0. -/
theorem advance_block_not_floor_of_adjusted :
    (XbitIterator.incr 2 8 ⟨5, 1⟩ (-1)).seg_ = 5
    ∧ (XbitIterator.incr 2 8 ⟨5, 1⟩ (-1)).offset_ = 0
    ∧ 5 + Int.fdiv (-1 - (xbits_per_block 2 8 : Int) + ((1 : Nat) : Int) + 1)
        (xbits_per_block 2 8 : Int) = 4
    ∧ 5 + Int.tdiv (-1 - (xbits_per_block 2 8 : Int) + ((1 : Nat) : Int) + 1)
        (xbits_per_block 2 8 : Int) = 5 := by
  decide

/-- C26 (amended): for every iterator with block index `b` and offset `o` in
`[0, elements_per_block)` and every `n` with `-2^63 + elements_per_block <= n < 2^63`:
for `n < 0`, `advance(n)` moves the block pointer to
`b + (n - elements_per_block + o + 1) / elements_per_block` with the division truncating
toward zero; for `n >= 0` it moves to `b + (n + o) / elements_per_block`; in both cases
this is `b + floor((n + o) / elements_per_block)`.  The floor quotient of the adjusted
numerator `n - elements_per_block + o + 1` is that value when `n + o + 1` is a multiple
of `elements_per_block`, and one less otherwise. -/
theorem advance_block (N W : Nat) (hw : ValidWidths N W) (it : XbitIterator) (n : Int)
    (ho : it.offset_ < xbits_per_block N W)
    (hlo : -2 ^ 63 + (xbits_per_block N W : Int) ≤ n) (hhi : n < 2 ^ 63) :
    (n < 0 → (XbitIterator.incr N W it n).seg_
      = it.seg_ + Int.tdiv (n - (xbits_per_block N W : Int) + (it.offset_ : Int) + 1)
          (xbits_per_block N W : Int))
    ∧ (0 ≤ n → (XbitIterator.incr N W it n).seg_
      = it.seg_ + (((n.toNat + it.offset_) / xbits_per_block N W : Nat) : Int))
    ∧ (XbitIterator.incr N W it n).seg_
      = it.seg_ + Int.fdiv (n + (it.offset_ : Int)) (xbits_per_block N W : Int)
    ∧ Int.fdiv (n - (xbits_per_block N W : Int) + (it.offset_ : Int) + 1)
        (xbits_per_block N W : Int)
      = Int.fdiv (n + (it.offset_ : Int)) (xbits_per_block N W : Int)
        - (if (n + (it.offset_ : Int) + 1) % (xbits_per_block N W : Int) = 0 then 0 else 1) := by
  have g := hw.good
  have he32 := g.e_le
  have hei : (0 : Int) ≤ (xbits_per_block N W : Int) := Int.natCast_nonneg _
  refine ⟨fun hn => incr_seg_neg g it n ho hlo hn, ?_, ?_, ?_⟩
  · intro hn
    have h := incr_seg_nonneg (N := N) (W := W) it n.toNat (by omega) (by omega)
    rw [Int.toNat_of_nonneg hn] at h
    exact h
  · rw [(incr_seg g it n ho hlo hhi).1, Int.fdiv_eq_ediv _ hei, Int.add_comm n]
  · have h := fdiv_adjusted g (n + (it.offset_ : Int))
    have h1 : n - (xbits_per_block N W : Int) + (it.offset_ : Int) + 1
        = n + (it.offset_ : Int) - (xbits_per_block N W : Int) + 1 := by ring
    rw [h1, h, Int.fdiv_eq_ediv (n + (it.offset_ : Int)) hei]

theorem advance_block_witness :
    ((-6 : Int) < 0 → (XbitIterator.incr 2 8 ⟨5, 1⟩ (-6)).seg_
      = 5 + Int.tdiv (-6 - (xbits_per_block 2 8 : Int) + ((1 : Nat) : Int) + 1)
          (xbits_per_block 2 8 : Int))
    ∧ ((0 : Int) ≤ -6 → (XbitIterator.incr 2 8 ⟨5, 1⟩ (-6)).seg_
      = 5 + ((((-6 : Int).toNat + 1) / xbits_per_block 2 8 : Nat) : Int))
    ∧ (XbitIterator.incr 2 8 ⟨5, 1⟩ (-6)).seg_
      = 5 + Int.fdiv (-6 + ((1 : Nat) : Int)) (xbits_per_block 2 8 : Int)
    ∧ Int.fdiv (-6 - (xbits_per_block 2 8 : Int) + ((1 : Nat) : Int) + 1)
        (xbits_per_block 2 8 : Int)
      = Int.fdiv (-6 + ((1 : Nat) : Int)) (xbits_per_block 2 8 : Int)
        - (if (-6 + ((1 : Nat) : Int) + 1) % (xbits_per_block 2 8 : Int) = 0 then 0 else 1) :=
  advance_block 2 8 (by decide) ⟨5, 1⟩ (-6) (by decide) (by decide) (by decide)

/-- C27: for every iterator with offset in `[0, elements_per_block)`, the single-step
increment equals advancing by `+1` and the single-step decrement equals advancing by
`-1`; away from a block boundary only the offset changes by one; at offset
`elements_per_block - 1` the increment sets the offset to 0 and steps the block pointer
by `+1`; at offset 0 the decrement sets the offset to `elements_per_block - 1` and
steps the block pointer by `-1`. -/
theorem single_step_is_advance_by_one (N W : Nat) (hw : ValidWidths N W) (it : XbitIterator)
    (ho : it.offset_ < xbits_per_block N W) :
    XbitIterator.bump_up N W it = XbitIterator.add N W it 1
    ∧ XbitIterator.bump_down N W it = XbitIterator.add N W it (-1)
    ∧ XbitIterator.bump_down N W it = XbitIterator.sub N W it 1
    ∧ (it.offset_ ≠ xbits_per_block N W - 1 →
        XbitIterator.bump_up N W it = ⟨it.seg_, it.offset_ + 1⟩)
    ∧ (it.offset_ = xbits_per_block N W - 1 →
        XbitIterator.bump_up N W it = ⟨it.seg_ + 1, 0⟩)
    ∧ (it.offset_ ≠ 0 → XbitIterator.bump_down N W it = ⟨it.seg_, it.offset_ - 1⟩)
    ∧ (it.offset_ = 0 →
        XbitIterator.bump_down N W it = ⟨it.seg_ - 1, xbits_per_block N W - 1⟩) := by
  have g := hw.good
  refine ⟨bump_up_eq_incr g it ho, bump_down_eq_incr g it ho, bump_down_eq_incr g it ho,
    ?_, ?_, ?_, ?_⟩
  · intro h
    unfold XbitIterator.bump_up
    rw [if_pos h]
  · intro h
    unfold XbitIterator.bump_up
    rw [if_neg (fun hc => hc h)]
  · intro h
    unfold XbitIterator.bump_down
    rw [if_pos h]
  · intro h
    unfold XbitIterator.bump_down
    rw [if_neg (fun hc => hc h)]

theorem single_step_is_advance_by_one_witness :
    XbitIterator.bump_up 2 8 ⟨5, 3⟩ = XbitIterator.add 2 8 ⟨5, 3⟩ 1
    ∧ XbitIterator.bump_down 2 8 ⟨5, 3⟩ = XbitIterator.add 2 8 ⟨5, 3⟩ (-1)
    ∧ XbitIterator.bump_down 2 8 ⟨5, 3⟩ = XbitIterator.sub 2 8 ⟨5, 3⟩ 1
    ∧ ((3 : Nat) ≠ xbits_per_block 2 8 - 1 → XbitIterator.bump_up 2 8 ⟨5, 3⟩ = ⟨5, 3 + 1⟩)
    ∧ ((3 : Nat) = xbits_per_block 2 8 - 1 → XbitIterator.bump_up 2 8 ⟨5, 3⟩ = ⟨5 + 1, 0⟩)
    ∧ ((3 : Nat) ≠ 0 → XbitIterator.bump_down 2 8 ⟨5, 3⟩ = ⟨5, 3 - 1⟩)
    ∧ ((3 : Nat) = 0 → XbitIterator.bump_down 2 8 ⟨5, 3⟩ = ⟨5 - 1, xbits_per_block 2 8 - 1⟩) :=
  single_step_is_advance_by_one 2 8 (by decide) ⟨5, 3⟩ (by decide)

/-- C28: for every container state (every current capacity) and every requested size,
`recommend` fails, and then with a length error, if and only if the requested size
exceeds `max_size()`; otherwise it returns `max_size()` when the capacity is at least
half of `max_size()` (the test `cap >= ms / 2`), and else the larger of twice the
capacity and `align_it(requested size)`, which is
`ceil(requested / elements_per_block) * elements_per_block`, the smallest multiple of
`elements_per_block` that is at least the requested size. -/
theorem recommend_growth_policy (N W : Nat) (hw : ValidWidths N W) (v : XbitVector)
    (ns : Nat) :
    (XbitVector.recommend N W v ns = Except.error Error.length_error
      ↔ ns > XbitVector.max_size N W v)
    ∧ ((∃ e, XbitVector.recommend N W v ns = Except.error e) ↔ ns > XbitVector.max_size N W v)
    ∧ (ns ≤ XbitVector.max_size N W v →
        XbitVector.capacity N W v ≥ XbitVector.max_size N W v / 2 →
        XbitVector.recommend N W v ns = Except.ok (XbitVector.max_size N W v))
    ∧ (ns ≤ XbitVector.max_size N W v →
        ¬ XbitVector.capacity N W v ≥ XbitVector.max_size N W v / 2 →
        XbitVector.recommend N W v ns
          = Except.ok (max (2 * XbitVector.capacity N W v) (XbitVector.align_it N W ns)))
    ∧ (XbitVector.capacity N W v ≥ XbitVector.max_size N W v / 2
        ↔ 2 * XbitVector.capacity N W v ≥ XbitVector.max_size N W v)
    ∧ (ns ≤ XbitVector.max_size N W v →
        XbitVector.align_it N W ns
          = (ns + (xbits_per_block N W - 1)) / xbits_per_block N W * xbits_per_block N W
        ∧ xbits_per_block N W ∣ XbitVector.align_it N W ns
        ∧ ns ≤ XbitVector.align_it N W ns
        ∧ ∀ m, xbits_per_block N W ∣ m → ns ≤ m → XbitVector.align_it N W ns ≤ m) := by
  have g := hw.good
  have hms := max_size_le g v
  have hspec := recommend_spec g v ns
  refine ⟨?_, ?_, ?_, ?_, half_max_size_iff hw v, ?_⟩
  · rw [hspec]
    by_cases h : ns > XbitVector.max_size N W v
    · simp [h]
    · simp [h]
  · rw [hspec]
    by_cases h : ns > XbitVector.max_size N W v
    · simp [h]
    · simp [h]
  · intro h1 h2
    rw [hspec, if_neg (by omega), if_pos h2]
  · intro h1 h2
    rw [hspec, if_neg (by omega), if_neg h2]
  · intro h1
    exact align_it_least g ns (by omega)

theorem recommend_growth_policy_witness :
    XbitVector.recommend 2 8 dibit111 5 = Except.ok 8
    ∧ XbitVector.recommend 2 8 dibit111 (2 ^ 63) = Except.error Error.length_error
    ∧ XbitVector.align_it 2 8 5 = 8 :=
  ⟨((recommend_growth_policy 2 8 (by decide) dibit111 5).2.2.2.1 (by decide) (by decide)).trans
      rfl,
    (recommend_growth_policy 2 8 (by decide) dibit111 (2 ^ 63)).1.mpr (by decide),
    by decide⟩

/-- C29 (as stated, refuted): for `DibitVector` over 8-bit blocks,
`external_cap_to_internal(0)` is `2^62`, not 0: `n - 1` wraps in `size_type`. -/
theorem external_cap_to_internal_of_zero :
    XbitVector.external_cap_to_internal 2 8 0 = 2 ^ 62
    ∧ XbitVector.external_cap_to_internal 2 8 0 ≠ 0 := by
  decide

/-- C29 (amended): `external_cap_to_internal(n)` is `(n - 1) / elements_per_block + 1`,
which is `ceil(n / elements_per_block)` (the least block count whose fields hold `n`
elements), for every `n > 0` of `size_type`; for `n = 0` the subtraction wraps and the
result is `2^64 / elements_per_block`, which is not 0.  The count 0 for an empty
container comes from `num_blocks()`, which tests `empty()` first and otherwise returns
`external_cap_to_internal(size())`. -/
theorem external_cap_to_internal_values (N W : Nat) (hw : ValidWidths N W) (n : Nat)
    (v : XbitVector) :
    (0 < n → n < 2 ^ 64 →
      XbitVector.external_cap_to_internal N W n = (n - 1) / xbits_per_block N W + 1
      ∧ XbitVector.external_cap_to_internal N W n
          = (n + (xbits_per_block N W - 1)) / xbits_per_block N W
      ∧ n ≤ XbitVector.external_cap_to_internal N W n * xbits_per_block N W
      ∧ (∀ k, n ≤ k * xbits_per_block N W → XbitVector.external_cap_to_internal N W n ≤ k))
    ∧ XbitVector.external_cap_to_internal N W 0 = 2 ^ 64 / xbits_per_block N W
    ∧ XbitVector.external_cap_to_internal N W 0 ≠ 0
    ∧ (v.size = 0 → XbitVector.num_blocks N W v = 0)
    ∧ (v.size ≠ 0 → XbitVector.num_blocks N W v
        = XbitVector.external_cap_to_internal N W v.size) := by
  have g := hw.good
  have he := g.e_pos
  refine ⟨?_, (external_cap_to_internal_zero hw).1, (external_cap_to_internal_zero hw).2, ?_, ?_⟩
  · intro h0 h1
    have heq := external_cap_to_internal_eq N W n h0 h1
    refine ⟨heq, by rw [heq, ceil_blocks g n h0], by rw [heq]; exact blocks_cover g n, ?_⟩
    intro k hk
    rw [heq]
    have : (n - 1) / xbits_per_block N W < k := by
      apply (Nat.div_lt_iff_lt_mul he).mpr
      omega
    omega
  · intro h
    have h1 : v.size_ = 0 := h
    unfold XbitVector.num_blocks
    rw [if_pos h1]
  · intro h
    have h1 : v.size_ ≠ 0 := h
    unfold XbitVector.num_blocks
    rw [if_neg h1]

theorem external_cap_to_internal_values_witness :
    ((0 : Nat) < 5 → 5 < 2 ^ 64 →
      XbitVector.external_cap_to_internal 2 8 5 = (5 - 1) / xbits_per_block 2 8 + 1
      ∧ XbitVector.external_cap_to_internal 2 8 5
          = (5 + (xbits_per_block 2 8 - 1)) / xbits_per_block 2 8
      ∧ 5 ≤ XbitVector.external_cap_to_internal 2 8 5 * xbits_per_block 2 8
      ∧ (∀ k, 5 ≤ k * xbits_per_block 2 8 → XbitVector.external_cap_to_internal 2 8 5 ≤ k))
    ∧ XbitVector.external_cap_to_internal 2 8 0 = 2 ^ 64 / xbits_per_block 2 8
    ∧ XbitVector.external_cap_to_internal 2 8 0 ≠ 0
    ∧ (dibit111.size = 0 → XbitVector.num_blocks 2 8 dibit111 = 0)
    ∧ (dibit111.size ≠ 0 → XbitVector.num_blocks 2 8 dibit111
        = XbitVector.external_cap_to_internal 2 8 dibit111.size) :=
  external_cap_to_internal_values 2 8 (by decide) 5 dibit111

/-- The single-pass insert against the forward insert: for every container, every valid
position `p` and every source sequence `s` (total size within `max_size()`, allocations
succeeding), the single-pass range insert refines the forward-range insert: whenever
the forward-range insert of `s` at `p`
returns, the single-pass insert returns the same iterator (at index `p`) and a
container with the same size and the same elements, namely `e[0..p)` followed by `s`
(its values taken modulo `2^N`) followed by `e[p..size)`.  The forward-range insert
returns when the spare capacity suffices, or the capacity is at least half of
`max_size()`, or the total rounded up to whole blocks is within `max_size()`. -/
theorem single_pass_insert_matches_forward_insert (N W : Nat) (hw : ValidWidths N W)
    (v : XbitVector) (hv : XbitVector.Valid N W v) (p : Nat) (s : List Nat)
    (hp : p ≤ v.size) (hms : v.size + s.length ≤ XbitVector.max_size N W v)
    (ha : ∀ k, v.alloc_.avail k = true) :
    (∀ r R, XbitVector.insert_range N W v (XbitVector.make_iter N W p) s = (Except.ok r, R) →
      ∃ R1, XbitVector.insert_input N W v (XbitVector.make_iter N W p) s = (Except.ok r, R1) ∧
        r = XbitVector.make_iter N W p ∧ R1.size = R.size ∧ R.size = v.size + s.length ∧
        (∀ i, i < R.size → XbitVector.get N W R1 i = XbitVector.get N W R i) ∧
        XbitVector.toList N W R1 = XbitVector.toList N W R ∧
        (∀ i, i < p → XbitVector.get N W R1 i = XbitVector.get N W v i) ∧
        (∀ j, j < s.length → XbitVector.get N W R1 (p + j) = s.getD j 0 % 2 ^ N) ∧
        (∀ i, p ≤ i → i < v.size →
          XbitVector.get N W R1 (i + s.length) = XbitVector.get N W v i)) ∧
    (v.size + s.length ≤ XbitVector.capacity N W v
        ∨ XbitVector.capacity N W v ≥ XbitVector.max_size N W v / 2
        ∨ XbitVector.align_it N W (v.size + s.length) ≤ XbitVector.max_size N W v →
      ∃ r R, XbitVector.insert_range N W v (XbitVector.make_iter N W p) s = (Except.ok r, R)) := by
  have g := hw.good
  have hW := wide_of_valid hv
  have hsz : v.size = v.size_ := rfl
  rw [hsz] at hp hms
  constructor
  · intro r R hfwd
    by_cases hcond : v.size_ + s.length > XbitVector.capacity N W v →
        ¬ XbitVector.capacity N W v ≥ XbitVector.max_size N W v / 2 →
        XbitVector.align_it N W (v.size_ + s.length) ≤ XbitVector.max_size N W v
    · obtain ⟨R0, b1, _, b3, _, b5, b6, b7⟩ := insert_range_ok g v hW p s hp hms
        (fun hnf => ⟨hcond (by rw [hsz] at hnf; omega), ha⟩)
      obtain ⟨R1, c1, _, c3, c4, c5, c6⟩ := insert_input_ok g v hW p s hp hms ha hcond
      rw [b1] at hfwd
      have hr : XbitVector.make_iter N W p = r := by
        have := congrArg Prod.fst hfwd
        simp only [Except.ok.injEq] at this
        exact this
      have hR : R0 = R := congrArg Prod.snd hfwd
      subst hR
      subst hr
      have hsame : ∀ i, i < R0.size_ → XbitVector.get N W R1 i = XbitVector.get N W R0 i := by
        intro i hi
        show elemAt N W R1.mem i = elemAt N W R0.mem i
        rw [b3] at hi
        by_cases h1 : i < p
        · rw [c4 i h1, b5 i h1]
        · by_cases h2 : i < p + s.length
          · rw [c5 i (by omega) h2, b6 i (by omega) h2]
          · have h3 := c6 (i - s.length) (by omega) (by omega)
            have h4 := b7 (i - s.length) (by omega) (by omega)
            have hidx : i - s.length + s.length = i := by omega
            rw [hidx] at h3 h4
            rw [h3, h4]
      refine ⟨R1, c1, rfl, c3.trans b3.symm, b3, hsame, ?_, c4, ?_, c6⟩
      · rw [toList_eq_iff]
        exact ⟨c3.trans b3.symm, fun i hi => hsame i (by rw [b3, ← c3]; exact hi)⟩
      · intro j hj
        have := c5 (p + j) (by omega) (by omega)
        rw [Nat.add_sub_cancel_left] at this
        exact this
    · exfalso
      have hbig : v.size_ + s.length > XbitVector.capacity N W v := by
        by_contra hc
        exact hcond (fun h => absurd h hc)
      have hhalf : ¬ XbitVector.capacity N W v ≥ XbitVector.max_size N W v / 2 := by
        intro hc
        exact hcond (fun _ h => absurd hc h)
      have hal : XbitVector.align_it N W (v.size_ + s.length) > XbitVector.max_size N W v := by
        by_contra hc
        exact hcond (fun _ _ => by omega)
      have hrej := (insert_gap_rejected g v (XbitVector.make_iter N W p) s.length hms
        (by rw [hsz]; omega) hhalf hal).2 s rfl
      rw [hrej] at hfwd
      have := congrArg Prod.fst hfwd
      simp at this
  · intro hor
    obtain ⟨R0, b1, _⟩ := insert_range_ok g v hW p s hp hms (fun hnf => ⟨fun hh => by
      rcases hor with h | h | h
      · rw [hsz] at hnf h
        omega
      · exact absurd h hh
      · exact h, ha⟩)
    exact ⟨_, R0, b1⟩

theorem single_pass_insert_matches_forward_insert_witness :
    ∃ R1, XbitVector.insert_input 2 8 dibit111 (XbitVector.make_iter 2 8 1) [0, 0, 3, 3, 2]
        = (Except.ok (XbitVector.make_iter 2 8 1), R1) ∧
      XbitVector.toList 2 8 R1 = [1, 0, 0, 3, 3, 2, 1, 1] ∧
      XbitVector.toList 2 8
        (XbitVector.insert_range 2 8 dibit111 (XbitVector.make_iter 2 8 1) [0, 0, 3, 3, 2]).2
        = [1, 0, 0, 3, 3, 2, 1, 1] := by
  obtain ⟨R1, h1, _, _, _, _, h6, _⟩ :=
    (single_pass_insert_matches_forward_insert 2 8 (by decide) dibit111
      ⟨by decide, by decide, by decide⟩ 1 [0, 0, 3, 3, 2] (by decide) (by decide)
      (fun _ => rfl)).1 (XbitVector.make_iter 2 8 1)
      (XbitVector.insert_range 2 8 dibit111 (XbitVector.make_iter 2 8 1) [0, 0, 3, 3, 2]).2 rfl
  exact ⟨R1, h1, h6.trans (by decide), by decide⟩

/-- C31: when the single-pass range insert fails (a length error of `recommend` or of
`vallocate`, or an allocation failure while the remainder is buffered or the storage is
reserved), the source values that were already appended into the spare capacity are
erased before the failure leaves the call: the container has its size, its capacity and
its allocator from before the call, satisfies the class invariant, and reads its former
element at every index below the size.  The source is shorter than `2^63` elements. -/
theorem single_pass_insert_failure_restores (N W : Nat) (hw : ValidWidths N W)
    (v : XbitVector) (hv : XbitVector.Valid N W v) (p : Nat) (src : List Nat)
    (hp : p ≤ v.size) (hb : v.size + src.length < 2 ^ 63) (e : Error)
    (he : (XbitVector.insert_input N W v (XbitVector.make_iter N W p) src).1
      = Except.error e) :
    (XbitVector.insert_input N W v (XbitVector.make_iter N W p) src).2.size = v.size ∧
      XbitVector.capacity N W (XbitVector.insert_input N W v (XbitVector.make_iter N W p) src).2
        = XbitVector.capacity N W v ∧
      (XbitVector.insert_input N W v (XbitVector.make_iter N W p) src).2.alloc_ = v.alloc_ ∧
      XbitVector.Valid N W (XbitVector.insert_input N W v (XbitVector.make_iter N W p) src).2 ∧
      (∀ i, i < v.size →
        XbitVector.get N W (XbitVector.insert_input N W v (XbitVector.make_iter N W p) src).2 i
          = XbitVector.get N W v i) ∧
      XbitVector.toList N W (XbitVector.insert_input N W v (XbitVector.make_iter N W p) src).2
        = XbitVector.toList N W v := by
  have g := hw.good
  obtain ⟨hst, hval, a5, a6, a8⟩ := insert_input_failure g v hv p src hp hb e he
  have hel : ∀ i, i < v.size_ →
      XbitVector.get N W (XbitVector.insert_input N W v (XbitVector.make_iter N W p) src).2 i
        = XbitVector.get N W v i := by
    intro i hi
    rw [hst]
    exact a8 i hi
  refine ⟨?_, ?_, ?_, hval, hel, ?_⟩
  · rw [hst]
    rfl
  · rw [hst]
    show XbitVector.internal_cap_to_external N W (XbitVector.append_while N W src v).1.cap_ = _
    rw [a5]
    rfl
  · rw [hst]
    exact a6
  · rw [toList_eq_iff]
    refine ⟨?_, ?_⟩
    · rw [hst]
    · intro i hi
      rw [hst] at hi
      exact hel i hi

theorem single_pass_insert_failure_restores_witness :
    (XbitVector.insert_input 2 8 { dibit111 with alloc_ := exhaustedAllocator }
        (XbitVector.make_iter 2 8 1) [2, 3, 0]).1 = Except.error Error.bad_alloc ∧
      (XbitVector.insert_input 2 8 { dibit111 with alloc_ := exhaustedAllocator }
        (XbitVector.make_iter 2 8 1) [2, 3, 0]).2.size = 3 ∧
      XbitVector.toList 2 8 (XbitVector.insert_input 2 8
        { dibit111 with alloc_ := exhaustedAllocator } (XbitVector.make_iter 2 8 1) [2, 3, 0]).2
        = [1, 1, 1] ∧
      (XbitVector.append_while 2 8 [2, 3, 0] { dibit111 with alloc_ := exhaustedAllocator }).1.size
        = 4 ∧
      (XbitVector.insert_input 2 8 { dibit111 with alloc_ := oneBlockAllocator }
        (XbitVector.make_iter 2 8 1) [2, 3, 0]).1 = Except.error Error.length_error ∧
      XbitVector.toList 2 8 (XbitVector.insert_input 2 8
        { dibit111 with alloc_ := oneBlockAllocator } (XbitVector.make_iter 2 8 1) [2, 3, 0]).2
        = [1, 1, 1] := by
  have h := single_pass_insert_failure_restores 2 8 (by decide)
    { dibit111 with alloc_ := exhaustedAllocator } ⟨by decide, by decide, by decide⟩ 1 [2, 3, 0]
    (by decide) (by decide) Error.bad_alloc rfl
  exact ⟨rfl, h.1, h.2.2.2.2.2.trans (by decide), by decide, rfl, by decide⟩

/-- C32: for containers `a` and `b` with equal allocators, the copy assignment `a = b`
(within `max_size()` and served by the allocator when `a` has to reallocate) returns and
makes `a == b`: `a` has the size and the elements of `b`, and every block of `b` that
holds an element is copied whole, the bits beyond `b.size()` included.  When
`b.size() <= a.capacity()` the buffer of `a` is reused: the capacity is unchanged and
the blocks behind the copied ones keep their contents, also when `b` is empty.  `b` is
taken by reference to const and nothing is written through it. -/
theorem copy_assignment_makes_equal (N W : Nat) (hw : ValidWidths N W) (a b : XbitVector)
    (ha : XbitVector.Valid N W a) (hb : XbitVector.Valid N W b)
    (hid : a.alloc_.ident = b.alloc_.ident)
    (hre : b.size > XbitVector.capacity N W a →
      b.size ≤ XbitVector.max_size N W (XbitVector.copy_assign_alloc a b) ∧
      (XbitVector.copy_assign_alloc a b).alloc_.avail
        (XbitVector.external_cap_to_internal N W b.size) = true) :
    ∃ r, XbitVector.copy_assign N W a b = Except.ok r ∧ XbitVector.Valid N W r ∧
      XbitVector.equal N W r b = true ∧ r.size = b.size ∧
      XbitVector.toList N W r = XbitVector.toList N W b ∧
      (∀ i, i < b.size → XbitVector.get N W r i = XbitVector.get N W b i) ∧
      (b.size ≠ 0 → ∀ j, j < XbitVector.external_cap_to_internal N W b.size →
        load r.mem (j : Int) = load b.mem (j : Int)) ∧
      (b.size ≤ XbitVector.capacity N W a →
        XbitVector.capacity N W r = XbitVector.capacity N W a ∧
        r.begin_.isSome = a.begin_.isSome ∧ r.mem.length = a.mem.length ∧
        ∀ j, (b.size ≠ 0 → XbitVector.external_cap_to_internal N W b.size ≤ j) →
          load r.mem (j : Int) = load a.mem (j : Int)) := by
  have g := hw.good
  obtain ⟨r, h1, h2, h3, _, h5, h6, h7⟩ := copy_assign_ok g a b ha hb hid hre
  have hlt : r.size_ < 2 ^ 63 := by
    have := hb.size_le
    have := hb.cap_lt
    omega
  have hget : ∀ i, i < b.size → XbitVector.get N W r i = XbitVector.get N W b i := h5
  refine ⟨r, h1, h2, ?_, h3, ?_, hget, ?_, ?_⟩
  · rw [equal_iff g r b hlt]
    exact ⟨h3, fun i hi => hget i (by rw [h3] at hi; exact hi)⟩
  · rw [toList_eq_iff]
    exact ⟨h3, fun i hi => hget i (by rw [h3] at hi; exact hi)⟩
  · intro h0 j hj
    rw [load_natCast, load_natCast]
    exact h6 h0 j hj
  · intro hfit
    obtain ⟨k1, k2, k3, k4⟩ := h7 hfit
    refine ⟨?_, k2, k3, ?_⟩
    · show XbitVector.internal_cap_to_external N W r.cap_ = _
      rw [k1]
      rfl
    · intro j hj
      rw [load_natCast, load_natCast]
      exact k4 j hj

theorem copy_assignment_makes_equal_witness :
    ∃ r, XbitVector.copy_assign 2 8 dibit321012 dibit111 = Except.ok r ∧
      XbitVector.toList 2 8 r = [1, 1, 1] ∧ XbitVector.capacity 2 8 r = 8 ∧
      r.mem = [213, 169] ∧
      XbitVector.copy_assign 2 8 dibit11 dibit321012
        = Except.ok ⟨some [27, 169], 6, 2, stdAllocator⟩ := by
  obtain ⟨r, h1, _, _, _, h5, _, h7, h8⟩ :=
    copy_assignment_makes_equal 2 8 (by decide) dibit321012 dibit111
      ⟨by decide, by decide, by decide⟩ ⟨by decide, by decide, by decide⟩ rfl
      (fun h => absurd h (by decide))
  have hr : r = ⟨some [213, 169], 3, 2, stdAllocator⟩ := by
    have h0 : XbitVector.copy_assign 2 8 dibit321012 dibit111
        = Except.ok ⟨some [213, 169], 3, 2, stdAllocator⟩ := rfl
    rw [h0] at h1
    injection h1 with h1
    exact h1.symm
  exact ⟨r, h1, h5.trans (by decide), (h8 (by decide)).1.trans (by decide), by rw [hr]; rfl, rfl⟩

/-- C33 (the divergence): on the `DibitVector` `{1, 1, 1}` (capacity 4, class invariant
holding) the request `new_size = 2^63 - 3` is within `max_size() = 2^63 - 1`, and
`recommend(new_size)` returns `align_it(new_size) = 2^63`, which is greater than
`max_size()`; `reserve` and `vallocate` reject this capacity with a length error. -/
theorem recommend_exceeds_max_size :
    XbitVector.Valid 2 8 dibit111
    ∧ XbitVector.max_size 2 8 dibit111 = 2 ^ 63 - 1
    ∧ 2 ^ 63 - 3 ≤ XbitVector.max_size 2 8 dibit111
    ∧ XbitVector.align_it 2 8 (2 ^ 63 - 3) = 2 ^ 63
    ∧ XbitVector.recommend 2 8 dibit111 (2 ^ 63 - 3) = Except.ok (2 ^ 63)
    ∧ ¬ 2 ^ 63 ≤ XbitVector.max_size 2 8 dibit111
    ∧ XbitVector.reserve 2 8 dibit111 (2 ^ 63) = Except.error Error.length_error
    ∧ XbitVector.vallocate 2 8 (XbitVector.empty dibit111.alloc_) (2 ^ 63)
        = Except.error Error.length_error
    ∧ XbitVector.recommend 4 16 (XbitVector.empty stdAllocator) (2 ^ 63 - 1)
        = Except.ok (2 ^ 63) := by
  refine ⟨⟨by decide, by decide, by decide⟩, by decide, by decide, by decide, rfl, by decide,
    rfl, rfl, rfl⟩

/-- C34: for two field accessors `x` (block `p`, offset `o`) and `y` (block `q`, offset
`t`) into the same memory, in one block or in two, `swap(x, y)` exchanges the two field
values: afterwards `x` reads the former value of `y` and `y` reads the former value of
`x`; every other field reads as before, every block other than `p` and `q` is untouched
and the memory keeps its length.  When `x` and `y` designate the same field its value is
unchanged. -/
theorem swap_exchanges_fields (N W : Nat) (hw : ValidWidths N W) (m : List Nat)
    (p o q t : Nat) (hp : p < m.length) (hq : q < m.length) (ho : o < xbits_per_block N W)
    (ht : t < xbits_per_block N W) :
    (XbitReference.ofOffset N (p : Int) o).toUInt8 N W
        (XbitReference.swap N W m (XbitReference.ofOffset N (p : Int) o)
          (XbitReference.ofOffset N (q : Int) t))
        = (XbitReference.ofOffset N (q : Int) t).toUInt8 N W m
    ∧ (XbitReference.ofOffset N (q : Int) t).toUInt8 N W
        (XbitReference.swap N W m (XbitReference.ofOffset N (p : Int) o)
          (XbitReference.ofOffset N (q : Int) t))
        = (XbitReference.ofOffset N (p : Int) o).toUInt8 N W m
    ∧ (∀ r s, s < xbits_per_block N W → (p ≠ r ∨ o ≠ s) → (q ≠ r ∨ t ≠ s) →
        (XbitReference.ofOffset N (r : Int) s).toUInt8 N W
          (XbitReference.swap N W m (XbitReference.ofOffset N (p : Int) o)
            (XbitReference.ofOffset N (q : Int) t))
          = (XbitReference.ofOffset N (r : Int) s).toUInt8 N W m)
    ∧ (∀ j : Int, j ≠ (p : Int) → j ≠ (q : Int) →
        load (XbitReference.swap N W m (XbitReference.ofOffset N (p : Int) o)
          (XbitReference.ofOffset N (q : Int) t)) j = load m j)
    ∧ (XbitReference.swap N W m (XbitReference.ofOffset N (p : Int) o)
          (XbitReference.ofOffset N (q : Int) t)).length = m.length
    ∧ (p = q → o = t →
        (XbitReference.ofOffset N (p : Int) o).toUInt8 N W
          (XbitReference.swap N W m (XbitReference.ofOffset N (p : Int) o)
            (XbitReference.ofOffset N (q : Int) t))
          = (XbitReference.ofOffset N (p : Int) o).toUInt8 N W m) := by
  have g := hw.good
  obtain ⟨h1, h2, h3⟩ := swap_fields g m p o q t hp hq ho ht
  refine ⟨h1, h2, h3, ?_, ?_, ?_⟩
  · intro j hj1 hj2
    unfold XbitReference.swap
    simp only
    rw [load_assign_other N W _ _ _ j (fun h => hj2 h.symm),
      load_assign_other N W _ _ _ j (fun h => hj1 h.symm)]
  · unfold XbitReference.swap
    simp only
    rw [assign_length, assign_length]
  · intro hpq hot
    subst hpq
    subst hot
    exact h1

theorem swap_exchanges_fields_witness :
    (XbitReference.ofOffset 2 ((0 : Nat) : Int) 0).toUInt8 2 8
        (XbitReference.swap 2 8 [228, 27] (XbitReference.ofOffset 2 ((0 : Nat) : Int) 0)
          (XbitReference.ofOffset 2 ((0 : Nat) : Int) 3)) = 3
    ∧ XbitReference.swap 2 8 [228, 27] (XbitReference.ofOffset 2 ((0 : Nat) : Int) 0)
        (XbitReference.ofOffset 2 ((0 : Nat) : Int) 3) = [39, 27]
    ∧ XbitReference.swap 2 8 [228, 27] (XbitReference.ofOffset 2 ((0 : Nat) : Int) 1)
        (XbitReference.ofOffset 2 ((1 : Nat) : Int) 0) = [236, 25]
    ∧ XbitReference.swap 2 8 [228, 27] (XbitReference.ofOffset 2 ((1 : Nat) : Int) 2)
        (XbitReference.ofOffset 2 ((1 : Nat) : Int) 2) = [228, 27] :=
  ⟨(swap_exchanges_fields 2 8 (by decide) [228, 27] 0 0 0 3 (by decide) (by decide)
      (by decide) (by decide)).1.trans (by decide), by decide, by decide, by decide⟩

end biomodern
